import Mathlib

/-!
Detailed placement: the global-swap and vertical-swap move generators

A shallow embedding of `src/dpo/src/detailed_global.cxx` and
`src/dpo/src/detailed_vertical.cxx`.

Conventions of the embedding.

* A `double` is an exact rational (`ℚ`); rounding is not modelled.  The finite
  sentinels `std::numeric_limits<double>::max()` and
  `std::numeric_limits<float>::max()` keep their exact values.
* A `Node*` / `Edge*` is the id of the node / edge; pointer equality is equality
  of ids.  `nd->getPins()` is `Network.nodePins nd`, `ed->getPins()` is
  `Network.edgePins ed`, `pin->getNode()` / `pin->getEdge()` are the ids stored
  in the pin.  Reading through a pointer is a lookup in the network.
* `int` / `unsigned` counters are unbounded integers (no pass performs anywhere
  near 2^31 increments).
* The segment manager (`DetailedMgr`) is external: its queries and its
  `tryMove1` / `tryMove2` / `trySwap1` primitives are arbitrary functions of an
  abstract manager state, and the generator records every request it issues,
  together with the manager's answer, in a trace.
* `std::atoi`, `std::atof`, `Utility::hpwl`, the wirelength objective used by a
  sweep and the manager's `resortSegments`, `acceptMove` and `rejectMove` are
  external as well and enter `run` and the sweep as parameters; the log lines are
  not modelled.
-/

namespace dpo

/-! ## Data model -/

/-- The value of `std::numeric_limits<double>::max()`. -/
def DBL_MAX : ℚ := (2 ^ 53 - 1) * 2 ^ 971

/-- The value of `std::numeric_limits<float>::max()`. -/
def FLT_MAX : ℚ := (2 ^ 24 - 1) * 2 ^ 104

/-- A pin: the owning node, the owning edge and the offset from the node's origin. -/
structure Pin where
  nodeId : Nat
  edgeId : Nat
  offsetX : ℚ
  offsetY : ℚ
deriving DecidableEq

/-- The attributes of a node that the generators read. -/
structure Node where
  x : ℚ
  y : ℚ
  height : ℚ
  regionId : Int

/-- The netlist: nodes by id, the pins of each node and the pins of each edge. -/
structure Network where
  nodes : Nat → Node
  nodePins : Nat → List Pin
  edgePins : Nat → List Pin
  numEdges : Nat

/-- A rectangle with the four fields of `Rectangle`. -/
structure Rectangle where
  xmin : ℚ
  xmax : ℚ
  ymin : ℚ
  ymax : ℚ
deriving DecidableEq

/-- The chip bounds and the row queries of `Architecture` that the generators use. -/
structure Architecture where
  minX : ℚ
  maxX : ℚ
  minY : ℚ
  maxY : ℚ
  numRows : Int
  find_closest_row : ℚ → Int
  rowBottom : Int → ℚ
  rowY : Int → ℚ

/-- A row segment (`DetailedSeg`). -/
structure DetailedSeg where
  segId : Int
  rowId : Int
  regId : Int
  minX : ℚ
  maxX : ℚ

/-- The members of `DetailedGlobalSwap` / `DetailedVerticalSwap` (the two classes
declare the same ones). -/
structure DetailedSwap where
  m_skipNetsLargerThanThis : Int
  m_traversal : Int
  m_edgeMask : Nat → Int
  m_attempts : Int
  m_moves : Int
  m_swaps : Int

/-- The state the constructors establish: threshold 100 and zeroed counters; the
stamp and the marks are whatever `init` or a sweep sets later. -/
def DetailedSwap.construct (trav : Int) (mask : Nat → Int) : DetailedSwap :=
  ⟨100, trav, mask, 0, 0, 0⟩

/-- The sentinel rectangle the folds of `delta` start from. -/
def Rectangle.sentinel (lim : ℚ) : Rectangle := ⟨lim, -lim, lim, -lim⟩

/-- One step of a min/max fold: `xmin = min(xmin, x)`, `xmax = max(xmax, x)`, ... -/
def Rectangle.extend (r : Rectangle) (x y : ℚ) : Rectangle :=
  ⟨min r.xmin x, max r.xmax x, min r.ymin y, max r.ymax y⟩

/-- The quantity `xmax - xmin + ymax - ymin`. -/
def Rectangle.halfPerim (r : Rectangle) : ℚ := r.xmax - r.xmin + r.ymax - r.ymin

/-! ## calculateEdgeBB and getRange -/

/-- `calculateEdgeBB(ed, nd, bbox)`: the box of the pins of `ed` not owned by `nd`,
and whether there was such a pin.  `reset` is the rectangle the fold starts from
(`bbox.reset()` in the global generator, whose `Rectangle` class is declared in
`rectangle.h`; the explicit `numeric_limits<float>::max()` assignments in the
vertical one). -/
def calculateEdgeBB (reset : Rectangle) (net : Network) (ed nd : Nat) : Bool × Rectangle :=
  let r := (net.edgePins ed).foldl
    (fun (acc : Rectangle × Nat) (pin : Pin) =>
      if pin.nodeId = nd then acc
      else
        let curX := (net.nodes pin.nodeId).x + pin.offsetX
        let curY := (net.nodes pin.nodeId).y + pin.offsetY
        (⟨min curX acc.1.xmin, max curX acc.1.xmax, min curY acc.1.ymin, max curY acc.1.ymax⟩,
         acc.2 + 1))
    (reset, 0)
  (if r.2 = 0 then false else true, r.1)

/-- The scratch vectors `m_xpts`, `m_ypts` and the counter `t` of `getRange`. -/
structure RangeAcc where
  xpts : List ℚ
  ypts : List ℚ
  t : Nat

/-- The body of the pin loop of `getRange`. -/
def getRangeStep (reset : Rectangle) (arch : Architecture) (net : Network) (skip : Int)
    (nd : Nat) (acc : RangeAcc) (pin : Pin) : RangeAcc :=
  let ed := pin.edgeId
  let numPins : Int := (net.edgePins ed).length
  if numPins ≤ 1 then acc
  else if numPins > skip then acc
  else
    let bb := calculateEdgeBB reset net ed nd
    if bb.1 = false then acc
    else
      let xmin := min (max arch.minX (bb.2.xmin - pin.offsetX)) arch.maxX
      let xmax := max (min arch.maxX (bb.2.xmax - pin.offsetX)) arch.minX
      let ymin := min (max arch.minY (bb.2.ymin - pin.offsetY)) arch.maxY
      let ymax := max (min arch.maxY (bb.2.ymax - pin.offsetY)) arch.minY
      ⟨acc.xpts ++ [xmin, xmax], acc.ypts ++ [ymin, ymax], acc.t + 2⟩

/-- The pin loop of `getRange`: the endpoints collected for node `nd`. -/
def getRangePts (reset : Rectangle) (arch : Architecture) (net : Network) (skip : Int)
    (nd : Nat) : RangeAcc :=
  (net.nodePins nd).foldl (getRangeStep reset arch net skip nd) ⟨[], [], 0⟩

/-- `getRange(nd, nodeBbox)`: `none` is the `false` return, `some r` the `true`
return with `nodeBbox = r`.  `std::sort` on doubles is the ascending sort. -/
def getRange (reset : Rectangle) (arch : Architecture) (net : Network) (skip : Int)
    (nd : Nat) : Option Rectangle :=
  let acc := getRangePts reset arch net skip nd
  if acc.t ≤ 1 then none
  else
    let mid := acc.t / 2
    let xs := acc.xpts.insertionSort (· ≤ ·)
    let ys := acc.ypts.insertionSort (· ≤ ·)
    some ⟨xs.getD (mid - 1) 0, xs.getD mid 0, ys.getD (mid - 1) 0, ys.getD mid 0⟩

/-- `DetailedGlobalSwap::getRange`; `reset` is the value of `Rectangle::reset()`. -/
def DetailedGlobalSwap.getRange (reset : Rectangle) (arch : Architecture) (net : Network)
    (g : DetailedSwap) (nd : Nat) : Option Rectangle :=
  dpo.getRange reset arch net g.m_skipNetsLargerThanThis nd

/-- `DetailedVerticalSwap::getRange`: the same loop, the folds starting from
`numeric_limits<float>::max()`. -/
def DetailedVerticalSwap.getRange (arch : Architecture) (net : Network)
    (g : DetailedSwap) (nd : Nat) : Option Rectangle :=
  dpo.getRange (Rectangle.sentinel FLT_MAX) arch net g.m_skipNetsLargerThanThis nd

/-! ## delta -/

/-- The current position of a pin: owner's origin plus the pin's offset. -/
def curXY (net : Network) (p : Pin) : ℚ × ℚ :=
  ((net.nodes p.nodeId).x + p.offsetX, (net.nodes p.nodeId).y + p.offsetY)

/-- The position of a pin in `delta(ndi, new_x, new_y)` after the hypothetical move. -/
def movedXY (net : Network) (ndi : Nat) (new_x new_y : ℚ) (p : Pin) : ℚ × ℚ :=
  if p.nodeId = ndi then (new_x + p.offsetX, new_y + p.offsetY) else curXY net p

/-- The position of a pin in `delta(ndi, ndj)` after the hypothetical swap: the
owner is replaced by the other node of the pair. -/
def swappedXY (net : Network) (n0 n1 : Nat) (p : Pin) : ℚ × ℚ :=
  let ndj := if p.nodeId = n0 then n1 else if p.nodeId = n1 then n0 else p.nodeId
  ((net.nodes ndj).x + p.offsetX, (net.nodes ndj).y + p.offsetY)

/-- The inner `pj` loop of both `delta` variants: the old and the new box of edge
`edi`, folded from the `numeric_limits<double>::max()` sentinels. -/
def edgeBoxes (net : Network) (newXY : Pin → ℚ × ℚ) (edi : Nat) : Rectangle × Rectangle :=
  (net.edgePins edi).foldl
    (fun (acc : Rectangle × Rectangle) (pinj : Pin) =>
      (acc.1.extend (curXY net pinj).1 (curXY net pinj).2,
       acc.2.extend (newXY pinj).1 (newXY pinj).2))
    (Rectangle.sentinel DBL_MAX, Rectangle.sentinel DBL_MAX)

/-- The accumulators of the `pi` loop: the marks, `old_wl` and `new_wl`. -/
structure WlAcc where
  mask : Nat → Int
  old_wl : ℚ
  new_wl : ℚ

/-- The body of the `pi` loop of both `delta` variants. -/
def visitPin (net : Network) (skip trav : Int) (newXY : Pin → ℚ × ℚ)
    (acc : WlAcc) (pini : Pin) : WlAcc :=
  let edi := pini.edgeId
  let npins : Int := (net.edgePins edi).length
  if npins ≤ 1 ∨ npins ≥ skip then acc
  else if acc.mask edi = trav then acc
  else
    let b := edgeBoxes net newXY edi
    ⟨Function.update acc.mask edi trav, acc.old_wl + b.1.halfPerim, acc.new_wl + b.2.halfPerim⟩

/-- `delta(ndi, new_x, new_y)`: the returned value and the generator afterwards. -/
def delta (g : DetailedSwap) (net : Network) (ndi : Nat) (new_x new_y : ℚ) :
    ℚ × DetailedSwap :=
  let trav := g.m_traversal + 1
  let acc := (net.nodePins ndi).foldl
    (visitPin net g.m_skipNetsLargerThanThis trav (movedXY net ndi new_x new_y))
    ⟨g.m_edgeMask, 0, 0⟩
  (acc.old_wl - acc.new_wl, { g with m_traversal := trav, m_edgeMask := acc.mask })

/-- `delta(ndi, ndj)`: the returned value and the generator afterwards. -/
def deltaSwap (g : DetailedSwap) (net : Network) (ndi ndj : Nat) : ℚ × DetailedSwap :=
  let trav := g.m_traversal + 1
  let acc := [ndi, ndj].foldl
    (fun (acc : WlAcc) (nd : Nat) =>
      (net.nodePins nd).foldl
        (visitPin net g.m_skipNetsLargerThanThis trav (swappedXY net ndi ndj)) acc)
    ⟨g.m_edgeMask, 0, 0⟩
  (acc.old_wl - acc.new_wl, { g with m_traversal := trav, m_edgeMask := acc.mask })

/-! ## The segment manager interface and generate -/

/-- The arguments `(ndi, xi, yi, si, xj, yj, sj)` of a move or swap request. -/
structure MoveArgs where
  nd : Nat
  xi : ℚ
  yi : ℚ
  si : Int
  xj : ℚ
  yj : ℚ
  sj : Int
deriving DecidableEq

/-- A request issued to the segment manager. -/
inductive Request where
  | tryMove1 (a : MoveArgs)
  | tryMove2 (a : MoveArgs)
  | trySwap1 (a : MoveArgs)
deriving DecidableEq

/-- The arguments of a request. -/
def Request.args : Request → MoveArgs
  | .tryMove1 a => a
  | .tryMove2 a => a
  | .trySwap1 a => a

/-- Whether a request is a swap request. -/
def Request.isSwap : Request → Bool
  | .trySwap1 _ => true
  | _ => false

/-- What the generators consume from `DetailedMgr`, over an abstract manager state
`σ`: the segment tables, the shared pseudo-random source (its outputs are natural
numbers) and the
three primitives, each returning its verdict and the manager state afterwards. -/
structure DetailedMgr (σ : Type) where
  m_reverseCellToSegs : σ → Nat → List DetailedSeg
  m_segsInRow : σ → Int → List DetailedSeg
  m_segments : σ → Int → DetailedSeg
  m_rng : σ → Nat × σ
  tryMove1 : σ → MoveArgs → Bool × σ
  tryMove2 : σ → MoveArgs → Bool × σ
  trySwap1 : σ → MoveArgs → Bool × σ

/-- The outcome of a call of `generate`: the returned flag, the generator and the
manager afterwards, and the requests issued with the manager's answers, in order. -/
structure GenOut (σ : Type) where
  result : Bool
  gen : DetailedSwap
  mgr : σ
  trace : List (Request × Bool)

/-- The segment search loop: the id of the first segment of the row whose span
contains `xj`, or `-1`. -/
def findSeg : List DetailedSeg → ℚ → Int
  | [], _ => -1
  | seg :: rest, xj =>
    if xj ≥ seg.minX ∧ xj ≤ seg.maxX then seg.segId else findSeg rest xj

/-- The tail of `generate`, from `bool isMoveOkay = false;` on: one move attempt,
then a swap attempt if the move was declined. -/
def attemptMoveSwap {σ : Type} (ops : DetailedMgr σ) (g : DetailedSwap) (s : σ)
    (a : MoveArgs) : GenOut σ :=
  let mv := if a.si ≠ a.sj then ops.tryMove1 s a else ops.tryMove2 s a
  let rq := if a.si ≠ a.sj then Request.tryMove1 a else Request.tryMove2 a
  if mv.1 = true then
    ⟨true, { g with m_moves := g.m_moves + 1 }, mv.2, [(rq, true)]⟩
  else
    let sw := ops.trySwap1 mv.2 a
    if sw.1 = true then
      ⟨true, { g with m_swaps := g.m_swaps + 1 }, sw.2,
        [(rq, false), (Request.trySwap1 a, true)]⟩
    else
      ⟨false, g, sw.2, [(rq, false), (Request.trySwap1 a, false)]⟩

/-- The steps of `generate` after the target is resolved: the region-id check and
the fallback chain. -/
def finishGenerate {σ : Type} (ops : DetailedMgr σ) (net : Network) (g : DetailedSwap)
    (s : σ) (a : MoveArgs) : GenOut σ :=
  if (net.nodes a.nd).regionId ≠ (ops.m_segments s a.sj).regId then ⟨false, g, s, []⟩
  else attemptMoveSwap ops g s a

/-- `DetailedGlobalSwap::generate(Node*)` up to and including `if (sj == -1)`: the
request arguments, or `none` when one of the early `return false` is taken. -/
def DetailedGlobalSwap.target {σ : Type} (ops : DetailedMgr σ) (reset : Rectangle)
    (arch : Architecture) (net : Network) (g : DetailedSwap) (s : σ) (ndi : Nat) :
    Option MoveArgs :=
  let xi := (net.nodes ndi).x
  let yi := (net.nodes ndi).y
  match DetailedGlobalSwap.getRange reset arch net g ndi with
  | none => none
  | some bbox =>
    if xi ≥ bbox.xmin ∧ xi ≤ bbox.xmax ∧ yi ≥ bbox.ymin ∧ yi ≤ bbox.ymax then none
    else
      match ops.m_reverseCellToSegs s ndi with
      | [seg] =>
        let si := seg.segId
        let xj := 0.5 * (bbox.xmin + bbox.xmax)
        let yj0 := 0.5 * (bbox.ymin + bbox.ymax)
        let rj := arch.find_closest_row (yj0 - 0.5 * (net.nodes ndi).height)
        let yj := arch.rowBottom rj + 0.5 * (net.nodes ndi).height
        let sj := findSeg (ops.m_segsInRow s rj) xj
        if sj = -1 then none else some ⟨ndi, xi, yi, si, xj, yj, sj⟩
      | _ => none

/-- `DetailedGlobalSwap::generate(Node*)`. -/
def DetailedGlobalSwap.generate {σ : Type} (ops : DetailedMgr σ) (reset : Rectangle)
    (arch : Architecture) (net : Network) (g : DetailedSwap) (s : σ) (ndi : Nat) :
    GenOut σ :=
  match DetailedGlobalSwap.target ops reset arch net g s ndi with
  | none => ⟨false, g, s, []⟩
  | some a => finishGenerate ops net g s a

/-- The row window of `DetailedVerticalSwap::generate`: `(rmin, rmax)` after the
`if (rmin > ri) ... else if (rmax < ri) ...` step. -/
def DetailedVerticalSwap.rowWindow (arch : Architecture) (ri : Int) (bbox : Rectangle)
    (height : ℚ) : Int × Int :=
  let rmin := arch.find_closest_row (bbox.ymin - 0.5 * height)
  let rmax := arch.find_closest_row (bbox.ymax + 0.5 * height)
  if rmin > ri then (min (arch.numRows - 1) (ri + 1), min (arch.numRows - 1) (ri + 2))
  else if rmax < ri then (max 0 (ri - 2), max 0 (ri - 1))
  else (rmin, rmax)

/-- The row pick `rj = rmin + rng() % (rmax - rmin + 1)` for the random value `r`.
The modulus is at least 1 in each of the three branches of the window step, so the
machine remainder is the mathematical one. -/
def DetailedVerticalSwap.chosenRow (arch : Architecture) (ri : Int) (bbox : Rectangle)
    (height : ℚ) (r : Nat) : Int :=
  let w := DetailedVerticalSwap.rowWindow arch ri bbox height
  w.1 + (r : Int) % (w.2 - w.1 + 1)

/-- `DetailedVerticalSwap::generate(Node*)` up to and including `if (sj == -1)`: the
request arguments (or `none` on an early `return false`) and the manager state,
whose random source has been advanced once if the row pick was reached. -/
def DetailedVerticalSwap.target {σ : Type} (ops : DetailedMgr σ)
    (arch : Architecture) (net : Network) (g : DetailedSwap) (s : σ) (ndi : Nat) :
    Option MoveArgs × σ :=
  let xi := (net.nodes ndi).x
  let yi := (net.nodes ndi).y
  match DetailedVerticalSwap.getRange arch net g ndi with
  | none => (none, s)
  | some bbox =>
    if xi ≥ bbox.xmin ∧ xi ≤ bbox.xmax ∧ yi ≥ bbox.ymin ∧ yi ≤ bbox.ymax then (none, s)
    else
      match ops.m_reverseCellToSegs s ndi with
      | [seg] =>
        let si := seg.segId
        let ri := seg.rowId
        let xj := 0.5 * (bbox.xmin + bbox.xmax)
        let rnd := ops.m_rng s
        let rj := DetailedVerticalSwap.chosenRow arch ri bbox (net.nodes ndi).height rnd.1
        let yj := arch.rowY rj + 0.5 * (net.nodes ndi).height
        let sj := findSeg (ops.m_segsInRow rnd.2 rj) xj
        if sj = -1 then (none, rnd.2) else (some ⟨ndi, xi, yi, si, xj, yj, sj⟩, rnd.2)
      | _ => (none, s)

/-- `DetailedVerticalSwap::generate(Node*)`. -/
def DetailedVerticalSwap.generate {σ : Type} (ops : DetailedMgr σ)
    (arch : Architecture) (net : Network) (g : DetailedSwap) (s : σ) (ndi : Nat) :
    GenOut σ :=
  match DetailedVerticalSwap.target ops arch net g s ndi with
  | (none, s1) => ⟨false, g, s1, []⟩
  | (some a, s1) => finishGenerate ops net g s1 a

/-- `generate(mgr, candidates)` of either generator: count the attempt, pick the
candidate `candidates[rng() % candidates.size()]` and call `generate(ndi)`, which
is passed as `gen`.  An empty candidate list makes the remainder undefined: `none`. -/
def generateFrom {σ : Type} (ops : DetailedMgr σ)
    (gen : DetailedSwap → σ → Nat → GenOut σ) (g : DetailedSwap) (s : σ)
    (candidates : List Nat) : Option (GenOut σ) :=
  let g1 := { g with m_attempts := g.m_attempts + 1 }
  if candidates.length = 0 then none
  else
    let rnd := ops.m_rng s
    match candidates[rnd.1 % candidates.length]? with
    | none => none
    | some ndi => some (gen g1 rnd.2 ndi)

/-! ## Specification-side notions -/

/-- A pin of node `nd` whose net takes part in the region estimate: the net has at
least 2 and at most `skip` pins and carries a pin of another node. -/
def qualifies (net : Network) (skip : Int) (nd : Nat) (pin : Pin) : Bool :=
  decide (2 ≤ (net.edgePins pin.edgeId).length) &&
  decide (((net.edgePins pin.edgeId).length : Int) ≤ skip) &&
  (net.edgePins pin.edgeId).any (fun q => decide (q.nodeId ≠ nd))

/-- The translated and clamped interval endpoints `getRange` records for a pin. -/
def clampedBox (reset : Rectangle) (arch : Architecture) (net : Network) (nd : Nat)
    (pin : Pin) : Rectangle :=
  let bb := (calculateEdgeBB reset net pin.edgeId nd).2
  ⟨min (max arch.minX (bb.xmin - pin.offsetX)) arch.maxX,
   max (min arch.maxX (bb.xmax - pin.offsetX)) arch.minX,
   min (max arch.minY (bb.ymin - pin.offsetY)) arch.maxY,
   max (min arch.maxY (bb.ymax - pin.offsetY)) arch.minY⟩


/-- The x-endpoints `getRange` records, pin by pin: two for each qualifying pin. -/
def endpointsX (reset : Rectangle) (arch : Architecture) (net : Network) (skip : Int)
    (nd : Nat) : List Pin → List ℚ
  | [] => []
  | p :: l =>
    if qualifies net skip nd p = true then
      (clampedBox reset arch net nd p).xmin :: (clampedBox reset arch net nd p).xmax ::
        endpointsX reset arch net skip nd l
    else endpointsX reset arch net skip nd l

/-- The y-endpoints `getRange` records, pin by pin: two for each qualifying pin. -/
def endpointsY (reset : Rectangle) (arch : Architecture) (net : Network) (skip : Int)
    (nd : Nat) : List Pin → List ℚ
  | [] => []
  | p :: l =>
    if qualifies net skip nd p = true then
      (clampedBox reset arch net nd p).ymin :: (clampedBox reset arch net nd p).ymax ::
        endpointsY reset arch net skip nd l
    else endpointsY reset arch net skip nd l

/-- The number of qualifying pins of node `nd` (a net reached through two pins of
the node counts twice, as in the pin loop). -/
def numQualifying (net : Network) (skip : Int) (nd : Nat) : Nat :=
  ((net.nodePins nd).filter (qualifies net skip nd)).length

/-- The number of qualifying nets of node `nd`: the distinct nets reached through
its qualifying pins (a net reached through two pins of the node counts once). -/
def numQualifyingNets (net : Network) (skip : Int) (nd : Nat) : Nat :=
  (((net.nodePins nd).filter (qualifies net skip nd)).map Pin.edgeId).dedup.length

/-! ## Concrete instances used to exercise the statements -/

/-- A pin with zero offsets. -/
def pin0 (nodeId edgeId : Nat) : Pin := ⟨nodeId, edgeId, 0, 0⟩

/-- Three nodes: node 0 at (0, 0), node 1 at (50, 20), node 2 at (100, 40);
net 0 joins nodes 0 and 1, net 1 joins nodes 0 and 2 (node 0's pin offset (1, 1)). -/
def exNet : Network where
  nodes := fun n =>
    if n = 0 then ⟨0, 0, 10, 0⟩ else if n = 1 then ⟨50, 20, 10, 0⟩ else ⟨100, 40, 10, 0⟩
  nodePins := fun n =>
    if n = 0 then [pin0 0 0, ⟨0, 1, 1, 1⟩] else if n = 1 then [pin0 1 0]
    else if n = 2 then [pin0 2 1] else []
  edgePins := fun e =>
    if e = 0 then [pin0 0 0, pin0 1 0] else if e = 1 then [⟨0, 1, 1, 1⟩, pin0 2 1] else []
  numEdges := 2

/-- A chip of 200 by 100 with ten rows of height 10. -/
def exArch : Architecture where
  minX := 0
  maxX := 200
  minY := 0
  maxY := 100
  numRows := 10
  find_closest_row := fun y => max 0 (min 9 ⌊y / 10⌋)
  rowBottom := fun r => 10 * r
  rowY := fun r => 10 * r

/-- A freshly constructed and initialised generator: stamp 0, all marks 0. -/
def exGen : DetailedSwap := DetailedSwap.construct 0 (fun _ => 0)

/-! ## Wirelength, specification side -/

/-- The smallest of a list of values (0 for the empty list). -/
def lo : List ℚ → ℚ
  | [] => 0
  | a :: l => l.foldl min a

/-- The largest of a list of values (0 for the empty list). -/
def hi : List ℚ → ℚ
  | [] => 0
  | a :: l => l.foldl max a

/-- The half-perimeter wirelength of a net whose pins sit at the positions `pos`:
`(xmax - xmin) + (ymax - ymin)`. -/
def hpwlAt (pins : List Pin) (pos : Pin → ℚ × ℚ) : ℚ :=
  (hi (pins.map (fun p => (pos p).1)) - lo (pins.map (fun p => (pos p).1))) +
  (hi (pins.map (fun p => (pos p).2)) - lo (pins.map (fun p => (pos p).2)))

/-- A position representable as a pair of finite doubles. -/
def FiniteXY (q : ℚ × ℚ) : Prop :=
  (-DBL_MAX ≤ q.1 ∧ q.1 ≤ DBL_MAX) ∧ (-DBL_MAX ≤ q.2 ∧ q.2 ≤ DBL_MAX)

/-- The size filter of both `delta` variants: the net is visited when it is not
the case that `npins <= 1 || npins >= m_skipNetsLargerThanThis`. -/
def passesDeltaFilter (net : Network) (skip : Int) (e : Nat) : Prop :=
  ¬ (((net.edgePins e).length : Int) ≤ 1 ∨ ((net.edgePins e).length : Int) ≥ skip)

instance (net : Network) (skip : Int) : DecidablePred (passesDeltaFilter net skip) :=
  fun _ => inferInstanceAs (Decidable (¬ _))

/-- The set of nets reached from the pins of the listed nodes. -/
def touchedNets (net : Network) (nds : List Nat) : Finset Nat :=
  ((nds.flatMap net.nodePins).map Pin.edgeId).toFinset

/-- The position of a pin once nodes `a` and `b` have exchanged origins: a pin of
`a` sits at `b`'s origin plus its own offset, a pin of `b` at `a`'s origin plus its
own offset, any other pin where it is. -/
def exchangedXY (net : Network) (a b : Nat) (p : Pin) : ℚ × ℚ :=
  if p.nodeId = a then ((net.nodes b).x + p.offsetX, (net.nodes b).y + p.offsetY)
  else if p.nodeId = b then ((net.nodes a).x + p.offsetX, (net.nodes a).y + p.offsetY)
  else curXY net p

/-- Cross-references of the netlist agree: a pin listed under a node names that
node and is listed under its edge, and a pin listed under an edge names that edge,
an edge below `numEdges`, and is listed under its node. -/
def Network.Consistent (net : Network) : Prop :=
  (∀ n, ∀ p ∈ net.nodePins n, p.nodeId = n ∧ p ∈ net.edgePins p.edgeId) ∧
  (∀ e, ∀ p ∈ net.edgePins e, p.edgeId = e ∧ e < net.numEdges ∧ p ∈ net.nodePins p.nodeId)

instance : DecidablePred FiniteXY :=
  fun _ => inferInstanceAs (Decidable ((_ ∧ _) ∧ (_ ∧ _)))

/-- The total wirelength `W`: the sum, over the nets with at least 2 and at most
`T` pins, of the half-perimeter of the net's current pin positions. -/
def totalHpwl (net : Network) (T : Nat) : ℚ :=
  ∑ e in (Finset.range net.numEdges).filter
      (fun e => 2 ≤ (net.edgePins e).length ∧ (net.edgePins e).length ≤ T),
    hpwlAt (net.edgePins e) (curXY net)

/-- The network after node `n`'s origin is set to `(x, y)`. -/
def Network.setOrigin (net : Network) (n : Nat) (x y : ℚ) : Network :=
  { net with nodes := fun m => if m = n then { net.nodes m with x := x, y := y }
                               else net.nodes m }

/-- One net of exactly 100 pins, one pin on each of the nodes 0..99; node 0 sits at
x = 0 and the other nodes at x = 10, all at y = 0. -/
def net100 : Network where
  nodes := fun n => if n = 0 then ⟨0, 0, 10, 0⟩ else ⟨10, 0, 10, 0⟩
  nodePins := fun n => if n < 100 then [pin0 n 0] else []
  edgePins := fun e => if e = 0 then (List.range 100).map (fun n => pin0 n 0) else []
  numEdges := 1

/-- Node 0 at (0, 0) tied by net 0 to node 1 at (100, 0) and by net 1 to node 2 at
(100, 90): its optimal region is x in [100, 100], y in [0, 90]. -/
def tallNet : Network where
  nodes := fun n =>
    if n = 0 then ⟨0, 0, 10, 0⟩ else if n = 1 then ⟨100, 0, 10, 0⟩ else ⟨100, 90, 10, 0⟩
  nodePins := fun n =>
    if n = 0 then [pin0 0 0, pin0 0 1] else if n = 1 then [pin0 1 0]
    else if n = 2 then [pin0 2 1] else []
  edgePins := fun e =>
    if e = 0 then [pin0 0 0, pin0 1 0] else if e = 1 then [pin0 0 1, pin0 2 1] else []
  numEdges := 2

/-- A manager whose state is the next value of its random source.  Row `r` holds
the single segment `r` spanning the chip, every cell is mapped to segment 0 of row
0, every segment has region-id 0 except segment 9, whose region-id is 1;
cross-segment moves are accepted, same-segment moves are declined and swaps are
accepted. -/
def exMgr : DetailedMgr Nat where
  m_reverseCellToSegs := fun _ _ => [⟨0, 0, 0, 0, 200⟩]
  m_segsInRow := fun _ r => [⟨r, r, if r = 9 then 1 else 0, 0, 200⟩]
  m_segments := fun _ sj => ⟨sj, sj, if sj = 9 then 1 else 0, 0, 200⟩
  m_rng := fun s => (s, s + 1)
  tryMove1 := fun s _ => (true, s)
  tryMove2 := fun s _ => (false, s)
  trySwap1 := fun s _ => (true, s)

/-- The fallback chain as the specification words it, for request arguments `a`
handed to a manager in state `s`: exactly one move attempt is issued, `tryMove1`
when `sj` differs from `si` and `tryMove2` otherwise; `trySwap1` is issued (to the
manager as the move attempt left it) if and only if the move was declined; the
result is true if and only if the move or the swap succeeded. -/
def FallbackChain {σ : Type} (ops : DetailedMgr σ) (s : σ) (a : MoveArgs)
    (out : GenOut σ) : Prop :=
  ∃ (rq : Request) (mv : Bool × σ),
    ((a.si ≠ a.sj ∧ rq = Request.tryMove1 a ∧ mv = ops.tryMove1 s a) ∨
     (a.si = a.sj ∧ rq = Request.tryMove2 a ∧ mv = ops.tryMove2 s a)) ∧
    out.trace =
      (rq, mv.1) :: (if mv.1 = true then [] else [(Request.trySwap1 a, (ops.trySwap1 mv.2 a).1)]) ∧
    (out.trace.filter (fun e => !e.1.isSwap)).length = 1 ∧
    ((∃ e ∈ out.trace, e.1.isSwap = true) ↔ mv.1 = false) ∧
    (out.result = true ↔ (mv.1 = true ∨ (mv.1 = false ∧ (ops.trySwap1 mv.2 a).1 = true))) ∧
    (out.result = true ↔ ∃ e ∈ out.trace, e.2 = true)

/-- The counter contract of `generate(node)`, from generator `g` to outcome `out`:
`m_attempts` is untouched; a `false` result leaves `m_moves` and `m_swaps` alone; a
`true` result reached through an accepted move (the last request is a move the
manager accepted) adds one to `m_moves` only, and one reached through an accepted
swap adds one to `m_swaps` only. -/
def CounterContract {σ : Type} (g : DetailedSwap) (out : GenOut σ) : Prop :=
  out.gen.m_attempts = g.m_attempts ∧
  (out.result = false → out.gen.m_moves = g.m_moves ∧ out.gen.m_swaps = g.m_swaps) ∧
  (out.result = true →
    ((∃ rq, out.trace.getLast? = some (rq, true) ∧ rq.isSwap = false) ∧
        out.gen.m_moves = g.m_moves + 1 ∧ out.gen.m_swaps = g.m_swaps) ∨
    ((∃ rq, out.trace.getLast? = some (rq, true) ∧ rq.isSwap = true) ∧
        out.gen.m_moves = g.m_moves ∧ out.gen.m_swaps = g.m_swaps + 1)) ∧
  ((∃ rq, out.trace.getLast? = some (rq, true) ∧ rq.isSwap = false) →
    out.result = true ∧ out.gen.m_moves = g.m_moves + 1 ∧ out.gen.m_swaps = g.m_swaps) ∧
  ((∃ rq, out.trace.getLast? = some (rq, true) ∧ rq.isSwap = true) →
    out.result = true ∧ out.gen.m_moves = g.m_moves ∧ out.gen.m_swaps = g.m_swaps + 1)

/-! ## Target resolution, specification side -/

/-- Whether the node's current position lies inside the rectangle, boundaries
included (the test `generate` makes before looking for a target). -/
def insideBox (net : Network) (ndi : Nat) (bbox : Rectangle) : Prop :=
  (net.nodes ndi).x ≥ bbox.xmin ∧ (net.nodes ndi).x ≤ bbox.xmax ∧
  (net.nodes ndi).y ≥ bbox.ymin ∧ (net.nodes ndi).y ≤ bbox.ymax

/-- The first segment of a row's list whose span contains `xj`. -/
def firstSegAt (segs : List DetailedSeg) (xj : ℚ) : Option DetailedSeg :=
  segs.find? (fun seg => decide (seg.minX ≤ xj ∧ xj ≤ seg.maxX))

/-- The target row of the unrestricted generator for region `bbox`. -/
def globalRow (arch : Architecture) (net : Network) (ndi : Nat) (bbox : Rectangle) : Int :=
  arch.find_closest_row (0.5 * (bbox.ymin + bbox.ymax) - 0.5 * (net.nodes ndi).height)

/-- One net of 150 pins, one zero-offset pin on each of the nodes 0..149, and no
other connectivity. -/
def net150 : Network where
  nodes := fun n => if n = 0 then ⟨0, 0, 10, 0⟩ else ⟨10, 0, 10, 0⟩
  nodePins := fun n => if n < 150 then [pin0 n 0] else []
  edgePins := fun e => if e = 0 then (List.range 150).map (fun n => pin0 n 0) else []
  numEdges := 1

deriving instance DecidableEq for DetailedSeg

/-- The example manager with every cell mapped to no segment at all. -/
def noSegMgr : DetailedMgr Nat :=
  { exMgr with m_reverseCellToSegs := fun _ _ => [] }

/-- The example manager whose rows hold one segment spanning only x in [150, 200]. -/
def narrowMgr : DetailedMgr Nat :=
  { exMgr with m_segsInRow := fun _ r => [⟨r, r, 0, 150, 200⟩] }

/-- The bounding box of the pins of net `e` that belong to nodes other than `nd`,
at their current positions. -/
def othersBox (net : Network) (e nd : Nat) : Rectangle :=
  ⟨lo (((net.edgePins e).filter (fun q => decide (q.nodeId ≠ nd))).map
      (fun q => (curXY net q).1)),
   hi (((net.edgePins e).filter (fun q => decide (q.nodeId ≠ nd))).map
      (fun q => (curXY net q).1)),
   lo (((net.edgePins e).filter (fun q => decide (q.nodeId ≠ nd))).map
      (fun q => (curXY net q).2)),
   hi (((net.edgePins e).filter (fun q => decide (q.nodeId ≠ nd))).map
      (fun q => (curXY net q).2))⟩

/-- A box translated by minus the pin offset `(dx, dy)` and clamped to the chip
bounds on each of its four sides. -/
def clampToChip (arch : Architecture) (bb : Rectangle) (dx dy : ℚ) : Rectangle :=
  ⟨min (max arch.minX (bb.xmin - dx)) arch.maxX,
   max (min arch.maxX (bb.xmax - dx)) arch.minX,
   min (max arch.minY (bb.ymin - dy)) arch.maxY,
   max (min arch.maxY (bb.ymax - dy)) arch.minY⟩

/-- The spec's single-connection scenario: node 0 at (0, 0) joined by one 2-pin net
to a neighbour, node 1, at (50, 0); zero pin offsets. -/
def pairNet : Network where
  nodes := fun n => if n = 0 then ⟨0, 0, 10, 0⟩ else ⟨50, 0, 10, 0⟩
  nodePins := fun n => if n = 0 then [pin0 0 0] else if n = 1 then [pin0 1 0] else []
  edgePins := fun e => if e = 0 then [pin0 0 0, pin0 1 0] else []
  numEdges := 1

/-! ## run: option parsing and the pass loop -/

/-- The option loop of `run(mgr, args)` over the tokens still to be read, from
`passes` and `tol` as they stand: `-p` or `-t` followed by another token takes that
token as its value (through `std::atoi` / `std::atof`, passed as `atoi` / `atof`)
and skips it; any other token, and an option that is the last token, is passed
over. -/
def parseLoop (atoi : String → Int) (atof : String → ℚ) :
    List String → Int × ℚ → Int × ℚ
  | [], st => st
  | [_], st => st
  | a :: v :: rest, st =>
    if a = "-p" then parseLoop atoi atof rest (atoi v, st.2)
    else if a = "-t" then parseLoop atoi atof rest (st.1, atof v)
    else parseLoop atoi atof (v :: rest) st

/-- The pass budget and the tolerance `run(mgr, args)` works with: defaults 1 and
0.01, the option loop from index 1 on (the token at index 0 is not read), then
`std::max(passes, 1)` and `std::max(tol, 0.01)`.  Here `std::atof` returns finite
values only; `parseArgsDbl` is the same parse for an `atof` that may return an
infinity or a NaN. -/
def parseArgs (atoi : String → Int) (atof : String → ℚ) (args : List String) : Int × ℚ :=
  let st := parseLoop atoi atof (args.drop 1) (1, 0.01)
  (max st.1 1, max st.2 0.01)

/-- The early-exit test `std::fabs(curr_hpwl - last_hpwl) / last_hpwl <= tol`.  For
`last_hpwl` equal to 0 the quotient of doubles is an infinity or a NaN, for which
`<=` is false. -/
def withinTol (last curr tol : ℚ) : Bool :=
  if last = 0 then false else decide (|curr - last| / last ≤ tol)

/-- The pass loop of `run` with `n` passes still allowed, from state `s` whose
wirelength is `curr`: the state and wirelength at the end and the number of sweeps
executed.  `sweep` is `globalSwap()` / `verticalSwap()` and `hpwl` is
`Utility::hpwl`. -/
def passLoop {S : Type} (sweep : S → S) (hpwl : S → ℚ) (tol : ℚ) : Nat → S → ℚ → S × ℚ × Nat
  | 0, s, curr => (s, curr, 0)
  | n + 1, s, curr =>
    let last_hpwl := curr
    let s1 := sweep s
    let curr_hpwl := hpwl s1
    if withinTol last_hpwl curr_hpwl tol = true then (s1, curr_hpwl, 1)
    else
      let r := passLoop sweep hpwl tol n s1 curr_hpwl
      (r.1, r.2.1, r.2.2 + 1)

/-- The outcome of `run`: the state afterwards, the number of sweeps executed, and
the wirelength before the first and after the last sweep (the values of the closing
log line). -/
structure RunOut (S : Type) where
  state : S
  sweeps : Nat
  init_hpwl : ℚ
  curr_hpwl : ℚ

/-- `run(mgr, args)` of either generator, over the state `S` the sweep acts on. -/
def run {S : Type} (atoi : String → Int) (atof : String → ℚ) (sweep : S → S)
    (hpwl : S → ℚ) (args : List String) (s : S) : RunOut S :=
  let cfg := parseArgs atoi atof args
  let init_hpwl := hpwl s
  let r := passLoop sweep hpwl cfg.2 cfg.1.toNat s init_hpwl
  ⟨r.1, r.2.2, init_hpwl, r.2.1⟩

/-! ## The sweep -/

/-- What a sweep consumes besides `generate`: the manager's `resortSegments`,
candidate list, shuffle, `acceptMove` and `rejectMove`, and the wirelength
objective's `curr()` and `delta(...)` for the proposal the manager holds.  The
manager primitives may change the manager state and the node positions. -/
structure SweepEnv (σ : Type) where
  resortSegments : σ → Network → σ × Network
  m_singleHeightCells : σ → List Nat
  random_shuffle : List Nat → σ → List Nat × σ
  hpwlCurr : σ → Network → ℚ
  hpwlDelta : σ → Network → ℚ
  acceptMove : σ → Network → σ × Network
  rejectMove : σ → Network → σ × Network

/-- What a sweep does, in order: a call of `generate` with its result, and the
`acceptMove` / `rejectMove` that follows a proposal, with the proposal's delta and
the running total afterwards. -/
inductive SweepEvent where
  | generated (nd : Nat) (ok : Bool)
  | acceptMove (delta : ℚ) (total : ℚ)
  | rejectMove (delta : ℚ) (total : ℚ)
deriving DecidableEq

/-- The state of a sweep: generator, manager, network, the running total
`currHpwl`, and the events so far. -/
structure SweepState (σ : Type) where
  gen : DetailedSwap
  mgr : σ
  net : Network
  currHpwl : ℚ
  events : List SweepEvent

/-- The body of the candidate loop of `globalSwap` / `verticalSwap`; `gen` is
`generate(ndi)`.  The subtraction `currHpwl - delta` is exact here; `sweepStepDbl`
is the same body with the difference rounded to a double. -/
def sweepStep {σ : Type} (env : SweepEnv σ)
    (gen : Network → DetailedSwap → σ → Nat → GenOut σ) (st : SweepState σ) (ndi : Nat) :
    SweepState σ :=
  let out := gen st.net st.gen st.mgr ndi
  if out.result = false then
    ⟨out.gen, out.mgr, st.net, st.currHpwl, st.events ++ [SweepEvent.generated ndi false]⟩
  else
    let delta := env.hpwlDelta out.mgr st.net
    let nextHpwl := st.currHpwl - delta
    if nextHpwl ≤ st.currHpwl then
      let w := env.acceptMove out.mgr st.net
      ⟨out.gen, w.1, w.2, nextHpwl,
        st.events ++ [SweepEvent.generated ndi true, SweepEvent.acceptMove delta nextHpwl]⟩
    else
      let w := env.rejectMove out.mgr st.net
      ⟨out.gen, w.1, w.2, st.currHpwl,
        st.events ++ [SweepEvent.generated ndi true, SweepEvent.rejectMove delta st.currHpwl]⟩

/-- The state a sweep starts its candidate loop from, and the shuffled candidates:
stamp and marks reset, segments resorted, candidates shuffled, `currHpwl` read from
the objective. -/
def sweepStart {σ : Type} (env : SweepEnv σ) (g : DetailedSwap) (s : σ) (net : Network) :
    SweepState σ × List Nat :=
  let g0 := { g with m_traversal := 0, m_edgeMask := fun _ => 0 }
  let w := env.resortSegments s net
  let sh := env.random_shuffle (env.m_singleHeightCells w.1) w.1
  (⟨g0, sh.2, w.2, env.hpwlCurr sh.2 w.2, []⟩, sh.1)

/-- One sweep: `globalSwap()` / `verticalSwap()` for `gen` the generator's
`generate(ndi)`. -/
def sweep {σ : Type} (env : SweepEnv σ)
    (gen : Network → DetailedSwap → σ → Nat → GenOut σ) (g : DetailedSwap) (s : σ)
    (net : Network) : SweepState σ :=
  (sweepStart env g s net).2.foldl (sweepStep env gen) (sweepStart env g s net).1

/-- `DetailedGlobalSwap::globalSwap`. -/
def DetailedGlobalSwap.globalSwap {σ : Type} (env : SweepEnv σ) (ops : DetailedMgr σ)
    (reset : Rectangle) (arch : Architecture) (g : DetailedSwap) (s : σ) (net : Network) :
    SweepState σ :=
  sweep env (fun n1 g1 s1 nd => DetailedGlobalSwap.generate ops reset arch n1 g1 s1 nd) g s net

/-- `DetailedVerticalSwap::verticalSwap`. -/
def DetailedVerticalSwap.verticalSwap {σ : Type} (env : SweepEnv σ) (ops : DetailedMgr σ)
    (arch : Architecture) (g : DetailedSwap) (s : σ) (net : Network) : SweepState σ :=
  sweep env (fun n1 g1 s1 nd => DetailedVerticalSwap.generate ops arch n1 g1 s1 nd) g s net

/-- `DetailedGlobalSwap::run(mgr, args)`: the pass loop over `globalSwap`, the state
being generator, manager and network; `utilHpwl` is `Utility::hpwl`. -/
def DetailedGlobalSwap.run {σ : Type} (atoi : String → Int) (atof : String → ℚ)
    (env : SweepEnv σ) (ops : DetailedMgr σ) (reset : Rectangle) (arch : Architecture)
    (utilHpwl : Network → ℚ) (args : List String) (w : DetailedSwap × σ × Network) :
    RunOut (DetailedSwap × σ × Network) :=
  dpo.run atoi atof
    (fun w1 =>
      ((DetailedGlobalSwap.globalSwap env ops reset arch w1.1 w1.2.1 w1.2.2).gen,
       (DetailedGlobalSwap.globalSwap env ops reset arch w1.1 w1.2.1 w1.2.2).mgr,
       (DetailedGlobalSwap.globalSwap env ops reset arch w1.1 w1.2.1 w1.2.2).net))
    (fun w1 => utilHpwl w1.2.2) args w

/-- `DetailedVerticalSwap::run(mgr, args)`: the pass loop over `verticalSwap`. -/
def DetailedVerticalSwap.run {σ : Type} (atoi : String → Int) (atof : String → ℚ)
    (env : SweepEnv σ) (ops : DetailedMgr σ) (arch : Architecture)
    (utilHpwl : Network → ℚ) (args : List String) (w : DetailedSwap × σ × Network) :
    RunOut (DetailedSwap × σ × Network) :=
  dpo.run atoi atof
    (fun w1 =>
      ((DetailedVerticalSwap.verticalSwap env ops arch w1.1 w1.2.1 w1.2.2).gen,
       (DetailedVerticalSwap.verticalSwap env ops arch w1.1 w1.2.1 w1.2.2).mgr,
       (DetailedVerticalSwap.verticalSwap env ops arch w1.1 w1.2.1 w1.2.2).net))
    (fun w1 => utilHpwl w1.2.2) args w

/-! ## Option parsing, specification side -/

/-- The options the loop recognises, each with the token it takes as its value, in
the order met. -/
def recognised : List String → List (String × String)
  | [] => []
  | [_] => []
  | a :: v :: rest =>
    if a = "-p" ∨ a = "-t" then (a, v) :: recognised rest else recognised (v :: rest)

/-- Whether the loop ends on an option (`-p` or `-t`) that is the last token and so
has no value. -/
def danglingOption : List String → Bool
  | [] => false
  | [a] => decide (a = "-p" ∨ a = "-t")
  | a :: v :: rest =>
    if a = "-p" ∨ a = "-t" then danglingOption rest else danglingOption (v :: rest)

/-- The effect of one recognised option on `(passes, tol)`. -/
def applyOption (atoi : String → Int) (atof : String → ℚ) (st : Int × ℚ)
    (o : String × String) : Int × ℚ :=
  if o.1 = "-p" then (atoi o.2, st.2) else (st.1, atof o.2)

/-- The value of a run of leading decimal digits, continuing from `acc`. -/
def digitsVal : List Char → Nat → Nat
  | [], acc => acc
  | c :: cs, acc =>
    if c.isDigit then digitsVal cs (10 * acc + (c.toNat - 48)) else acc

/-- A reading of `std::atoi` on tokens (which hold no white space): an optional
sign, then the leading decimal digits; 0 when there is none. -/
def atoiDec (s : String) : Int :=
  match s.data with
  | '-' :: cs => -(digitsVal cs 0 : Int)
  | '+' :: cs => (digitsVal cs 0 : Int)
  | cs => (digitsVal cs 0 : Int)

/-- The value of a run of leading decimal digits after the decimal point, the first
digit weighing `w / 10`. -/
def fracVal : List Char → ℚ → ℚ
  | [], _ => 0
  | c :: cs, w =>
    if c.isDigit then ((c.toNat - 48 : Nat) : ℚ) * (w / 10) + fracVal cs (w / 10) else 0

/-- A reading of `std::atof` on unsigned tokens of the form digits, optionally
followed by a point and digits; 0 when there is no leading digit or point. -/
def atofDec (s : String) : ℚ :=
  match s.data.dropWhile Char.isDigit with
  | '.' :: fs => (digitsVal s.data 0 : ℚ) + fracVal fs 1
  | _ => (digitsVal s.data 0 : ℚ)

/-! ## run: the tolerance as a double -/

/-- The values a `double` takes as far as the tolerance of `run` is concerned: a
finite number (taken exactly), an infinity, or a NaN; `std::atof` returns a NaN for
a token such as `nan` and an infinity for `inf` or an out-of-range number. -/
inductive Dbl where
  | fin (q : ℚ)
  | posInf
  | negInf
  | nan
deriving DecidableEq

/-- The comparison `a < b` of doubles: false whenever an operand is a NaN. -/
def Dbl.lt : Dbl → Dbl → Bool
  | Dbl.fin a, Dbl.fin b => decide (a < b)
  | Dbl.fin _, Dbl.posInf => true
  | Dbl.negInf, Dbl.fin _ => true
  | Dbl.negInf, Dbl.posInf => true
  | _, _ => false

/-- The comparison `a <= b` of doubles: false whenever an operand is a NaN. -/
def Dbl.le : Dbl → Dbl → Bool
  | Dbl.fin a, Dbl.fin b => decide (a ≤ b)
  | Dbl.fin _, Dbl.posInf => true
  | Dbl.negInf, Dbl.fin _ => true
  | Dbl.negInf, Dbl.posInf => true
  | Dbl.posInf, Dbl.posInf => true
  | Dbl.negInf, Dbl.negInf => true
  | _, _ => false

/-- `std::max(a, b)` on doubles: `(a < b) ? b : a`. -/
def Dbl.stdMax (a b : Dbl) : Dbl := if Dbl.lt a b = true then b else a

/-- The option loop of `run(mgr, args)` with the tolerance held as a double:
`parseLoop` with `std::atof` returning any double. -/
def parseLoopDbl (atoi : String → Int) (atof : String → Dbl) :
    List String → Int × Dbl → Int × Dbl
  | [], st => st
  | [_], st => st
  | a :: v :: rest, st =>
    if a = "-p" then parseLoopDbl atoi atof rest (atoi v, st.2)
    else if a = "-t" then parseLoopDbl atoi atof rest (st.1, atof v)
    else parseLoopDbl atoi atof (v :: rest) st

/-- The pass budget and the tolerance `run(mgr, args)` works with, the tolerance
held as a double: defaults 1 and 0.01, the option loop from index 1 on, then
`passes = std::max(passes, 1)` and `tol = std::max(tol, 0.01)`. -/
def parseArgsDbl (atoi : String → Int) (atof : String → Dbl) (args : List String) :
    Int × Dbl :=
  let st := parseLoopDbl atoi atof (args.drop 1) (1, Dbl.fin 0.01)
  (max st.1 1, Dbl.stdMax st.2 (Dbl.fin 0.01))

/-- The effect of one recognised option on `(passes, tol)`, the tolerance held as a
double. -/
def applyOptionDbl (atoi : String → Int) (atof : String → Dbl) (st : Int × Dbl)
    (o : String × String) : Int × Dbl :=
  if o.1 = "-p" then (atoi o.2, st.2) else (st.1, atof o.2)

/-- A reading of `std::atof` that knows the tokens `nan`, `inf` and `-inf` and reads
every other token as `atofDec` does. -/
def atofStd (s : String) : Dbl :=
  if s = "nan" then Dbl.nan
  else if s = "inf" then Dbl.posInf
  else if s = "-inf" then Dbl.negInf
  else Dbl.fin (atofDec s)

/-- The early-exit test `std::fabs(curr_hpwl - last_hpwl) / last_hpwl <= tol` for a
tolerance held as a double (the wirelengths finite): `withinTol` for a finite
tolerance; for `+inf` true unless the quotient is the NaN `0 / 0`; false for `-inf`
(the quotient of finite wirelengths is not `-inf`) and for a NaN, with which every
comparison is false. -/
def withinTolDbl (last curr : ℚ) : Dbl → Bool
  | Dbl.fin tol => withinTol last curr tol
  | Dbl.posInf => decide (¬ (last = 0 ∧ curr = 0))
  | Dbl.negInf => false
  | Dbl.nan => false

/-- The wirelength `h_p` after `p` sweeps from state `s` (`h_0` the starting one). -/
def hpwlAfter {S : Type} (sweep : S → S) (hpwl : S → ℚ) (s : S) (p : Nat) : ℚ :=
  hpwl (sweep^[p] s)

/-! ## The sweep, specification side -/

/-- A well-formed event log taking the running total from `t` to `t1`: it is built
from blocks, one per candidate: a failed `generate` alone; or a successful
`generate` followed by exactly one `acceptMove`, with a delta `d ≥ 0` and the total
becoming `total - d`; or a successful `generate` followed by exactly one
`rejectMove`, with a delta `d < 0` and the total unchanged. -/
inductive ConsistentLog : ℚ → List SweepEvent → ℚ → Prop where
  | nil (t : ℚ) : ConsistentLog t [] t
  | fail {t t1 : ℚ} {l : List SweepEvent} (nd : Nat) :
      ConsistentLog t l t1 → ConsistentLog t (l ++ [SweepEvent.generated nd false]) t1
  | accept {t t1 : ℚ} {l : List SweepEvent} (nd : Nat) (d : ℚ) :
      ConsistentLog t l t1 → 0 ≤ d →
      ConsistentLog t
        (l ++ [SweepEvent.generated nd true, SweepEvent.acceptMove d (t1 - d)]) (t1 - d)
  | reject {t t1 : ℚ} {l : List SweepEvent} (nd : Nat) (d : ℚ) :
      ConsistentLog t l t1 → d < 0 →
      ConsistentLog t (l ++ [SweepEvent.generated nd true, SweepEvent.rejectMove d t1]) t1

/-- The delta an event subtracts from the running total: that of an accepted
proposal, nothing otherwise. -/
def SweepEvent.acceptedDelta : SweepEvent → ℚ
  | SweepEvent.acceptMove d _ => d
  | _ => 0

/-- The sum of the deltas of the accepted proposals of a log. -/
def acceptedSum (l : List SweepEvent) : ℚ := (l.map SweepEvent.acceptedDelta).sum

/-- A manager that records the proposal it last agreed to; it agrees to every move
and swap.  Segments are those of `exMgr`; the random source always returns 0. -/
def recMgr : DetailedMgr (Option MoveArgs) where
  m_reverseCellToSegs := fun _ _ => [⟨0, 0, 0, 0, 200⟩]
  m_segsInRow := fun _ r => [⟨r, r, 0, 0, 200⟩]
  m_segments := fun _ sj => ⟨sj, sj, 0, 0, 200⟩
  m_rng := fun s => (0, s)
  tryMove1 := fun _ a => (true, some a)
  tryMove2 := fun _ a => (true, some a)
  trySwap1 := fun _ a => (true, some a)

/-- A sweep environment over `recMgr`: the objective is the total wirelength over
the nets of 2 to 99 pins, its delta is exact for the recorded proposal, `acceptMove`
puts the node at the proposed position and `rejectMove` drops the proposal; the
candidates are nodes 0, 1, 2 and the shuffle reverses them. -/
def recEnv : SweepEnv (Option MoveArgs) where
  resortSegments := fun s net => (s, net)
  m_singleHeightCells := fun _ => [0, 1, 2]
  random_shuffle := fun l s => (l.reverse, s)
  hpwlCurr := fun _ net => totalHpwl net 99
  hpwlDelta := fun s net =>
    match s with
    | some a => totalHpwl net 99 - totalHpwl (net.setOrigin a.nd a.xj a.yj) 99
    | none => 0
  acceptMove := fun s net =>
    match s with
    | some a => (none, net.setOrigin a.nd a.xj a.yj)
    | none => (none, net)
  rejectMove := fun _ net => (none, net)

/-- The placement with the proposal recorded by `recMgr` applied. -/
def proposedRec (m : Option MoveArgs) (n : Network) : Network :=
  match m with
  | some a => n.setOrigin a.nd a.xj a.yj
  | none => n

/-- The environment `recEnv` with an objective that reports a delta of -1 for every
proposal. -/
def rejEnv : SweepEnv (Option MoveArgs) :=
  { recEnv with hpwlDelta := fun _ _ => -1 }

/-! ## The sweep in double arithmetic -/

/-- Rounding to the nearest integer, ties to the even one. -/
def roundHalfEven (m : ℚ) : Int :=
  if m - ⌊m⌋ < 1 / 2 then ⌊m⌋
  else if 1 / 2 < m - ⌊m⌋ then ⌊m⌋ + 1
  else if ⌊m⌋ % 2 = 0 then ⌊m⌋ else ⌊m⌋ + 1

/-- The exponent of the unit in the last place of the doubles around `x`: 53
significant bits, and the fixed spacing `2 ^ (-1074)` of the subnormal range. -/
def ulpExp (x : ℚ) : Int := max (Int.log 2 |x| - 52) (-1074)

/-- The double nearest to `x`, ties to even: the result of a double operation whose
exact value is `x`.  Overflow to an infinity is left out, the exponent being
unbounded above. -/
def roundDouble (x : ℚ) : ℚ := (roundHalfEven (x / 2 ^ ulpExp x) : ℚ) * 2 ^ ulpExp x

/-- The body of the candidate loop of `globalSwap` / `verticalSwap` with the
subtraction `nextHpwl = currHpwl - delta` carried out in double arithmetic, so that
the test `nextHpwl <= currHpwl` is made on the rounded difference; `gen` is
`generate(ndi)`. -/
def sweepStepDbl {σ : Type} (env : SweepEnv σ)
    (gen : Network → DetailedSwap → σ → Nat → GenOut σ) (st : SweepState σ) (ndi : Nat) :
    SweepState σ :=
  let out := gen st.net st.gen st.mgr ndi
  if out.result = false then
    ⟨out.gen, out.mgr, st.net, st.currHpwl, st.events ++ [SweepEvent.generated ndi false]⟩
  else
    let delta := env.hpwlDelta out.mgr st.net
    let nextHpwl := roundDouble (st.currHpwl - delta)
    if nextHpwl ≤ st.currHpwl then
      let w := env.acceptMove out.mgr st.net
      ⟨out.gen, w.1, w.2, nextHpwl,
        st.events ++ [SweepEvent.generated ndi true, SweepEvent.acceptMove delta nextHpwl]⟩
    else
      let w := env.rejectMove out.mgr st.net
      ⟨out.gen, w.1, w.2, st.currHpwl,
        st.events ++ [SweepEvent.generated ndi true, SweepEvent.rejectMove delta st.currHpwl]⟩

/-- One sweep in double arithmetic: `globalSwap()` / `verticalSwap()` for `gen` the
generator's `generate(ndi)`. -/
def sweepDbl {σ : Type} (env : SweepEnv σ)
    (gen : Network → DetailedSwap → σ → Nat → GenOut σ) (g : DetailedSwap) (s : σ)
    (net : Network) : SweepState σ :=
  (sweepStart env g s net).2.foldl (sweepStepDbl env gen) (sweepStart env g s net).1

/-- `DetailedGlobalSwap::globalSwap` in double arithmetic. -/
def DetailedGlobalSwap.globalSwapDbl {σ : Type} (env : SweepEnv σ) (ops : DetailedMgr σ)
    (reset : Rectangle) (arch : Architecture) (g : DetailedSwap) (s : σ) (net : Network) :
    SweepState σ :=
  sweepDbl env (fun n1 g1 s1 nd => DetailedGlobalSwap.generate ops reset arch n1 g1 s1 nd)
    g s net

/-- `DetailedVerticalSwap::verticalSwap` in double arithmetic. -/
def DetailedVerticalSwap.verticalSwapDbl {σ : Type} (env : SweepEnv σ) (ops : DetailedMgr σ)
    (arch : Architecture) (g : DetailedSwap) (s : σ) (net : Network) : SweepState σ :=
  sweepDbl env (fun n1 g1 s1 nd => DetailedVerticalSwap.generate ops arch n1 g1 s1 nd) g s net

/-- A well-formed event log of a sweep in double arithmetic taking the running total
from `t` to `t1`: it is built from blocks, one per candidate: a failed `generate`
alone; or a successful `generate` followed by exactly one `acceptMove`, the rounded
difference `total - d` being at most `total` and becoming the total; or a successful
`generate` followed by exactly one `rejectMove`, with a delta `d < 0` whose rounded
difference exceeds `total`, the total unchanged. -/
inductive DoubleLog : ℚ → List SweepEvent → ℚ → Prop where
  | nil (t : ℚ) : DoubleLog t [] t
  | fail {t t1 : ℚ} {l : List SweepEvent} (nd : Nat) :
      DoubleLog t l t1 → DoubleLog t (l ++ [SweepEvent.generated nd false]) t1
  | accept {t t1 : ℚ} {l : List SweepEvent} (nd : Nat) (d : ℚ) :
      DoubleLog t l t1 → roundDouble (t1 - d) ≤ t1 →
      DoubleLog t
        (l ++ [SweepEvent.generated nd true, SweepEvent.acceptMove d (roundDouble (t1 - d))])
        (roundDouble (t1 - d))
  | reject {t t1 : ℚ} {l : List SweepEvent} (nd : Nat) (d : ℚ) :
      DoubleLog t l t1 → d < 0 → t1 < roundDouble (t1 - d) →
      DoubleLog t (l ++ [SweepEvent.generated nd true, SweepEvent.rejectMove d t1]) t1

/-- The environment `recEnv` with a wirelength of `2 ^ 53` and an objective that
reports a delta of -1 for every proposal. -/
def bigEnv : SweepEnv (Option MoveArgs) :=
  { recEnv with hpwlCurr := fun _ _ => 2 ^ 53, hpwlDelta := fun _ _ => -1 }

/-! ## generate of the restricted generator, from the row pick on -/

/-- A netlist in which node 0 has two pins on the same net: node 0 at (0, 0) with
pins at offsets (0, 0) and (2, 0), node 1 at (10, 0) with one pin, all three on
net 0. -/
def twinNet : Network where
  nodes := fun n => if n = 0 then ⟨0, 0, 10, 0⟩ else ⟨10, 0, 10, 0⟩
  nodePins := fun n =>
    if n = 0 then [⟨0, 0, 0, 0⟩, ⟨0, 0, 2, 0⟩] else if n = 1 then [⟨1, 0, 0, 0⟩] else []
  edgePins := fun e => if e = 0 then [⟨0, 0, 0, 0⟩, ⟨0, 0, 2, 0⟩, ⟨1, 0, 0, 0⟩] else []
  numEdges := 1

/-! ## The traversal stamp -/

/-- `init(mgr)`: `m_traversal = 0` and every entry of `m_edgeMask` filled with 0
(the collaborator pointers it caches are not part of this state). -/
def DetailedSwap.init (g : DetailedSwap) : DetailedSwap :=
  { g with m_traversal := 0, m_edgeMask := fun _ => 0 }

/-- A call of one of the two `delta` overloads. -/
inductive DeltaCall where
  | move (ndi : Nat) (new_x new_y : ℚ)
  | swap (ndi ndj : Nat)

/-- The nodes whose pins the call walks. -/
def DeltaCall.nodes : DeltaCall → List Nat
  | DeltaCall.move ndi _ _ => [ndi]
  | DeltaCall.swap ndi ndj => [ndi, ndj]

/-- The call carried out: `delta(ndi, new_x, new_y)` or `delta(ndi, ndj)`. -/
def DeltaCall.apply (g : DetailedSwap) (net : Network) : DeltaCall → ℚ × DetailedSwap
  | DeltaCall.move ndi new_x new_y => delta g net ndi new_x new_y
  | DeltaCall.swap ndi ndj => deltaSwap g net ndi ndj

/-- A sequence of `delta` calls, each made on the netlist as it stands at that
moment (positions may have changed between calls); the generator afterwards. -/
def deltaCalls (g : DetailedSwap) (calls : List (Network × DeltaCall)) : DetailedSwap :=
  calls.foldl (fun g c => (c.2.apply g c.1).2) g

/-! ## The two copies of calculateEdgeBB, and a far-away neighbour -/

/-- `DetailedGlobalSwap::calculateEdgeBB`: the fold starts from `bbox.reset()`. -/
def DetailedGlobalSwap.calculateEdgeBB (reset : Rectangle) (net : Network) (ed nd : Nat) :
    Bool × Rectangle :=
  dpo.calculateEdgeBB reset net ed nd

/-- `DetailedVerticalSwap::calculateEdgeBB`: the fold starts from
`numeric_limits<float>::max()` and its negation. -/
def DetailedVerticalSwap.calculateEdgeBB (net : Network) (ed nd : Nat) : Bool × Rectangle :=
  dpo.calculateEdgeBB (Rectangle.sentinel FLT_MAX) net ed nd

/-- Node 0 at (0, 0) joined by one 2-pin net to node 1, which sits at
x = 2 * FLT_MAX (a finite double beyond the float range), y = 0; zero offsets. -/
def farNet : Network where
  nodes := fun n => if n = 0 then ⟨0, 0, 10, 0⟩ else ⟨2 * FLT_MAX, 0, 10, 0⟩
  nodePins := fun n => if n = 0 then [pin0 0 0] else if n = 1 then [pin0 1 0] else []
  edgePins := fun e => if e = 0 then [pin0 0 0, pin0 1 0] else []
  numEdges := 1

/-- The example chip widened to x in [0, 4 * FLT_MAX]. -/
def farArch : Architecture := { exArch with maxX := 4 * FLT_MAX }

/-! ## run(mgr, command): the tokens of a command string -/

/-- The dropped delimiters the command overload of `run` hands to
`boost::char_separator<char>`: space, carriage return, tab, newline, semicolon. -/
def separators : List Char :=
  [Char.ofNat 32, Char.ofNat 13, Char.ofNat 9, Char.ofNat 10, Char.ofNat 59]

/-- Whether a character is one of the separators. -/
def isSeparator (c : Char) : Bool := decide (c ∈ separators)

/-- Modelled from the spec: "command tokens separated by whitespace or semicolons",
which the code obtains from `boost::tokenizer` over a `boost::char_separator<char>`
(boost headers, not among the sources) with its default policies: delimiters are
dropped and empty tokens are dropped.  The scan skips delimiters, then appends
characters to the current token `tok` up to the next delimiter or the end of the
input, where a non-empty `tok` is emitted. -/
def scanTokens (isSep : Char → Bool) : List Char → List Char → List (List Char)
  | [], tok => if tok = [] then [] else [tok]
  | c :: cs, tok =>
    if isSep c = true then
      if tok = [] then scanTokens isSep cs [] else tok :: scanTokens isSep cs []
    else scanTokens isSep cs (tok ++ [c])

/-- The vector `args` the command overload of `run` builds: every token of the
tokenizer over `command`, pushed back in order. -/
def commandTokens (command : String) : List String :=
  (scanTokens isSeparator command.data []).map String.mk

/-- `DetailedGlobalSwap::run(mgr, command)`: tokenize, then `run(mgr, args)`. -/
def DetailedGlobalSwap.runCommand {σ : Type} (atoi : String → Int) (atof : String → ℚ)
    (env : SweepEnv σ) (ops : DetailedMgr σ) (reset : Rectangle) (arch : Architecture)
    (utilHpwl : Network → ℚ) (command : String) (w : DetailedSwap × σ × Network) :
    RunOut (DetailedSwap × σ × Network) :=
  DetailedGlobalSwap.run atoi atof env ops reset arch utilHpwl (commandTokens command) w

/-- `DetailedVerticalSwap::run(mgr, command)`: tokenize, then `run(mgr, args)`. -/
def DetailedVerticalSwap.runCommand {σ : Type} (atoi : String → Int) (atof : String → ℚ)
    (env : SweepEnv σ) (ops : DetailedMgr σ) (arch : Architecture)
    (utilHpwl : Network → ℚ) (command : String) (w : DetailedSwap × σ × Network) :
    RunOut (DetailedSwap × σ × Network) :=
  DetailedVerticalSwap.run atoi atof env ops arch utilHpwl (commandTokens command) w

/-- Specification side: `ts` is the list, in order, of the maximal non-empty
substrings of `l` that contain no separator.  The input is a run `g` of separators
(possibly empty), then a token `t` (non-empty, separator-free) that is followed by
the end of the input or by a separator, then the rest, decomposed likewise; an
input of separators only has no token. -/
inductive MaximalTokens (isSep : Char → Bool) : List Char → List (List Char) → Prop where
  | done (g : List Char) (hg : ∀ c ∈ g, isSep c = true) : MaximalTokens isSep g []
  | token (g t rest : List Char) (ts : List (List Char))
      (hg : ∀ c ∈ g, isSep c = true) (ht : t ≠ []) (hts : ∀ c ∈ t, isSep c = false)
      (hrest : rest = [] ∨ ∃ c r, rest = c :: r ∧ isSep c = true)
      (h : MaximalTokens isSep rest ts) :
      MaximalTokens isSep (g ++ t ++ rest) (t :: ts)

end dpo

/-!
GDS utilities, the master of the detailed router, and the grid width of the
detailed placer

A shallow embedding of `src/odb/src/gdsin/gdsUtil.cpp` (namespace `odb`),
`src/drt/src/db/obj/frMaster.h` (namespace `fr`) and of the grid-width functions of
`src/opendp/src/Opendp.cpp` (namespace `opendp`).

Conventions of the embedding.

* `uint8_t` and `uint64_t` values are natural numbers; the masks and shifts of the
  source are the bitwise operations on natural numbers, and a cast to `uint8_t` is
  the remainder modulo 256.
* A thrown `std::runtime_error` is `Except.error` with the message of the
  exception.
* A `double` is the rational number it holds.  The one conversion of the GDS code
  that can round, from a 56-bit integer to `double`, is modelled with its rounding
  (`u64ToDouble`); scaling by a power of two is exact.
* `int` values of the placer are unbounded integers; the operands are far from the
  range where signed arithmetic overflows.
-/

namespace odb

/-! ## Record and data type codes -/

/-- The initialisers of the table `recordNames`, in order: 60 names. -/
def recordNames : List String :=
  ["HEADER",    "BGNLIB",    "LIBNAME",    "UNITS",        "ENDLIB",
   "BGNSTR",    "STRNAME",   "ENDSTR",     "BOUNDARY",     "PATH",
   "SREF",      "AREF",      "TEXT",       "LAYER",        "DATATYPE",
   "WIDTH",     "XY",        "ENDEL",      "SNAME",        "COLROW",
   "TEXTNODE",  "NODE",      "TEXTTYPE",   "PRESENTATION", "SPACING",
   "STRING",    "STRANS",    "MAG",        "ANGLE",        "UINTEGER",
   "USTRING",   "REFLIBS",   "FONTS",      "PATHTYPE",     "GENERATIONS",
   "ATTRTABLE", "STYPTABLE", "STRTYPE",    "ELFLAGS",      "ELKEY",
   "LINKTYPE",  "LINKKEYS",  "NODETYPE",   "PROPATTR",     "PROPVALUE",
   "BOX",       "BOXTYPE",   "PLEX",       "BGNEXTN",      "ENDEXTN",
   "TAPENUM",   "TAPECODE",  "STRCLASS",   "RESERVED",     "FORMAT",
   "MASK",      "ENDMASKS",  "LIBDIRSIZE", "SRFNAME",      "LIBSECUR"]

/-- A value of the enumeration `RecordType`, held as its numeric value.  The
enumeration is declared in `odb/gdsUtil.h`; the value of its last enumerator
`INVALID_RT` enters the functions below as a parameter. -/
structure RecordType where
  val : Nat
deriving DecidableEq

/-- A value of the enumeration `DataType`, held as its numeric value; its last
enumerator `INVALID_DT` enters as a parameter. -/
structure DataType where
  val : Nat
deriving DecidableEq

/-- The message of the exception the record type functions throw. -/
def invalidRecordType : String := "Corrupted GDS, Invalid record type!"

/-- The message of the exception the data type functions throw. -/
def invalidDataType : String := "Corrupted GDS, Invalid data type!"

/-- `toRecordType(uint8_t recordType)`. -/
def toRecordType (INVALID_RT : Nat) (recordType : Nat) : Except String RecordType :=
  if recordType ≥ INVALID_RT % 256 then Except.error invalidRecordType
  else Except.ok ⟨recordType⟩

/-- `recordTypeToString(RecordType recordType)`.  The array `recordNames` has
`INVALID_RT` entries, of which the 60 initialisers are names and any further one a
null pointer: `none`. -/
def recordTypeToString (INVALID_RT : Nat) (recordType : RecordType) :
    Except String (Option String) :=
  if recordType.val ≥ INVALID_RT then Except.error invalidRecordType
  else Except.ok (recordNames[recordType.val % 256]?)

/-- `fromRecordType(RecordType recordType)`. -/
def fromRecordType (INVALID_RT : Nat) (recordType : RecordType) : Except String Nat :=
  if recordType.val ≥ INVALID_RT then Except.error invalidRecordType
  else Except.ok (recordType.val % 256)

/-- `toDataType(uint8_t dataType)`. -/
def toDataType (INVALID_DT : Nat) (dataType : Nat) : Except String DataType :=
  if dataType ≥ INVALID_DT % 256 then Except.error invalidDataType
  else Except.ok ⟨dataType⟩

/-- `fromDataType(DataType dataType)`. -/
def fromDataType (INVALID_DT : Nat) (dataType : DataType) : Except String Nat :=
  if dataType.val ≥ INVALID_DT then Except.error invalidDataType
  else Except.ok (dataType.val % 256)

/-! ## The 8-byte real -/

/-- The number of bits by which `n` exceeds the 53-bit significand of a `double`,
for `n` below `2 ^ 64`: the number of `k` in `0 .. 10` with `2 ^ (53 + k) ≤ n`. -/
def excessBits (n : Nat) : Nat :=
  ((List.range 11).filter (fun k => decide (2 ^ (53 + k) ≤ n))).length

/-- The conversion `(double) n` of a `uint64_t`: exact below `2 ^ 53`, otherwise
rounded to 53 significant bits, to nearest with ties to even. -/
def u64ToDouble (n : Nat) : ℚ :=
  if n < 2 ^ 53 then (n : ℚ)
  else
    let k := excessBits n
    let q := n / 2 ^ k
    let r := n % 2 ^ k
    let half := 2 ^ (k - 1)
    let m := if r < half then q else if half < r then q + 1
      else if q % 2 = 0 then q else q + 1
    ((m * 2 ^ k : Nat) : ℚ)

/-- `real8_to_double(uint64_t real)`.  `exp2` of an integer and the product of a
`double` with it are exact in the range the 7-bit exponent allows. -/
def real8_to_double (real : Nat) : ℚ :=
  let exponent : Int := (((real &&& 0x7F00000000000000) >>> 54 : Nat) : Int) - 256
  let mantissa : ℚ := u64ToDouble (real &&& 0x00FFFFFFFFFFFFFF) / 72057594037927936
  mantissa * (2 : ℚ) ^ exponent

/-- `double_to_real8(double value)`.  `fexp = 0.25 * log2(value)` is the base-16
logarithm of `value`; `ceil(fexp)`, incremented when it equals `fexp`, is one more
than the integer part `⌊log_16 value⌋`, which is `Int.log 16 value`.  The product
with the power of 16 is exact, `(uint64_t)` truncates, `(uint8_t)` and the
addition to `u8_1` are taken modulo 256.  The logarithm is taken exactly: the
rounding of `log2` in double arithmetic, which can matter only for values next to
a power of 16, is not modelled. -/
def double_to_real8 (value : ℚ) : Nat :=
  if value = 0 then 0
  else
    let u8_1 : Nat := if value < 0 then 0x80 else 0
    let value1 : ℚ := if value < 0 then -value else value
    let exponent : Int := Int.log 16 value1 + 1
    let mantissa : Nat := ⌊value1 * (16 : ℚ) ^ (14 - exponent)⌋.toNat
    let u8_2 : Nat := (u8_1 + ((64 + exponent) % 256).toNat) % 256
    (u8_2 <<< 56) ||| (mantissa &&& 0x00FFFFFFFFFFFFFF)

end odb

namespace fr

/-! ## Rectangles, boundaries, terminals -/

/-- A `Rect`, read through `xMin()`, `yMin()`, `xMax()`, `yMax()`. -/
structure Rect where
  xMin : Int
  yMin : Int
  xMax : Int
  yMax : Int
deriving DecidableEq

/-- The running corners `llx`, `lly`, `urx`, `ury` of the loops of `getBBox` and
`setBoundaries`. -/
structure Corners where
  llx : Int
  lly : Int
  urx : Int
  ury : Int
deriving DecidableEq

/-- The corners read from a box: `llx = box.xMin()`, ... -/
def Corners.ofRect (box : Rect) : Corners := ⟨box.xMin, box.yMin, box.xMax, box.yMax⟩

/-- One step of the loops of `getBBox`:
`llx = llx < tmpBox.xMin() ? llx : tmpBox.xMin()`, ...,
`ury = ury > tmpBox.yMax() ? ury : tmpBox.yMax()`. -/
def Corners.extend (c : Corners) (tmpBox : Rect) : Corners :=
  ⟨if c.llx < tmpBox.xMin then c.llx else tmpBox.xMin,
   if c.lly < tmpBox.yMin then c.lly else tmpBox.yMin,
   if c.urx > tmpBox.xMax then c.urx else tmpBox.xMax,
   if c.ury > tmpBox.yMax then c.ury else tmpBox.yMax⟩

/-- One step of the loop of `setBoundaries`: `llx = std::min(llx, tmpBox.xMin())`,
..., `ury = std::max(ury, tmpBox.yMax())`. -/
def Corners.extendMinMax (c : Corners) (tmpBox : Rect) : Corners :=
  ⟨min c.llx tmpBox.xMin, min c.lly tmpBox.yMin, max c.urx tmpBox.xMax, max c.ury tmpBox.yMax⟩

/-- What the two functions use of `Rect::init(llx, lly, urx, ury)`, which is
declared in `odb/geom.h` and enters them as the parameter `init`: called with
`llx ≤ urx` and `lly ≤ ury` it stores the four values. -/
def StoresOrdered (init : Int → Int → Int → Int → Rect) : Prop :=
  ∀ llx lly urx ury : Int, llx ≤ urx → lly ≤ ury → init llx lly urx ury = ⟨llx, lly, urx, ury⟩

/-- An instance of `init`: the two corners stored in ascending order in each
coordinate. -/
def Rect.initSorted (x1 y1 x2 y2 : Int) : Rect := ⟨min x1 x2, min y1 y2, max x1 x2, max y1 y2⟩

/-- A box whose lower corner is at most its upper corner. -/
def Rect.Ordered (r : Rect) : Prop := r.xMin ≤ r.xMax ∧ r.yMin ≤ r.yMax

instance : DecidablePred Rect.Ordered := fun _ => inferInstanceAs (Decidable (_ ∧ _))

/-- A boundary (`frBoundary`, declared in `db/obj/frBoundary.h`), as far as the
master reads it: the box its `getBBox` returns. -/
structure frBoundary where
  getBBox : Rect
deriving DecidableEq

/-- A pin of a terminal, as far as the master reads it: the boxes its figures'
`getBBox` return, in the order of `getFigs()`. -/
structure frMPin where
  getFigs : List Rect
deriving DecidableEq

/-- A terminal (`frMTerm`, declared in `db/obj/frMTerm.h`), as far as the master
reads and writes it: its name, the order id, the master it was given to (by the
master's name; `none` before `setMaster`), and its pins. -/
structure frMTerm where
  getName : String
  orderId : Nat
  master : Option String
  getPins : List frMPin
deriving DecidableEq

/-- The members of `frMaster` the functions below touch.  A `frMTerm*` held in
`name2term_` is the position in `terms_` of the terminal it points to: `terms_`
owns the terminals and only ever grows at its end. -/
structure frMaster where
  name_ : String
  name2term_ : String → Option Nat
  terms_ : List frMTerm
  boundaries_ : List frBoundary
  dieBox_ : Rect

/-- The constructor `frMaster(name)`: no terminal, no boundary, an empty map;
`dieBox` is the default-constructed `Rect`. -/
def frMaster.construct (name : String) (dieBox : Rect) : frMaster :=
  ⟨name, fun _ => none, [], [], dieBox⟩

/-! ## getBBox, setBoundaries -/

/-- The corners `llx`, `lly`, `urx`, `ury` of `frMaster::getBBox(Rect& boxIn)` when
its loops are through, from the value `boxIn` held on entry. -/
def frMaster.bboxCorners (m : frMaster) (boxIn : Rect) : Corners :=
  let boxIn1 : Rect :=
    match m.boundaries_ with
    | [] => boxIn
    | b :: _ => b.getBBox
  let c0 := Corners.ofRect boxIn1
  let c1 := m.boundaries_.foldl (fun c boundary => c.extend boundary.getBBox) c0
  m.terms_.foldl
    (fun c term => term.getPins.foldl
      (fun c pin => pin.getFigs.foldl (fun c fig => c.extend fig) c) c) c1

/-- `frMaster::getBBox(Rect& boxIn)`: the value `boxIn` holds on return, from the
value it held on entry. -/
def frMaster.getBBox (init : Int → Int → Int → Int → Rect) (m : frMaster) (boxIn : Rect) :
    Rect :=
  init (m.bboxCorners boxIn).llx (m.bboxCorners boxIn).lly
    (m.bboxCorners boxIn).urx (m.bboxCorners boxIn).ury

/-- `frMaster::getDieBox()`. -/
def frMaster.getDieBox (m : frMaster) : Rect := m.dieBox_

/-- `frMaster::getBoundaries()`. -/
def frMaster.getBoundaries (m : frMaster) : List frBoundary := m.boundaries_

/-- The corners `llx`, `lly`, `urx`, `ury` of `frMaster::setBoundaries(in)` when its
loop is through; `dieBox` is the die box the master holds on entry. -/
def dieCorners (dieBox : Rect) (in_ : List frBoundary) : Corners :=
  let dieBox1 : Rect :=
    match in_ with
    | [] => dieBox
    | b :: _ => b.getBBox
  in_.foldl (fun c boundary => c.extendMinMax boundary.getBBox) (Corners.ofRect dieBox1)

/-- `frMaster::setBoundaries(in)`. -/
def frMaster.setBoundaries (init : Int → Int → Int → Int → Rect) (m : frMaster)
    (in_ : List frBoundary) : frMaster :=
  { m with
    boundaries_ := in_,
    dieBox_ := init (dieCorners m.dieBox_ in_).llx (dieCorners m.dieBox_ in_).lly
      (dieCorners m.dieBox_ in_).urx (dieCorners m.dieBox_ in_).ury }

/-! ## The terminal registry -/

/-- `frMaster::getTerms()`. -/
def frMaster.getTerms (m : frMaster) : List frMTerm := m.terms_

/-- `frMaster::getTerm(in)`: the pointer found under the name, `none` for
`nullptr`. -/
def frMaster.getTerm (m : frMaster) (name : String) : Option Nat := m.name2term_ name

/-- The terminal a pointer returned by `getTerm` points to. -/
def frMaster.deref (m : frMaster) (p : Nat) : Option frMTerm := m.terms_[p]?

/-- `frMaster::addTerm(in)`. -/
def frMaster.addTerm (m : frMaster) (t : frMTerm) : frMaster :=
  let t1 : frMTerm := { t with orderId := m.terms_.length }
  let t2 : frMTerm := { t1 with master := some m.name_ }
  { m with
    name2term_ := Function.update m.name2term_ t2.getName (some m.terms_.length),
    terms_ := m.terms_ ++ [t2] }

/-- A sequence of `addTerm` calls. -/
def frMaster.addTerms (m : frMaster) (ts : List frMTerm) : frMaster :=
  ts.foldl frMaster.addTerm m

/-! ## Specification side -/

/-- The boxes `getBBox` is meant to enclose: the box of every boundary and of every
figure of every pin of every terminal. -/
def frMaster.allBoxes (m : frMaster) : List Rect :=
  m.boundaries_.map frBoundary.getBBox ++
    m.terms_.flatMap (fun term => term.getPins.flatMap (fun pin => pin.getFigs))

/-- The box `r` is the union bounding box of the boxes of `l`: it encloses each of
them, and each of its four sides is the side of one of them (so `xMin`, `yMin` are
the minimum and `xMax`, `yMax` the maximum over `l`). -/
def IsUnionBox (r : Rect) (l : List Rect) : Prop :=
  (∀ t ∈ l, r.xMin ≤ t.xMin ∧ r.yMin ≤ t.yMin ∧ t.xMax ≤ r.xMax ∧ t.yMax ≤ r.yMax) ∧
  (∃ t ∈ l, r.xMin = t.xMin) ∧ (∃ t ∈ l, r.yMin = t.yMin) ∧
  (∃ t ∈ l, r.xMax = t.xMax) ∧ (∃ t ∈ l, r.yMax = t.yMax)

/-! ## Examples -/

/-- A master without boundaries whose one terminal `A` has one pin with one figure,
the box (10, 10) - (20, 20). -/
def pinOnlyMaster : frMaster :=
  ⟨"M", fun n => if n = "A" then some 0 else none,
   [⟨"A", 0, some "M", [⟨[⟨10, 10, 20, 20⟩]⟩]⟩], [], ⟨0, 0, 0, 0⟩⟩

/-- A master with the two boundaries (0, 0) - (30, 40) and (-5, 10) - (10, 50) and
the terminal of `pinOnlyMaster`. -/
def twoBoundaryMaster : frMaster :=
  { pinOnlyMaster with
    boundaries_ := [⟨⟨0, 0, 30, 40⟩⟩, ⟨⟨-5, 10, 10, 50⟩⟩], dieBox_ := ⟨-5, 0, 30, 50⟩ }

end fr

namespace opendp

/-! ## Grid width -/

/-- The member of `Cell` read by `paddedWidth`. -/
structure Cell where
  width_ : Int

/-- The members of `Opendp` read by `paddedWidth` and `gridWidth(Cell*)`. -/
structure Opendp where
  pad_left_ : Int
  pad_right_ : Int
  site_width_ : Int

/-- `divCeil(dividend, divisor)`: `ceil(static_cast<double>(dividend) / divisor)`. -/
def divCeil (dividend divisor : Int) : Int := ⌈(dividend : ℚ) / (divisor : ℚ)⌉

/-- `divFloor(dividend, divisor)`: the quotient of `int` division, which truncates
toward zero. -/
def divFloor (dividend divisor : Int) : Int := Int.tdiv dividend divisor

/-- The value an `int` (32 bits, two's complement) holds after an arithmetic
operation whose mathematical result is `x`: `x` reduced modulo `2 ^ 32` into
`[-2 ^ 31, 2 ^ 31)`.  It is `x` itself when `x` fits. -/
def wrapInt (x : Int) : Int := (x + 2 ^ 31) % 2 ^ 32 - 2 ^ 31

/-- Whether a value is in the range of an `int`. -/
def fitsInt (x : Int) : Prop := -2 ^ 31 ≤ x ∧ x < 2 ^ 31

instance (x : Int) : Decidable (fitsInt x) := by
  unfold fitsInt
  infer_instance

/-- `Opendp::paddedWidth(cell)`: `int` addition and multiplication, each result
held in an `int`. -/
def Opendp.paddedWidth (o : Opendp) (cell : Cell) : Int :=
  wrapInt (cell.width_ + wrapInt (wrapInt (o.pad_left_ + o.pad_right_) * o.site_width_))

/-- `Opendp::gridWidth(cell)`. -/
def Opendp.gridWidth (o : Opendp) (cell : Cell) : Int :=
  divCeil (o.paddedWidth cell) o.site_width_

/-- A cell of width 2000000000. -/
def wideCell : Cell := ⟨2000000000⟩

/-- Paddings of one site on either side, sites of width 100000000. -/
def wideSites : Opendp := ⟨1, 1, 100000000⟩

end opendp

namespace dpo

/-! ## Facts about calculateEdgeBB and getRange -/

theorem calculateEdgeBB_count (net : Network) (nd : Nat) (l : List Pin)
    (acc : Rectangle × Nat) :
    (l.foldl
      (fun (acc : Rectangle × Nat) (pin : Pin) =>
        if pin.nodeId = nd then acc
        else
          let curX := (net.nodes pin.nodeId).x + pin.offsetX
          let curY := (net.nodes pin.nodeId).y + pin.offsetY
          (⟨min curX acc.1.xmin, max curX acc.1.xmax, min curY acc.1.ymin,
            max curY acc.1.ymax⟩, acc.2 + 1)) acc).2
      = acc.2 + l.countP (fun q => decide (q.nodeId ≠ nd)) := by
  induction l generalizing acc with
  | nil => simp
  | cons p l ih =>
    rw [List.foldl_cons, ih]
    by_cases h : p.nodeId = nd
    · simp [h]
    · simp [h, List.countP_cons]
      omega

theorem calculateEdgeBB_fst (reset : Rectangle) (net : Network) (ed nd : Nat) :
    (calculateEdgeBB reset net ed nd).1
      = (net.edgePins ed).any (fun q => decide (q.nodeId ≠ nd)) := by
  unfold calculateEdgeBB
  simp only [calculateEdgeBB_count, Nat.zero_add]
  by_cases h : (net.edgePins ed).countP (fun q => decide (q.nodeId ≠ nd)) = 0
  · rw [if_pos h]
    rw [List.countP_eq_zero] at h
    symm
    rw [Bool.eq_false_iff]
    intro hany
    rw [List.any_eq_true] at hany
    obtain ⟨q, hq, hq2⟩ := hany
    exact h q hq hq2
  · rw [if_neg h]
    symm
    rw [List.any_eq_true]
    have : 0 < (net.edgePins ed).countP (fun q => decide (q.nodeId ≠ nd)) := by omega
    rw [List.countP_pos_iff] at this
    obtain ⟨q, hq, hq2⟩ := this
    exact ⟨q, hq, hq2⟩

theorem getRangeStep_eq (reset : Rectangle) (arch : Architecture) (net : Network)
    (skip : Int) (nd : Nat) (acc : RangeAcc) (pin : Pin) :
    getRangeStep reset arch net skip nd acc pin =
      if qualifies net skip nd pin = true then
        ⟨acc.xpts ++ [(clampedBox reset arch net nd pin).xmin,
                      (clampedBox reset arch net nd pin).xmax],
         acc.ypts ++ [(clampedBox reset arch net nd pin).ymin,
                      (clampedBox reset arch net nd pin).ymax], acc.t + 2⟩
      else acc := by
  unfold getRangeStep qualifies clampedBox
  simp only [calculateEdgeBB_fst]
  by_cases h1 : ((net.edgePins pin.edgeId).length : Int) ≤ 1
  · have : ¬ (2 ≤ (net.edgePins pin.edgeId).length) := by omega
    simp [h1, this]
  · have h1b : 2 ≤ (net.edgePins pin.edgeId).length := by omega
    by_cases h2 : ((net.edgePins pin.edgeId).length : Int) > skip
    · have : ¬ (((net.edgePins pin.edgeId).length : Int) ≤ skip) := by omega
      simp [h1, h2, this]
    · have h2b : ((net.edgePins pin.edgeId).length : Int) ≤ skip := by omega
      by_cases h3 : (net.edgePins pin.edgeId).any (fun q => decide (q.nodeId ≠ nd)) = true
      · simp only [h1, h2, h3, h1b, h2b, if_false, decide_True, Bool.and_self, if_true]
        simp
      · simp only [Bool.not_eq_true] at h3
        simp only [h1, h2, h3, h1b, h2b, if_false, decide_True, Bool.and_false, if_true]
        simp


theorem getRange_fold (reset : Rectangle) (arch : Architecture) (net : Network)
    (skip : Int) (nd : Nat) (l : List Pin) (acc : RangeAcc) :
    l.foldl (getRangeStep reset arch net skip nd) acc =
      ⟨acc.xpts ++ endpointsX reset arch net skip nd l,
       acc.ypts ++ endpointsY reset arch net skip nd l,
       acc.t + 2 * (l.filter (qualifies net skip nd)).length⟩ := by
  induction l generalizing acc with
  | nil => simp [endpointsX, endpointsY]
  | cons p l ih =>
    rw [List.foldl_cons, ih, getRangeStep_eq]
    by_cases h : qualifies net skip nd p = true
    · simp [h, endpointsX, endpointsY, List.filter_cons]
      omega
    · simp [h, endpointsX, endpointsY, List.filter_cons]

theorem getRangePts_eq (reset : Rectangle) (arch : Architecture) (net : Network)
    (skip : Int) (nd : Nat) :
    getRangePts reset arch net skip nd =
      ⟨endpointsX reset arch net skip nd (net.nodePins nd),
       endpointsY reset arch net skip nd (net.nodePins nd),
       2 * numQualifying net skip nd⟩ := by
  unfold getRangePts numQualifying
  rw [getRange_fold]
  simp

theorem endpointsX_length (reset : Rectangle) (arch : Architecture) (net : Network)
    (skip : Int) (nd : Nat) (l : List Pin) :
    (endpointsX reset arch net skip nd l).length
      = 2 * (l.filter (qualifies net skip nd)).length := by
  induction l with
  | nil => simp [endpointsX]
  | cons p l ih =>
    by_cases h : qualifies net skip nd p = true
    · simp [h, endpointsX, List.filter_cons, ih]
      omega
    · simp [h, endpointsX, List.filter_cons, ih]

theorem endpointsY_length (reset : Rectangle) (arch : Architecture) (net : Network)
    (skip : Int) (nd : Nat) (l : List Pin) :
    (endpointsY reset arch net skip nd l).length
      = 2 * (l.filter (qualifies net skip nd)).length := by
  induction l with
  | nil => simp [endpointsY]
  | cons p l ih =>
    by_cases h : qualifies net skip nd p = true
    · simp [h, endpointsY, List.filter_cons, ih]
      omega
    · simp [h, endpointsY, List.filter_cons, ih]

theorem endpointsX_bounds (reset : Rectangle) (arch : Architecture) (net : Network)
    (skip : Int) (nd : Nat) (hx : arch.minX ≤ arch.maxX) (l : List Pin) :
    ∀ v ∈ endpointsX reset arch net skip nd l, arch.minX ≤ v ∧ v ≤ arch.maxX := by
  induction l with
  | nil => simp [endpointsX]
  | cons p l ih =>
    intro v hv
    by_cases h : qualifies net skip nd p = true
    · simp only [endpointsX, h, if_true, List.mem_cons] at hv
      rcases hv with hv | hv | hv
      · subst hv
        simp only [clampedBox]
        exact ⟨le_min (le_max_left _ _) hx, min_le_right _ _⟩
      · subst hv
        simp only [clampedBox]
        exact ⟨le_max_right _ _, max_le (min_le_left _ _) hx⟩
      · exact ih v hv
    · simp only [endpointsX, h] at hv
      exact ih v hv

theorem endpointsY_bounds (reset : Rectangle) (arch : Architecture) (net : Network)
    (skip : Int) (nd : Nat) (hy : arch.minY ≤ arch.maxY) (l : List Pin) :
    ∀ v ∈ endpointsY reset arch net skip nd l, arch.minY ≤ v ∧ v ≤ arch.maxY := by
  induction l with
  | nil => simp [endpointsY]
  | cons p l ih =>
    intro v hv
    by_cases h : qualifies net skip nd p = true
    · simp only [endpointsY, h, if_true, List.mem_cons] at hv
      rcases hv with hv | hv | hv
      · subst hv
        simp only [clampedBox]
        exact ⟨le_min (le_max_left _ _) hy, min_le_right _ _⟩
      · subst hv
        simp only [clampedBox]
        exact ⟨le_max_right _ _, max_le (min_le_left _ _) hy⟩
      · exact ih v hv
    · simp only [endpointsY, h] at hv
      exact ih v hv

/-- The closed form of `getRange`: failure exactly when no pin qualifies, otherwise
the entries `k - 1` and `k` of the sorted endpoints, `k` the number of qualifying
pins. -/
theorem getRange_eq (reset : Rectangle) (arch : Architecture) (net : Network)
    (skip : Int) (nd : Nat) :
    getRange reset arch net skip nd =
      if numQualifying net skip nd = 0 then none
      else some
        ⟨((endpointsX reset arch net skip nd (net.nodePins nd)).insertionSort (· ≤ ·)).getD
            (numQualifying net skip nd - 1) 0,
         ((endpointsX reset arch net skip nd (net.nodePins nd)).insertionSort (· ≤ ·)).getD
            (numQualifying net skip nd) 0,
         ((endpointsY reset arch net skip nd (net.nodePins nd)).insertionSort (· ≤ ·)).getD
            (numQualifying net skip nd - 1) 0,
         ((endpointsY reset arch net skip nd (net.nodePins nd)).insertionSort (· ≤ ·)).getD
            (numQualifying net skip nd) 0⟩ := by
  unfold getRange
  simp only [getRangePts_eq]
  by_cases h : numQualifying net skip nd = 0
  · simp [h]
  · have h1 : ¬ (2 * numQualifying net skip nd ≤ 1) := by omega
    have h2 : 2 * numQualifying net skip nd / 2 = numQualifying net skip nd := by omega
    simp only [h1, h, if_false, h2]

theorem getD_mem_of_lt (l : List ℚ) (i : Nat) (h : i < l.length) : l.getD i 0 ∈ l := by
  rw [List.getD_eq_getElem l 0 h]
  exact List.getElem_mem h

theorem getD_eq_getElem? (l : List ℚ) (i : Nat) (h : i < l.length) :
    l[i]? = some (l.getD i 0) := by
  rw [List.getD_eq_getElem l 0 h]
  exact List.getElem?_eq_getElem h

theorem getRange_bounds_aux (reset : Rectangle) (arch : Architecture) (net : Network)
    (skip : Int) (nd : Nat) (hx : arch.minX ≤ arch.maxX) (hy : arch.minY ≤ arch.maxY)
    (r : Rectangle) (h : getRange reset arch net skip nd = some r) :
    (arch.minX ≤ r.xmin ∧ r.xmin ≤ arch.maxX) ∧ (arch.minX ≤ r.xmax ∧ r.xmax ≤ arch.maxX) ∧
    (arch.minY ≤ r.ymin ∧ r.ymin ≤ arch.maxY) ∧ (arch.minY ≤ r.ymax ∧ r.ymax ≤ arch.maxY) := by
  rw [getRange_eq] at h
  by_cases hk : numQualifying net skip nd = 0
  · simp [hk] at h
  · simp only [hk, if_false, Option.some.injEq] at h
    have hlx := endpointsX_length reset arch net skip nd (net.nodePins nd)
    have hly := endpointsY_length reset arch net skip nd (net.nodePins nd)
    have hk2 : ((net.nodePins nd).filter (qualifies net skip nd)).length
        = numQualifying net skip nd := rfl
    rw [hk2] at hlx hly
    have memx : ∀ i, i < 2 * numQualifying net skip nd →
        ((endpointsX reset arch net skip nd (net.nodePins nd)).insertionSort (· ≤ ·)).getD i 0
          ∈ endpointsX reset arch net skip nd (net.nodePins nd) := by
      intro i hi
      have := getD_mem_of_lt
        ((endpointsX reset arch net skip nd (net.nodePins nd)).insertionSort (· ≤ ·)) i
        (by rw [List.length_insertionSort, hlx]; exact hi)
      exact (List.perm_insertionSort _ _).mem_iff.mp this
    have memy : ∀ i, i < 2 * numQualifying net skip nd →
        ((endpointsY reset arch net skip nd (net.nodePins nd)).insertionSort (· ≤ ·)).getD i 0
          ∈ endpointsY reset arch net skip nd (net.nodePins nd) := by
      intro i hi
      have := getD_mem_of_lt
        ((endpointsY reset arch net skip nd (net.nodePins nd)).insertionSort (· ≤ ·)) i
        (by rw [List.length_insertionSort, hly]; exact hi)
      exact (List.perm_insertionSort _ _).mem_iff.mp this
    subst h
    refine ⟨?_, ?_, ?_, ?_⟩
    · exact endpointsX_bounds reset arch net skip nd hx _ _ (memx _ (by omega))
    · exact endpointsX_bounds reset arch net skip nd hx _ _ (memx _ (by omega))
    · exact endpointsY_bounds reset arch net skip nd hy _ _ (memy _ (by omega))
    · exact endpointsY_bounds reset arch net skip nd hy _ _ (memy _ (by omega))

/-- C3 (region containment).  For chip bounds with `minX ≤ maxX` and `minY ≤ maxY`,
every rectangle returned by a successful `getRange`, of the global generator
(whatever rectangle `Rectangle::reset` produces) and of the vertical one, lies
inside the chip: `minX ≤ xmin`, `xmax ≤ maxX`, `minY ≤ ymin`, `ymax ≤ maxY`, and
likewise for the opposite corner of each interval.  Nothing is assumed about pin
offsets or the positions of the neighbours. -/
theorem getRange_within_chip (reset : Rectangle) (arch : Architecture) (net : Network)
    (g : DetailedSwap) (nd : Nat) (hx : arch.minX ≤ arch.maxX)
    (hy : arch.minY ≤ arch.maxY) :
    (∀ r, DetailedGlobalSwap.getRange reset arch net g nd = some r →
      (arch.minX ≤ r.xmin ∧ r.xmax ≤ arch.maxX ∧ arch.minY ≤ r.ymin ∧ r.ymax ≤ arch.maxY) ∧
      (r.xmin ≤ arch.maxX ∧ arch.minX ≤ r.xmax ∧ r.ymin ≤ arch.maxY ∧ arch.minY ≤ r.ymax)) ∧
    (∀ r, DetailedVerticalSwap.getRange arch net g nd = some r →
      (arch.minX ≤ r.xmin ∧ r.xmax ≤ arch.maxX ∧ arch.minY ≤ r.ymin ∧ r.ymax ≤ arch.maxY) ∧
      (r.xmin ≤ arch.maxX ∧ arch.minX ≤ r.xmax ∧ r.ymin ≤ arch.maxY ∧ arch.minY ≤ r.ymax)) := by
  constructor
  · intro r h
    have := getRange_bounds_aux reset arch net g.m_skipNetsLargerThanThis nd hx hy r h
    tauto
  · intro r h
    have := getRange_bounds_aux (Rectangle.sentinel FLT_MAX) arch net
      g.m_skipNetsLargerThanThis nd hx hy r h
    tauto

/-- Witness for C3: node 0 of the example network, whose neighbours sit at
(50, 20) and (100, 40); the region returned is x in [50, 99], y in [20, 39]. -/
theorem getRange_within_chip_witness :
    (DetailedGlobalSwap.getRange (Rectangle.sentinel DBL_MAX) exArch exNet exGen 0
        = some ⟨50, 99, 20, 39⟩ ∧
      DetailedVerticalSwap.getRange exArch exNet exGen 0 = some ⟨50, 99, 20, 39⟩) ∧
    ((∀ r, DetailedGlobalSwap.getRange (Rectangle.sentinel DBL_MAX) exArch exNet exGen 0
        = some r →
      (exArch.minX ≤ r.xmin ∧ r.xmax ≤ exArch.maxX ∧ exArch.minY ≤ r.ymin ∧
        r.ymax ≤ exArch.maxY) ∧
      (r.xmin ≤ exArch.maxX ∧ exArch.minX ≤ r.xmax ∧ r.ymin ≤ exArch.maxY ∧
        exArch.minY ≤ r.ymax)) ∧
    (∀ r, DetailedVerticalSwap.getRange exArch exNet exGen 0 = some r →
      (exArch.minX ≤ r.xmin ∧ r.xmax ≤ exArch.maxX ∧ exArch.minY ≤ r.ymin ∧
        r.ymax ≤ exArch.maxY) ∧
      (r.xmin ≤ exArch.maxX ∧ exArch.minX ≤ r.xmax ∧ r.ymin ≤ exArch.maxY ∧
        exArch.minY ≤ r.ymax))) :=
  ⟨⟨by decide!, by decide!⟩,
   getRange_within_chip (Rectangle.sentinel DBL_MAX) exArch exNet exGen 0
    (by decide!) (by decide!)⟩

theorem numQualifyingNets_eq_of_nodup (net : Network) (skip : Int) (nd : Nat)
    (h : (((net.nodePins nd).filter (qualifies net skip nd)).map Pin.edgeId).Nodup) :
    numQualifyingNets net skip nd = numQualifying net skip nd := by
  unfold numQualifyingNets numQualifying
  rw [List.Nodup.dedup h, List.length_map]

/-- C4 as stated fails on a node with two pins on one net.  Node 0 of `twinNet` has
exactly one qualifying net (net 0, reached through its pins at offsets 0 and 2),
so the claim has `k = 1`: two x-endpoints, `mid = 1`, and `xmax` the entry of index
1 of the sorted x-endpoints.  The pin loop records one interval per pin: four
x-endpoints `10, 10, 8, 8` (the neighbour at x = 10 seen from either pin), `t = 4`,
`mid = 2`, and the region returned is x in `[8, 10]`, whose `xmax = 10` is the entry
of index 2 of the sorted endpoints `8, 8, 10, 10`, the entry of index 1 being 8. -/
theorem median_interval_counts_pins :
    numQualifyingNets twinNet 100 0 = 1 ∧
    (getRangePts (Rectangle.sentinel DBL_MAX) exArch twinNet 100 0).xpts = [10, 10, 8, 8] ∧
    (getRangePts (Rectangle.sentinel DBL_MAX) exArch twinNet 100 0).xpts.length
      ≠ 2 * numQualifyingNets twinNet 100 0 ∧
    (getRangePts (Rectangle.sentinel DBL_MAX) exArch twinNet 100 0).t / 2 = 2 ∧
    (getRangePts (Rectangle.sentinel DBL_MAX) exArch twinNet 100 0).t / 2
      ≠ numQualifyingNets twinNet 100 0 ∧
    exGen.m_skipNetsLargerThanThis = 100 ∧
    DetailedGlobalSwap.getRange (Rectangle.sentinel DBL_MAX) exArch twinNet exGen 0
      = some ⟨8, 10, 0, 0⟩ ∧
    DetailedVerticalSwap.getRange exArch twinNet exGen 0 = some ⟨8, 10, 0, 0⟩ ∧
    (getRangePts (Rectangle.sentinel DBL_MAX) exArch twinNet 100 0).xpts.insertionSort
      (· ≤ ·) = [8, 8, 10, 10] ∧
    ((getRangePts (Rectangle.sentinel DBL_MAX) exArch twinNet 100 0).xpts.insertionSort
      (· ≤ ·))[numQualifyingNets twinNet 100 0]? = some 8 ∧
    ¬ (∀ r, DetailedGlobalSwap.getRange (Rectangle.sentinel DBL_MAX) exArch twinNet exGen 0
        = some r →
      ((getRangePts (Rectangle.sentinel DBL_MAX) exArch twinNet 100 0).xpts.insertionSort
        (· ≤ ·))[numQualifyingNets twinNet 100 0]? = some r.xmax) := by
  have hr : DetailedGlobalSwap.getRange (Rectangle.sentinel DBL_MAX) exArch twinNet exGen 0
      = some ⟨8, 10, 0, 0⟩ := by decide!
  have hs : ((getRangePts (Rectangle.sentinel DBL_MAX) exArch twinNet 100 0).xpts.insertionSort
      (· ≤ ·))[numQualifyingNets twinNet 100 0]? = some 8 := by decide!
  refine ⟨by decide, by decide!, by decide!, by decide!, by decide!, rfl, hr, by decide!,
    by decide!, hs, ?_⟩
  intro h
  have h2 := h _ hr
  rw [hs] at h2
  revert h2
  decide!

/-- C4 as amended (median interval).  With `k` the number of qualifying pins of the
node (each pin whose net qualifies contributes one interval, so a net carrying two
pins of the node is counted twice; `k` is the number of qualifying nets whenever no
two qualifying pins of the node lie on one net, first conjunct), the pin loop of
`getRange` collects exactly `2 * k` x-endpoints and `2 * k` y-endpoints, `t = 2 * k`
and `mid = t / 2 = k`; `getRange` succeeds exactly when `k ≥ 1`, and then the
rectangle returned has `xmin`, `xmax` equal to the entries `k - 1` and `k` of the
ascending sort of the x-endpoints and `ymin`, `ymax` equal to those of the
y-endpoints, both indices lying inside the sorted sequences.  The statement is
about the loop shared by `DetailedGlobalSwap::getRange` (any `reset`) and
`DetailedVerticalSwap::getRange` (`reset` the float sentinel), of which both are
instances (last conjunct). -/
theorem getRange_median_interval (reset : Rectangle) (arch : Architecture) (net : Network)
    (skip : Int) (nd : Nat) :
    ((((net.nodePins nd).filter (qualifies net skip nd)).map Pin.edgeId).Nodup →
      numQualifyingNets net skip nd = numQualifying net skip nd) ∧
    ((getRangePts reset arch net skip nd).xpts.length = 2 * numQualifying net skip nd ∧
    (getRangePts reset arch net skip nd).ypts.length = 2 * numQualifying net skip nd ∧
    (getRangePts reset arch net skip nd).t = 2 * numQualifying net skip nd ∧
    (getRangePts reset arch net skip nd).t / 2 = numQualifying net skip nd ∧
    ((getRange reset arch net skip nd).isSome = true ↔ 1 ≤ numQualifying net skip nd) ∧
    ∀ r, getRange reset arch net skip nd = some r →
      ∃ sx sy : List ℚ,
        sx.Sorted (· ≤ ·) ∧ sx.Perm (getRangePts reset arch net skip nd).xpts ∧
        sy.Sorted (· ≤ ·) ∧ sy.Perm (getRangePts reset arch net skip nd).ypts ∧
        numQualifying net skip nd - 1 < numQualifying net skip nd ∧
        numQualifying net skip nd < sx.length ∧ numQualifying net skip nd < sy.length ∧
        sx[numQualifying net skip nd - 1]? = some r.xmin ∧
        sx[numQualifying net skip nd]? = some r.xmax ∧
        sy[numQualifying net skip nd - 1]? = some r.ymin ∧
        sy[numQualifying net skip nd]? = some r.ymax) ∧
    (∀ g : DetailedSwap, g.m_skipNetsLargerThanThis = skip →
      DetailedGlobalSwap.getRange reset arch net g nd = getRange reset arch net skip nd ∧
      DetailedVerticalSwap.getRange arch net g nd
        = getRange (Rectangle.sentinel FLT_MAX) arch net skip nd) := by
  refine ⟨numQualifyingNets_eq_of_nodup net skip nd, ?_,
    fun g hg => by subst hg; exact ⟨rfl, rfl⟩⟩
  have hlx := endpointsX_length reset arch net skip nd (net.nodePins nd)
  have hly := endpointsY_length reset arch net skip nd (net.nodePins nd)
  have hk2 : ((net.nodePins nd).filter (qualifies net skip nd)).length
      = numQualifying net skip nd := rfl
  rw [hk2] at hlx hly
  refine ⟨?_, ?_, ?_, ?_, ?_, ?_⟩
  · rw [getRangePts_eq]; exact hlx
  · rw [getRangePts_eq]; exact hly
  · rw [getRangePts_eq]
  · rw [getRangePts_eq]; simp
  · rw [getRange_eq]
    by_cases hk : numQualifying net skip nd = 0
    · simp [hk]
    · simp only [hk, if_false, Option.isSome_some, true_iff]; omega
  · intro r h
    rw [getRange_eq] at h
    by_cases hk : numQualifying net skip nd = 0
    · simp [hk] at h
    · simp only [hk, if_false, Option.some.injEq] at h
      have hsx : ((endpointsX reset arch net skip nd (net.nodePins nd)).insertionSort
          (· ≤ ·)).length = 2 * numQualifying net skip nd := by
        rw [List.length_insertionSort, hlx]
      have hsy : ((endpointsY reset arch net skip nd (net.nodePins nd)).insertionSort
          (· ≤ ·)).length = 2 * numQualifying net skip nd := by
        rw [List.length_insertionSort, hly]
      refine ⟨(endpointsX reset arch net skip nd (net.nodePins nd)).insertionSort (· ≤ ·),
        (endpointsY reset arch net skip nd (net.nodePins nd)).insertionSort (· ≤ ·),
        List.sorted_insertionSort _ _, ?_, List.sorted_insertionSort _ _, ?_,
        by omega, by omega, by omega, ?_, ?_, ?_, ?_⟩
      · rw [getRangePts_eq]; exact List.perm_insertionSort _ _
      · rw [getRangePts_eq]; exact List.perm_insertionSort _ _
      · rw [getD_eq_getElem? _ _ (by omega), ← h]
      · rw [getD_eq_getElem? _ _ (by omega), ← h]
      · rw [getD_eq_getElem? _ _ (by omega), ← h]
      · rw [getD_eq_getElem? _ _ (by omega), ← h]

theorem numQualifying_eq_zero_iff (net : Network) (skip : Int) (nd : Nat) :
    numQualifying net skip nd = 0 ↔
      ¬ ∃ pin ∈ net.nodePins nd,
        2 ≤ (net.edgePins pin.edgeId).length ∧
        ((net.edgePins pin.edgeId).length : Int) ≤ skip ∧
        ∃ q ∈ net.edgePins pin.edgeId, q.nodeId ≠ nd := by
  unfold numQualifying
  rw [List.length_eq_zero, List.filter_eq_nil_iff]
  constructor
  · intro h ⟨pin, hp, h1, h2, q, hq, hne⟩
    apply h pin hp
    simp only [qualifies, Bool.and_eq_true, decide_eq_true_eq, List.any_eq_true]
    exact ⟨⟨h1, h2⟩, q, hq, hne⟩
  · intro h pin hp hq
    apply h
    simp only [qualifies, Bool.and_eq_true, decide_eq_true_eq, List.any_eq_true] at hq
    obtain ⟨⟨h1, h2⟩, q, hq, hne⟩ := hq
    exact ⟨pin, hp, h1, h2, q, hq, hne⟩

theorem getRange_none_aux (reset : Rectangle) (arch : Architecture) (net : Network)
    (skip : Int) (nd : Nat) :
    (getRange reset arch net skip nd = none ↔ (getRangePts reset arch net skip nd).t < 2) ∧
    (getRange reset arch net skip nd = none ↔
      (getRangePts reset arch net skip nd).xpts.length < 2) ∧
    (getRange reset arch net skip nd = none ↔ numQualifying net skip nd = 0) := by
  have hlx := endpointsX_length reset arch net skip nd (net.nodePins nd)
  have hk2 : ((net.nodePins nd).filter (qualifies net skip nd)).length
      = numQualifying net skip nd := rfl
  rw [hk2] at hlx
  have key : getRange reset arch net skip nd = none ↔ numQualifying net skip nd = 0 := by
    rw [getRange_eq]
    by_cases hk : numQualifying net skip nd = 0
    · simp [hk]
    · simp [hk]
  refine ⟨?_, ?_, key⟩
  · rw [key, getRangePts_eq]; simp only; omega
  · rw [key, getRangePts_eq]; simp only; omega

/-- C5 (no region).  With the threshold at its constructed value 100, `getRange`
returns `false` if and only if fewer than 2 endpoints were collected (`t < 2`,
equivalently fewer than two entries in `m_xpts`), if and only if the node has no
pin whose net has between 2 and 100 pins and carries a pin of a different node; in
every other case it returns `true` with a rectangle.  Stated for the global
generator (any `Rectangle::reset` value) and for the vertical one. -/
theorem getRange_false_iff (reset : Rectangle) (arch : Architecture) (net : Network)
    (g : DetailedSwap) (nd : Nat) (hT : g.m_skipNetsLargerThanThis = 100) :
    ((DetailedGlobalSwap.getRange reset arch net g nd = none ↔
        (getRangePts reset arch net 100 nd).t < 2) ∧
     (DetailedGlobalSwap.getRange reset arch net g nd = none ↔
        (getRangePts reset arch net 100 nd).xpts.length < 2) ∧
     (DetailedGlobalSwap.getRange reset arch net g nd = none ↔
        ¬ ∃ pin ∈ net.nodePins nd,
          2 ≤ (net.edgePins pin.edgeId).length ∧ (net.edgePins pin.edgeId).length ≤ 100 ∧
          ∃ q ∈ net.edgePins pin.edgeId, q.nodeId ≠ nd) ∧
     (DetailedGlobalSwap.getRange reset arch net g nd ≠ none →
        ∃ r, DetailedGlobalSwap.getRange reset arch net g nd = some r)) ∧
    ((DetailedVerticalSwap.getRange arch net g nd = none ↔
        (getRangePts (Rectangle.sentinel FLT_MAX) arch net 100 nd).t < 2) ∧
     (DetailedVerticalSwap.getRange arch net g nd = none ↔
        ¬ ∃ pin ∈ net.nodePins nd,
          2 ≤ (net.edgePins pin.edgeId).length ∧ (net.edgePins pin.edgeId).length ≤ 100 ∧
          ∃ q ∈ net.edgePins pin.edgeId, q.nodeId ≠ nd) ∧
     (DetailedVerticalSwap.getRange arch net g nd ≠ none →
        ∃ r, DetailedVerticalSwap.getRange arch net g nd = some r)) := by
  have conv : ∀ n : Nat, ((n : Int) ≤ 100) ↔ n ≤ 100 := by intro n; omega
  unfold DetailedGlobalSwap.getRange DetailedVerticalSwap.getRange
  rw [hT]
  have h1 := getRange_none_aux reset arch net 100 nd
  have h2 := getRange_none_aux (Rectangle.sentinel FLT_MAX) arch net 100 nd
  have hq := numQualifying_eq_zero_iff net 100 nd
  simp only [conv] at hq
  refine ⟨⟨h1.1, h1.2.1, ?_, ?_⟩, ⟨h2.1, ?_, ?_⟩⟩
  · rw [h1.2.2, hq]
  · intro h; exact Option.ne_none_iff_exists'.mp h
  · rw [h2.2.2, hq]
  · intro h; exact Option.ne_none_iff_exists'.mp h

/-- Witness for C5 on the example network: node 7 has no pin, so there is no
region; node 0 has two qualifying pins, so there is one. -/
theorem getRange_false_iff_witness :
    exGen.m_skipNetsLargerThanThis = 100 ∧
    DetailedGlobalSwap.getRange (Rectangle.sentinel DBL_MAX) exArch exNet exGen 7 = none ∧
    ∃ r, DetailedGlobalSwap.getRange (Rectangle.sentinel DBL_MAX) exArch exNet exGen 0
      = some r :=
  ⟨rfl,
   (getRange_false_iff (Rectangle.sentinel DBL_MAX) exArch exNet exGen 7 rfl).1.2.2.1.mpr
     (by simp [exNet]),
   (getRange_false_iff (Rectangle.sentinel DBL_MAX) exArch exNet exGen 0 rfl).1.2.2.2
     (by decide!)⟩

/-! ## Facts about delta -/

theorem foldl_min_sentinel (l : List ℚ) (hne : l ≠ []) (M : ℚ) (h : ∀ v ∈ l, v ≤ M) :
    l.foldl min M = lo l := by
  cases l with
  | nil => exact absurd rfl hne
  | cons a l =>
    simp only [List.foldl_cons, lo]
    rw [min_eq_right (h a (List.mem_cons_self a l))]

theorem foldl_max_sentinel (l : List ℚ) (hne : l ≠ []) (M : ℚ) (h : ∀ v ∈ l, M ≤ v) :
    l.foldl max M = hi l := by
  cases l with
  | nil => exact absurd rfl hne
  | cons a l =>
    simp only [List.foldl_cons, hi]
    rw [max_eq_right (h a (List.mem_cons_self a l))]

theorem edgeBoxes_fold (cur new : Pin → ℚ × ℚ) (l : List Pin) (acc : Rectangle × Rectangle) :
    l.foldl
      (fun (acc : Rectangle × Rectangle) (pinj : Pin) =>
        (acc.1.extend (cur pinj).1 (cur pinj).2, acc.2.extend (new pinj).1 (new pinj).2)) acc
    = (⟨(l.map (fun p => (cur p).1)).foldl min acc.1.xmin,
        (l.map (fun p => (cur p).1)).foldl max acc.1.xmax,
        (l.map (fun p => (cur p).2)).foldl min acc.1.ymin,
        (l.map (fun p => (cur p).2)).foldl max acc.1.ymax⟩,
       ⟨(l.map (fun p => (new p).1)).foldl min acc.2.xmin,
        (l.map (fun p => (new p).1)).foldl max acc.2.xmax,
        (l.map (fun p => (new p).2)).foldl min acc.2.ymin,
        (l.map (fun p => (new p).2)).foldl max acc.2.ymax⟩) := by
  induction l generalizing acc with
  | nil => rfl
  | cons p l ih =>
    rw [List.foldl_cons, ih]
    simp [Rectangle.extend]

/-- The inner loop computes the half-perimeter of the net at the current and at
the hypothetical positions, provided the net has a pin and all positions are
finite doubles. -/
theorem edgeBoxes_halfPerim (net : Network) (newXY : Pin → ℚ × ℚ) (e : Nat)
    (hne : net.edgePins e ≠ [])
    (hfin : ∀ p ∈ net.edgePins e, FiniteXY (curXY net p) ∧ FiniteXY (newXY p)) :
    (edgeBoxes net newXY e).1.halfPerim = hpwlAt (net.edgePins e) (curXY net) ∧
    (edgeBoxes net newXY e).2.halfPerim = hpwlAt (net.edgePins e) newXY := by
  unfold edgeBoxes
  rw [edgeBoxes_fold]
  have hne1 : ∀ f : Pin → ℚ, (net.edgePins e).map f ≠ [] := by
    intro f; simpa using hne
  simp only [Rectangle.sentinel, Rectangle.halfPerim, hpwlAt]
  rw [foldl_min_sentinel _ (hne1 _) DBL_MAX, foldl_max_sentinel _ (hne1 _) (-DBL_MAX),
    foldl_min_sentinel _ (hne1 _) DBL_MAX, foldl_max_sentinel _ (hne1 _) (-DBL_MAX),
    foldl_min_sentinel _ (hne1 _) DBL_MAX, foldl_max_sentinel _ (hne1 _) (-DBL_MAX),
    foldl_min_sentinel _ (hne1 _) DBL_MAX, foldl_max_sentinel _ (hne1 _) (-DBL_MAX)]
  · constructor <;> ring
  all_goals
    intro v hv
    simp only [List.mem_map] at hv
    obtain ⟨p, hp, rfl⟩ := hv
    have := hfin p hp
    simp only [FiniteXY] at this
    tauto

/-- The pin loop of `delta` visits each net that passes the size filter and is not
yet stamped exactly once: the accumulators grow by the sum over the set of those
nets, and exactly those nets receive the stamp. -/
theorem visitPin_fold (net : Network) (skip trav : Int) (newXY : Pin → ℚ × ℚ)
    (l : List Pin) (acc : WlAcc) :
    (l.foldl (visitPin net skip trav newXY) acc).old_wl =
        acc.old_wl + ∑ e in ((l.map Pin.edgeId).toFinset.filter
          (fun e => passesDeltaFilter net skip e ∧ acc.mask e ≠ trav)),
          (edgeBoxes net newXY e).1.halfPerim ∧
    (l.foldl (visitPin net skip trav newXY) acc).new_wl =
        acc.new_wl + ∑ e in ((l.map Pin.edgeId).toFinset.filter
          (fun e => passesDeltaFilter net skip e ∧ acc.mask e ≠ trav)),
          (edgeBoxes net newXY e).2.halfPerim ∧
    ∀ e, (l.foldl (visitPin net skip trav newXY) acc).mask e =
        if e ∈ (l.map Pin.edgeId).toFinset ∧ passesDeltaFilter net skip e ∧ acc.mask e ≠ trav
        then trav else acc.mask e := by
  induction l generalizing acc with
  | nil => simp
  | cons p l ih =>
    rw [List.foldl_cons]
    by_cases hvis : passesDeltaFilter net skip p.edgeId ∧ acc.mask p.edgeId ≠ trav
    · -- the net is visited now
      have hstep : visitPin net skip trav newXY acc p =
          ⟨Function.update acc.mask p.edgeId trav,
           acc.old_wl + (edgeBoxes net newXY p.edgeId).1.halfPerim,
           acc.new_wl + (edgeBoxes net newXY p.edgeId).2.halfPerim⟩ := by
        have h1 := hvis.1
        unfold passesDeltaFilter at h1
        unfold visitPin
        simp only [h1, hvis.2, if_false]
      rw [hstep]
      obtain ⟨ih1, ih2, ih3⟩ := ih
        ⟨Function.update acc.mask p.edgeId trav,
         acc.old_wl + (edgeBoxes net newXY p.edgeId).1.halfPerim,
         acc.new_wl + (edgeBoxes net newXY p.edgeId).2.halfPerim⟩
      have hset : ((p :: l).map Pin.edgeId).toFinset.filter
            (fun e => passesDeltaFilter net skip e ∧ acc.mask e ≠ trav)
          = insert p.edgeId ((l.map Pin.edgeId).toFinset.filter
            (fun e => passesDeltaFilter net skip e ∧
              Function.update acc.mask p.edgeId trav e ≠ trav)) := by
        ext e
        simp only [List.map_cons, List.toFinset_cons, Finset.mem_filter, Finset.mem_insert,
          Function.update_apply]
        by_cases he : e = p.edgeId
        · subst he; simp [hvis.1, hvis.2]
        · simp [he]
      have hnotin : p.edgeId ∉ (l.map Pin.edgeId).toFinset.filter
            (fun e => passesDeltaFilter net skip e ∧
              Function.update acc.mask p.edgeId trav e ≠ trav) := by
        simp [Finset.mem_filter]
      refine ⟨?_, ?_, ?_⟩
      · rw [ih1, hset, Finset.sum_insert hnotin]; simp only; ring
      · rw [ih2, hset, Finset.sum_insert hnotin]; simp only; ring
      · intro e
        rw [ih3 e]
        simp only [List.map_cons, List.toFinset_cons, Finset.mem_insert, Function.update_apply]
        by_cases he : e = p.edgeId
        · subst he; simp [hvis.1, hvis.2]
        · simp [he]
    · -- the net is skipped: filtered out or already stamped
      have hstep : visitPin net skip trav newXY acc p = acc := by
        unfold visitPin
        by_cases h1 : passesDeltaFilter net skip p.edgeId
        · have h2 : acc.mask p.edgeId = trav := by
            by_contra h2; exact hvis ⟨h1, h2⟩
          unfold passesDeltaFilter at h1
          simp only [h1, h2, if_false, if_true]
        · unfold passesDeltaFilter at h1
          simp only [not_not] at h1
          simp only [h1, if_true]
      rw [hstep]
      obtain ⟨ih1, ih2, ih3⟩ := ih acc
      have hset : ((p :: l).map Pin.edgeId).toFinset.filter
            (fun e => passesDeltaFilter net skip e ∧ acc.mask e ≠ trav)
          = (l.map Pin.edgeId).toFinset.filter
            (fun e => passesDeltaFilter net skip e ∧ acc.mask e ≠ trav) := by
        ext e
        simp only [List.map_cons, List.toFinset_cons, Finset.mem_filter, Finset.mem_insert]
        constructor
        · rintro ⟨he | he, h2⟩
          · subst he; exact absurd h2 hvis
          · exact ⟨he, h2⟩
        · rintro ⟨he, h2⟩
          exact ⟨Or.inr he, h2⟩
      refine ⟨?_, ?_, ?_⟩
      · rw [ih1, hset]
      · rw [ih2, hset]
      · intro e
        rw [ih3 e]
        simp only [List.map_cons, List.toFinset_cons, Finset.mem_insert]
        by_cases he : e = p.edgeId
        · rw [he, if_neg (fun h => hvis h.2), if_neg (fun h => hvis h.2)]
        · simp [he]

theorem swappedXY_eq_exchangedXY (net : Network) (a b : Nat) (p : Pin) :
    swappedXY net a b p = exchangedXY net a b p := by
  unfold swappedXY exchangedXY curXY
  by_cases h1 : p.nodeId = a
  · simp [h1]
  · by_cases h2 : p.nodeId = b
    · have h3 : ¬ b = a := h2 ▸ h1
      simp [h2, h3]
    · simp [h1, h2]

theorem mem_touchedNets (net : Network) (nds : List Nat) (e : Nat) :
    e ∈ touchedNets net nds ↔ ∃ n ∈ nds, ∃ p ∈ net.nodePins n, p.edgeId = e := by
  simp [touchedNets, List.mem_flatMap]
  constructor
  · rintro ⟨p, ⟨n, hn, hp⟩, he⟩; exact ⟨n, hn, p, hp, he⟩
  · rintro ⟨n, hn, p, hp, he⟩; exact ⟨p, ⟨n, hn, hp⟩, he⟩

/-- In a consistent netlist the nets reached from the pins of the listed nodes are
the nets that carry a pin of one of them. -/
theorem mem_touchedNets_consistent (net : Network) (hc : net.Consistent) (nds : List Nat)
    (e : Nat) :
    e ∈ touchedNets net nds ↔ ∃ p ∈ net.edgePins e, p.nodeId ∈ nds := by
  rw [mem_touchedNets]
  constructor
  · rintro ⟨n, hn, p, hp, he⟩
    have := hc.1 n p hp
    exact ⟨p, he ▸ this.2, this.1 ▸ hn⟩
  · rintro ⟨p, hp, hn⟩
    have := hc.2 e p hp
    exact ⟨p.nodeId, hn, p, this.2.2, this.1⟩

/-- The value of either `delta` variant, for a list of pins visited with fresh
marks: the sum over the set of nets reached that pass the size filter of the
half-perimeter at the current positions minus the one at the new positions. -/
theorem visit_value (net : Network) (skip trav : Int) (newXY : Pin → ℚ × ℚ)
    (l : List Pin) (mask : Nat → Int) (hmask : ∀ e, mask e ≠ trav)
    (hfin : ∀ e ∈ (l.map Pin.edgeId).toFinset, ∀ p ∈ net.edgePins e,
      FiniteXY (curXY net p) ∧ FiniteXY (newXY p)) :
    (l.foldl (visitPin net skip trav newXY) ⟨mask, 0, 0⟩).old_wl -
      (l.foldl (visitPin net skip trav newXY) ⟨mask, 0, 0⟩).new_wl =
    ∑ e in (l.map Pin.edgeId).toFinset.filter (passesDeltaFilter net skip),
      (hpwlAt (net.edgePins e) (curXY net) - hpwlAt (net.edgePins e) newXY) := by
  obtain ⟨h1, h2, -⟩ := visitPin_fold net skip trav newXY l ⟨mask, 0, 0⟩
  rw [h1, h2]
  have hS : (l.map Pin.edgeId).toFinset.filter
        (fun e => passesDeltaFilter net skip e ∧ mask e ≠ trav)
      = (l.map Pin.edgeId).toFinset.filter (passesDeltaFilter net skip) := by
    apply Finset.filter_congr
    intro e _
    simp [hmask e]
  simp only [hS, zero_add]
  rw [← Finset.sum_sub_distrib]
  apply Finset.sum_congr rfl
  intro e he
  rw [Finset.mem_filter] at he
  have hne : net.edgePins e ≠ [] := by
    intro h0
    have := he.2
    unfold passesDeltaFilter at this
    rw [h0] at this
    simp at this
  obtain ⟨e1, e2⟩ := edgeBoxes_halfPerim net newXY e hne (hfin e he.1)
  rw [e1, e2]

/-- C1 at its failing input.  A net of exactly 100 pins, node 0 moved from x = 0 to
x = 10 where all its neighbours are: the total wirelength over the nets of 2 to 100
pins drops from 10 to 0, but `delta` skips the net (`npins >= 100`) and returns 0,
so `W_after = 0` whereas `W_before - delta = 10`.  `getRange` does count this net
(`numPins > 100` is false) and reports a region for the node. -/
theorem delta_skips_net_of_100_pins :
    (∀ e, exGen.m_edgeMask e = 0) ∧ exGen.m_traversal = 0 ∧
    exGen.m_skipNetsLargerThanThis = 100 ∧
    (net100.edgePins 0).length = 100 ∧
    (delta exGen net100 0 10 0).1 = 0 ∧
    totalHpwl net100 100 = 10 ∧
    totalHpwl (net100.setOrigin 0 10 0) 100 = 0 ∧
    totalHpwl (net100.setOrigin 0 10 0) 100 ≠ totalHpwl net100 100 - (delta exGen net100 0 10 0).1 ∧
    DetailedGlobalSwap.getRange (Rectangle.sentinel DBL_MAX) exArch net100 exGen 0
      = some ⟨10, 10, 0, 0⟩ := by
  refine ⟨fun _ => rfl, rfl, rfl, by decide!, by decide!, by decide!, by decide!, by decide!,
    by decide!⟩

/-! ## Facts about generate -/

/-- C6 (idempotence of no-op).  If `getRange` yields a region and the node's
current `(x, y)` satisfies `xmin ≤ x ≤ xmax` and `ymin ≤ y ≤ ymax`, boundaries
included, then `generate` returns `false`, issues no `tryMove1`, `tryMove2` or
`trySwap1` request, and leaves the generator (its move, swap and attempt counters
in particular) and the manager as they were.  Stated for the unrestricted
generator and for the row-window-restricted one. -/
theorem generate_inside_region_noop {σ : Type} (ops : DetailedMgr σ) (reset : Rectangle)
    (arch : Architecture) (net : Network) (g : DetailedSwap) (s : σ) (ndi : Nat) :
    (∀ r, DetailedGlobalSwap.getRange reset arch net g ndi = some r →
      r.xmin ≤ (net.nodes ndi).x → (net.nodes ndi).x ≤ r.xmax →
      r.ymin ≤ (net.nodes ndi).y → (net.nodes ndi).y ≤ r.ymax →
      (DetailedGlobalSwap.generate ops reset arch net g s ndi).result = false ∧
      (DetailedGlobalSwap.generate ops reset arch net g s ndi).trace = [] ∧
      (DetailedGlobalSwap.generate ops reset arch net g s ndi).gen.m_moves = g.m_moves ∧
      (DetailedGlobalSwap.generate ops reset arch net g s ndi).gen.m_swaps = g.m_swaps ∧
      (DetailedGlobalSwap.generate ops reset arch net g s ndi).gen = g ∧
      (DetailedGlobalSwap.generate ops reset arch net g s ndi).mgr = s) ∧
    (∀ r, DetailedVerticalSwap.getRange arch net g ndi = some r →
      r.xmin ≤ (net.nodes ndi).x → (net.nodes ndi).x ≤ r.xmax →
      r.ymin ≤ (net.nodes ndi).y → (net.nodes ndi).y ≤ r.ymax →
      (DetailedVerticalSwap.generate ops arch net g s ndi).result = false ∧
      (DetailedVerticalSwap.generate ops arch net g s ndi).trace = [] ∧
      (DetailedVerticalSwap.generate ops arch net g s ndi).gen.m_moves = g.m_moves ∧
      (DetailedVerticalSwap.generate ops arch net g s ndi).gen.m_swaps = g.m_swaps ∧
      (DetailedVerticalSwap.generate ops arch net g s ndi).gen = g ∧
      (DetailedVerticalSwap.generate ops arch net g s ndi).mgr = s) := by
  constructor
  · intro r hr h1 h2 h3 h4
    have ht : DetailedGlobalSwap.target ops reset arch net g s ndi = none := by
      unfold DetailedGlobalSwap.target
      simp only [hr]
      rw [if_pos ⟨h1, h2, h3, h4⟩]
    unfold DetailedGlobalSwap.generate
    rw [ht]
    exact ⟨rfl, rfl, rfl, rfl, rfl, rfl⟩
  · intro r hr h1 h2 h3 h4
    have ht : DetailedVerticalSwap.target ops arch net g s ndi = (none, s) := by
      unfold DetailedVerticalSwap.target
      simp only [hr]
      rw [if_pos ⟨h1, h2, h3, h4⟩]
    unfold DetailedVerticalSwap.generate
    rw [ht]
    exact ⟨rfl, rfl, rfl, rfl, rfl, rfl⟩

/-- Witness for C6: node 1 of the example network, moved to (0, 0) where the pin of
its only neighbour (node 0) is; its optimal region is that single point, so the
node lies on the region's boundary and nothing is requested. -/
theorem generate_inside_region_noop_witness :
    DetailedGlobalSwap.getRange (Rectangle.sentinel DBL_MAX) exArch
        (exNet.setOrigin 1 0 0) exGen 1 = some ⟨0, 0, 0, 0⟩ ∧
    (DetailedGlobalSwap.generate exMgr (Rectangle.sentinel DBL_MAX) exArch
        (exNet.setOrigin 1 0 0) exGen 0 1).result = false ∧
    (DetailedGlobalSwap.generate exMgr (Rectangle.sentinel DBL_MAX) exArch
        (exNet.setOrigin 1 0 0) exGen 0 1).trace = [] :=
  ⟨by decide!,
   ((generate_inside_region_noop exMgr (Rectangle.sentinel DBL_MAX) exArch
      (exNet.setOrigin 1 0 0) exGen 0 1).1 ⟨0, 0, 0, 0⟩ (by decide!) (by decide!) (by decide!)
      (by decide!) (by decide!)).1,
   ((generate_inside_region_noop exMgr (Rectangle.sentinel DBL_MAX) exArch
      (exNet.setOrigin 1 0 0) exGen 0 1).1 ⟨0, 0, 0, 0⟩ (by decide!) (by decide!) (by decide!)
      (by decide!) (by decide!)).2.1⟩

/-- The three possible outcomes of the fallback chain. -/
theorem attemptMoveSwap_cases {σ : Type} (ops : DetailedMgr σ) (g : DetailedSwap) (s : σ)
    (a : MoveArgs) :
    ∃ rq : Request, ∃ mv : Bool × σ,
      ((a.si ≠ a.sj ∧ rq = Request.tryMove1 a ∧ mv = ops.tryMove1 s a) ∨
       (a.si = a.sj ∧ rq = Request.tryMove2 a ∧ mv = ops.tryMove2 s a)) ∧
      ((mv.1 = true ∧
          (attemptMoveSwap ops g s a).result = true ∧
          (attemptMoveSwap ops g s a).trace = [(rq, true)] ∧
          (attemptMoveSwap ops g s a).gen = { g with m_moves := g.m_moves + 1 } ∧
          (attemptMoveSwap ops g s a).mgr = mv.2) ∨
       (mv.1 = false ∧ (ops.trySwap1 mv.2 a).1 = true ∧
          (attemptMoveSwap ops g s a).result = true ∧
          (attemptMoveSwap ops g s a).trace = [(rq, false), (Request.trySwap1 a, true)] ∧
          (attemptMoveSwap ops g s a).gen = { g with m_swaps := g.m_swaps + 1 } ∧
          (attemptMoveSwap ops g s a).mgr = (ops.trySwap1 mv.2 a).2) ∨
       (mv.1 = false ∧ (ops.trySwap1 mv.2 a).1 = false ∧
          (attemptMoveSwap ops g s a).result = false ∧
          (attemptMoveSwap ops g s a).trace = [(rq, false), (Request.trySwap1 a, false)] ∧
          (attemptMoveSwap ops g s a).gen = g ∧
          (attemptMoveSwap ops g s a).mgr = (ops.trySwap1 mv.2 a).2)) := by
  by_cases hs : a.si ≠ a.sj
  · refine ⟨Request.tryMove1 a, ops.tryMove1 s a, Or.inl ⟨hs, rfl, rfl⟩, ?_⟩
    unfold attemptMoveSwap
    simp only [hs, if_true, ne_eq, not_false_eq_true]
    cases h1 : (ops.tryMove1 s a).1
    · cases h2 : (ops.trySwap1 (ops.tryMove1 s a).2 a).1
      · simp
      · simp
    · simp
  · have hs2 : a.si = a.sj := not_not.mp hs
    refine ⟨Request.tryMove2 a, ops.tryMove2 s a, Or.inr ⟨hs2, rfl, rfl⟩, ?_⟩
    unfold attemptMoveSwap
    simp only [hs, if_false]
    cases h1 : (ops.tryMove2 s a).1
    · cases h2 : (ops.trySwap1 (ops.tryMove2 s a).2 a).1
      · simp
      · simp
    · simp

/-- Every request of the fallback chain carries the argument tuple it was given. -/
theorem attemptMoveSwap_args {σ : Type} (ops : DetailedMgr σ) (g : DetailedSwap) (s : σ)
    (a : MoveArgs) :
    ∀ e ∈ (attemptMoveSwap ops g s a).trace, e.1.args = a := by
  obtain ⟨rq, mv, hrq, hcase⟩ := attemptMoveSwap_cases ops g s a
  have hargs : rq.args = a := by
    rcases hrq with ⟨-, h, -⟩ | ⟨-, h, -⟩ <;> rw [h] <;> rfl
  intro e he
  rcases hcase with ⟨-, -, ht, -⟩ | ⟨-, -, -, ht, -⟩ | ⟨-, -, -, ht, -⟩
  · rw [ht] at he; simp at he; rw [he]; exact hargs
  · rw [ht] at he; simp at he
    rcases he with he | he
    · rw [he]; exact hargs
    · rw [he]; rfl
  · rw [ht] at he; simp at he
    rcases he with he | he
    · rw [he]; exact hargs
    · rw [he]; rfl

/-- The region-id check: on a mismatch nothing is requested, and every request that
is issued names a target segment whose region-id is the node's. -/
theorem finishGenerate_region {σ : Type} (ops : DetailedMgr σ) (net : Network)
    (g : DetailedSwap) (s : σ) (a : MoveArgs) :
    ((net.nodes a.nd).regionId ≠ (ops.m_segments s a.sj).regId →
      (finishGenerate ops net g s a).result = false ∧
      (finishGenerate ops net g s a).trace = [] ∧
      (finishGenerate ops net g s a).gen = g ∧
      (finishGenerate ops net g s a).mgr = s) ∧
    (∀ e ∈ (finishGenerate ops net g s a).trace,
      e.1.args = a ∧ (ops.m_segments s e.1.args.sj).regId = (net.nodes a.nd).regionId) := by
  constructor
  · intro h
    unfold finishGenerate
    rw [if_pos h]
    exact ⟨rfl, rfl, rfl, rfl⟩
  · intro e he
    unfold finishGenerate at he
    by_cases h : (net.nodes a.nd).regionId ≠ (ops.m_segments s a.sj).regId
    · rw [if_pos h] at he; simp at he
    · rw [if_neg h] at he
      have := attemptMoveSwap_args ops g s a e he
      refine ⟨this, ?_⟩
      rw [this]
      exact (not_not.mp h).symm

theorem global_target_nd {σ : Type} (ops : DetailedMgr σ) (reset : Rectangle)
    (arch : Architecture) (net : Network) (g : DetailedSwap) (s : σ) (ndi : Nat)
    (a : MoveArgs) (h : DetailedGlobalSwap.target ops reset arch net g s ndi = some a) :
    a.nd = ndi := by
  unfold DetailedGlobalSwap.target at h
  dsimp only at h
  repeat' split at h
  all_goals first
    | (simp only [Option.some.injEq] at h; rw [← h])
    | (simp at h)

theorem vertical_target_nd {σ : Type} (ops : DetailedMgr σ)
    (arch : Architecture) (net : Network) (g : DetailedSwap) (s : σ) (ndi : Nat)
    (a : MoveArgs) (h : (DetailedVerticalSwap.target ops arch net g s ndi).1 = some a) :
    a.nd = ndi := by
  unfold DetailedVerticalSwap.target at h
  dsimp only at h
  repeat' split at h
  all_goals first
    | (simp only [Option.some.injEq] at h; rw [← h])
    | (simp at h)

theorem global_generate_of_target {σ : Type} (ops : DetailedMgr σ)
    (reset : Rectangle) (arch : Architecture) (net : Network) (g : DetailedSwap) (s : σ)
    (ndi : Nat) (a : MoveArgs)
    (h : DetailedGlobalSwap.target ops reset arch net g s ndi = some a) :
    DetailedGlobalSwap.generate ops reset arch net g s ndi = finishGenerate ops net g s a := by
  unfold DetailedGlobalSwap.generate
  rw [h]

theorem global_generate_of_no_target {σ : Type} (ops : DetailedMgr σ)
    (reset : Rectangle) (arch : Architecture) (net : Network) (g : DetailedSwap) (s : σ)
    (ndi : Nat) (h : DetailedGlobalSwap.target ops reset arch net g s ndi = none) :
    DetailedGlobalSwap.generate ops reset arch net g s ndi = ⟨false, g, s, []⟩ := by
  unfold DetailedGlobalSwap.generate
  rw [h]

theorem vertical_generate_of_target {σ : Type} (ops : DetailedMgr σ)
    (arch : Architecture) (net : Network) (g : DetailedSwap) (s : σ)
    (ndi : Nat) (a : MoveArgs)
    (h : (DetailedVerticalSwap.target ops arch net g s ndi).1 = some a) :
    DetailedVerticalSwap.generate ops arch net g s ndi =
      finishGenerate ops net g (DetailedVerticalSwap.target ops arch net g s ndi).2 a := by
  unfold DetailedVerticalSwap.generate
  rcases hx : DetailedVerticalSwap.target ops arch net g s ndi with ⟨o, s1⟩
  rw [hx] at h
  simp only at h
  subst h
  rfl

theorem vertical_generate_of_no_target {σ : Type} (ops : DetailedMgr σ)
    (arch : Architecture) (net : Network) (g : DetailedSwap) (s : σ)
    (ndi : Nat) (h : (DetailedVerticalSwap.target ops arch net g s ndi).1 = none) :
    DetailedVerticalSwap.generate ops arch net g s ndi =
      ⟨false, g, (DetailedVerticalSwap.target ops arch net g s ndi).2, []⟩ := by
  unfold DetailedVerticalSwap.generate
  rcases hx : DetailedVerticalSwap.target ops arch net g s ndi with ⟨o, s1⟩
  rw [hx] at h
  simp only at h
  subst h
  rfl

/-- C7 (region mismatch rejection).  In both generators, whenever the target
segment `sj` resolved for the target point has a region-id different from the
node's, `generate` returns `false`, issues no request and leaves the counters
alone; and every `tryMove1` / `tryMove2` / `trySwap1` request that `generate`
issues names a target segment whose region-id equals the node's.  (In the vertical
generator the segment tables are read after the random source has been advanced,
hence the manager state `(target ..).2`.) -/
theorem generate_region_mismatch {σ : Type} (ops : DetailedMgr σ) (reset : Rectangle)
    (arch : Architecture) (net : Network) (g : DetailedSwap) (s : σ) (ndi : Nat) :
    ((∀ a, DetailedGlobalSwap.target ops reset arch net g s ndi = some a →
        (net.nodes ndi).regionId ≠ (ops.m_segments s a.sj).regId →
        (DetailedGlobalSwap.generate ops reset arch net g s ndi).result = false ∧
        (DetailedGlobalSwap.generate ops reset arch net g s ndi).trace = [] ∧
        (DetailedGlobalSwap.generate ops reset arch net g s ndi).gen = g) ∧
     (∀ e ∈ (DetailedGlobalSwap.generate ops reset arch net g s ndi).trace,
        (ops.m_segments s e.1.args.sj).regId = (net.nodes ndi).regionId)) ∧
    ((∀ a, (DetailedVerticalSwap.target ops arch net g s ndi).1 = some a →
        (net.nodes ndi).regionId ≠
          (ops.m_segments (DetailedVerticalSwap.target ops arch net g s ndi).2 a.sj).regId →
        (DetailedVerticalSwap.generate ops arch net g s ndi).result = false ∧
        (DetailedVerticalSwap.generate ops arch net g s ndi).trace = [] ∧
        (DetailedVerticalSwap.generate ops arch net g s ndi).gen = g) ∧
     (∀ e ∈ (DetailedVerticalSwap.generate ops arch net g s ndi).trace,
        (ops.m_segments (DetailedVerticalSwap.target ops arch net g s ndi).2
          e.1.args.sj).regId = (net.nodes ndi).regionId)) := by
  refine ⟨⟨?_, ?_⟩, ⟨?_, ?_⟩⟩
  · intro a ha hne
    rw [global_generate_of_target ops reset arch net g s ndi a ha]
    have hnd := global_target_nd ops reset arch net g s ndi a ha
    have := (finishGenerate_region ops net g s a).1 (by rw [hnd]; exact hne)
    exact ⟨this.1, this.2.1, this.2.2.1⟩
  · intro e he
    cases ha : DetailedGlobalSwap.target ops reset arch net g s ndi with
    | none =>
      rw [global_generate_of_no_target ops reset arch net g s ndi ha] at he
      simp at he
    | some a =>
      rw [global_generate_of_target ops reset arch net g s ndi a ha] at he
      have hnd := global_target_nd ops reset arch net g s ndi a ha
      have := ((finishGenerate_region ops net g s a).2 e he).2
      rw [hnd] at this
      exact this
  · intro a ha hne
    rw [vertical_generate_of_target ops arch net g s ndi a ha]
    have hnd := vertical_target_nd ops arch net g s ndi a ha
    have := (finishGenerate_region ops net g
      (DetailedVerticalSwap.target ops arch net g s ndi).2 a).1 (by rw [hnd]; exact hne)
    exact ⟨this.1, this.2.1, this.2.2.1⟩
  · intro e he
    cases ha : (DetailedVerticalSwap.target ops arch net g s ndi).1 with
    | none =>
      rw [vertical_generate_of_no_target ops arch net g s ndi ha] at he
      simp at he
    | some a =>
      rw [vertical_generate_of_target ops arch net g s ndi a ha] at he
      have hnd := vertical_target_nd ops arch net g s ndi a ha
      have := ((finishGenerate_region ops net g
        (DetailedVerticalSwap.target ops arch net g s ndi).2 a).2 e he).2
      rw [hnd] at this
      exact this

/-- Witness for C7: node 1 of the tall example, its neighbour moved to (0, 95); the
target point falls in row 9, whose segment has region-id 1 while the node has
region-id 0, and nothing is requested. -/
theorem generate_region_mismatch_witness :
    DetailedGlobalSwap.target exMgr (Rectangle.sentinel DBL_MAX) exArch
        (tallNet.setOrigin 0 0 95) exGen 0 1 = some ⟨1, 100, 0, 0, 0, 95, 9⟩ ∧
    ((tallNet.setOrigin 0 0 95).nodes 1).regionId ≠ (exMgr.m_segments 0 9).regId ∧
    (DetailedGlobalSwap.generate exMgr (Rectangle.sentinel DBL_MAX) exArch
        (tallNet.setOrigin 0 0 95) exGen 0 1).result = false ∧
    (DetailedGlobalSwap.generate exMgr (Rectangle.sentinel DBL_MAX) exArch
        (tallNet.setOrigin 0 0 95) exGen 0 1).trace = [] :=
  ⟨by decide!, by decide!,
   ((generate_region_mismatch exMgr (Rectangle.sentinel DBL_MAX) exArch
      (tallNet.setOrigin 0 0 95) exGen 0 1).1.1 ⟨1, 100, 0, 0, 0, 95, 9⟩
      (by decide!) (by decide!)).1,
   ((generate_region_mismatch exMgr (Rectangle.sentinel DBL_MAX) exArch
      (tallNet.setOrigin 0 0 95) exGen 0 1).1.1 ⟨1, 100, 0, 0, 0, 95, 9⟩
      (by decide!) (by decide!)).2.1⟩

theorem attemptMoveSwap_chain {σ : Type} (ops : DetailedMgr σ) (g : DetailedSwap) (s : σ)
    (a : MoveArgs) : FallbackChain ops s a (attemptMoveSwap ops g s a) := by
  obtain ⟨rq, mv, hrq, hcase⟩ := attemptMoveSwap_cases ops g s a
  have hsw : rq.isSwap = false := by
    rcases hrq with ⟨-, h, -⟩ | ⟨-, h, -⟩ <;> rw [h] <;> rfl
  have hs2 : (Request.trySwap1 a).isSwap = true := rfl
  refine ⟨rq, mv, hrq, ?_⟩
  rcases hcase with ⟨h1, hr, ht, -⟩ | ⟨h1, h2, hr, ht, -⟩ | ⟨h1, h2, hr, ht, -⟩
  · rw [ht, hr, h1]
    simp [hsw]
  · rw [ht, hr, h1, h2]
    simp [hsw, hs2, List.filter_cons]
  · rw [ht, hr, h1, h2]
    simp [hsw, hs2, List.filter_cons]

theorem attemptMoveSwap_counters {σ : Type} (ops : DetailedMgr σ) (g : DetailedSwap) (s : σ)
    (a : MoveArgs) : CounterContract g (attemptMoveSwap ops g s a) := by
  obtain ⟨rq, mv, hrq, hcase⟩ := attemptMoveSwap_cases ops g s a
  have hsw : rq.isSwap = false := by
    rcases hrq with ⟨-, h, -⟩ | ⟨-, h, -⟩ <;> rw [h] <;> rfl
  have hs2 : (Request.trySwap1 a).isSwap = true := rfl
  unfold CounterContract
  rcases hcase with ⟨h1, hr, ht, hg, -⟩ | ⟨h1, h2, hr, ht, hg, -⟩ | ⟨h1, h2, hr, ht, hg, -⟩
  · rw [ht, hr, hg]
    simp [hsw]
  · rw [ht, hr, hg]
    simp [hs2]
  · rw [ht, hr, hg]
    simp

theorem finishGenerate_counters {σ : Type} (ops : DetailedMgr σ) (net : Network)
    (g : DetailedSwap) (s : σ) (a : MoveArgs) :
    CounterContract g (finishGenerate ops net g s a) := by
  unfold finishGenerate
  by_cases h : (net.nodes a.nd).regionId ≠ (ops.m_segments s a.sj).regId
  · rw [if_pos h]; simp [CounterContract]
  · rw [if_neg h]; exact attemptMoveSwap_counters ops g s a

/-- C9 (fallback chain).  In both generators, once request arguments with a target
segment `sj` are resolved and the segment's region-id matches the node's,
`generate` issues exactly one move attempt (the cross-segment `tryMove1` when `sj`
differs from `si`, the same-segment `tryMove2` otherwise), issues `trySwap1` if
and only if that attempt was declined (so never after a successful move), and
returns `true` if and only if the move or the swap succeeded. -/
theorem generate_fallback_chain {σ : Type} (ops : DetailedMgr σ) (reset : Rectangle)
    (arch : Architecture) (net : Network) (g : DetailedSwap) (s : σ) (ndi : Nat) :
    (∀ a, DetailedGlobalSwap.target ops reset arch net g s ndi = some a →
      (net.nodes ndi).regionId = (ops.m_segments s a.sj).regId →
      FallbackChain ops s a (DetailedGlobalSwap.generate ops reset arch net g s ndi)) ∧
    (∀ a, (DetailedVerticalSwap.target ops arch net g s ndi).1 = some a →
      (net.nodes ndi).regionId =
        (ops.m_segments (DetailedVerticalSwap.target ops arch net g s ndi).2 a.sj).regId →
      FallbackChain ops (DetailedVerticalSwap.target ops arch net g s ndi).2 a
        (DetailedVerticalSwap.generate ops arch net g s ndi)) := by
  constructor
  · intro a ha hreg
    rw [global_generate_of_target ops reset arch net g s ndi a ha]
    have hnd := global_target_nd ops reset arch net g s ndi a ha
    unfold finishGenerate
    rw [if_neg (by rw [hnd]; exact not_not.mpr hreg)]
    exact attemptMoveSwap_chain ops g s a
  · intro a ha hreg
    rw [vertical_generate_of_target ops arch net g s ndi a ha]
    have hnd := vertical_target_nd ops arch net g s ndi a ha
    unfold finishGenerate
    rw [if_neg (by rw [hnd]; exact not_not.mpr hreg)]
    exact attemptMoveSwap_chain ops g _ a

/-- Witness for C9: node 0 of the example network under the global generator.  The
target segment is segment 2, not the node's segment 0, so one `tryMove1` is issued;
the manager accepts it, no swap follows and the result is `true`. -/
theorem generate_fallback_chain_witness :
    DetailedGlobalSwap.target exMgr (Rectangle.sentinel DBL_MAX) exArch exNet exGen 0 0
      = some ⟨0, 0, 0, 0, 149 / 2, 25, 2⟩ ∧
    (DetailedGlobalSwap.generate exMgr (Rectangle.sentinel DBL_MAX) exArch exNet exGen 0
      0).trace = [(Request.tryMove1 ⟨0, 0, 0, 0, 149 / 2, 25, 2⟩, true)] ∧
    FallbackChain exMgr 0 ⟨0, 0, 0, 0, 149 / 2, 25, 2⟩
      (DetailedGlobalSwap.generate exMgr (Rectangle.sentinel DBL_MAX) exArch exNet exGen 0 0) :=
  ⟨by decide!, by decide!,
   (generate_fallback_chain exMgr (Rectangle.sentinel DBL_MAX) exArch exNet exGen 0 0).1
     ⟨0, 0, 0, 0, 149 / 2, 25, 2⟩ (by decide!) (by decide!)⟩

/-- C10 (counters).  A call `generate(node)` of either generator never changes
`m_attempts`; it leaves `(m_moves, m_swaps)` unchanged when it returns `false`,
adds exactly `(1, 0)` when it returns `true` through an accepted move and exactly
`(0, 1)` when it returns `true` through an accepted swap.  A call
`generate(mgr, candidates)` with a non-empty candidate list returns, and leaves
`m_attempts` increased by exactly one. -/
theorem generate_counters {σ : Type} (ops : DetailedMgr σ) (reset : Rectangle)
    (arch : Architecture) (net : Network) (g : DetailedSwap) (s : σ) (ndi : Nat)
    (candidates : List Nat) :
    CounterContract g (DetailedGlobalSwap.generate ops reset arch net g s ndi) ∧
    CounterContract g (DetailedVerticalSwap.generate ops arch net g s ndi) ∧
    (∀ out, generateFrom ops (DetailedGlobalSwap.generate ops reset arch net) g s candidates
        = some out → out.gen.m_attempts = g.m_attempts + 1) ∧
    (∀ out, generateFrom ops (DetailedVerticalSwap.generate ops arch net) g s candidates
        = some out → out.gen.m_attempts = g.m_attempts + 1) ∧
    (candidates ≠ [] →
      (generateFrom ops (DetailedGlobalSwap.generate ops reset arch net) g s
        candidates).isSome = true ∧
      (generateFrom ops (DetailedVerticalSwap.generate ops arch net) g s
        candidates).isSome = true) := by
  have hG : ∀ (g1 : DetailedSwap) (s1 : σ) (n : Nat),
      CounterContract g1 (DetailedGlobalSwap.generate ops reset arch net g1 s1 n) := by
    intro g1 s1 n
    cases ha : DetailedGlobalSwap.target ops reset arch net g1 s1 n with
    | none =>
      rw [global_generate_of_no_target ops reset arch net g1 s1 n ha]
      simp [CounterContract]
    | some a =>
      rw [global_generate_of_target ops reset arch net g1 s1 n a ha]
      exact finishGenerate_counters ops net g1 s1 a
  have hV : ∀ (g1 : DetailedSwap) (s1 : σ) (n : Nat),
      CounterContract g1 (DetailedVerticalSwap.generate ops arch net g1 s1 n) := by
    intro g1 s1 n
    cases ha : (DetailedVerticalSwap.target ops arch net g1 s1 n).1 with
    | none =>
      rw [vertical_generate_of_no_target ops arch net g1 s1 n ha]
      simp [CounterContract]
    | some a =>
      rw [vertical_generate_of_target ops arch net g1 s1 n a ha]
      exact finishGenerate_counters ops net g1 _ a
  have hFrom : ∀ (gen : DetailedSwap → σ → Nat → GenOut σ),
      (∀ g1 s1 n, CounterContract g1 (gen g1 s1 n)) →
      (∀ out, generateFrom ops gen g s candidates = some out →
        out.gen.m_attempts = g.m_attempts + 1) ∧
      (candidates ≠ [] → (generateFrom ops gen g s candidates).isSome = true) := by
    intro gen hgen
    constructor
    · intro out hout
      unfold generateFrom at hout
      dsimp only at hout
      split at hout
      · simp at hout
      · split at hout
        · simp at hout
        · simp only [Option.some.injEq] at hout
          rw [← hout, (hgen _ _ _).1]
    · intro hne
      have hlen : 0 < candidates.length := List.length_pos.mpr hne
      have hlt : (ops.m_rng s).1 % candidates.length < candidates.length :=
        Nat.mod_lt _ hlen
      unfold generateFrom
      dsimp only
      rw [if_neg (by omega), List.getElem?_eq_getElem hlt]
      rfl
  exact ⟨hG g s ndi, hV g s ndi, (hFrom _ hG).1, (hFrom _ hV).1,
    fun hne => ⟨(hFrom _ hG).2 hne, (hFrom _ hV).2 hne⟩⟩

/-- The modulus of the row pick is at least 1 in each branch of the window step. -/
theorem rowWindow_nonempty (arch : Architecture) (ri : Int) (bbox : Rectangle) (height : ℚ) :
    1 ≤ (DetailedVerticalSwap.rowWindow arch ri bbox height).2 -
      (DetailedVerticalSwap.rowWindow arch ri bbox height).1 + 1 := by
  unfold DetailedVerticalSwap.rowWindow
  dsimp only
  split_ifs <;> simp only <;> omega

/-- The chosen row lies in the window. -/
theorem chosenRow_mem_window (arch : Architecture) (ri : Int) (bbox : Rectangle)
    (height : ℚ) (r : Nat) :
    (DetailedVerticalSwap.rowWindow arch ri bbox height).1 ≤
      DetailedVerticalSwap.chosenRow arch ri bbox height r ∧
    DetailedVerticalSwap.chosenRow arch ri bbox height r ≤
      (DetailedVerticalSwap.rowWindow arch ri bbox height).2 := by
  have hm := rowWindow_nonempty arch ri bbox height
  unfold DetailedVerticalSwap.chosenRow
  dsimp only
  have h0 := Int.emod_nonneg (r : Int)
    (show (DetailedVerticalSwap.rowWindow arch ri bbox height).2 -
      (DetailedVerticalSwap.rowWindow arch ri bbox height).1 + 1 ≠ 0 by omega)
  have h1 := Int.emod_lt_of_pos (r : Int)
    (show 0 < (DetailedVerticalSwap.rowWindow arch ri bbox height).2 -
      (DetailedVerticalSwap.rowWindow arch ri bbox height).1 + 1 by omega)
  generalize (r : Int) % ((DetailedVerticalSwap.rowWindow arch ri bbox height).2 -
      (DetailedVerticalSwap.rowWindow arch ri bbox height).1 + 1) = q at h0 h1 ⊢
  constructor <;> omega

/-- C8 as stated fails.  Node 0 of the tall example sits in row 0 (of ten rows, all
row lookups within 0..9); its optimal region x in [100, 100], y in [0, 90] spans
rows 0 to 9, so neither clamping branch applies and, the random source returning
5, the chosen row is 5: five rows away from the current row.  `generate` issues the
cross-segment move to segment 5 of row 5 (target y = 55). -/
theorem chosenRow_exceeds_two_rows :
    (∀ y, 0 ≤ exArch.find_closest_row y ∧ exArch.find_closest_row y ≤ exArch.numRows - 1) ∧
    DetailedVerticalSwap.getRange exArch tallNet exGen 0 = some ⟨100, 100, 0, 90⟩ ∧
    (exMgr.m_reverseCellToSegs 5 0).map (fun seg => seg.rowId) = [0] ∧
    (exMgr.m_rng 5).1 = 5 ∧
    DetailedVerticalSwap.rowWindow exArch 0 ⟨100, 100, 0, 90⟩ 10 = (0, 9) ∧
    DetailedVerticalSwap.chosenRow exArch 0 ⟨100, 100, 0, 90⟩ 10 5 = 5 ∧
    ¬ (|DetailedVerticalSwap.chosenRow exArch 0 ⟨100, 100, 0, 90⟩ 10 5 - 0| ≤ 2) ∧
    (DetailedVerticalSwap.generate exMgr exArch tallNet exGen 5 0).trace
      = [(Request.tryMove1 ⟨0, 0, 0, 0, 100, 55, 5⟩, true)] := by
  refine ⟨?_, by decide!, by decide!, by decide!, by decide!, by decide!, by decide!,
    by decide!⟩
  intro y
  simp only [exArch]
  constructor
  · exact le_max_left _ _
  · exact max_le (by norm_num) (min_le_left _ _)

/-- C8 as amended.  With the current row `ri` in `[0, rowCount - 1]` and every row
lookup in `[0, rowCount - 1]`, the chosen row `rj` always lies in
`[0, rowCount - 1]`; if the region's row range lies entirely above (`rmin > ri`) or
entirely below (`rmax < ri`) the current row, then `|rj - ri| ≤ 2`; otherwise `rj`
lies in the region's own row range `[rmin, rmax]`, which contains `ri`. -/
theorem chosenRow_bounds (arch : Architecture) (ri : Int) (bbox : Rectangle) (height : ℚ)
    (r : Nat) (hri0 : 0 ≤ ri) (hri1 : ri ≤ arch.numRows - 1)
    (hrow : ∀ y, 0 ≤ arch.find_closest_row y ∧ arch.find_closest_row y ≤ arch.numRows - 1) :
    (0 ≤ DetailedVerticalSwap.chosenRow arch ri bbox height r ∧
      DetailedVerticalSwap.chosenRow arch ri bbox height r ≤ arch.numRows - 1) ∧
    ((arch.find_closest_row (bbox.ymin - 0.5 * height) > ri ∨
        arch.find_closest_row (bbox.ymax + 0.5 * height) < ri) →
      |DetailedVerticalSwap.chosenRow arch ri bbox height r - ri| ≤ 2) ∧
    (¬ (arch.find_closest_row (bbox.ymin - 0.5 * height) > ri) →
      ¬ (arch.find_closest_row (bbox.ymax + 0.5 * height) < ri) →
      arch.find_closest_row (bbox.ymin - 0.5 * height) ≤
        DetailedVerticalSwap.chosenRow arch ri bbox height r ∧
      DetailedVerticalSwap.chosenRow arch ri bbox height r ≤
        arch.find_closest_row (bbox.ymax + 0.5 * height) ∧
      arch.find_closest_row (bbox.ymin - 0.5 * height) ≤ ri ∧
      ri ≤ arch.find_closest_row (bbox.ymax + 0.5 * height)) := by
  obtain ⟨hw1, hw2⟩ := chosenRow_mem_window arch ri bbox height r
  have hlo := hrow (bbox.ymin - 0.5 * height)
  have hhi := hrow (bbox.ymax + 0.5 * height)
  generalize DetailedVerticalSwap.chosenRow arch ri bbox height r = rj at hw1 hw2 ⊢
  unfold DetailedVerticalSwap.rowWindow at hw1 hw2
  dsimp only at hw1 hw2
  generalize arch.find_closest_row (bbox.ymin - 0.5 * height) = rmin at hw1 hw2 hlo ⊢
  generalize arch.find_closest_row (bbox.ymax + 0.5 * height) = rmax at hw1 hw2 hhi ⊢
  by_cases h1 : rmin > ri
  · simp only [h1, if_true] at hw1 hw2
    refine ⟨⟨by omega, by omega⟩, fun _ => abs_le.mpr ⟨by omega, by omega⟩, ?_⟩
    intro h; exact absurd h1 h
  · by_cases h2 : rmax < ri
    · simp only [h1, h2, if_true, if_false] at hw1 hw2
      refine ⟨⟨by omega, by omega⟩, fun _ => abs_le.mpr ⟨by omega, by omega⟩, ?_⟩
      intro _ h; exact absurd h2 h
    · simp only [h1, h2, if_false] at hw1 hw2
      refine ⟨⟨by omega, by omega⟩, ?_, ?_⟩
      · intro h; rcases h with h | h
        · exact absurd h h1
        · exact absurd h h2
      · intro _ _; exact ⟨hw1, hw2, by omega, by omega⟩

/-- Witness for C8 as amended: row 0 of ten, a region lying in rows 3 to 4 (entirely
above the current row); the chosen row is 1 or 2, here 2 for the random value 5. -/
theorem chosenRow_bounds_witness :
    DetailedVerticalSwap.chosenRow exArch 0 ⟨0, 0, 35, 45⟩ 10 5 = 2 ∧
    |DetailedVerticalSwap.chosenRow exArch 0 ⟨0, 0, 35, 45⟩ 10 5 - 0| ≤ 2 :=
  ⟨by decide!,
   (chosenRow_bounds exArch 0 ⟨0, 0, 35, 45⟩ 10 5 (by decide) (by decide!)
      (fun y => ⟨le_max_left _ _, max_le (by decide) (min_le_left _ _)⟩)).2.1
      (Or.inl (by decide!))⟩

theorem curXY_setOrigin (net : Network) (n : Nat) (x y : ℚ) (p : Pin) :
    curXY (net.setOrigin n x y) p = movedXY net n x y p := by
  unfold curXY movedXY Network.setOrigin curXY
  by_cases h : p.nodeId = n
  · simp [h]
  · simp [h]

/-- Delta consistency below the threshold.  In a consistent netlist, with marks at
most the stamp and finite-double positions, moving node `n` to `(x, y)` changes
the total wirelength over the nets of 2 to `T` pins by exactly
`-delta(n, x, y)`, provided `T` is the largest size `delta` still visits
(`m_skipNetsLargerThanThis = T + 1`, that is `T = 99` for the constructed
threshold 100). -/
theorem delta_consistent_below_threshold (g : DetailedSwap) (net : Network) (n : Nat)
    (x y : ℚ) (T : Nat) (hT : g.m_skipNetsLargerThanThis = (T : Int) + 1)
    (hc : net.Consistent) (hmask : ∀ e, g.m_edgeMask e ≤ g.m_traversal)
    (hfin : ∀ e ∈ touchedNets net [n], ∀ p ∈ net.edgePins e,
      FiniteXY (curXY net p) ∧ FiniteXY (movedXY net n x y p)) :
    totalHpwl (net.setOrigin n x y) T = totalHpwl net T - (delta g net n x y).1 := by
  have hl : touchedNets net [n] = ((net.nodePins n).map Pin.edgeId).toFinset := by
    simp [touchedNets, List.flatMap]
  have hd : (delta g net n x y).1 =
      ∑ e in (touchedNets net [n]).filter (passesDeltaFilter net g.m_skipNetsLargerThanThis),
        (hpwlAt (net.edgePins e) (curXY net) - hpwlAt (net.edgePins e) (movedXY net n x y)) := by
    unfold delta
    rw [hl]
    apply visit_value
    · intro e; have := hmask e; omega
    · rw [← hl]; exact hfin
  have hW' : totalHpwl (net.setOrigin n x y) T =
      ∑ e in (Finset.range net.numEdges).filter
          (fun e => 2 ≤ (net.edgePins e).length ∧ (net.edgePins e).length ≤ T),
        hpwlAt (net.edgePins e) (movedXY net n x y) := by
    unfold totalHpwl
    have : curXY (net.setOrigin n x y) = movedXY net n x y :=
      funext (curXY_setOrigin net n x y)
    rw [this]
    rfl
  have hsub : (touchedNets net [n]).filter (passesDeltaFilter net g.m_skipNetsLargerThanThis)
      ⊆ (Finset.range net.numEdges).filter
          (fun e => 2 ≤ (net.edgePins e).length ∧ (net.edgePins e).length ≤ T) := by
    intro e he
    rw [Finset.mem_filter] at he
    obtain ⟨p, hp, -⟩ := (mem_touchedNets_consistent net hc [n] e).mp he.1
    have hlt := (hc.2 e p hp).2.1
    have hpass := he.2
    unfold passesDeltaFilter at hpass
    rw [hT] at hpass
    rw [Finset.mem_filter, Finset.mem_range]
    exact ⟨hlt, by omega, by omega⟩
  have hzero : ∀ e ∈ (Finset.range net.numEdges).filter
        (fun e => 2 ≤ (net.edgePins e).length ∧ (net.edgePins e).length ≤ T),
      e ∉ (touchedNets net [n]).filter (passesDeltaFilter net g.m_skipNetsLargerThanThis) →
      hpwlAt (net.edgePins e) (curXY net) - hpwlAt (net.edgePins e) (movedXY net n x y) = 0 := by
    intro e he hnot
    rw [Finset.mem_filter] at he
    have hpass : passesDeltaFilter net g.m_skipNetsLargerThanThis e := by
      unfold passesDeltaFilter
      rw [hT]
      omega
    have hnt : e ∉ touchedNets net [n] := by
      intro h; exact hnot (Finset.mem_filter.mpr ⟨h, hpass⟩)
    have hsame : ∀ p ∈ net.edgePins e, movedXY net n x y p = curXY net p := by
      intro p hp
      unfold movedXY
      by_cases hpn : p.nodeId = n
      · exfalso
        apply hnt
        rw [mem_touchedNets_consistent net hc]
        exact ⟨p, hp, by simp [hpn]⟩
      · rw [if_neg hpn]
    have h1 : (net.edgePins e).map (fun p => (movedXY net n x y p).1)
        = (net.edgePins e).map (fun p => (curXY net p).1) :=
      List.map_congr_left (fun p hp => by rw [hsame p hp])
    have h2 : (net.edgePins e).map (fun p => (movedXY net n x y p).2)
        = (net.edgePins e).map (fun p => (curXY net p).2) :=
      List.map_congr_left (fun p hp => by rw [hsame p hp])
    unfold hpwlAt
    rw [h1, h2]
    ring
  rw [hW', hd, Finset.sum_subset hsub hzero]
  unfold totalHpwl
  rw [← Finset.sum_sub_distrib]
  apply Finset.sum_congr rfl
  intro e _
  ring

theorem exNet_consistent : exNet.Consistent := by
  constructor
  · intro n p hp
    simp only [exNet] at hp ⊢
    split_ifs at hp with h0 h1 h2
    · simp only [List.mem_cons, List.mem_singleton, List.not_mem_nil, or_false] at hp
      rcases hp with rfl | rfl <;> simp [h0, pin0]
    · simp only [List.mem_singleton] at hp
      subst hp; simp [h1, pin0]
    · simp only [List.mem_singleton] at hp
      subst hp; simp [h2, pin0]
    · simp at hp
  · intro e p hp
    simp only [exNet] at hp ⊢
    split_ifs at hp with h0 h1
    · simp only [List.mem_cons, List.mem_singleton, List.not_mem_nil, or_false] at hp
      rcases hp with rfl | rfl <;> simp [h0, pin0]
    · simp only [List.mem_cons, List.mem_singleton, List.not_mem_nil, or_false] at hp
      rcases hp with rfl | rfl <;> simp [h1, pin0]
    · simp at hp

/-- The consistency theorem exercised on the example network: moving node 0 to
(50, 20) takes the total wirelength from 208 to 68, and `delta` returns 140. -/
theorem delta_consistent_below_threshold_witness :
    (delta exGen exNet 0 50 20).1 = 140 ∧ totalHpwl exNet 99 = 208 ∧
    totalHpwl (exNet.setOrigin 0 50 20) 99 = totalHpwl exNet 99 - (delta exGen exNet 0 50 20).1 :=
  ⟨by decide!, by decide!,
   delta_consistent_below_threshold exGen exNet 0 50 20 99 rfl exNet_consistent
     (fun _ => le_refl 0) (by decide!)⟩

/-! ## Target resolution -/

theorem findSeg_eq_firstSegAt (segs : List DetailedSeg) (xj : ℚ) :
    findSeg segs xj = match firstSegAt segs xj with
      | none => -1
      | some seg => seg.segId := by
  induction segs with
  | nil => rfl
  | cons seg rest ih =>
    unfold findSeg firstSegAt
    by_cases h : xj ≥ seg.minX ∧ xj ≤ seg.maxX
    · have h2 : seg.minX ≤ xj ∧ xj ≤ seg.maxX := h
      simp [h, h2, List.find?_cons]
    · have h2 : ¬ (seg.minX ≤ xj ∧ xj ≤ seg.maxX) := h
      rw [if_neg h, ih]
      simp [h2, List.find?_cons, firstSegAt]

/-- The shape of a resolved target of the unrestricted generator. -/
theorem global_target_shape {σ : Type} (ops : DetailedMgr σ) (reset : Rectangle)
    (arch : Architecture) (net : Network) (g : DetailedSwap) (s : σ) (ndi : Nat)
    (a : MoveArgs) (h : DetailedGlobalSwap.target ops reset arch net g s ndi = some a) :
    ∃ bbox seg, DetailedGlobalSwap.getRange reset arch net g ndi = some bbox ∧
      ¬ insideBox net ndi bbox ∧ ops.m_reverseCellToSegs s ndi = [seg] ∧
      findSeg (ops.m_segsInRow s (globalRow arch net ndi bbox))
        (0.5 * (bbox.xmin + bbox.xmax)) ≠ -1 ∧
      a = ⟨ndi, (net.nodes ndi).x, (net.nodes ndi).y, seg.segId,
           0.5 * (bbox.xmin + bbox.xmax),
           arch.rowBottom (globalRow arch net ndi bbox) + 0.5 * (net.nodes ndi).height,
           findSeg (ops.m_segsInRow s (globalRow arch net ndi bbox))
             (0.5 * (bbox.xmin + bbox.xmax))⟩ := by
  unfold DetailedGlobalSwap.target at h
  dsimp only at h
  cases hr : DetailedGlobalSwap.getRange reset arch net g ndi with
  | none => rw [hr] at h; simp at h
  | some bbox =>
    rw [hr] at h
    dsimp only at h
    by_cases hin : (net.nodes ndi).x ≥ bbox.xmin ∧ (net.nodes ndi).x ≤ bbox.xmax ∧
        (net.nodes ndi).y ≥ bbox.ymin ∧ (net.nodes ndi).y ≤ bbox.ymax
    · rw [if_pos hin] at h; simp at h
    · rw [if_neg hin] at h
      match hl : ops.m_reverseCellToSegs s ndi with
      | [] => rw [hl] at h; simp at h
      | [seg] =>
        rw [hl] at h
        dsimp only at h
        by_cases hs : findSeg (ops.m_segsInRow s (globalRow arch net ndi bbox))
            (0.5 * (bbox.xmin + bbox.xmax)) = -1
        · unfold globalRow at hs
          rw [if_pos hs] at h; simp at h
        · have hs2 := hs
          unfold globalRow at hs2
          rw [if_neg hs2] at h
          simp only [Option.some.injEq] at h
          exact ⟨bbox, seg, rfl, hin, rfl, hs, h.symm⟩
      | _ :: _ :: _ => rw [hl] at h; simp at h

/-- The shape of a resolved target of the row-window-restricted generator. -/
theorem vertical_target_shape {σ : Type} (ops : DetailedMgr σ)
    (arch : Architecture) (net : Network) (g : DetailedSwap) (s : σ) (ndi : Nat)
    (a : MoveArgs) (h : (DetailedVerticalSwap.target ops arch net g s ndi).1 = some a) :
    ∃ bbox seg, DetailedVerticalSwap.getRange arch net g ndi = some bbox ∧
      ¬ insideBox net ndi bbox ∧ ops.m_reverseCellToSegs s ndi = [seg] ∧
      (DetailedVerticalSwap.target ops arch net g s ndi).2 = (ops.m_rng s).2 ∧
      findSeg (ops.m_segsInRow (ops.m_rng s).2
          (DetailedVerticalSwap.chosenRow arch seg.rowId bbox (net.nodes ndi).height
            (ops.m_rng s).1))
        (0.5 * (bbox.xmin + bbox.xmax)) ≠ -1 ∧
      a = ⟨ndi, (net.nodes ndi).x, (net.nodes ndi).y, seg.segId,
           0.5 * (bbox.xmin + bbox.xmax),
           arch.rowY (DetailedVerticalSwap.chosenRow arch seg.rowId bbox
             (net.nodes ndi).height (ops.m_rng s).1) + 0.5 * (net.nodes ndi).height,
           findSeg (ops.m_segsInRow (ops.m_rng s).2
               (DetailedVerticalSwap.chosenRow arch seg.rowId bbox (net.nodes ndi).height
                 (ops.m_rng s).1))
             (0.5 * (bbox.xmin + bbox.xmax))⟩ := by
  unfold DetailedVerticalSwap.target at h ⊢
  dsimp only at h ⊢
  cases hr : DetailedVerticalSwap.getRange arch net g ndi with
  | none => rw [hr] at h; simp at h
  | some bbox =>
    rw [hr] at h
    dsimp only at h ⊢
    by_cases hin : (net.nodes ndi).x ≥ bbox.xmin ∧ (net.nodes ndi).x ≤ bbox.xmax ∧
        (net.nodes ndi).y ≥ bbox.ymin ∧ (net.nodes ndi).y ≤ bbox.ymax
    · rw [if_pos hin] at h; simp at h
    · rw [if_neg hin] at h
      rw [if_neg hin]
      match hl : ops.m_reverseCellToSegs s ndi with
      | [] => rw [hl] at h; simp at h
      | [seg] =>
        rw [hl] at h
        dsimp only at h ⊢
        by_cases hs : findSeg (ops.m_segsInRow (ops.m_rng s).2
            (DetailedVerticalSwap.chosenRow arch seg.rowId bbox (net.nodes ndi).height
              (ops.m_rng s).1)) (0.5 * (bbox.xmin + bbox.xmax)) = -1
        · rw [if_pos hs] at h; simp at h
        · rw [if_neg hs] at h
          rw [if_neg hs]
          simp only [Option.some.injEq] at h
          exact ⟨bbox, seg, rfl, hin, rfl, rfl, hs, h.symm⟩
      | _ :: _ :: _ => rw [hl] at h; simp at h

theorem findSeg_found (segs : List DetailedSeg) (xj : ℚ) (h : findSeg segs xj ≠ -1) :
    ∃ seg, firstSegAt segs xj = some seg ∧ findSeg segs xj = seg.segId ∧
      seg ∈ segs ∧ seg.minX ≤ xj ∧ xj ≤ seg.maxX := by
  rw [findSeg_eq_firstSegAt] at h ⊢
  cases hf : firstSegAt segs xj with
  | none => rw [hf] at h; exact absurd rfl h
  | some seg =>
    refine ⟨seg, rfl, rfl, ?_, ?_⟩
    · exact List.mem_of_find?_eq_some hf
    · have := List.find?_some hf
      simpa using this

theorem findSeg_none (segs : List DetailedSeg) (xj : ℚ) (h : firstSegAt segs xj = none) :
    findSeg segs xj = -1 := by
  rw [findSeg_eq_firstSegAt, h]

theorem half_mul (x : ℚ) : (0.5 : ℚ) * x = x / 2 := by
  norm_num
  ring

theorem global_target_none_of_range {σ : Type} (ops : DetailedMgr σ) (reset : Rectangle)
    (arch : Architecture) (net : Network) (g : DetailedSwap) (s : σ) (ndi : Nat)
    (h : DetailedGlobalSwap.getRange reset arch net g ndi = none) :
    DetailedGlobalSwap.target ops reset arch net g s ndi = none := by
  unfold DetailedGlobalSwap.target
  simp only [h]

theorem vertical_target_none_of_range {σ : Type} (ops : DetailedMgr σ)
    (arch : Architecture) (net : Network) (g : DetailedSwap) (s : σ) (ndi : Nat)
    (h : DetailedVerticalSwap.getRange arch net g ndi = none) :
    DetailedVerticalSwap.target ops arch net g s ndi = (none, s) := by
  unfold DetailedVerticalSwap.target
  simp only [h]

theorem global_target_none_of_segs {σ : Type} (ops : DetailedMgr σ) (reset : Rectangle)
    (arch : Architecture) (net : Network) (g : DetailedSwap) (s : σ) (ndi : Nat)
    (h : (ops.m_reverseCellToSegs s ndi).length ≠ 1) :
    DetailedGlobalSwap.target ops reset arch net g s ndi = none := by
  unfold DetailedGlobalSwap.target
  dsimp only
  cases hr : DetailedGlobalSwap.getRange reset arch net g ndi with
  | none => rfl
  | some bbox =>
    dsimp only
    by_cases hin : (net.nodes ndi).x ≥ bbox.xmin ∧ (net.nodes ndi).x ≤ bbox.xmax ∧
        (net.nodes ndi).y ≥ bbox.ymin ∧ (net.nodes ndi).y ≤ bbox.ymax
    · rw [if_pos hin]
    · rw [if_neg hin]
      match hl : ops.m_reverseCellToSegs s ndi with
      | [] => rfl
      | [seg] => rw [hl] at h; exact absurd rfl h
      | _ :: _ :: _ => rfl

theorem vertical_target_none_of_segs {σ : Type} (ops : DetailedMgr σ)
    (arch : Architecture) (net : Network) (g : DetailedSwap) (s : σ) (ndi : Nat)
    (h : (ops.m_reverseCellToSegs s ndi).length ≠ 1) :
    DetailedVerticalSwap.target ops arch net g s ndi = (none, s) := by
  unfold DetailedVerticalSwap.target
  dsimp only
  cases hr : DetailedVerticalSwap.getRange arch net g ndi with
  | none => rfl
  | some bbox =>
    dsimp only
    by_cases hin : (net.nodes ndi).x ≥ bbox.xmin ∧ (net.nodes ndi).x ≤ bbox.xmax ∧
        (net.nodes ndi).y ≥ bbox.ymin ∧ (net.nodes ndi).y ≤ bbox.ymax
    · rw [if_pos hin]
    · rw [if_neg hin]
      match hl : ops.m_reverseCellToSegs s ndi with
      | [] => rfl
      | [seg] => rw [hl] at h; exact absurd rfl h
      | _ :: _ :: _ => rfl

/-- C20 (single-segment eligibility).  In both generators, a node that is mapped
to a number of segments different from one (zero, or two or more) makes `generate`
return `false` with no request and the generator unchanged, in particular when it
has an optimal region and lies outside it; and every request `generate` issues
names as its source segment `si` the id of the unique segment the node is mapped
to. -/
theorem generate_single_segment {σ : Type} (ops : DetailedMgr σ) (reset : Rectangle)
    (arch : Architecture) (net : Network) (g : DetailedSwap) (s : σ) (ndi : Nat) :
    ((∀ bbox, DetailedGlobalSwap.getRange reset arch net g ndi = some bbox →
        ¬ insideBox net ndi bbox → (ops.m_reverseCellToSegs s ndi).length ≠ 1 →
        (DetailedGlobalSwap.generate ops reset arch net g s ndi).result = false ∧
        (DetailedGlobalSwap.generate ops reset arch net g s ndi).trace = [] ∧
        (DetailedGlobalSwap.generate ops reset arch net g s ndi).gen = g) ∧
     (∀ e ∈ (DetailedGlobalSwap.generate ops reset arch net g s ndi).trace,
        ∃ seg, ops.m_reverseCellToSegs s ndi = [seg] ∧ e.1.args.si = seg.segId)) ∧
    ((∀ bbox, DetailedVerticalSwap.getRange arch net g ndi = some bbox →
        ¬ insideBox net ndi bbox → (ops.m_reverseCellToSegs s ndi).length ≠ 1 →
        (DetailedVerticalSwap.generate ops arch net g s ndi).result = false ∧
        (DetailedVerticalSwap.generate ops arch net g s ndi).trace = [] ∧
        (DetailedVerticalSwap.generate ops arch net g s ndi).gen = g) ∧
     (∀ e ∈ (DetailedVerticalSwap.generate ops arch net g s ndi).trace,
        ∃ seg, ops.m_reverseCellToSegs s ndi = [seg] ∧ e.1.args.si = seg.segId)) := by
  refine ⟨⟨?_, ?_⟩, ⟨?_, ?_⟩⟩
  · intro bbox _ _ hlen
    rw [global_generate_of_no_target ops reset arch net g s ndi
      (global_target_none_of_segs ops reset arch net g s ndi hlen)]
    exact ⟨rfl, rfl, rfl⟩
  · intro e he
    cases ha : DetailedGlobalSwap.target ops reset arch net g s ndi with
    | none =>
      rw [global_generate_of_no_target ops reset arch net g s ndi ha] at he
      simp at he
    | some a =>
      rw [global_generate_of_target ops reset arch net g s ndi a ha] at he
      obtain ⟨bbox, seg, -, -, hseg, -, hval⟩ :=
        global_target_shape ops reset arch net g s ndi a ha
      have := ((finishGenerate_region ops net g s a).2 e he).1
      refine ⟨seg, hseg, ?_⟩
      rw [this, hval]
  · intro bbox _ _ hlen
    have ht := vertical_target_none_of_segs ops arch net g s ndi hlen
    rw [vertical_generate_of_no_target ops arch net g s ndi (by rw [ht])]
    exact ⟨rfl, rfl, rfl⟩
  · intro e he
    cases ha : (DetailedVerticalSwap.target ops arch net g s ndi).1 with
    | none =>
      rw [vertical_generate_of_no_target ops arch net g s ndi ha] at he
      simp at he
    | some a =>
      rw [vertical_generate_of_target ops arch net g s ndi a ha] at he
      obtain ⟨bbox, seg, -, -, hseg, -, -, hval⟩ :=
        vertical_target_shape ops arch net g s ndi a ha
      have := ((finishGenerate_region ops net g _ a).2 e he).1
      refine ⟨seg, hseg, ?_⟩
      rw [this, hval]

/-- Witness for C20: node 0 of the example network has a region and lies outside
it, but the manager maps it to no segment; nothing is requested. -/
theorem generate_single_segment_witness :
    DetailedGlobalSwap.getRange (Rectangle.sentinel DBL_MAX) exArch exNet exGen 0
      = some ⟨50, 99, 20, 39⟩ ∧
    ¬ insideBox exNet 0 ⟨50, 99, 20, 39⟩ ∧
    (noSegMgr.m_reverseCellToSegs 0 0).length = 0 ∧
    (DetailedGlobalSwap.generate noSegMgr (Rectangle.sentinel DBL_MAX) exArch exNet exGen 0
      0).result = false ∧
    (DetailedGlobalSwap.generate noSegMgr (Rectangle.sentinel DBL_MAX) exArch exNet exGen 0
      0).trace = [] :=
  ⟨by decide!, by unfold insideBox; decide!, rfl,
   ((generate_single_segment noSegMgr (Rectangle.sentinel DBL_MAX) exArch exNet exGen 0
      0).1.1 ⟨50, 99, 20, 39⟩ (by decide!) (by unfold insideBox; decide!) (by decide)).1,
   ((generate_single_segment noSegMgr (Rectangle.sentinel DBL_MAX) exArch exNet exGen 0
      0).1.1 ⟨50, 99, 20, 39⟩ (by decide!) (by unfold insideBox; decide!) (by decide)).2.1⟩

/-- A containing segment resolves the target of the unrestricted generator. -/
theorem global_target_resolved {σ : Type} (ops : DetailedMgr σ) (reset : Rectangle)
    (arch : Architecture) (net : Network) (g : DetailedSwap) (s : σ) (ndi : Nat)
    (bbox : Rectangle) (seg0 seg : DetailedSeg)
    (hr : DetailedGlobalSwap.getRange reset arch net g ndi = some bbox)
    (hin : ¬ insideBox net ndi bbox)
    (hseg : ops.m_reverseCellToSegs s ndi = [seg0])
    (hfirst : firstSegAt (ops.m_segsInRow s (globalRow arch net ndi bbox))
      ((bbox.xmin + bbox.xmax) / 2) = some seg)
    (hid : seg.segId ≠ -1) :
    DetailedGlobalSwap.target ops reset arch net g s ndi =
      some ⟨ndi, (net.nodes ndi).x, (net.nodes ndi).y, seg0.segId,
        (bbox.xmin + bbox.xmax) / 2,
        arch.rowBottom (globalRow arch net ndi bbox) + 0.5 * (net.nodes ndi).height,
        seg.segId⟩ := by
  have hf : findSeg (ops.m_segsInRow s (globalRow arch net ndi bbox))
      (0.5 * (bbox.xmin + bbox.xmax)) = seg.segId := by
    rw [findSeg_eq_firstSegAt, half_mul, hfirst]
  unfold globalRow at hf
  unfold insideBox at hin
  unfold DetailedGlobalSwap.target
  dsimp only
  rw [hr]
  dsimp only
  rw [if_neg hin, hseg]
  dsimp only
  rw [hf, if_neg hid, half_mul]
  rfl

/-- A containing segment resolves the target of the row-window-restricted
generator; the random source has been advanced once. -/
theorem vertical_target_resolved {σ : Type} (ops : DetailedMgr σ)
    (arch : Architecture) (net : Network) (g : DetailedSwap) (s : σ) (ndi : Nat)
    (bbox : Rectangle) (seg0 seg : DetailedSeg)
    (hr : DetailedVerticalSwap.getRange arch net g ndi = some bbox)
    (hin : ¬ insideBox net ndi bbox)
    (hseg : ops.m_reverseCellToSegs s ndi = [seg0])
    (hfirst : firstSegAt (ops.m_segsInRow (ops.m_rng s).2
        (DetailedVerticalSwap.chosenRow arch seg0.rowId bbox (net.nodes ndi).height
          (ops.m_rng s).1))
      ((bbox.xmin + bbox.xmax) / 2) = some seg)
    (hid : seg.segId ≠ -1) :
    DetailedVerticalSwap.target ops arch net g s ndi =
      (some ⟨ndi, (net.nodes ndi).x, (net.nodes ndi).y, seg0.segId,
        (bbox.xmin + bbox.xmax) / 2,
        arch.rowY (DetailedVerticalSwap.chosenRow arch seg0.rowId bbox
          (net.nodes ndi).height (ops.m_rng s).1) + 0.5 * (net.nodes ndi).height,
        seg.segId⟩, (ops.m_rng s).2) := by
  have hf : findSeg (ops.m_segsInRow (ops.m_rng s).2
        (DetailedVerticalSwap.chosenRow arch seg0.rowId bbox (net.nodes ndi).height
          (ops.m_rng s).1))
      (0.5 * (bbox.xmin + bbox.xmax)) = seg.segId := by
    rw [findSeg_eq_firstSegAt, half_mul, hfirst]
  unfold insideBox at hin
  unfold DetailedVerticalSwap.target
  dsimp only
  rw [hr]
  dsimp only
  rw [if_neg hin, hseg]
  dsimp only
  rw [hf, if_neg hid, half_mul]

/-- With matching region-ids the tail of `generate` issues at least one request, and
every request it issues carries the resolved arguments. -/
theorem finishGenerate_requests {σ : Type} (ops : DetailedMgr σ) (net : Network)
    (g : DetailedSwap) (s : σ) (a : MoveArgs)
    (h : (net.nodes a.nd).regionId = (ops.m_segments s a.sj).regId) :
    (finishGenerate ops net g s a).trace ≠ [] ∧
    ∀ e ∈ (finishGenerate ops net g s a).trace, e.1.args = a := by
  have hfg : finishGenerate ops net g s a = attemptMoveSwap ops g s a := by
    unfold finishGenerate
    rw [if_neg (not_not.mpr h)]
  rw [hfg]
  refine ⟨?_, attemptMoveSwap_args ops g s a⟩
  obtain ⟨rq, mv, -, hcase⟩ := attemptMoveSwap_cases ops g s a
  rcases hcase with ⟨-, -, ht, -⟩ | ⟨-, -, -, ht, -⟩ | ⟨-, -, -, ht, -⟩ <;> rw [ht] <;> simp

theorem firstSegAt_span (segs : List DetailedSeg) (xj : ℚ) (seg : DetailedSeg)
    (h : firstSegAt segs xj = some seg) : seg.minX ≤ xj ∧ xj ≤ seg.maxX := by
  have := List.find?_some h
  simpa using this

/-- Requests and their targets in both generators: when no segment of the target
row contains the target x, `generate` returns `false` and issues no request; every
request issued carries the centre of the optimal region as target x and the id of
the first segment of the target row's list whose span contains it. -/
theorem generate_target_requests {σ : Type} (ops : DetailedMgr σ) (reset : Rectangle)
    (arch : Architecture) (net : Network) (g : DetailedSwap) (s : σ) (ndi : Nat) :
    ((∀ bbox seg0, DetailedGlobalSwap.getRange reset arch net g ndi = some bbox →
        ¬ insideBox net ndi bbox → ops.m_reverseCellToSegs s ndi = [seg0] →
        firstSegAt (ops.m_segsInRow s (globalRow arch net ndi bbox))
          ((bbox.xmin + bbox.xmax) / 2) = none →
        (DetailedGlobalSwap.generate ops reset arch net g s ndi).result = false ∧
        (DetailedGlobalSwap.generate ops reset arch net g s ndi).trace = []) ∧
     (∀ e ∈ (DetailedGlobalSwap.generate ops reset arch net g s ndi).trace,
        ∃ bbox seg, DetailedGlobalSwap.getRange reset arch net g ndi = some bbox ∧
          e.1.args.xj = (bbox.xmin + bbox.xmax) / 2 ∧
          firstSegAt (ops.m_segsInRow s (globalRow arch net ndi bbox)) e.1.args.xj
            = some seg ∧
          e.1.args.sj = seg.segId ∧ seg.minX ≤ e.1.args.xj ∧ e.1.args.xj ≤ seg.maxX)) ∧
    ((∀ bbox seg0, DetailedVerticalSwap.getRange arch net g ndi = some bbox →
        ¬ insideBox net ndi bbox → ops.m_reverseCellToSegs s ndi = [seg0] →
        firstSegAt (ops.m_segsInRow (ops.m_rng s).2
            (DetailedVerticalSwap.chosenRow arch seg0.rowId bbox (net.nodes ndi).height
              (ops.m_rng s).1))
          ((bbox.xmin + bbox.xmax) / 2) = none →
        (DetailedVerticalSwap.generate ops arch net g s ndi).result = false ∧
        (DetailedVerticalSwap.generate ops arch net g s ndi).trace = []) ∧
     (∀ e ∈ (DetailedVerticalSwap.generate ops arch net g s ndi).trace,
        ∃ bbox seg0 seg, DetailedVerticalSwap.getRange arch net g ndi = some bbox ∧
          ops.m_reverseCellToSegs s ndi = [seg0] ∧
          e.1.args.xj = (bbox.xmin + bbox.xmax) / 2 ∧
          firstSegAt (ops.m_segsInRow (ops.m_rng s).2
              (DetailedVerticalSwap.chosenRow arch seg0.rowId bbox (net.nodes ndi).height
                (ops.m_rng s).1)) e.1.args.xj = some seg ∧
          e.1.args.sj = seg.segId ∧ seg.minX ≤ e.1.args.xj ∧ e.1.args.xj ≤ seg.maxX)) := by
  refine ⟨⟨?_, ?_⟩, ⟨?_, ?_⟩⟩
  · intro bbox seg0 hr hin hseg hnone
    have ht : DetailedGlobalSwap.target ops reset arch net g s ndi = none := by
      cases ha : DetailedGlobalSwap.target ops reset arch net g s ndi with
      | none => rfl
      | some a =>
        exfalso
        obtain ⟨bbox1, seg1, hr1, -, -, hfound, -⟩ :=
          global_target_shape ops reset arch net g s ndi a ha
        rw [hr] at hr1
        simp only [Option.some.injEq] at hr1
        subst hr1
        rw [← half_mul] at hnone
        exact hfound (findSeg_none _ _ hnone)
    rw [global_generate_of_no_target ops reset arch net g s ndi ht]
    exact ⟨rfl, rfl⟩
  · intro e he
    cases ha : DetailedGlobalSwap.target ops reset arch net g s ndi with
    | none =>
      rw [global_generate_of_no_target ops reset arch net g s ndi ha] at he
      simp at he
    | some a =>
      rw [global_generate_of_target ops reset arch net g s ndi a ha] at he
      obtain ⟨bbox, seg0, hr, -, -, hfound, hval⟩ :=
        global_target_shape ops reset arch net g s ndi a ha
      have hargs := ((finishGenerate_region ops net g s a).2 e he).1
      obtain ⟨seg, hfirst, hid, -, hlo, hhi⟩ := findSeg_found _ _ hfound
      have hxj : a.xj = 0.5 * (bbox.xmin + bbox.xmax) := by rw [hval]
      have hsj : a.sj = findSeg (ops.m_segsInRow s (globalRow arch net ndi bbox))
          (0.5 * (bbox.xmin + bbox.xmax)) := by rw [hval]
      refine ⟨bbox, seg, hr, ?_, ?_, ?_, ?_, ?_⟩
      · rw [hargs, hxj, half_mul]
      · rw [hargs, hxj]; exact hfirst
      · rw [hargs, hsj]; exact hid
      · rw [hargs, hxj]; exact hlo
      · rw [hargs, hxj]; exact hhi
  · intro bbox seg0 hr hin hseg hnone
    have ht : (DetailedVerticalSwap.target ops arch net g s ndi).1 = none := by
      cases ha : (DetailedVerticalSwap.target ops arch net g s ndi).1 with
      | none => rfl
      | some a =>
        exfalso
        obtain ⟨bbox1, seg1, hr1, -, hseg1, -, hfound, -⟩ :=
          vertical_target_shape ops arch net g s ndi a ha
        rw [hr] at hr1
        simp only [Option.some.injEq] at hr1
        subst hr1
        rw [hseg] at hseg1
        simp only [List.cons.injEq, and_true] at hseg1
        subst hseg1
        rw [← half_mul] at hnone
        exact hfound (findSeg_none _ _ hnone)
    rw [vertical_generate_of_no_target ops arch net g s ndi ht]
    exact ⟨rfl, rfl⟩
  · intro e he
    cases ha : (DetailedVerticalSwap.target ops arch net g s ndi).1 with
    | none =>
      rw [vertical_generate_of_no_target ops arch net g s ndi ha] at he
      simp at he
    | some a =>
      rw [vertical_generate_of_target ops arch net g s ndi a ha] at he
      obtain ⟨bbox, seg0, hr, -, hseg, -, hfound, hval⟩ :=
        vertical_target_shape ops arch net g s ndi a ha
      have hargs := ((finishGenerate_region ops net g _ a).2 e he).1
      obtain ⟨seg, hfirst, hid, -, hlo, hhi⟩ := findSeg_found _ _ hfound
      have hxj : a.xj = 0.5 * (bbox.xmin + bbox.xmax) := by rw [hval]
      have hsj : a.sj = findSeg (ops.m_segsInRow (ops.m_rng s).2
          (DetailedVerticalSwap.chosenRow arch seg0.rowId bbox (net.nodes ndi).height
            (ops.m_rng s).1)) (0.5 * (bbox.xmin + bbox.xmax)) := by rw [hval]
      refine ⟨bbox, seg0, seg, hr, hseg, ?_, ?_, ?_, ?_, ?_⟩
      · rw [hargs, hxj, half_mul]
      · rw [hargs, hxj]; exact hfirst
      · rw [hargs, hsj]; exact hid
      · rw [hargs, hxj]; exact hlo
      · rw [hargs, hxj]; exact hhi

/-- C19 (target segment resolution).  In both generators, when the optimal region
`bbox` exists, the node lies outside it and the node sits in exactly one segment,
the target x is the centre `(xmin + xmax) / 2` of the region and, if some segment
of the target row's list satisfies `minX ≤ x ≤ maxX`, the target is resolved to
the first such segment `seg` of the list (a valid segment id is not `-1`): the
request arguments are `(ndi, xi, yi, si, (xmin + xmax) / 2, yj, seg.segId)`,
`generate` continues with exactly these arguments, and when the region-ids match
it issues at least one request, every one of them carrying the centre as target x
and `seg` as target segment, whose span contains the target x (first two
conjuncts).  If no segment of the target row contains the target x, `generate`
returns `false` and issues no request; and every request issued, whatever the
inputs, carries the centre as target x and the id of the first containing segment
of the target row, whose span contains it (third conjunct).  The target row is
`globalRow` for the unrestricted generator and `chosenRow` for the restricted one,
which looks the row's segments up after the random source has advanced. -/
theorem generate_target_segment {σ : Type} (ops : DetailedMgr σ) (reset : Rectangle)
    (arch : Architecture) (net : Network) (g : DetailedSwap) (s : σ) (ndi : Nat) :
    (∀ bbox seg0 seg, DetailedGlobalSwap.getRange reset arch net g ndi = some bbox →
        ¬ insideBox net ndi bbox → ops.m_reverseCellToSegs s ndi = [seg0] →
        firstSegAt (ops.m_segsInRow s (globalRow arch net ndi bbox))
          ((bbox.xmin + bbox.xmax) / 2) = some seg →
        seg.segId ≠ -1 →
        DetailedGlobalSwap.target ops reset arch net g s ndi =
          some ⟨ndi, (net.nodes ndi).x, (net.nodes ndi).y, seg0.segId,
            (bbox.xmin + bbox.xmax) / 2,
            arch.rowBottom (globalRow arch net ndi bbox) + 0.5 * (net.nodes ndi).height,
            seg.segId⟩ ∧
        DetailedGlobalSwap.generate ops reset arch net g s ndi =
          finishGenerate ops net g s
            ⟨ndi, (net.nodes ndi).x, (net.nodes ndi).y, seg0.segId,
              (bbox.xmin + bbox.xmax) / 2,
              arch.rowBottom (globalRow arch net ndi bbox) + 0.5 * (net.nodes ndi).height,
              seg.segId⟩ ∧
        seg.minX ≤ (bbox.xmin + bbox.xmax) / 2 ∧ (bbox.xmin + bbox.xmax) / 2 ≤ seg.maxX ∧
        ((net.nodes ndi).regionId = (ops.m_segments s seg.segId).regId →
          (DetailedGlobalSwap.generate ops reset arch net g s ndi).trace ≠ [] ∧
          ∀ e ∈ (DetailedGlobalSwap.generate ops reset arch net g s ndi).trace,
            e.1.args.xj = (bbox.xmin + bbox.xmax) / 2 ∧ e.1.args.sj = seg.segId)) ∧
    (∀ bbox seg0 seg, DetailedVerticalSwap.getRange arch net g ndi = some bbox →
        ¬ insideBox net ndi bbox → ops.m_reverseCellToSegs s ndi = [seg0] →
        firstSegAt (ops.m_segsInRow (ops.m_rng s).2
            (DetailedVerticalSwap.chosenRow arch seg0.rowId bbox (net.nodes ndi).height
              (ops.m_rng s).1))
          ((bbox.xmin + bbox.xmax) / 2) = some seg →
        seg.segId ≠ -1 →
        DetailedVerticalSwap.target ops arch net g s ndi =
          (some ⟨ndi, (net.nodes ndi).x, (net.nodes ndi).y, seg0.segId,
            (bbox.xmin + bbox.xmax) / 2,
            arch.rowY (DetailedVerticalSwap.chosenRow arch seg0.rowId bbox
              (net.nodes ndi).height (ops.m_rng s).1) + 0.5 * (net.nodes ndi).height,
            seg.segId⟩, (ops.m_rng s).2) ∧
        DetailedVerticalSwap.generate ops arch net g s ndi =
          finishGenerate ops net g (ops.m_rng s).2
            ⟨ndi, (net.nodes ndi).x, (net.nodes ndi).y, seg0.segId,
              (bbox.xmin + bbox.xmax) / 2,
              arch.rowY (DetailedVerticalSwap.chosenRow arch seg0.rowId bbox
                (net.nodes ndi).height (ops.m_rng s).1) + 0.5 * (net.nodes ndi).height,
              seg.segId⟩ ∧
        seg.minX ≤ (bbox.xmin + bbox.xmax) / 2 ∧ (bbox.xmin + bbox.xmax) / 2 ≤ seg.maxX ∧
        ((net.nodes ndi).regionId = (ops.m_segments (ops.m_rng s).2 seg.segId).regId →
          (DetailedVerticalSwap.generate ops arch net g s ndi).trace ≠ [] ∧
          ∀ e ∈ (DetailedVerticalSwap.generate ops arch net g s ndi).trace,
            e.1.args.xj = (bbox.xmin + bbox.xmax) / 2 ∧ e.1.args.sj = seg.segId)) ∧
    (((∀ bbox seg0, DetailedGlobalSwap.getRange reset arch net g ndi = some bbox →
        ¬ insideBox net ndi bbox → ops.m_reverseCellToSegs s ndi = [seg0] →
        firstSegAt (ops.m_segsInRow s (globalRow arch net ndi bbox))
          ((bbox.xmin + bbox.xmax) / 2) = none →
        (DetailedGlobalSwap.generate ops reset arch net g s ndi).result = false ∧
        (DetailedGlobalSwap.generate ops reset arch net g s ndi).trace = []) ∧
     (∀ e ∈ (DetailedGlobalSwap.generate ops reset arch net g s ndi).trace,
        ∃ bbox seg, DetailedGlobalSwap.getRange reset arch net g ndi = some bbox ∧
          e.1.args.xj = (bbox.xmin + bbox.xmax) / 2 ∧
          firstSegAt (ops.m_segsInRow s (globalRow arch net ndi bbox)) e.1.args.xj
            = some seg ∧
          e.1.args.sj = seg.segId ∧ seg.minX ≤ e.1.args.xj ∧ e.1.args.xj ≤ seg.maxX)) ∧
    ((∀ bbox seg0, DetailedVerticalSwap.getRange arch net g ndi = some bbox →
        ¬ insideBox net ndi bbox → ops.m_reverseCellToSegs s ndi = [seg0] →
        firstSegAt (ops.m_segsInRow (ops.m_rng s).2
            (DetailedVerticalSwap.chosenRow arch seg0.rowId bbox (net.nodes ndi).height
              (ops.m_rng s).1))
          ((bbox.xmin + bbox.xmax) / 2) = none →
        (DetailedVerticalSwap.generate ops arch net g s ndi).result = false ∧
        (DetailedVerticalSwap.generate ops arch net g s ndi).trace = []) ∧
     (∀ e ∈ (DetailedVerticalSwap.generate ops arch net g s ndi).trace,
        ∃ bbox seg0 seg, DetailedVerticalSwap.getRange arch net g ndi = some bbox ∧
          ops.m_reverseCellToSegs s ndi = [seg0] ∧
          e.1.args.xj = (bbox.xmin + bbox.xmax) / 2 ∧
          firstSegAt (ops.m_segsInRow (ops.m_rng s).2
              (DetailedVerticalSwap.chosenRow arch seg0.rowId bbox (net.nodes ndi).height
                (ops.m_rng s).1)) e.1.args.xj = some seg ∧
          e.1.args.sj = seg.segId ∧ seg.minX ≤ e.1.args.xj ∧ e.1.args.xj ≤ seg.maxX))) := by
  refine ⟨?_, ?_, generate_target_requests ops reset arch net g s ndi⟩
  · intro bbox seg0 seg hr hin hseg hfirst hid
    have ht := global_target_resolved ops reset arch net g s ndi bbox seg0 seg hr hin hseg
      hfirst hid
    have hg := global_generate_of_target ops reset arch net g s ndi _ ht
    obtain ⟨hlo, hhi⟩ := firstSegAt_span _ _ _ hfirst
    refine ⟨ht, hg, hlo, hhi, ?_⟩
    intro hreg
    rw [hg]
    obtain ⟨hne, hall⟩ := finishGenerate_requests ops net g s
      (MoveArgs.mk ndi (net.nodes ndi).x (net.nodes ndi).y seg0.segId
        ((bbox.xmin + bbox.xmax) / 2)
        (arch.rowBottom (globalRow arch net ndi bbox) + 0.5 * (net.nodes ndi).height)
        seg.segId) hreg
    refine ⟨hne, fun e he => ?_⟩
    rw [hall e he]
    exact ⟨rfl, rfl⟩
  · intro bbox seg0 seg hr hin hseg hfirst hid
    have ht := vertical_target_resolved ops arch net g s ndi bbox seg0 seg hr hin hseg
      hfirst hid
    have hg := vertical_generate_of_target ops arch net g s ndi _ (by rw [ht])
    rw [ht] at hg
    obtain ⟨hlo, hhi⟩ := firstSegAt_span _ _ _ hfirst
    refine ⟨ht, hg, hlo, hhi, ?_⟩
    intro hreg
    rw [hg]
    obtain ⟨hne, hall⟩ := finishGenerate_requests ops net g (ops.m_rng s).2
      (MoveArgs.mk ndi (net.nodes ndi).x (net.nodes ndi).y seg0.segId
        ((bbox.xmin + bbox.xmax) / 2)
        (arch.rowY (DetailedVerticalSwap.chosenRow arch seg0.rowId bbox
          (net.nodes ndi).height (ops.m_rng s).1) + 0.5 * (net.nodes ndi).height)
        seg.segId) hreg
    refine ⟨hne, fun e he => ?_⟩
    rw [hall e he]
    exact ⟨rfl, rfl⟩

/-- Instances of C19 on node 0 of the example network, optimal region
`[50, 99] x [20, 39]`, target x = (50 + 99) / 2.  With the example manager the
unrestricted generator resolves the target to segment 2 of row 2 and the restricted
generator (random value 0, window rows 1..2) to segment 1 of row 1, both of span
`[0, 200]`, and each issues one move request with that target; with rows whose only
segment spans `[150, 200]` no segment contains the target x and neither generator
requests anything. -/
theorem generate_target_segment_witness :
    (DetailedGlobalSwap.target exMgr (Rectangle.sentinel DBL_MAX) exArch exNet exGen 0 0 =
        some ⟨0, 0, 0, 0, (50 + 99) / 2, 25, 2⟩ ∧
      (DetailedGlobalSwap.generate exMgr (Rectangle.sentinel DBL_MAX) exArch exNet exGen 0
        0).trace = [(Request.tryMove1 ⟨0, 0, 0, 0, 149 / 2, 25, 2⟩, true)]) ∧
    (DetailedVerticalSwap.target exMgr exArch exNet exGen 0 0 =
        (some ⟨0, 0, 0, 0, (50 + 99) / 2, 15, 1⟩, 1) ∧
      (DetailedVerticalSwap.generate exMgr exArch exNet exGen 0 0).trace
        = [(Request.tryMove1 ⟨0, 0, 0, 0, 149 / 2, 15, 1⟩, true)]) ∧
    ((DetailedGlobalSwap.generate narrowMgr (Rectangle.sentinel DBL_MAX) exArch exNet exGen 0
        0).result = false ∧
      (DetailedGlobalSwap.generate narrowMgr (Rectangle.sentinel DBL_MAX) exArch exNet exGen 0
        0).trace = []) ∧
    ((DetailedVerticalSwap.generate narrowMgr exArch exNet exGen 0 0).result = false ∧
      (DetailedVerticalSwap.generate narrowMgr exArch exNet exGen 0 0).trace = []) :=
  ⟨⟨((generate_target_segment exMgr (Rectangle.sentinel DBL_MAX) exArch exNet exGen 0
        0).1 ⟨50, 99, 20, 39⟩ ⟨0, 0, 0, 0, 200⟩ ⟨2, 2, 0, 0, 200⟩ (by decide!)
        (by unfold insideBox; decide!) rfl (by decide!) (by decide)).1.trans (by decide!),
    by decide!⟩,
   ⟨((generate_target_segment exMgr (Rectangle.sentinel DBL_MAX) exArch exNet exGen 0
        0).2.1 ⟨50, 99, 20, 39⟩ ⟨0, 0, 0, 0, 200⟩ ⟨1, 1, 0, 0, 200⟩ (by decide!)
        (by unfold insideBox; decide!) rfl (by decide!) (by decide)).1.trans (by decide!),
    by decide!⟩,
   (generate_target_segment narrowMgr (Rectangle.sentinel DBL_MAX) exArch exNet exGen 0
      0).2.2.1.1 ⟨50, 99, 20, 39⟩ ⟨0, 0, 0, 0, 200⟩ (by decide!)
      (by unfold insideBox; decide!) rfl (by decide!),
   (generate_target_segment narrowMgr (Rectangle.sentinel DBL_MAX) exArch exNet exGen 0
      0).2.2.2.1 ⟨50, 99, 20, 39⟩ ⟨0, 0, 0, 0, 200⟩ (by decide!)
      (by unfold insideBox; decide!) rfl (by decide!)⟩

theorem getRangePts_empty (reset : Rectangle) (arch : Architecture) (net : Network)
    (skip : Int) (nd : Nat) (h : numQualifying net skip nd = 0) :
    (getRangePts reset arch net skip nd).xpts = [] ∧
    (getRangePts reset arch net skip nd).ypts = [] ∧
    (getRangePts reset arch net skip nd).t = 0 := by
  have hlx := endpointsX_length reset arch net skip nd (net.nodePins nd)
  have hly := endpointsY_length reset arch net skip nd (net.nodePins nd)
  have hk2 : ((net.nodePins nd).filter (qualifies net skip nd)).length
      = numQualifying net skip nd := rfl
  rw [hk2, h] at hlx hly
  rw [getRangePts_eq, h]
  exact ⟨List.length_eq_zero.mp hlx, List.length_eq_zero.mp hly, rfl⟩

/-- C16 (oversized nets).  With the threshold at its constructed value 100, a node
all of whose nets have at most 1 pin or more than 100 pins collects zero endpoints,
`getRange` returns `false`, and `generate` returns `false` without issuing any move
or swap request and without touching the counters; for the unrestricted and for the
row-window-restricted generator. -/
theorem oversized_nets_no_region {σ : Type} (ops : DetailedMgr σ) (reset : Rectangle)
    (arch : Architecture) (net : Network) (g : DetailedSwap) (s : σ) (nd : Nat)
    (hT : g.m_skipNetsLargerThanThis = 100)
    (hnets : ∀ pin ∈ net.nodePins nd,
      (net.edgePins pin.edgeId).length ≤ 1 ∨ 100 < (net.edgePins pin.edgeId).length) :
    (DetailedGlobalSwap.getRange reset arch net g nd = none ∧
      (getRangePts reset arch net g.m_skipNetsLargerThanThis nd).xpts = [] ∧
      (getRangePts reset arch net g.m_skipNetsLargerThanThis nd).ypts = [] ∧
      (getRangePts reset arch net g.m_skipNetsLargerThanThis nd).t = 0 ∧
      (DetailedGlobalSwap.generate ops reset arch net g s nd).result = false ∧
      (DetailedGlobalSwap.generate ops reset arch net g s nd).trace = [] ∧
      (DetailedGlobalSwap.generate ops reset arch net g s nd).gen = g) ∧
    (DetailedVerticalSwap.getRange arch net g nd = none ∧
      (getRangePts (Rectangle.sentinel FLT_MAX) arch net g.m_skipNetsLargerThanThis nd).xpts
        = [] ∧
      (getRangePts (Rectangle.sentinel FLT_MAX) arch net g.m_skipNetsLargerThanThis nd).ypts
        = [] ∧
      (DetailedVerticalSwap.generate ops arch net g s nd).result = false ∧
      (DetailedVerticalSwap.generate ops arch net g s nd).trace = [] ∧
      (DetailedVerticalSwap.generate ops arch net g s nd).gen = g) := by
  have hq : numQualifying net g.m_skipNetsLargerThanThis nd = 0 := by
    rw [numQualifying_eq_zero_iff, hT]
    rintro ⟨pin, hp, h1, h2, -⟩
    rcases hnets pin hp with h | h <;> omega
  have hG : DetailedGlobalSwap.getRange reset arch net g nd = none :=
    (getRange_none_aux reset arch net g.m_skipNetsLargerThanThis nd).2.2.mpr hq
  have hV : DetailedVerticalSwap.getRange arch net g nd = none :=
    (getRange_none_aux (Rectangle.sentinel FLT_MAX) arch net
      g.m_skipNetsLargerThanThis nd).2.2.mpr hq
  obtain ⟨e1, e2, e3⟩ := getRangePts_empty reset arch net g.m_skipNetsLargerThanThis nd hq
  obtain ⟨f1, f2, -⟩ := getRangePts_empty (Rectangle.sentinel FLT_MAX) arch net
    g.m_skipNetsLargerThanThis nd hq
  refine ⟨⟨hG, e1, e2, e3, ?_⟩, ⟨hV, f1, f2, ?_⟩⟩
  · rw [global_generate_of_no_target ops reset arch net g s nd
      (global_target_none_of_range ops reset arch net g s nd hG)]
    exact ⟨rfl, rfl, rfl⟩
  · have ht := vertical_target_none_of_range ops arch net g s nd hV
    rw [vertical_generate_of_no_target ops arch net g s nd (by rw [ht])]
    exact ⟨rfl, rfl, rfl⟩

/-- Witness for C16: the spec's scenario, a node whose only net has 150 pins. -/
theorem oversized_nets_no_region_witness :
    exGen.m_skipNetsLargerThanThis = 100 ∧
    (net150.nodePins 0).map (fun p => (net150.edgePins p.edgeId).length) = [150] ∧
    DetailedGlobalSwap.getRange (Rectangle.sentinel DBL_MAX) exArch net150 exGen 0 = none ∧
    (DetailedGlobalSwap.generate exMgr (Rectangle.sentinel DBL_MAX) exArch net150 exGen 0
      0).result = false ∧
    (DetailedGlobalSwap.generate exMgr (Rectangle.sentinel DBL_MAX) exArch net150 exGen 0
      0).trace = [] :=
  ⟨rfl, by decide!,
   (oversized_nets_no_region exMgr (Rectangle.sentinel DBL_MAX) exArch net150 exGen 0 0 rfl
      (by decide!)).1.1,
   (oversized_nets_no_region exMgr (Rectangle.sentinel DBL_MAX) exArch net150 exGen 0 0 rfl
      (by decide!)).1.2.2.2.2.1,
   (oversized_nets_no_region exMgr (Rectangle.sentinel DBL_MAX) exArch net150 exGen 0 0 rfl
      (by decide!)).1.2.2.2.2.2.1⟩

/-! ## The region of a single connection -/

theorem foldl_min_le_init (l : List ℚ) (a : ℚ) : l.foldl min a ≤ a := by
  induction l generalizing a with
  | nil => simp
  | cons b l ih => exact le_trans (ih (min a b)) (min_le_left a b)

theorem foldl_max_ge_init (l : List ℚ) (a : ℚ) : a ≤ l.foldl max a := by
  induction l generalizing a with
  | nil => simp
  | cons b l ih => exact le_trans (le_max_left a b) (ih (max a b))

theorem lo_le_hi (l : List ℚ) : lo l ≤ hi l := by
  cases l with
  | nil => simp [lo, hi]
  | cons a l => exact le_trans (foldl_min_le_init l a) (foldl_max_ge_init l a)

/-- The box `calculateEdgeBB` returns, as four folds over the pins of the other
nodes, started from the four fields of `reset`. -/
theorem calculateEdgeBB_fold (net : Network) (nd : Nat) (l : List Pin)
    (acc : Rectangle × Nat) :
    (l.foldl
      (fun (acc : Rectangle × Nat) (pin : Pin) =>
        if pin.nodeId = nd then acc
        else
          let curX := (net.nodes pin.nodeId).x + pin.offsetX
          let curY := (net.nodes pin.nodeId).y + pin.offsetY
          (⟨min curX acc.1.xmin, max curX acc.1.xmax, min curY acc.1.ymin,
            max curY acc.1.ymax⟩, acc.2 + 1)) acc).1
      = ⟨((l.filter (fun q => decide (q.nodeId ≠ nd))).map
            (fun q => (curXY net q).1)).foldl min acc.1.xmin,
         ((l.filter (fun q => decide (q.nodeId ≠ nd))).map
            (fun q => (curXY net q).1)).foldl max acc.1.xmax,
         ((l.filter (fun q => decide (q.nodeId ≠ nd))).map
            (fun q => (curXY net q).2)).foldl min acc.1.ymin,
         ((l.filter (fun q => decide (q.nodeId ≠ nd))).map
            (fun q => (curXY net q).2)).foldl max acc.1.ymax⟩ := by
  induction l generalizing acc with
  | nil => rfl
  | cons p l ih =>
    rw [List.foldl_cons, ih]
    by_cases h : p.nodeId = nd
    · simp [h, List.filter_cons]
    · simp [h, List.filter_cons, curXY, min_comm, max_comm]

/-- With a sentinel that bounds the coordinates, `calculateEdgeBB` returns the
bounding box of the pins of the other nodes. -/
theorem calculateEdgeBB_othersBox (M : ℚ) (net : Network) (e nd : Nat)
    (hany : (net.edgePins e).any (fun q => decide (q.nodeId ≠ nd)) = true)
    (hfin : ∀ q ∈ net.edgePins e, q.nodeId ≠ nd →
      (-M ≤ (curXY net q).1 ∧ (curXY net q).1 ≤ M) ∧
      (-M ≤ (curXY net q).2 ∧ (curXY net q).2 ≤ M)) :
    (calculateEdgeBB (Rectangle.sentinel M) net e nd).2 = othersBox net e nd := by
  unfold calculateEdgeBB othersBox
  dsimp only
  rw [calculateEdgeBB_fold]
  have hne : (net.edgePins e).filter (fun q => decide (q.nodeId ≠ nd)) ≠ [] := by
    rw [List.any_eq_true] at hany
    obtain ⟨q, hq, hq2⟩ := hany
    intro h0
    have : q ∈ (net.edgePins e).filter (fun q => decide (q.nodeId ≠ nd)) :=
      List.mem_filter.mpr ⟨hq, hq2⟩
    rw [h0] at this
    simp at this
  have hne1 : ∀ f : Pin → ℚ,
      ((net.edgePins e).filter (fun q => decide (q.nodeId ≠ nd))).map f ≠ [] := by
    intro f; simpa using hne
  simp only [Rectangle.sentinel]
  rw [foldl_min_sentinel _ (hne1 _) M, foldl_max_sentinel _ (hne1 _) (-M),
    foldl_min_sentinel _ (hne1 _) M, foldl_max_sentinel _ (hne1 _) (-M)]
  all_goals
    intro v hv
    simp only [List.mem_map, List.mem_filter, decide_eq_true_eq] at hv
    obtain ⟨q, ⟨hq, hq2⟩, rfl⟩ := hv
    have := hfin q hq hq2
    tauto

theorem clamp_mono (lo1 hi1 u v : ℚ) (h : lo1 ≤ hi1) (huv : u ≤ v) :
    min (max lo1 u) hi1 ≤ max (min hi1 v) lo1 := by
  rcases le_total u lo1 with h1 | h1
  · rw [max_eq_left h1, min_eq_left h]
    exact le_max_right _ _
  · rw [max_eq_right h1]
    rcases le_total hi1 v with h2 | h2
    · rw [min_eq_left h2]
      exact le_trans (min_le_right _ _) (le_max_left _ _)
    · rw [min_eq_right h2]
      exact le_trans (min_le_left _ _) (le_trans huv (le_max_left _ _))

theorem insertionSort_pair (a b : ℚ) (h : a ≤ b) :
    [a, b].insertionSort (· ≤ ·) = [a, b] := by
  simp [List.insertionSort, List.orderedInsert, h]

theorem endpointsX_of_filter (reset : Rectangle) (arch : Architecture) (net : Network)
    (skip : Int) (nd : Nat) (l : List Pin) :
    endpointsX reset arch net skip nd l =
      (l.filter (qualifies net skip nd)).foldr
        (fun p acc => (clampedBox reset arch net nd p).xmin ::
          (clampedBox reset arch net nd p).xmax :: acc) [] := by
  induction l with
  | nil => rfl
  | cons p l ih =>
    by_cases h : qualifies net skip nd p = true
    · simp [endpointsX, h, List.filter_cons, ih]
    · simp [endpointsX, h, List.filter_cons, ih]

theorem endpointsY_of_filter (reset : Rectangle) (arch : Architecture) (net : Network)
    (skip : Int) (nd : Nat) (l : List Pin) :
    endpointsY reset arch net skip nd l =
      (l.filter (qualifies net skip nd)).foldr
        (fun p acc => (clampedBox reset arch net nd p).ymin ::
          (clampedBox reset arch net nd p).ymax :: acc) [] := by
  induction l with
  | nil => rfl
  | cons p l ih =>
    by_cases h : qualifies net skip nd p = true
    · simp [endpointsY, h, List.filter_cons, ih]
    · simp [endpointsY, h, List.filter_cons, ih]

/-- With exactly one qualifying pin, `getRange` returns the interval recorded for
that pin, provided the interval is well formed. -/
theorem getRange_single (reset : Rectangle) (arch : Architecture) (net : Network)
    (skip : Int) (nd : Nat) (pin : Pin)
    (hone : (net.nodePins nd).filter (qualifies net skip nd) = [pin])
    (hxo : (clampedBox reset arch net nd pin).xmin ≤ (clampedBox reset arch net nd pin).xmax)
    (hyo : (clampedBox reset arch net nd pin).ymin ≤ (clampedBox reset arch net nd pin).ymax) :
    getRange reset arch net skip nd = some (clampedBox reset arch net nd pin) := by
  have hk : numQualifying net skip nd = 1 := by
    unfold numQualifying; rw [hone]; rfl
  rw [getRange_eq, hk, endpointsX_of_filter, endpointsY_of_filter, hone]
  simp only [List.foldr_cons, List.foldr_nil, one_ne_zero, if_false]
  rw [insertionSort_pair _ _ hxo, insertionSort_pair _ _ hyo]
  rfl

/-- C17 as stated fails on a node with two pins on one net.  Node 0 of `twinNet`
has exactly one qualifying net (net 0), reached through its pins at offsets
`(0, 0)` and `(2, 0)`; the only other pin of the net sits at (10, 0) inside the
chip.  The net's bounding box over the other nodes' pins, translated by minus a pin
offset and clamped, is x in `[10, 10]` for the first pin and x in `[8, 8]` for the
second, but `getRange` returns x in `[8, 10]`: the median interval of the two
per-pin intervals, which is neither. -/
theorem single_net_two_pins_region :
    numQualifyingNets twinNet 100 0 = 1 ∧
    numQualifying twinNet 100 0 = 2 ∧
    (twinNet.nodePins 0).filter (qualifies twinNet 100 0)
      = [⟨0, 0, 0, 0⟩, ⟨0, 0, 2, 0⟩] ∧
    othersBox twinNet 0 0 = ⟨10, 10, 0, 0⟩ ∧
    clampToChip exArch (othersBox twinNet 0 0) 0 0 = ⟨10, 10, 0, 0⟩ ∧
    clampToChip exArch (othersBox twinNet 0 0) 2 0 = ⟨8, 8, 0, 0⟩ ∧
    DetailedGlobalSwap.getRange (Rectangle.sentinel DBL_MAX) exArch twinNet exGen 0
      = some ⟨8, 10, 0, 0⟩ ∧
    DetailedVerticalSwap.getRange exArch twinNet exGen 0 = some ⟨8, 10, 0, 0⟩ ∧
    (∀ pin ∈ twinNet.nodePins 0,
      DetailedGlobalSwap.getRange (Rectangle.sentinel DBL_MAX) exArch twinNet exGen 0
        ≠ some (clampToChip exArch (othersBox twinNet pin.edgeId 0)
            pin.offsetX pin.offsetY) ∧
      DetailedVerticalSwap.getRange exArch twinNet exGen 0
        ≠ some (clampToChip exArch (othersBox twinNet pin.edgeId 0)
            pin.offsetX pin.offsetY)) := by
  refine ⟨by decide, by decide, by decide, by decide!, by decide!, by decide!, by decide!,
    by decide!, ?_⟩
  intro pin hp
  have hp2 : pin = ⟨0, 0, 0, 0⟩ ∨ pin = ⟨0, 0, 2, 0⟩ := by
    simpa [twinNet] using hp
  rcases hp2 with h | h <;> subst h <;> constructor <;> decide!

/-- C17 as amended (single-connection region).  For a node with exactly one
qualifying pin (hence exactly one qualifying net, reached through that pin only),
chip bounds with `minX ≤ maxX`, `minY ≤ maxY`, and a reset sentinel `M` bounding the
coordinates of the net's other pins (`M = FLT_MAX` in the vertical generator),
`getRange` returns that net's bounding box over the pins of the other nodes,
translated by minus the node's pin offset and clamped to the chip on each side.  In
particular, for a 2-pin net whose other pin sits at `(px, py)` inside the chip and
zero offsets of the node's pin, the region is x in `[px, px]`, y in `[py, py]`. -/
theorem single_connection_region (M : ℚ) (arch : Architecture) (net : Network)
    (g : DetailedSwap) (nd : Nat) (pin : Pin)
    (hx : arch.minX ≤ arch.maxX) (hy : arch.minY ≤ arch.maxY)
    (hone : (net.nodePins nd).filter (qualifies net g.m_skipNetsLargerThanThis nd) = [pin])
    (hfin : ∀ q ∈ net.edgePins pin.edgeId, q.nodeId ≠ nd →
      (-M ≤ (curXY net q).1 ∧ (curXY net q).1 ≤ M) ∧
      (-M ≤ (curXY net q).2 ∧ (curXY net q).2 ≤ M)) :
    numQualifyingNets net g.m_skipNetsLargerThanThis nd = 1 ∧
    DetailedGlobalSwap.getRange (Rectangle.sentinel M) arch net g nd =
      some (clampToChip arch (othersBox net pin.edgeId nd) pin.offsetX pin.offsetY) ∧
    (M = FLT_MAX → DetailedVerticalSwap.getRange arch net g nd =
      some (clampToChip arch (othersBox net pin.edgeId nd) pin.offsetX pin.offsetY)) ∧
    (∀ q : Pin, (net.edgePins pin.edgeId = [pin, q] ∨ net.edgePins pin.edgeId = [q, pin]) →
      pin.nodeId = nd → q.nodeId ≠ nd → pin.offsetX = 0 → pin.offsetY = 0 →
      arch.minX ≤ (curXY net q).1 → (curXY net q).1 ≤ arch.maxX →
      arch.minY ≤ (curXY net q).2 → (curXY net q).2 ≤ arch.maxY →
      DetailedGlobalSwap.getRange (Rectangle.sentinel M) arch net g nd =
        some ⟨(curXY net q).1, (curXY net q).1, (curXY net q).2, (curXY net q).2⟩) := by
  have hq : qualifies net g.m_skipNetsLargerThanThis nd pin = true := by
    have : pin ∈ (net.nodePins nd).filter (qualifies net g.m_skipNetsLargerThanThis nd) := by
      rw [hone]; exact List.mem_singleton.mpr rfl
    exact (List.mem_filter.mp this).2
  have hany : (net.edgePins pin.edgeId).any (fun q => decide (q.nodeId ≠ nd)) = true := by
    simp only [qualifies, Bool.and_eq_true] at hq
    exact hq.2
  have hcb : clampedBox (Rectangle.sentinel M) arch net nd pin =
      clampToChip arch (othersBox net pin.edgeId nd) pin.offsetX pin.offsetY := by
    unfold clampedBox clampToChip
    rw [calculateEdgeBB_othersBox M net pin.edgeId nd hany hfin]
  have hxo : (clampedBox (Rectangle.sentinel M) arch net nd pin).xmin ≤
      (clampedBox (Rectangle.sentinel M) arch net nd pin).xmax := by
    rw [hcb]
    exact clamp_mono _ _ _ _ hx (sub_le_sub_right (lo_le_hi _) _)
  have hyo : (clampedBox (Rectangle.sentinel M) arch net nd pin).ymin ≤
      (clampedBox (Rectangle.sentinel M) arch net nd pin).ymax := by
    rw [hcb]
    exact clamp_mono _ _ _ _ hy (sub_le_sub_right (lo_le_hi _) _)
  have main : getRange (Rectangle.sentinel M) arch net g.m_skipNetsLargerThanThis nd =
      some (clampToChip arch (othersBox net pin.edgeId nd) pin.offsetX pin.offsetY) := by
    rw [getRange_single _ arch net _ nd pin hone hxo hyo, hcb]
  refine ⟨by unfold numQualifyingNets; rw [hone]; rfl, main, ?_, ?_⟩
  · intro hM
    unfold DetailedVerticalSwap.getRange
    rw [← hM]
    exact main
  · intro q hpins hpn hqn h0x h0y hx1 hx2 hy1 hy2
    unfold DetailedGlobalSwap.getRange
    rw [main]
    have hfil : (net.edgePins pin.edgeId).filter (fun q => decide (q.nodeId ≠ nd)) = [q] := by
      rcases hpins with h | h <;> rw [h] <;> simp [List.filter_cons, hpn, hqn]
    unfold clampToChip othersBox
    rw [hfil, h0x, h0y]
    simp only [List.map_cons, List.map_nil, lo, hi, List.foldl_nil, sub_zero]
    rw [max_eq_right hx1, min_eq_left hx2, min_eq_right hx2, max_eq_left hx1,
      max_eq_right hy1, min_eq_left hy2, min_eq_right hy2, max_eq_left hy1]

/-- Witness for C17: the spec's scenario, a node at (0, 0) whose only connection is
a 2-pin net to a neighbour at x = 50; the region is x in [50, 50], y in [0, 0], and
`delta` for the move to (50, 0) is the net's span reduction, 50. -/
theorem single_connection_region_witness :
    curXY pairNet (pin0 1 0) = (50, 0) ∧
    DetailedGlobalSwap.getRange (Rectangle.sentinel DBL_MAX) exArch pairNet exGen 0
      = some ⟨(curXY pairNet (pin0 1 0)).1, (curXY pairNet (pin0 1 0)).1,
              (curXY pairNet (pin0 1 0)).2, (curXY pairNet (pin0 1 0)).2⟩ ∧
    DetailedGlobalSwap.getRange (Rectangle.sentinel DBL_MAX) exArch pairNet exGen 0
      = some ⟨50, 50, 0, 0⟩ ∧
    (delta exGen pairNet 0 50 0).1 = 50 :=
  ⟨by decide!,
   (single_connection_region DBL_MAX exArch pairNet exGen 0 (pin0 0 0) (by decide!)
      (by decide!) (by decide!) (by decide!)).2.2.2 (pin0 1 0) (Or.inl rfl) rfl (by decide)
      rfl rfl (by decide!) (by decide!) (by decide!) (by decide!),
   by decide!, by decide!⟩

/-! ## The size filters of getRange and delta -/

/-- C18 at its failing input.  With threshold 100, `getRange` skips a net exactly
when it has at most 1 or more than 100 pins, whereas both `delta` variants skip it
exactly when it has at most 1 or at least 100 pins: a net of exactly 100 pins that
carries a pin of another node is recorded by the region estimator (two endpoints
more) and ignored by the pin loop of both `delta` variants.  On the 100-pin net of
`net100`, `getRange` returns a region for node 0, while `delta(node 0, 10, 0)` and
`delta(node 0, node 100)` return 0 and leave the net unstamped, although the move
(and the swap with the pinless node 100 at x = 10) shortens the net from 10 to 0. -/
theorem size_filters_differ_at_100_pins :
    (∀ (reset : Rectangle) (arch : Architecture) (net : Network) (nd : Nat)
        (acc : RangeAcc) (pin : Pin),
      (net.edgePins pin.edgeId).length = 100 →
      (∃ q ∈ net.edgePins pin.edgeId, q.nodeId ≠ nd) →
      (getRangeStep reset arch net 100 nd acc pin).t = acc.t + 2) ∧
    (∀ (net : Network) (trav : Int) (newXY : Pin → ℚ × ℚ) (acc : WlAcc) (pin : Pin),
      (net.edgePins pin.edgeId).length = 100 →
      visitPin net 100 trav newXY acc pin = acc) ∧
    (exGen.m_skipNetsLargerThanThis = 100 ∧ (net100.edgePins 0).length = 100 ∧
      DetailedGlobalSwap.getRange (Rectangle.sentinel DBL_MAX) exArch net100 exGen 0
        = some ⟨10, 10, 0, 0⟩ ∧
      DetailedVerticalSwap.getRange exArch net100 exGen 0 = some ⟨10, 10, 0, 0⟩ ∧
      (delta exGen net100 0 10 0).1 = 0 ∧
      (delta exGen net100 0 10 0).2.m_edgeMask 0 = 0 ∧
      (deltaSwap exGen net100 0 100).1 = 0 ∧
      (deltaSwap exGen net100 0 100).2.m_edgeMask 0 = 0 ∧
      hpwlAt (net100.edgePins 0) (curXY net100) = 10 ∧
      hpwlAt (net100.edgePins 0) (movedXY net100 0 10 0) = 0 ∧
      hpwlAt (net100.edgePins 0) (exchangedXY net100 0 100) = 0) := by
  refine ⟨?_, ?_, ?_⟩
  · intro reset arch net nd acc pin hlen hother
    rw [getRangeStep_eq]
    have hq : qualifies net 100 nd pin = true := by
      simp only [qualifies, Bool.and_eq_true, decide_eq_true_eq, List.any_eq_true]
      obtain ⟨q, hq1, hq2⟩ := hother
      exact ⟨⟨by omega, by omega⟩, q, hq1, hq2⟩
    rw [if_pos hq]
  · intro net trav newXY acc pin hlen
    unfold visitPin
    dsimp only
    rw [if_pos (Or.inr (by omega))]
  · exact ⟨rfl, by decide!, by decide!, by decide!, by decide!, by decide!, by decide!,
      by decide!, by decide!, by decide!, by decide!⟩

/-! ## Option parsing -/

theorem atoiDec_examples :
    atoiDec "3" = 3 ∧ atoiDec "1" = 1 ∧ atoiDec "0" = 0 ∧ atoiDec "-5" = -5 ∧
    atoiDec "abc" = 0 ∧ atoiDec "-t" = 0 ∧
    atofDec "0.5" = 1 / 2 ∧ atofDec "0.001" = 1 / 1000 ∧ atofDec "-p" = 0 := by
  refine ⟨by decide!, by decide!, by decide!, by decide!, by decide!, by decide!,
    by decide!, by decide!, by decide!⟩

/-- Induction along the way the option loop reads its tokens. -/
theorem scan_induction (P : List String → Prop) (h0 : P []) (h1 : ∀ a, P [a])
    (h2 : ∀ a v rest, (a = "-p" ∨ a = "-t") → P rest → P (a :: v :: rest))
    (h3 : ∀ a v rest, ¬ (a = "-p" ∨ a = "-t") → P (v :: rest) → P (a :: v :: rest)) :
    ∀ l, P l := by
  have key : ∀ n : Nat, ∀ l : List String, l.length ≤ n → P l := by
    intro n
    induction n with
    | zero =>
      intro l hl
      have : l = [] := List.length_eq_zero.mp (by omega)
      rw [this]; exact h0
    | succ n ih =>
      intro l hl
      match l, hl with
      | [], _ => exact h0
      | [a], _ => exact h1 a
      | a :: v :: rest, hl =>
        simp only [List.length_cons] at hl
        by_cases ha : a = "-p" ∨ a = "-t"
        · exact h2 a v rest ha (ih rest (by omega))
        · exact h3 a v rest ha (ih (v :: rest) (by simp only [List.length_cons]; omega))
  intro l
  exact key l.length l (le_refl _)

theorem parseLoop_recognised (atoi : String → Int) (atof : String → ℚ) :
    ∀ (l : List String) (st : Int × ℚ),
      parseLoop atoi atof l st = (recognised l).foldl (applyOption atoi atof) st := by
  intro l
  induction l using scan_induction with
  | h0 => intro st; rfl
  | h1 a => intro st; rfl
  | h2 a v rest ha ih =>
    intro st
    rcases ha with ha | ha
    · subst ha
      simp only [parseLoop, recognised, if_true, true_or, List.foldl_cons, applyOption]
      exact ih _
    · subst ha
      have hne : ¬ ("-t" = "-p") := by decide
      simp only [parseLoop, recognised, hne, if_false, if_true, or_true, List.foldl_cons,
        applyOption]
      exact ih _
  | h3 a v rest ha ih =>
    intro st
    have h1 : ¬ a = "-p" := fun h => ha (Or.inl h)
    have h2 : ¬ a = "-t" := fun h => ha (Or.inr h)
    simp only [parseLoop, recognised, h1, h2, if_false, or_self]
    exact ih st

theorem parseLoop_append (atoi : String → Int) (atof : String → ℚ) :
    ∀ (l1 : List String), danglingOption l1 = false → ∀ (l2 : List String) (st : Int × ℚ),
      parseLoop atoi atof (l1 ++ l2) st = parseLoop atoi atof l2 (parseLoop atoi atof l1 st) := by
  intro l1
  induction l1 using scan_induction with
  | h0 => intro _ l2 st; rfl
  | h1 a =>
    intro hd l2 st
    simp only [danglingOption, decide_eq_false_iff_not] at hd
    have h1 : ¬ a = "-p" := fun h => hd (Or.inl h)
    have h2 : ¬ a = "-t" := fun h => hd (Or.inr h)
    cases l2 with
    | nil => rfl
    | cons v rest =>
      simp only [List.singleton_append, parseLoop, h1, h2, if_false]
  | h2 a v rest ha ih =>
    intro hd l2 st
    simp only [danglingOption, ha, if_true] at hd
    rcases ha with ha | ha
    · subst ha
      simp only [List.cons_append, parseLoop, if_true]
      exact ih hd l2 _
    · subst ha
      have hne : ¬ ("-t" = "-p") := by decide
      simp only [List.cons_append, parseLoop, hne, if_false, if_true]
      exact ih hd l2 _
  | h3 a v rest ha ih =>
    intro hd l2 st
    simp only [danglingOption, ha, if_false] at hd
    have h1 : ¬ a = "-p" := fun h => ha (Or.inl h)
    have h2 : ¬ a = "-t" := fun h => ha (Or.inr h)
    simp only [List.cons_append, parseLoop, h1, h2, if_false]
    exact ih hd l2 st

theorem parseLoop_dangling (atoi : String → Int) (atof : String → ℚ) :
    ∀ (l : List String) (a : String) (st : Int × ℚ),
      danglingOption (l ++ [a]) = true →
      (a = "-p" ∨ a = "-t") ∧
      parseLoop atoi atof (l ++ [a]) st = parseLoop atoi atof l st := by
  intro l
  induction l using scan_induction with
  | h0 =>
    intro a st hd
    simp only [List.nil_append, danglingOption, decide_eq_true_eq] at hd
    exact ⟨hd, rfl⟩
  | h1 b =>
    intro a st hd
    by_cases hb : b = "-p" ∨ b = "-t"
    · simp [danglingOption, hb] at hd
    · simp only [List.singleton_append, danglingOption, hb, if_false,
        decide_eq_true_eq] at hd
      have h1 : ¬ b = "-p" := fun h => hb (Or.inl h)
      have h2 : ¬ b = "-t" := fun h => hb (Or.inr h)
      refine ⟨hd, ?_⟩
      simp only [List.singleton_append, parseLoop, h1, h2, if_false]
  | h2 b v rest hb ih =>
    intro a st hd
    simp only [List.cons_append, danglingOption, hb, if_true] at hd
    rcases hb with hb | hb
    · subst hb
      simp only [List.cons_append, parseLoop, if_true]
      exact ih a _ hd
    · subst hb
      have hne : ¬ ("-t" = "-p") := by decide
      simp only [List.cons_append, parseLoop, hne, if_false, if_true]
      exact ih a _ hd
  | h3 b v rest hb ih =>
    intro a st hd
    simp only [List.cons_append, danglingOption, hb, if_false] at hd
    have h1 : ¬ b = "-p" := fun h => hb (Or.inl h)
    have h2 : ¬ b = "-t" := fun h => hb (Or.inr h)
    have := ih a st (by simpa using hd)
    simp only [List.cons_append, parseLoop, h1, h2, if_false]
    simpa using this

theorem recognised_fst : ∀ (l : List String), ∀ o ∈ recognised l, o.1 = "-p" ∨ o.1 = "-t" := by
  intro l
  induction l using scan_induction with
  | h0 => intro o ho; simp [recognised] at ho
  | h1 a => intro o ho; simp [recognised] at ho
  | h2 a v rest ha ih =>
    intro o ho
    simp only [recognised, ha, if_true, List.mem_cons] at ho
    rcases ho with ho | ho
    · rw [ho]; exact ha
    · exact ih o ho
  | h3 a v rest ha ih =>
    intro o ho
    simp only [recognised, ha, if_false] at ho
    exact ih o ho

theorem recognised_nil_of_no_option : ∀ (l : List String),
    "-p" ∉ l → "-t" ∉ l → recognised l = [] := by
  intro l
  induction l using scan_induction with
  | h0 => intro _ _; rfl
  | h1 a => intro _ _; rfl
  | h2 a v rest ha ih =>
    intro hp ht
    exfalso
    rcases ha with ha | ha
    · exact hp (by rw [ha]; exact List.mem_cons_self _ _)
    · exact ht (by rw [ha]; exact List.mem_cons_self _ _)
  | h3 a v rest ha ih =>
    intro hp ht
    simp only [recognised, ha, if_false]
    exact ih (fun h => hp (List.mem_cons_of_mem _ h)) (fun h => ht (List.mem_cons_of_mem _ h))

/-- The last recognised `-p` decides `passes`, the last recognised other option
(`-t`) decides `tol`. -/
theorem foldl_applyOption (atoi : String → Int) (atof : String → ℚ)
    (pairs : List (String × String)) (st : Int × ℚ) :
    (pairs.foldl (applyOption atoi atof) st).1 =
      (match (pairs.filter (fun o => decide (o.1 = "-p"))).getLast? with
       | none => st.1
       | some o => atoi o.2) ∧
    (pairs.foldl (applyOption atoi atof) st).2 =
      (match (pairs.filter (fun o => decide (¬ o.1 = "-p"))).getLast? with
       | none => st.2
       | some o => atof o.2) := by
  induction pairs using List.reverseRecOn with
  | nil => simp
  | append_singleton l o ih =>
    rw [List.foldl_append, List.filter_append, List.filter_append]
    simp only [List.foldl_cons, List.foldl_nil]
    by_cases ho : o.1 = "-p"
    · simp [applyOption, ho, List.filter_cons, ih.2]
    · simp [applyOption, ho, List.filter_cons, ih.1]

theorem filter_t_eq_filter_not_p (l : List String) :
    (recognised l).filter (fun o => decide (o.1 = "-t")) =
      (recognised l).filter (fun o => decide (¬ o.1 = "-p")) := by
  apply List.filter_congr
  intro o ho
  rcases recognised_fst l o ho with h | h
  · have hne : ¬ o.1 = "-t" := by rw [h]; decide
    simp [h]
  · have hne : ¬ o.1 = "-p" := by rw [h]; decide
    simp [h]

theorem drop_one_append (args : List String) (a : String) (h : args ≠ []) :
    (args ++ [a]).drop 1 = args.drop 1 ++ [a] := by
  cases args with
  | nil => exact absurd rfl h
  | cons c l => rfl

/-- The clamping of `run` when `std::atof` returns finite values only: budget `≥ 1`,
tolerance `≥ 0.01`, values read below the floors give exactly 1 and 0.01, an option
reached as the last token changes nothing, and no option recognised gives exactly 1
and 0.01. -/
theorem parseArgs_clamped_finite (atoi : String → Int) (atof : String → ℚ) (args : List String) :
    (1 ≤ (parseArgs atoi atof args).1 ∧ (0.01 : ℚ) ≤ (parseArgs atoi atof args).2) ∧
    (∀ v, ((recognised (args.drop 1)).filter (fun o => decide (o.1 = "-p"))).getLast?
        = some ("-p", v) → atoi v < 1 → (parseArgs atoi atof args).1 = 1) ∧
    (∀ v, ((recognised (args.drop 1)).filter (fun o => decide (o.1 = "-t"))).getLast?
        = some ("-t", v) → atof v < 0.01 → (parseArgs atoi atof args).2 = 0.01) ∧
    (∀ a, danglingOption (args.drop 1 ++ [a]) = true →
      (a = "-p" ∨ a = "-t") ∧ parseArgs atoi atof (args ++ [a]) = parseArgs atoi atof args) ∧
    (recognised (args.drop 1) = [] → parseArgs atoi atof args = (1, 0.01)) ∧
    ("-p" ∉ args.drop 1 → "-t" ∉ args.drop 1 → parseArgs atoi atof args = (1, 0.01)) ∧
    (∃ r, parseArgs atoi atof args = r) := by
  have hrec : recognised (args.drop 1) = [] → parseArgs atoi atof args = (1, 0.01) := by
    intro h
    unfold parseArgs
    rw [parseLoop_recognised, h]
    simp
  refine ⟨⟨le_max_right _ _, le_max_right _ _⟩, ?_, ?_, ?_, hrec, ?_, ⟨_, rfl⟩⟩
  · intro v hv hlt
    unfold parseArgs
    dsimp only
    rw [parseLoop_recognised, (foldl_applyOption atoi atof _ _).1, hv]
    exact max_eq_right (by dsimp only; omega)
  · intro v hv hlt
    unfold parseArgs
    dsimp only
    rw [parseLoop_recognised, (foldl_applyOption atoi atof _ _).2,
      ← filter_t_eq_filter_not_p, hv]
    exact max_eq_right (le_of_lt hlt)
  · intro a hd
    cases args with
    | nil =>
      simp only [List.drop_nil, List.nil_append, danglingOption, decide_eq_true_eq] at hd
      exact ⟨hd, rfl⟩
    | cons c l =>
      simp only [List.drop_succ_cons, List.drop_zero] at hd
      obtain ⟨ha, hpar⟩ := parseLoop_dangling atoi atof l a (1, 0.01) hd
      refine ⟨ha, ?_⟩
      unfold parseArgs
      simp only [List.cons_append, List.drop_succ_cons, List.drop_zero, hpar]
  · intro hp ht
    exact hrec (recognised_nil_of_no_option _ hp ht)

/-! ## The tolerance as a double -/

theorem parseLoopDbl_recognised (atoi : String → Int) (atof : String → Dbl) :
    ∀ (l : List String) (st : Int × Dbl),
      parseLoopDbl atoi atof l st = (recognised l).foldl (applyOptionDbl atoi atof) st := by
  intro l
  induction l using scan_induction with
  | h0 => intro st; rfl
  | h1 a => intro st; rfl
  | h2 a v rest ha ih =>
    intro st
    rcases ha with ha | ha
    · subst ha
      simp only [parseLoopDbl, recognised, if_true, true_or, List.foldl_cons, applyOptionDbl]
      exact ih _
    · subst ha
      have hne : ¬ ("-t" = "-p") := by decide
      simp only [parseLoopDbl, recognised, hne, if_false, if_true, or_true, List.foldl_cons,
        applyOptionDbl]
      exact ih _
  | h3 a v rest ha ih =>
    intro st
    have h1 : ¬ a = "-p" := fun h => ha (Or.inl h)
    have h2 : ¬ a = "-t" := fun h => ha (Or.inr h)
    simp only [parseLoopDbl, recognised, h1, h2, if_false, or_self]
    exact ih st

theorem parseLoopDbl_dangling (atoi : String → Int) (atof : String → Dbl)
    (l : List String) (a : String) (st : Int × Dbl)
    (hd : danglingOption (l ++ [a]) = true) :
    parseLoopDbl atoi atof (l ++ [a]) st = parseLoopDbl atoi atof l st := by
  have hrec : ∀ (l : List String), danglingOption (l ++ [a]) = true →
      recognised (l ++ [a]) = recognised l := by
    intro l
    induction l using scan_induction with
    | h0 => intro _; rfl
    | h1 b =>
      intro hd
      by_cases hb : b = "-p" ∨ b = "-t"
      · simp [danglingOption, hb] at hd
      · simp only [List.singleton_append, recognised, hb, if_false]
    | h2 b v rest hb ih =>
      intro hd
      simp only [List.cons_append, danglingOption, hb, if_true] at hd
      have := ih (by simpa using hd)
      simp only [List.cons_append, recognised, hb, if_true]
      simpa using this
    | h3 b v rest hb ih =>
      intro hd
      simp only [List.cons_append, danglingOption, hb, if_false] at hd
      have := ih (by simpa using hd)
      simp only [List.cons_append, recognised, hb, if_false]
      simpa using this
  rw [parseLoopDbl_recognised, parseLoopDbl_recognised, hrec l hd]

theorem foldl_applyOptionDbl (atoi : String → Int) (atof : String → Dbl)
    (pairs : List (String × String)) (st : Int × Dbl) :
    (pairs.foldl (applyOptionDbl atoi atof) st).1 =
      (match (pairs.filter (fun o => decide (o.1 = "-p"))).getLast? with
       | none => st.1
       | some o => atoi o.2) ∧
    (pairs.foldl (applyOptionDbl atoi atof) st).2 =
      (match (pairs.filter (fun o => decide (¬ o.1 = "-p"))).getLast? with
       | none => st.2
       | some o => atof o.2) := by
  induction pairs using List.reverseRecOn with
  | nil => simp
  | append_singleton l o ih =>
    rw [List.foldl_append, List.filter_append, List.filter_append]
    simp only [List.foldl_cons, List.foldl_nil]
    by_cases ho : o.1 = "-p"
    · simp [applyOptionDbl, ho, List.filter_cons, ih.2]
    · simp [applyOptionDbl, ho, List.filter_cons, ih.1]

/-- `std::max(x, 0.01)` is a NaN exactly when `x` is: the comparison `x < 0.01` is
false for a NaN, and the first argument is returned. -/
theorem stdMax_eq_nan_iff (x : Dbl) : Dbl.stdMax x (Dbl.fin 0.01) = Dbl.nan ↔ x = Dbl.nan := by
  cases x with
  | fin q =>
    unfold Dbl.stdMax
    by_cases h : Dbl.lt (Dbl.fin q) (Dbl.fin 0.01) = true
    · rw [if_pos h]; simp
    · rw [if_neg h]
  | posInf => simp [Dbl.stdMax, Dbl.lt]
  | negInf => simp [Dbl.stdMax, Dbl.lt]
  | nan => simp [Dbl.stdMax, Dbl.lt]

/-- `std::max(x, 0.01)` is at least 0.01 for every `x` that is not a NaN. -/
theorem stdMax_ge (x : Dbl) (h : x ≠ Dbl.nan) :
    Dbl.le (Dbl.fin 0.01) (Dbl.stdMax x (Dbl.fin 0.01)) = true := by
  cases x with
  | fin q =>
    unfold Dbl.stdMax
    by_cases hq : q < 0.01
    · have : Dbl.lt (Dbl.fin q) (Dbl.fin 0.01) = true := by simp [Dbl.lt, hq]
      rw [if_pos this]
      simp [Dbl.le]
    · have : ¬ Dbl.lt (Dbl.fin q) (Dbl.fin 0.01) = true := by simp [Dbl.lt, hq]
      rw [if_neg this]
      simp only [Dbl.le, decide_eq_true_eq]
      exact not_lt.mp hq
  | posInf => simp [Dbl.stdMax, Dbl.lt, Dbl.le]
  | negInf => simp [Dbl.stdMax, Dbl.lt, Dbl.le]
  | nan => exact absurd rfl h

theorem stdMax_of_lt (x : Dbl) (h : Dbl.lt x (Dbl.fin 0.01) = true) :
    Dbl.stdMax x (Dbl.fin 0.01) = Dbl.fin 0.01 := by
  unfold Dbl.stdMax
  rw [if_pos h]

theorem stdMax_fin (a b : ℚ) : Dbl.stdMax (Dbl.fin a) (Dbl.fin b) = Dbl.fin (max a b) := by
  unfold Dbl.stdMax
  by_cases h : a < b
  · have : Dbl.lt (Dbl.fin a) (Dbl.fin b) = true := by simp [Dbl.lt, h]
    rw [if_pos this, max_eq_right h.le]
  · have : ¬ Dbl.lt (Dbl.fin a) (Dbl.fin b) = true := by simp [Dbl.lt, h]
    rw [if_neg this, max_eq_left (not_lt.mp h)]

/-- When `std::atof` returns finite values only, the parse with the tolerance held
as a double is `parseArgs`. -/
theorem parseArgsDbl_of_finite (atoi : String → Int) (atof : String → ℚ)
    (args : List String) :
    parseArgsDbl atoi (fun s => Dbl.fin (atof s)) args =
      ((parseArgs atoi atof args).1, Dbl.fin (parseArgs atoi atof args).2) := by
  have key : ∀ (pairs : List (String × String)) (st : Int × ℚ),
      pairs.foldl (applyOptionDbl atoi (fun s => Dbl.fin (atof s))) (st.1, Dbl.fin st.2) =
        ((pairs.foldl (applyOption atoi atof) st).1,
          Dbl.fin (pairs.foldl (applyOption atoi atof) st).2) := by
    intro pairs
    induction pairs with
    | nil => intro st; rfl
    | cons o rest ih =>
      intro st
      simp only [List.foldl_cons]
      by_cases ho : o.1 = "-p"
      · have e1 : applyOptionDbl atoi (fun s => Dbl.fin (atof s)) (st.1, Dbl.fin st.2) o
            = ((applyOption atoi atof st o).1, Dbl.fin (applyOption atoi atof st o).2) := by
          simp [applyOptionDbl, applyOption, ho]
        rw [e1, ih]
      · have e1 : applyOptionDbl atoi (fun s => Dbl.fin (atof s)) (st.1, Dbl.fin st.2) o
            = ((applyOption atoi atof st o).1, Dbl.fin (applyOption atoi atof st o).2) := by
          simp [applyOptionDbl, applyOption, ho]
        rw [e1, ih]
  unfold parseArgsDbl parseArgs
  dsimp only
  rw [parseLoopDbl_recognised, parseLoop_recognised]
  have := key (recognised (args.drop 1)) (1, 0.01)
  dsimp only at this
  rw [this, stdMax_fin]

/-- What `run` clamps and what it does not, for every argument list and every
`std::atoi` and `std::atof`: the pass budget is `≥ 1`; the tolerance is a NaN
exactly when the last recognised `-t` value reads as a NaN, and is `≥ 0.01`
otherwise; a last recognised `-p` value read below 1 gives exactly 1; a last
recognised `-t` value read below 0.01 gives exactly 0.01; an option reached as the
last token changes nothing; no option recognised gives exactly 1 and 0.01. -/
theorem parseArgsDbl_spec (atoi : String → Int) (atof : String → Dbl) (args : List String) :
    1 ≤ (parseArgsDbl atoi atof args).1 ∧
    ((parseArgsDbl atoi atof args).2 = Dbl.nan ↔
      ∃ v, ((recognised (args.drop 1)).filter (fun o => decide (o.1 = "-t"))).getLast?
        = some ("-t", v) ∧ atof v = Dbl.nan) ∧
    ((parseArgsDbl atoi atof args).2 ≠ Dbl.nan →
      Dbl.le (Dbl.fin 0.01) (parseArgsDbl atoi atof args).2 = true) ∧
    (∀ v, ((recognised (args.drop 1)).filter (fun o => decide (o.1 = "-p"))).getLast?
        = some ("-p", v) → atoi v < 1 → (parseArgsDbl atoi atof args).1 = 1) ∧
    (∀ v, ((recognised (args.drop 1)).filter (fun o => decide (o.1 = "-t"))).getLast?
        = some ("-t", v) → Dbl.lt (atof v) (Dbl.fin 0.01) = true →
        (parseArgsDbl atoi atof args).2 = Dbl.fin 0.01) ∧
    (∀ a, danglingOption (args.drop 1 ++ [a]) = true →
      parseArgsDbl atoi atof (args ++ [a]) = parseArgsDbl atoi atof args) ∧
    (recognised (args.drop 1) = [] → parseArgsDbl atoi atof args = (1, Dbl.fin 0.01)) ∧
    ("-p" ∉ args.drop 1 → "-t" ∉ args.drop 1 →
      parseArgsDbl atoi atof args = (1, Dbl.fin 0.01)) := by
  have hrec : recognised (args.drop 1) = [] →
      parseArgsDbl atoi atof args = (1, Dbl.fin 0.01) := by
    intro h
    unfold parseArgsDbl
    rw [parseLoopDbl_recognised, h]
    simp only [List.foldl_nil, max_self]
    rw [stdMax_fin, max_self]
  have htol : (parseArgsDbl atoi atof args).2 = Dbl.stdMax
      (match ((recognised (args.drop 1)).filter (fun o => decide (o.1 = "-t"))).getLast? with
       | none => Dbl.fin 0.01
       | some o => atof o.2) (Dbl.fin 0.01) := by
    unfold parseArgsDbl
    dsimp only
    rw [parseLoopDbl_recognised, (foldl_applyOptionDbl atoi atof _ _).2,
      ← filter_t_eq_filter_not_p]
  refine ⟨le_max_right _ _, ?_, ?_, ?_, ?_, ?_, hrec, ?_⟩
  · rw [htol, stdMax_eq_nan_iff]
    cases hl : ((recognised (args.drop 1)).filter
        (fun o => decide (o.1 = "-t"))).getLast? with
    | none => simp
    | some o =>
      have hmem : o ∈ (recognised (args.drop 1)).filter (fun o => decide (o.1 = "-t")) :=
        List.mem_of_getLast?_eq_some hl
      have ho : o.1 = "-t" := by simpa using (List.mem_filter.mp hmem).2
      constructor
      · intro h
        refine ⟨o.2, ?_, h⟩
        rw [← ho]
      · rintro ⟨v, hv, hn⟩
        simp only [Option.some.injEq] at hv
        rw [hv]
        exact hn
  · intro hne
    rw [htol] at hne ⊢
    exact stdMax_ge _ (fun h => hne ((stdMax_eq_nan_iff _).mpr h))
  · intro v hv hlt
    unfold parseArgsDbl
    dsimp only
    rw [parseLoopDbl_recognised, (foldl_applyOptionDbl atoi atof _ _).1, hv]
    exact max_eq_right (by dsimp only; omega)
  · intro v hv hlt
    rw [htol, hv]
    exact stdMax_of_lt _ hlt
  · intro a hd
    cases args with
    | nil =>
      rfl
    | cons c l =>
      simp only [List.drop_succ_cons, List.drop_zero] at hd
      have hpar := parseLoopDbl_dangling atoi atof l a (1, Dbl.fin 0.01) hd
      unfold parseArgsDbl
      simp only [List.cons_append, List.drop_succ_cons, List.drop_zero, hpar]
  · intro hp ht
    exact hrec (recognised_nil_of_no_option _ hp ht)

/-- C12 at its failing input.  `std::atof` reads the token `nan` as a NaN, and
`tol = std::max(tol, 0.01)` is `(tol < 0.01) ? 0.01 : tol`, in which the comparison
with a NaN is false: for the arguments `gs -t nan` the tolerance `run` works with
is a NaN, which is not `≥ 0.01` (with the operands the other way round,
`std::max(0.01, tol)`, it would be 0.01), and the early-exit test
`... <= tol` is then false whatever the wirelengths.  The pass budget is `≥ 1` for
every argument list, and the tolerance is `≥ 0.01` for every argument list whose
last recognised `-t` value does not read as a NaN; `inf` gives an infinite
tolerance and the values the claim names are clamped. -/
theorem tolerance_nan_not_clamped :
    atofStd "nan" = Dbl.nan ∧
    parseArgsDbl atoiDec atofStd ["gs", "-t", "nan"] = (1, Dbl.nan) ∧
    Dbl.le (Dbl.fin 0.01) (parseArgsDbl atoiDec atofStd ["gs", "-t", "nan"]).2 = false ∧
    (∀ (atoi : String → Int) (atof : String → Dbl), atof "nan" = Dbl.nan →
      parseArgsDbl atoi atof ["gs", "-t", "nan"] = (1, Dbl.nan)) ∧
    Dbl.stdMax Dbl.nan (Dbl.fin 0.01) = Dbl.nan ∧
    Dbl.stdMax (Dbl.fin 0.01) Dbl.nan = Dbl.fin 0.01 ∧
    (∀ last curr : ℚ, withinTolDbl last curr
      (parseArgsDbl atoiDec atofStd ["gs", "-t", "nan"]).2 = false) ∧
    parseArgsDbl atoiDec atofStd ["gs", "-t", "inf"] = (1, Dbl.posInf) ∧
    parseArgsDbl atoiDec atofStd ["gs", "-p", "0", "-t", "0.001"] = (1, Dbl.fin 0.01) ∧
    parseArgsDbl atoiDec atofStd ["gs", "-p", "abc"] = (1, Dbl.fin 0.01) ∧
    parseArgsDbl atoiDec atofStd ["gs", "-t", "0.5", "-p"] = (1, Dbl.fin 0.5) ∧
    (∀ (atoi : String → Int) (atof : String → Dbl) (args : List String),
      1 ≤ (parseArgsDbl atoi atof args).1 ∧
      ((parseArgsDbl atoi atof args).2 = Dbl.nan ↔
        ∃ v, ((recognised (args.drop 1)).filter (fun o => decide (o.1 = "-t"))).getLast?
          = some ("-t", v) ∧ atof v = Dbl.nan) ∧
      ((parseArgsDbl atoi atof args).2 ≠ Dbl.nan →
        Dbl.le (Dbl.fin 0.01) (parseArgsDbl atoi atof args).2 = true)) := by
  have h1 : parseArgsDbl atoiDec atofStd ["gs", "-t", "nan"] = (1, Dbl.nan) := by decide!
  refine ⟨by decide, h1, by rw [h1]; rfl, ?_, by decide!, by decide!, ?_, by decide!,
    by decide!, by decide!, by decide!, ?_⟩
  · intro atoi atof h
    have hne : ¬ ("-t" = "-p") := by decide
    simp only [parseArgsDbl, List.drop_succ_cons, List.drop_zero, parseLoopDbl, hne, if_false,
      if_true, h, max_self]
    rw [(stdMax_eq_nan_iff _).mpr rfl]
  · intro last curr
    rw [h1]
    rfl
  · intro atoi atof args
    exact ⟨(parseArgsDbl_spec atoi atof args).1, (parseArgsDbl_spec atoi atof args).2.1,
      (parseArgsDbl_spec atoi atof args).2.2.1⟩

/-- C11 as stated fails.  The loop starts at index 1, so in the command `-p 3` the
`-p` is the token at index 0 and is never read: the pass budget is 1, not 3, although
`-p` is immediately followed by the integer token 3 and there is no other `-p`.
Likewise in `gs -t -p 3` the `-p` is taken as the value of `-t`.  With the option
after the first token, `gs -p 3`, the budget is 3. -/
theorem pass_option_at_index_zero_unread :
    atoiDec "3" = 3 ∧
    parseArgs atoiDec atofDec ["-p", "3"] = (1, 0.01) ∧
    (parseArgs atoiDec atofDec ["-p", "3"]).1 ≠ max 3 1 ∧
    parseArgs atoiDec atofDec ["gs", "-t", "-p", "3"] = (1, 0.01) ∧
    parseArgs atoiDec atofDec ["gs", "-p", "3"] = (3, 0.01) := by
  refine ⟨by decide!, by decide!, by decide!, by decide!, by decide!⟩

/-- C11 as amended.  If, among the tokens after the first one (which `run` does not
read), read left to right with each recognised option taking the next token as its
value, `-p` is recognised exactly once, with value `v`, then the pass budget is
`max(atoi(v), 1)`; and a token that is neither an option nor taken as an option's
value can be removed without changing the parsed pass budget or tolerance. -/
theorem parseArgs_pass_count (atoi : String → Int) (atof : String → ℚ)
    (args : List String) (v : String)
    (hp : (recognised (args.drop 1)).filter (fun o => decide (o.1 = "-p")) = [("-p", v)]) :
    (parseArgs atoi atof args).1 = max (atoi v) 1 ∧
    (∀ (cmd : String) (l1 l2 : List String) (x : String),
      danglingOption l1 = false → x ≠ "-p" → x ≠ "-t" →
      parseArgs atoi atof (cmd :: (l1 ++ x :: l2)) = parseArgs atoi atof (cmd :: (l1 ++ l2))) := by
  constructor
  · unfold parseArgs
    dsimp only
    rw [parseLoop_recognised, (foldl_applyOption atoi atof _ _).1, hp]
    rfl
  · intro cmd l1 l2 x hd h1 h2
    unfold parseArgs
    simp only [List.drop_succ_cons, List.drop_zero]
    rw [parseLoop_append atoi atof l1 hd, parseLoop_append atoi atof l1 hd]
    have : ∀ st, parseLoop atoi atof (x :: l2) st = parseLoop atoi atof l2 st := by
      intro st
      cases l2 with
      | nil => rfl
      | cons w rest => simp only [parseLoop, h1, h2, if_false]
    rw [this]

/-- Witness for C11 as amended: `gs -p 3` gives a budget of 3, and the stray token
`fast` in `gs fast -p 3` changes nothing. -/
theorem parseArgs_pass_count_witness :
    (parseArgs atoiDec atofDec ["gs", "-p", "3"]).1 = max (atoiDec "3") 1 ∧
    parseArgs atoiDec atofDec ["gs", "fast", "-p", "3"] =
      parseArgs atoiDec atofDec ["gs", "-p", "3"] ∧
    parseArgs atoiDec atofDec ["gs", "-p", "3"] = (3, 0.01) :=
  ⟨(parseArgs_pass_count atoiDec atofDec ["gs", "-p", "3"] "3" (by decide!)).1,
   (parseArgs_pass_count atoiDec atofDec ["gs", "-p", "3"] "3" (by decide!)).2 "gs" []
     ["-p", "3"] "fast" rfl (by decide) (by decide),
   by decide!⟩

/-! ## The pass loop -/

theorem passLoop_spec {S : Type} (sweep : S → S) (hpwl : S → ℚ) (tol : ℚ) :
    ∀ (n : Nat) (s : S),
      (passLoop sweep hpwl tol n s (hpwl s)).2.2 ≤ n ∧
      (1 ≤ n → 1 ≤ (passLoop sweep hpwl tol n s (hpwl s)).2.2) ∧
      (passLoop sweep hpwl tol n s (hpwl s)).1
        = sweep^[(passLoop sweep hpwl tol n s (hpwl s)).2.2] s ∧
      (passLoop sweep hpwl tol n s (hpwl s)).2.1
        = hpwlAfter sweep hpwl s (passLoop sweep hpwl tol n s (hpwl s)).2.2 ∧
      (∀ p, p + 1 < (passLoop sweep hpwl tol n s (hpwl s)).2.2 →
        withinTol (hpwlAfter sweep hpwl s p) (hpwlAfter sweep hpwl s (p + 1)) tol = false) ∧
      (∀ j, (passLoop sweep hpwl tol n s (hpwl s)).2.2 = j + 1 → j + 1 < n →
        withinTol (hpwlAfter sweep hpwl s j) (hpwlAfter sweep hpwl s (j + 1)) tol = true) := by
  intro n
  induction n with
  | zero =>
    intro s
    simp [passLoop, hpwlAfter]
  | succ n ih =>
    intro s
    by_cases hw : withinTol (hpwl s) (hpwl (sweep s)) tol = true
    · have hr : passLoop sweep hpwl tol (n + 1) s (hpwl s) = (sweep s, hpwl (sweep s), 1) := by
        simp only [passLoop, hw, if_true]
      rw [hr]
      refine ⟨by simp, fun _ => le_refl 1, by simp, by simp [hpwlAfter], ?_, ?_⟩
      · intro p hp; simp at hp
      · intro j hj _
        have hj0 : j = 0 := by
          have hj1 : (1 : Nat) = j + 1 := hj
          omega
        subst hj0
        simpa [hpwlAfter] using hw
    · have hr : passLoop sweep hpwl tol (n + 1) s (hpwl s) =
          ((passLoop sweep hpwl tol n (sweep s) (hpwl (sweep s))).1,
           (passLoop sweep hpwl tol n (sweep s) (hpwl (sweep s))).2.1,
           (passLoop sweep hpwl tol n (sweep s) (hpwl (sweep s))).2.2 + 1) := by
        simp only [passLoop, hw, if_false]
        rfl
      obtain ⟨i1, i2, i3, i4, i5, i6⟩ := ih (sweep s)
      rw [hr]
      dsimp only
      have hshift : ∀ p, hpwlAfter sweep hpwl (sweep s) p = hpwlAfter sweep hpwl s (p + 1) := by
        intro p
        simp only [hpwlAfter, Function.iterate_succ_apply]
      refine ⟨by omega, fun _ => by omega, ?_, ?_, ?_, ?_⟩
      · rw [i3, Function.iterate_succ_apply]
      · rw [i4, hshift]
      · intro p hp
        cases p with
        | zero =>
          simp only [Bool.not_eq_true] at hw
          simpa [hpwlAfter] using hw
        | succ q =>
          have := i5 q (by omega)
          rw [hshift, hshift] at this
          exact this
      · intro j hj hlt
        cases j with
        | zero =>
          exfalso
          have := i2 (by omega)
          omega
        | succ q =>
          have := i6 q (by omega) (by omega)
          rw [hshift, hshift] at this
          exact this

/-- C13 (number of passes).  `run` works with a pass budget `P ≥ 1` and executes
`k` sweeps with `1 ≤ k ≤ P`, where `k` is the least `p` in `1..P` whose sweep ends
within tolerance of the previous wirelength (no earlier `p` does, and sweep `k`
does whenever `k < P`), or `P` when there is none; the state and wirelength
returned are those after `k` sweeps; with a budget of 1 exactly one sweep runs,
whatever the tolerance.  For a positive previous wirelength the test is
`|h_p - h_(p-1)| / h_(p-1) ≤ t`. -/
theorem run_sweep_count {S : Type} (atoi : String → Int) (atof : String → ℚ)
    (sweep : S → S) (hpwl : S → ℚ) (args : List String) (s : S) :
    1 ≤ (parseArgs atoi atof args).1.toNat ∧
    1 ≤ (run atoi atof sweep hpwl args s).sweeps ∧
    (run atoi atof sweep hpwl args s).sweeps ≤ (parseArgs atoi atof args).1.toNat ∧
    (∀ p, 1 ≤ p → p < (run atoi atof sweep hpwl args s).sweeps →
      withinTol (hpwlAfter sweep hpwl s (p - 1)) (hpwlAfter sweep hpwl s p)
        (parseArgs atoi atof args).2 = false) ∧
    ((run atoi atof sweep hpwl args s).sweeps < (parseArgs atoi atof args).1.toNat →
      withinTol (hpwlAfter sweep hpwl s ((run atoi atof sweep hpwl args s).sweeps - 1))
        (hpwlAfter sweep hpwl s (run atoi atof sweep hpwl args s).sweeps)
        (parseArgs atoi atof args).2 = true) ∧
    ((parseArgs atoi atof args).1 = 1 → (run atoi atof sweep hpwl args s).sweeps = 1) ∧
    (run atoi atof sweep hpwl args s).state
      = sweep^[(run atoi atof sweep hpwl args s).sweeps] s ∧
    (run atoi atof sweep hpwl args s).curr_hpwl
      = hpwlAfter sweep hpwl s (run atoi atof sweep hpwl args s).sweeps ∧
    (run atoi atof sweep hpwl args s).init_hpwl = hpwlAfter sweep hpwl s 0 ∧
    (∀ last curr tol : ℚ, 0 < last →
      (withinTol last curr tol = true ↔ |curr - last| / last ≤ tol)) := by
  have hP : 1 ≤ (parseArgs atoi atof args).1.toNat := by
    have : (1 : Int) ≤ (parseArgs atoi atof args).1 := le_max_right _ _
    omega
  obtain ⟨i1, i2, i3, i4, i5, i6⟩ := passLoop_spec sweep hpwl (parseArgs atoi atof args).2
    (parseArgs atoi atof args).1.toNat s
  have hk : (run atoi atof sweep hpwl args s).sweeps =
      (passLoop sweep hpwl (parseArgs atoi atof args).2 (parseArgs atoi atof args).1.toNat s
        (hpwl s)).2.2 := rfl
  refine ⟨hP, ?_, ?_, ?_, ?_, ?_, ?_, ?_, rfl, ?_⟩
  · rw [hk]; exact i2 hP
  · rw [hk]; exact i1
  · intro p hp1 hp2
    rw [hk] at hp2
    have := i5 (p - 1) (by omega)
    rw [show p - 1 + 1 = p by omega] at this
    exact this
  · intro hlt
    rw [hk] at hlt ⊢
    have h1 := i2 hP
    have := i6 ((passLoop sweep hpwl (parseArgs atoi atof args).2
      (parseArgs atoi atof args).1.toNat s (hpwl s)).2.2 - 1) (by omega) (by omega)
    rw [show (passLoop sweep hpwl (parseArgs atoi atof args).2
      (parseArgs atoi atof args).1.toNat s (hpwl s)).2.2 - 1 + 1 = (passLoop sweep hpwl
      (parseArgs atoi atof args).2 (parseArgs atoi atof args).1.toNat s (hpwl s)).2.2
      by omega] at this
    exact this
  · intro h1
    have h2 := i2 hP
    rw [hk]
    have : (parseArgs atoi atof args).1.toNat = 1 := by rw [h1]; rfl
    omega
  · exact i3
  · exact i4
  · intro last curr tol hpos
    unfold withinTol
    rw [if_neg (ne_of_gt hpos)]
    simp

/-! ## The sweep -/

/-- The three ways one candidate is handled. -/
theorem sweepStep_cases {σ : Type} (env : SweepEnv σ)
    (gen : Network → DetailedSwap → σ → Nat → GenOut σ) (st : SweepState σ) (ndi : Nat) :
    ((gen st.net st.gen st.mgr ndi).result = false ∧
      (sweepStep env gen st ndi).events = st.events ++ [SweepEvent.generated ndi false] ∧
      (sweepStep env gen st ndi).currHpwl = st.currHpwl ∧
      (sweepStep env gen st ndi).net = st.net) ∨
    ((gen st.net st.gen st.mgr ndi).result = true ∧
      st.currHpwl - env.hpwlDelta (gen st.net st.gen st.mgr ndi).mgr st.net ≤ st.currHpwl ∧
      (sweepStep env gen st ndi).events = st.events ++
        [SweepEvent.generated ndi true,
         SweepEvent.acceptMove (env.hpwlDelta (gen st.net st.gen st.mgr ndi).mgr st.net)
           (st.currHpwl - env.hpwlDelta (gen st.net st.gen st.mgr ndi).mgr st.net)] ∧
      (sweepStep env gen st ndi).currHpwl =
        st.currHpwl - env.hpwlDelta (gen st.net st.gen st.mgr ndi).mgr st.net ∧
      (sweepStep env gen st ndi).net =
        (env.acceptMove (gen st.net st.gen st.mgr ndi).mgr st.net).2) ∨
    ((gen st.net st.gen st.mgr ndi).result = true ∧
      ¬ (st.currHpwl - env.hpwlDelta (gen st.net st.gen st.mgr ndi).mgr st.net
          ≤ st.currHpwl) ∧
      (sweepStep env gen st ndi).events = st.events ++
        [SweepEvent.generated ndi true,
         SweepEvent.rejectMove (env.hpwlDelta (gen st.net st.gen st.mgr ndi).mgr st.net)
           st.currHpwl] ∧
      (sweepStep env gen st ndi).currHpwl = st.currHpwl ∧
      (sweepStep env gen st ndi).net =
        (env.rejectMove (gen st.net st.gen st.mgr ndi).mgr st.net).2) := by
  unfold sweepStep
  dsimp only
  cases hres : (gen st.net st.gen st.mgr ndi).result with
  | false => left; simp
  | true =>
    right
    by_cases hle : st.currHpwl - env.hpwlDelta (gen st.net st.gen st.mgr ndi).mgr st.net
        ≤ st.currHpwl
    · left; simp only [hle, if_true]; simp
    · right; simp only [hle, if_false]; simp

theorem consistentLog_le {t t1 : ℚ} {l : List SweepEvent} (h : ConsistentLog t l t1) :
    t1 ≤ t := by
  induction h with
  | nil => exact le_refl _
  | fail nd _ ih => exact ih
  | accept nd d _ hd ih => exact le_trans (sub_le_self _ hd) ih
  | reject nd d _ _ ih => exact ih

theorem sweepStep_log {σ : Type} (env : SweepEnv σ)
    (gen : Network → DetailedSwap → σ → Nat → GenOut σ) (t : ℚ) (st : SweepState σ)
    (ndi : Nat) (h : ConsistentLog t st.events st.currHpwl) :
    ConsistentLog t (sweepStep env gen st ndi).events (sweepStep env gen st ndi).currHpwl := by
  rcases sweepStep_cases env gen st ndi with ⟨-, he, hc, -⟩ | ⟨-, hle, he, hc, -⟩ |
    ⟨-, hle, he, hc, -⟩
  · rw [he, hc]; exact ConsistentLog.fail ndi h
  · rw [he, hc]
    exact ConsistentLog.accept ndi _ h (by linarith)
  · rw [he, hc]
    exact ConsistentLog.reject ndi _ h (by linarith)

theorem sweepFold_log {σ : Type} (env : SweepEnv σ)
    (gen : Network → DetailedSwap → σ → Nat → GenOut σ) (t : ℚ) (l : List Nat) :
    ∀ (st : SweepState σ), ConsistentLog t st.events st.currHpwl →
      ConsistentLog t (l.foldl (sweepStep env gen) st).events
        (l.foldl (sweepStep env gen) st).currHpwl := by
  induction l with
  | nil => intro st h; exact h
  | cons nd l ih =>
    intro st h
    rw [List.foldl_cons]
    exact ih _ (sweepStep_log env gen t st nd h)

theorem sweepFold_le {σ : Type} (env : SweepEnv σ)
    (gen : Network → DetailedSwap → σ → Nat → GenOut σ) (l : List Nat) :
    ∀ (st : SweepState σ), (l.foldl (sweepStep env gen) st).currHpwl ≤ st.currHpwl := by
  induction l with
  | nil => intro st; exact le_refl _
  | cons nd l ih =>
    intro st
    rw [List.foldl_cons]
    refine le_trans (ih _) ?_
    rcases sweepStep_cases env gen st nd with ⟨-, -, hc, -⟩ | ⟨-, hle, -, hc, -⟩ |
      ⟨-, -, -, hc, -⟩
    · rw [hc]
    · rw [hc]; exact hle
    · rw [hc]

/-- The sweep in exact arithmetic: a proposal is accepted exactly when `d ≥ 0`, the
total becomes `currHpwl - d` on acceptance and is unchanged otherwise, and the log
of a sweep is made of such blocks. -/
theorem sweep_exact_acceptance {σ : Type} (env : SweepEnv σ) (ops : DetailedMgr σ)
    (reset : Rectangle) (arch : Architecture)
    (gen : Network → DetailedSwap → σ → Nat → GenOut σ) (st : SweepState σ) (ndi : Nat)
    (l1 l2 : List Nat) (g : DetailedSwap) (s : σ) (net : Network) :
    (((gen st.net st.gen st.mgr ndi).result = false ∧
        (sweepStep env gen st ndi).events = st.events ++ [SweepEvent.generated ndi false] ∧
        (sweepStep env gen st ndi).currHpwl = st.currHpwl) ∨
      ((gen st.net st.gen st.mgr ndi).result = true ∧
        0 ≤ env.hpwlDelta (gen st.net st.gen st.mgr ndi).mgr st.net ∧
        (sweepStep env gen st ndi).events = st.events ++
          [SweepEvent.generated ndi true,
           SweepEvent.acceptMove (env.hpwlDelta (gen st.net st.gen st.mgr ndi).mgr st.net)
             (st.currHpwl - env.hpwlDelta (gen st.net st.gen st.mgr ndi).mgr st.net)] ∧
        (sweepStep env gen st ndi).currHpwl =
          st.currHpwl - env.hpwlDelta (gen st.net st.gen st.mgr ndi).mgr st.net) ∨
      ((gen st.net st.gen st.mgr ndi).result = true ∧
        env.hpwlDelta (gen st.net st.gen st.mgr ndi).mgr st.net < 0 ∧
        (sweepStep env gen st ndi).events = st.events ++
          [SweepEvent.generated ndi true,
           SweepEvent.rejectMove (env.hpwlDelta (gen st.net st.gen st.mgr ndi).mgr st.net)
             st.currHpwl] ∧
        (sweepStep env gen st ndi).currHpwl = st.currHpwl)) ∧
    (∀ d : ℚ, st.currHpwl - d ≤ st.currHpwl ↔ 0 ≤ d) ∧
    (sweepStep env gen st ndi).currHpwl ≤ st.currHpwl ∧
    ((l1 ++ l2).foldl (sweepStep env gen) st).currHpwl
      ≤ (l1.foldl (sweepStep env gen) st).currHpwl ∧
    (ConsistentLog (sweepStart env g s net).1.currHpwl (sweep env gen g s net).events
        (sweep env gen g s net).currHpwl ∧
      (sweep env gen g s net).currHpwl ≤ (sweepStart env g s net).1.currHpwl) ∧
    (ConsistentLog (sweepStart env g s net).1.currHpwl
        (DetailedGlobalSwap.globalSwap env ops reset arch g s net).events
        (DetailedGlobalSwap.globalSwap env ops reset arch g s net).currHpwl ∧
      (DetailedGlobalSwap.globalSwap env ops reset arch g s net).currHpwl
        ≤ (sweepStart env g s net).1.currHpwl) ∧
    (ConsistentLog (sweepStart env g s net).1.currHpwl
        (DetailedVerticalSwap.verticalSwap env ops arch g s net).events
        (DetailedVerticalSwap.verticalSwap env ops arch g s net).currHpwl ∧
      (DetailedVerticalSwap.verticalSwap env ops arch g s net).currHpwl
        ≤ (sweepStart env g s net).1.currHpwl) := by
  have hsweep : ∀ gen1 : Network → DetailedSwap → σ → Nat → GenOut σ,
      ConsistentLog (sweepStart env g s net).1.currHpwl (sweep env gen1 g s net).events
        (sweep env gen1 g s net).currHpwl ∧
      (sweep env gen1 g s net).currHpwl ≤ (sweepStart env g s net).1.currHpwl := by
    intro gen1
    have h0 : ConsistentLog (sweepStart env g s net).1.currHpwl
        (sweepStart env g s net).1.events (sweepStart env g s net).1.currHpwl :=
      ConsistentLog.nil _
    have := sweepFold_log env gen1 _ (sweepStart env g s net).2 _ h0
    exact ⟨this, consistentLog_le this⟩
  refine ⟨?_, ?_, ?_, ?_, hsweep gen, hsweep _, hsweep _⟩
  · rcases sweepStep_cases env gen st ndi with ⟨hr, he, hc, -⟩ | ⟨hr, hle, he, hc, -⟩ |
      ⟨hr, hle, he, hc, -⟩
    · exact Or.inl ⟨hr, he, hc⟩
    · exact Or.inr (Or.inl ⟨hr, by linarith, he, hc⟩)
    · exact Or.inr (Or.inr ⟨hr, by linarith, he, hc⟩)
  · intro d
    constructor <;> intro h <;> linarith
  · have := sweepFold_le env gen [ndi] st
    simpa using this
  · rw [List.foldl_append]
    exact sweepFold_le env gen l2 _

theorem acceptedSum_append (l1 l2 : List SweepEvent) :
    acceptedSum (l1 ++ l2) = acceptedSum l1 + acceptedSum l2 := by
  simp [acceptedSum, List.map_append, List.sum_append]

theorem sweepFold_total {σ : Type} (env : SweepEnv σ)
    (gen : Network → DetailedSwap → σ → Nat → GenOut σ) (T : Network → ℚ)
    (hacc : ∀ n1 g1 s1 nd, (gen n1 g1 s1 nd).result = true →
      T (env.acceptMove (gen n1 g1 s1 nd).mgr n1).2
        = T n1 - env.hpwlDelta (gen n1 g1 s1 nd).mgr n1)
    (hrej : ∀ n1 g1 s1 nd, (gen n1 g1 s1 nd).result = true →
      T (env.rejectMove (gen n1 g1 s1 nd).mgr n1).2 = T n1)
    (t0 : ℚ) (l : List Nat) :
    ∀ (st : SweepState σ), st.currHpwl = T st.net →
      st.currHpwl = t0 - acceptedSum st.events →
      (l.foldl (sweepStep env gen) st).currHpwl = T (l.foldl (sweepStep env gen) st).net ∧
      (l.foldl (sweepStep env gen) st).currHpwl
        = t0 - acceptedSum (l.foldl (sweepStep env gen) st).events := by
  induction l with
  | nil => intro st h1 h2; exact ⟨h1, h2⟩
  | cons nd l ih =>
    intro st h1 h2
    rw [List.foldl_cons]
    apply ih
    · rcases sweepStep_cases env gen st nd with ⟨-, -, hc, hn⟩ | ⟨hr, -, -, hc, hn⟩ |
        ⟨hr, -, -, hc, hn⟩
      · rw [hc, hn]; exact h1
      · rw [hc, hn, hacc _ _ _ _ hr, h1]
      · rw [hc, hn, hrej _ _ _ _ hr, h1]
    · rcases sweepStep_cases env gen st nd with ⟨-, he, hc, -⟩ | ⟨-, -, he, hc, -⟩ |
        ⟨-, -, he, hc, -⟩
      · rw [hc, he, acceptedSum_append, h2]
        simp [acceptedSum, SweepEvent.acceptedDelta]
      · rw [hc, he, acceptedSum_append, h2]
        simp [acceptedSum, SweepEvent.acceptedDelta]
        ring
      · rw [hc, he, acceptedSum_append, h2]
        simp [acceptedSum, SweepEvent.acceptedDelta]

/-- C15 (running total equals recomputation).  Let `T` be the total wirelength
recomputed from scratch on a placement and `proposed m n` the placement `n` with the
proposal held by manager `m` applied.  Assume that after every successful
`generate` the objective's delta is exact (`delta = T n - T (proposed m n)`), that
`acceptMove` applies the proposed positions and that `rejectMove` restores the
previous ones, and that the objective's `curr()` is `T`.  Then the running total at
the end of a sweep equals `T` of the final placement, and it equals the starting
total minus the sum of the deltas of the accepted proposals. -/
theorem sweep_total_eq_recomputation {σ : Type} (env : SweepEnv σ)
    (gen : Network → DetailedSwap → σ → Nat → GenOut σ) (T : Network → ℚ)
    (proposed : σ → Network → Network) (g : DetailedSwap) (s : σ) (net : Network)
    (hcurr : ∀ s1 n1, env.hpwlCurr s1 n1 = T n1)
    (hexact : ∀ n1 g1 s1 nd, (gen n1 g1 s1 nd).result = true →
      env.hpwlDelta (gen n1 g1 s1 nd).mgr n1 = T n1 - T (proposed (gen n1 g1 s1 nd).mgr n1))
    (hacc : ∀ n1 g1 s1 nd, (gen n1 g1 s1 nd).result = true →
      (env.acceptMove (gen n1 g1 s1 nd).mgr n1).2 = proposed (gen n1 g1 s1 nd).mgr n1)
    (hrej : ∀ n1 g1 s1 nd, (gen n1 g1 s1 nd).result = true →
      (env.rejectMove (gen n1 g1 s1 nd).mgr n1).2 = n1) :
    (sweep env gen g s net).currHpwl = T (sweep env gen g s net).net ∧
    (sweep env gen g s net).currHpwl
      = (sweepStart env g s net).1.currHpwl - acceptedSum (sweep env gen g s net).events ∧
    (sweepStart env g s net).1.currHpwl = T (sweepStart env g s net).1.net := by
  have hstart : (sweepStart env g s net).1.currHpwl = T (sweepStart env g s net).1.net := by
    unfold sweepStart
    exact hcurr _ _
  have := sweepFold_total env gen T
    (fun n1 g1 s1 nd hr => by rw [hacc n1 g1 s1 nd hr, hexact n1 g1 s1 nd hr]; ring)
    (fun n1 g1 s1 nd hr => by rw [hrej n1 g1 s1 nd hr])
    (sweepStart env g s net).1.currHpwl (sweepStart env g s net).2
    (sweepStart env g s net).1 hstart
    (by unfold sweepStart; simp [acceptedSum])
  exact ⟨this.1, this.2, hstart⟩

/-- Witness for C15: a sweep of the unrestricted generator over the example network
with the recording manager and an exact objective.  All three proposals are
accepted; the running total goes from 208 to 1, which is the wirelength recomputed
on the final placement. -/
theorem sweep_total_eq_recomputation_witness :
    (sweepStart recEnv exGen none exNet).1.currHpwl = 208 ∧
    (DetailedGlobalSwap.globalSwap recEnv recMgr (Rectangle.sentinel DBL_MAX) exArch exGen
      none exNet).currHpwl = 1 ∧
    acceptedSum (DetailedGlobalSwap.globalSwap recEnv recMgr (Rectangle.sentinel DBL_MAX)
      exArch exGen none exNet).events = 207 ∧
    (DetailedGlobalSwap.globalSwap recEnv recMgr (Rectangle.sentinel DBL_MAX) exArch exGen
      none exNet).currHpwl =
      totalHpwl (DetailedGlobalSwap.globalSwap recEnv recMgr (Rectangle.sentinel DBL_MAX)
        exArch exGen none exNet).net 99 :=
  ⟨by decide!, by decide!, by decide!,
   (sweep_total_eq_recomputation recEnv
      (fun n1 g1 s1 nd =>
        DetailedGlobalSwap.generate recMgr (Rectangle.sentinel DBL_MAX) exArch n1 g1 s1 nd)
      (fun n => totalHpwl n 99) proposedRec exGen none exNet
      (fun _ _ => rfl)
      (fun n1 g1 s1 nd _ => by
        generalize (DetailedGlobalSwap.generate recMgr (Rectangle.sentinel DBL_MAX) exArch
          n1 g1 s1 nd).mgr = m
        cases m with
        | none => simp [recEnv, proposedRec]
        | some a => rfl)
      (fun n1 g1 s1 nd _ => by
        generalize (DetailedGlobalSwap.generate recMgr (Rectangle.sentinel DBL_MAX) exArch
          n1 g1 s1 nd).mgr = m
        cases m with
        | none => rfl
        | some a => rfl)
      (fun _ _ _ _ _ => rfl)).1⟩

/-- Witness for C13: a wirelength that halves at every sweep.  With a budget of 5
and tolerance 0.1 all five sweeps run; with tolerance 0.5 the first sweep already
ends within tolerance; with a budget of 1 exactly one sweep runs. -/
theorem run_sweep_count_witness :
    (run atoiDec atofDec (fun h : ℚ => h / 2) (fun h => h) ["gs", "-p", "5", "-t", "0.1"]
      100).sweeps = 5 ∧
    (run atoiDec atofDec (fun h : ℚ => h / 2) (fun h => h) ["gs", "-p", "5", "-t", "0.5"]
      100).sweeps = 1 ∧
    (run atoiDec atofDec (fun h : ℚ => h / 2) (fun h => h) ["-p", "1", "-t", "0.5"]
      100).sweeps = 1 :=
  ⟨by decide!, by decide!,
   (run_sweep_count atoiDec atofDec (fun h : ℚ => h / 2) (fun h => h)
      ["-p", "1", "-t", "0.5"] 100).2.2.2.2.2.1 (by decide!)⟩

/-! ## Rounding to double -/

theorem roundHalfEven_floor_le (m : ℚ) : ⌊m⌋ ≤ roundHalfEven m := by
  unfold roundHalfEven
  split_ifs <;> omega

theorem roundHalfEven_le_floor_succ (m : ℚ) : roundHalfEven m ≤ ⌊m⌋ + 1 := by
  unfold roundHalfEven
  split_ifs <;> omega

theorem roundHalfEven_intCast (k : Int) : roundHalfEven (k : ℚ) = k := by
  unfold roundHalfEven
  simp

theorem roundHalfEven_mono {m n : ℚ} (h : m ≤ n) : roundHalfEven m ≤ roundHalfEven n := by
  have hfl : ⌊m⌋ ≤ ⌊n⌋ := Int.floor_mono h
  rcases lt_or_eq_of_le hfl with hlt | heq
  · calc roundHalfEven m ≤ ⌊m⌋ + 1 := roundHalfEven_le_floor_succ m
      _ ≤ ⌊n⌋ := hlt
      _ ≤ roundHalfEven n := roundHalfEven_floor_le n
  · have hfr : m - ⌊m⌋ ≤ n - ⌊n⌋ := by rw [heq]; linarith
    unfold roundHalfEven
    rw [heq] at hfr ⊢
    split_ifs <;> first | omega | (exfalso; linarith)


theorem roundHalfEven_neg (m : ℚ) : roundHalfEven (-m) = -roundHalfEven m := by
  by_cases hint : (⌊m⌋ : ℚ) = m
  · rw [← hint, ← Int.cast_neg, roundHalfEven_intCast, roundHalfEven_intCast]
  · have hlt : (⌊m⌋ : ℚ) < m := lt_of_le_of_ne (Int.floor_le m) hint
    have hlt2 : m < (⌊m⌋ : ℚ) + 1 := Int.lt_floor_add_one m
    have hfl : ⌊-m⌋ = -⌊m⌋ - 1 := by
      rw [Int.floor_eq_iff]
      push_cast
      constructor <;> linarith
    unfold roundHalfEven
    rw [hfl]
    push_cast
    split_ifs <;> first | omega | (exfalso; linarith)

theorem two_zpow_pos (e : Int) : (0 : ℚ) < 2 ^ e := by positivity

theorem log_two_spec (x : ℚ) (hx : 0 < x) :
    (2 : ℚ) ^ Int.log 2 x ≤ x ∧ x < (2 : ℚ) ^ (Int.log 2 x + 1) := by
  have h1 := Int.zpow_log_le_self (b := 2) (r := x) (by norm_num) hx
  have h2 := Int.lt_zpow_succ_log_self (b := 2) (by norm_num) x
  simp only [Nat.cast_ofNat] at h1 h2
  exact ⟨h1, h2⟩

theorem log_two_eq (x : ℚ) (k : Int) (h1 : (2 : ℚ) ^ k ≤ x) (h2 : x < (2 : ℚ) ^ (k + 1)) :
    Int.log 2 x = k := by
  have hx : 0 < x := lt_of_lt_of_le (two_zpow_pos k) h1
  have a1 := (Int.zpow_le_iff_le_log (b := 2) (by norm_num) (x := k) hx).mp
    (by simpa using h1)
  have a2 := (Int.lt_zpow_iff_log_lt (b := 2) (by norm_num) (x := k + 1) hx).mp
    (by simpa using h2)
  omega

/-- The scaled magnitude stays below `2 ^ 53`. -/
theorem scaled_lt (x : ℚ) (hx : x ≠ 0) : |x| / 2 ^ ulpExp x < 2 ^ (53 : Nat) := by
  have hpos : 0 < |x| := abs_pos.mpr hx
  have h2 := (log_two_spec |x| hpos).2
  rw [div_lt_iff₀ (two_zpow_pos _)]
  have hle : Int.log 2 |x| + 1 ≤ 53 + ulpExp x := by
    unfold ulpExp
    have := le_max_left (Int.log 2 |x| - 52) (-1074)
    omega
  calc |x| < (2 : ℚ) ^ (Int.log 2 |x| + 1) := h2
    _ ≤ (2 : ℚ) ^ (53 + ulpExp x) := zpow_le_zpow_right₀ (by norm_num) hle
    _ = 2 ^ (53 : Nat) * 2 ^ ulpExp x := by
      rw [zpow_add₀ (by norm_num)]
      norm_num

/-- Above the subnormal range the scaled magnitude is at least `2 ^ 52`. -/
theorem scaled_ge (x : ℚ) (hx : x ≠ 0) (he : -1074 < ulpExp x) :
    2 ^ (52 : Nat) ≤ |x| / 2 ^ ulpExp x := by
  have hpos : 0 < |x| := abs_pos.mpr hx
  have h1 := (log_two_spec |x| hpos).1
  rw [le_div_iff₀ (two_zpow_pos _)]
  have heq : ulpExp x = Int.log 2 |x| - 52 := by
    unfold ulpExp at he ⊢
    rcases max_cases (Int.log 2 |x| - 52) (-1074) with ⟨h, -⟩ | ⟨h, -⟩
    · exact h
    · rw [h] at he; omega
  calc (2 : ℚ) ^ (52 : Nat) * 2 ^ ulpExp x = (2 : ℚ) ^ (52 + ulpExp x) := by
        rw [zpow_add₀ (by norm_num)]
        norm_num
    _ = (2 : ℚ) ^ Int.log 2 |x| := by rw [heq]; congr 1; omega
    _ ≤ |x| := h1

theorem ulpExp_mono (x y : ℚ) (hx : x ≠ 0) (h : |x| ≤ |y|) : ulpExp x ≤ ulpExp y := by
  unfold ulpExp
  have := Int.log_mono_right (b := 2) (abs_pos.mpr hx) h
  exact max_le_max (by omega) (le_refl _)

theorem ulpExp_neg (x : ℚ) : ulpExp (-x) = ulpExp x := by
  unfold ulpExp
  rw [abs_neg]

theorem roundDouble_neg (x : ℚ) : roundDouble (-x) = -roundDouble x := by
  unfold roundDouble
  rw [ulpExp_neg, neg_div, roundHalfEven_neg]
  push_cast
  ring

theorem roundDouble_zero : roundDouble 0 = 0 := by
  unfold roundDouble
  rw [zero_div]
  have : roundHalfEven 0 = 0 := by
    have := roundHalfEven_intCast 0
    simpa using this
  rw [this]
  simp

theorem roundDouble_nonneg (x : ℚ) (hx : 0 ≤ x) : 0 ≤ roundDouble x := by
  unfold roundDouble
  have h0 : (0 : ℚ) ≤ x / 2 ^ ulpExp x := div_nonneg hx (two_zpow_pos _).le
  have := roundHalfEven_mono h0
  have h00 : roundHalfEven 0 = 0 := by
    have := roundHalfEven_intCast 0
    simpa using this
  rw [h00] at this
  exact mul_nonneg (by exact_mod_cast this) (two_zpow_pos _).le

theorem roundDouble_mono_pos (x y : ℚ) (hx : 0 < x) (h : x ≤ y) :
    roundDouble x ≤ roundDouble y := by
  have hy : 0 < y := lt_of_lt_of_le hx h
  have hxy : |x| ≤ |y| := by rw [abs_of_pos hx, abs_of_pos hy]; exact h
  have he := ulpExp_mono x y (ne_of_gt hx) hxy
  rcases lt_or_eq_of_le he with hlt | heq
  · have hA := scaled_lt x (ne_of_gt hx)
    rw [abs_of_pos hx] at hA
    have hB := scaled_ge y (ne_of_gt hy) (by
      have : -1074 ≤ ulpExp x := le_max_right _ _
      omega)
    rw [abs_of_pos hy] at hB
    have h1 : roundHalfEven (x / 2 ^ ulpExp x) ≤ 2 ^ (53 : Nat) := by
      have := roundHalfEven_mono hA.le
      have e : roundHalfEven ((2 : ℚ) ^ (53 : Nat)) = 2 ^ (53 : Nat) := by
        have := roundHalfEven_intCast (2 ^ (53 : Nat))
        simpa using this
      rw [e] at this
      exact this
    have h2 : (2 : Int) ^ (52 : Nat) ≤ roundHalfEven (y / 2 ^ ulpExp y) := by
      have := roundHalfEven_mono hB
      have e : roundHalfEven ((2 : ℚ) ^ (52 : Nat)) = 2 ^ (52 : Nat) := by
        have := roundHalfEven_intCast (2 ^ (52 : Nat))
        simpa using this
      rw [e] at this
      exact this
    unfold roundDouble
    have h1q : (roundHalfEven (x / 2 ^ ulpExp x) : ℚ) ≤ 2 ^ (53 : Nat) := by exact_mod_cast h1
    have h2q : (2 : ℚ) ^ (52 : Nat) ≤ (roundHalfEven (y / 2 ^ ulpExp y) : ℚ) := by
      exact_mod_cast h2
    calc (roundHalfEven (x / 2 ^ ulpExp x) : ℚ) * 2 ^ ulpExp x
        ≤ 2 ^ (53 : Nat) * 2 ^ ulpExp x :=
          mul_le_mul_of_nonneg_right h1q (two_zpow_pos _).le
      _ = (2 : ℚ) ^ (53 + ulpExp x) := by
          rw [zpow_add₀ (by norm_num)]
          norm_num
      _ ≤ (2 : ℚ) ^ (52 + ulpExp y) := zpow_le_zpow_right₀ (by norm_num) (by omega)
      _ = 2 ^ (52 : Nat) * 2 ^ ulpExp y := by
          rw [zpow_add₀ (by norm_num)]
          norm_num
      _ ≤ (roundHalfEven (y / 2 ^ ulpExp y) : ℚ) * 2 ^ ulpExp y :=
          mul_le_mul_of_nonneg_right h2q (two_zpow_pos _).le
  · unfold roundDouble
    rw [heq]
    have : x / 2 ^ ulpExp y ≤ y / 2 ^ ulpExp y :=
      div_le_div_of_nonneg_right h (two_zpow_pos _).le
    have := roundHalfEven_mono this
    exact mul_le_mul_of_nonneg_right (by exact_mod_cast this) (two_zpow_pos _).le

/-- Rounding to double is monotone. -/
theorem roundDouble_mono {x y : ℚ} (h : x ≤ y) : roundDouble x ≤ roundDouble y := by
  rcases lt_trichotomy 0 x with hx | hx | hx
  · exact roundDouble_mono_pos x y hx h
  · rw [← hx, roundDouble_zero]
    exact roundDouble_nonneg y (by rw [← hx] at h; exact h)
  · rcases le_or_lt 0 y with hy | hy
    · have h1 : roundDouble x ≤ 0 := by
        have := roundDouble_nonneg (-x) (by linarith)
        rw [roundDouble_neg] at this
        linarith
      exact le_trans h1 (roundDouble_nonneg y hy)
    · have := roundDouble_mono_pos (-y) (-x) (by linarith) (by linarith)
      rw [roundDouble_neg, roundDouble_neg] at this
      linarith


/-- A value `k * 2 ^ j` with `|k| < 2 ^ 53` and `j ≥ -1074` is a double: rounding
leaves it unchanged. -/
theorem roundDouble_of_representable (k j : Int) (hk : |k| < 2 ^ (53 : Nat))
    (hj : -1074 ≤ j) : roundDouble ((k : ℚ) * 2 ^ j) = (k : ℚ) * 2 ^ j := by
  by_cases hk0 : k = 0
  · subst hk0
    simp [roundDouble_zero]
  · have hx : (k : ℚ) * 2 ^ j ≠ 0 :=
      mul_ne_zero (by exact_mod_cast hk0) (ne_of_gt (two_zpow_pos j))
    have hpos : 0 < |(k : ℚ) * 2 ^ j| := abs_pos.mpr hx
    have habs : |(k : ℚ) * 2 ^ j| < (2 : ℚ) ^ (53 + j) := by
      rw [abs_mul, abs_of_pos (two_zpow_pos j), zpow_add₀ (by norm_num)]
      have : |(k : ℚ)| < 2 ^ (53 : Nat) := by exact_mod_cast hk
      have h2 := mul_lt_mul_of_pos_right this (two_zpow_pos j)
      calc |(k : ℚ)| * 2 ^ j < 2 ^ (53 : Nat) * 2 ^ j := h2
        _ = (2 : ℚ) ^ (53 : Int) * 2 ^ j := by norm_num
    have hlog : Int.log 2 |(k : ℚ) * 2 ^ j| < 53 + j :=
      (Int.lt_zpow_iff_log_lt (b := 2) (by norm_num) (x := 53 + j) hpos).mp
        (by simpa using habs)
    have he : ulpExp ((k : ℚ) * 2 ^ j) ≤ j := by
      unfold ulpExp
      exact max_le (by omega) hj
    have key : ∀ e : Int, e ≤ j →
        (roundHalfEven ((k : ℚ) * 2 ^ j / 2 ^ e) : ℚ) * 2 ^ e = (k : ℚ) * 2 ^ j := by
      intro e hej
      obtain ⟨d, hd⟩ := Int.le.dest hej
      have hscaled : (k : ℚ) * 2 ^ j / 2 ^ e = ((k * 2 ^ d : Int) : ℚ) := by
        rw [← hd, zpow_add₀ (by norm_num), div_eq_iff (ne_of_gt (two_zpow_pos _))]
        push_cast
        rw [zpow_natCast]
        ring
      rw [hscaled, roundHalfEven_intCast, ← hd, zpow_add₀ (by norm_num)]
      push_cast
      rw [zpow_natCast]
      ring
    exact key _ he

theorem roundHalfEven_scaled_bounds (x : ℚ) (hx : x ≠ 0) :
    -(2 ^ (53 : Nat)) ≤ roundHalfEven (x / 2 ^ ulpExp x) ∧
    roundHalfEven (x / 2 ^ ulpExp x) ≤ 2 ^ (53 : Nat) := by
  have hA := scaled_lt x hx
  have hA2 : |x / 2 ^ ulpExp x| < 2 ^ (53 : Nat) := by
    rw [abs_div, abs_of_pos (two_zpow_pos (ulpExp x))]
    exact hA
  obtain ⟨h1, h2⟩ := abs_lt.mp hA2
  have e1 : roundHalfEven ((2 : ℚ) ^ (53 : Nat)) = 2 ^ (53 : Nat) := by
    have := roundHalfEven_intCast (2 ^ (53 : Nat))
    simpa using this
  have e2 : roundHalfEven (-(2 : ℚ) ^ (53 : Nat)) = -(2 ^ (53 : Nat)) := by
    rw [roundHalfEven_neg, e1]
  constructor
  · have := roundHalfEven_mono h1.le
    rw [e2] at this
    exact this
  · have := roundHalfEven_mono h2.le
    rw [e1] at this
    exact this

/-- Rounding to double is idempotent: its results are doubles. -/
theorem roundDouble_idem (x : ℚ) : roundDouble (roundDouble x) = roundDouble x := by
  by_cases hx : x = 0
  · subst hx
    rw [roundDouble_zero, roundDouble_zero]
  · obtain ⟨h1, h2⟩ := roundHalfEven_scaled_bounds x hx
    have he : -1074 ≤ ulpExp x := le_max_right _ _
    have hdef : roundDouble x = (roundHalfEven (x / 2 ^ ulpExp x) : ℚ) * 2 ^ ulpExp x := rfl
    rcases lt_or_eq_of_le h2 with hlt | heq
    · rcases lt_or_eq_of_le h1 with hgt | heq2
      · rw [hdef]
        exact roundDouble_of_representable _ _ (abs_lt.mpr ⟨hgt, hlt⟩) he
      · have hval : roundDouble x = ((-(2 ^ (52 : Nat)) : Int) : ℚ) * 2 ^ (ulpExp x + 1) := by
          rw [hdef, ← heq2, zpow_add₀ (by norm_num)]
          push_cast
          ring
        rw [hval]
        exact roundDouble_of_representable _ _ (by norm_num) (by omega)
    · have hval : roundDouble x = ((2 ^ (52 : Nat) : Int) : ℚ) * 2 ^ (ulpExp x + 1) := by
        rw [hdef, heq, zpow_add₀ (by norm_num)]
        push_cast
        ring
      rw [hval]
      exact roundDouble_of_representable _ _ (by norm_num) (by omega)

/-- An integer of magnitude below `2 ^ 53` is a double. -/
theorem roundDouble_intCast (k : Int) (hk : |k| < 2 ^ (53 : Nat)) :
    roundDouble (k : ℚ) = (k : ℚ) := by
  have := roundDouble_of_representable k 0 hk (by norm_num)
  simpa using this

/-- `2 ^ 53` is a double, `2 ^ 53 + 1` is not: it lies halfway between the doubles
`2 ^ 53` and `2 ^ 53 + 2` and rounds to the even one. -/
theorem roundDouble_two_pow_53 :
    roundDouble (2 ^ (53 : Nat)) = 2 ^ (53 : Nat) ∧
    roundDouble (2 ^ (53 : Nat) + 1) = 2 ^ (53 : Nat) := by
  constructor
  · have := roundDouble_of_representable (2 ^ (52 : Nat)) 1 (by norm_num) (by norm_num)
    have e : (((2 : Int) ^ (52 : Nat) : Int) : ℚ) * 2 ^ (1 : Int) = 2 ^ (53 : Nat) := by norm_num
    rw [e] at this
    exact this
  · have hlog : Int.log 2 |(2 : ℚ) ^ (53 : Nat) + 1| = 53 := by
      apply log_two_eq
      · rw [abs_of_pos (by positivity)]; norm_num
      · rw [abs_of_pos (by positivity)]; norm_num
    have he : ulpExp ((2 : ℚ) ^ (53 : Nat) + 1) = 1 := by
      unfold ulpExp
      rw [hlog]
      decide
    unfold roundDouble
    rw [he]
    have hr : roundHalfEven (((2 : ℚ) ^ (53 : Nat) + 1) / 2 ^ (1 : Int)) = 2 ^ (52 : Nat) := by
      decide!
    rw [hr]
    norm_num


/-! ## The sweep in double arithmetic -/

/-- The three ways one candidate is handled in double arithmetic. -/
theorem sweepStepDbl_cases {σ : Type} (env : SweepEnv σ)
    (gen : Network → DetailedSwap → σ → Nat → GenOut σ) (st : SweepState σ) (ndi : Nat) :
    ((gen st.net st.gen st.mgr ndi).result = false ∧
      (sweepStepDbl env gen st ndi).events = st.events ++ [SweepEvent.generated ndi false] ∧
      (sweepStepDbl env gen st ndi).currHpwl = st.currHpwl ∧
      (sweepStepDbl env gen st ndi).net = st.net) ∨
    ((gen st.net st.gen st.mgr ndi).result = true ∧
      roundDouble (st.currHpwl - env.hpwlDelta (gen st.net st.gen st.mgr ndi).mgr st.net)
        ≤ st.currHpwl ∧
      (sweepStepDbl env gen st ndi).events = st.events ++
        [SweepEvent.generated ndi true,
         SweepEvent.acceptMove (env.hpwlDelta (gen st.net st.gen st.mgr ndi).mgr st.net)
           (roundDouble
             (st.currHpwl - env.hpwlDelta (gen st.net st.gen st.mgr ndi).mgr st.net))] ∧
      (sweepStepDbl env gen st ndi).currHpwl =
        roundDouble (st.currHpwl - env.hpwlDelta (gen st.net st.gen st.mgr ndi).mgr st.net) ∧
      (sweepStepDbl env gen st ndi).net =
        (env.acceptMove (gen st.net st.gen st.mgr ndi).mgr st.net).2) ∨
    ((gen st.net st.gen st.mgr ndi).result = true ∧
      ¬ (roundDouble (st.currHpwl - env.hpwlDelta (gen st.net st.gen st.mgr ndi).mgr st.net)
          ≤ st.currHpwl) ∧
      (sweepStepDbl env gen st ndi).events = st.events ++
        [SweepEvent.generated ndi true,
         SweepEvent.rejectMove (env.hpwlDelta (gen st.net st.gen st.mgr ndi).mgr st.net)
           st.currHpwl] ∧
      (sweepStepDbl env gen st ndi).currHpwl = st.currHpwl ∧
      (sweepStepDbl env gen st ndi).net =
        (env.rejectMove (gen st.net st.gen st.mgr ndi).mgr st.net).2) := by
  unfold sweepStepDbl
  dsimp only
  cases hres : (gen st.net st.gen st.mgr ndi).result with
  | false => left; simp
  | true =>
    right
    by_cases hle : roundDouble
        (st.currHpwl - env.hpwlDelta (gen st.net st.gen st.mgr ndi).mgr st.net) ≤ st.currHpwl
    · left; simp only [hle, if_true]; simp
    · right; simp only [hle, if_false]; simp

/-- Where the subtraction is exact the step in double arithmetic is the exact step. -/
theorem sweepStepDbl_of_exact {σ : Type} (env : SweepEnv σ)
    (gen : Network → DetailedSwap → σ → Nat → GenOut σ) (st : SweepState σ) (ndi : Nat)
    (h : roundDouble (st.currHpwl - env.hpwlDelta (gen st.net st.gen st.mgr ndi).mgr st.net)
      = st.currHpwl - env.hpwlDelta (gen st.net st.gen st.mgr ndi).mgr st.net) :
    sweepStepDbl env gen st ndi = sweepStep env gen st ndi := by
  unfold sweepStepDbl sweepStep
  dsimp only
  rw [h]

/-- From a total that is a double, a delta `d ≥ 0` gives a rounded difference that
is at most the total. -/
theorem roundDouble_sub_le (c d : ℚ) (hc : roundDouble c = c) (hd : 0 ≤ d) :
    roundDouble (c - d) ≤ c := by
  have := roundDouble_mono (sub_le_self c hd)
  rw [hc] at this
  exact this

/-- From a total that is a double, a delta `d ≤ 0` gives a rounded difference that
is at least the total. -/
theorem le_roundDouble_sub (c d : ℚ) (hc : roundDouble c = c) (hd : d ≤ 0) :
    c ≤ roundDouble (c - d) := by
  have := roundDouble_mono (show c ≤ c - d by linarith)
  rw [hc] at this
  exact this

theorem sweepStepDbl_le {σ : Type} (env : SweepEnv σ)
    (gen : Network → DetailedSwap → σ → Nat → GenOut σ) (st : SweepState σ) (ndi : Nat) :
    (sweepStepDbl env gen st ndi).currHpwl ≤ st.currHpwl := by
  rcases sweepStepDbl_cases env gen st ndi with ⟨-, -, hc, -⟩ | ⟨-, hle, -, hc, -⟩ |
    ⟨-, -, -, hc, -⟩
  · rw [hc]
  · rw [hc]; exact hle
  · rw [hc]

theorem sweepStepDbl_double {σ : Type} (env : SweepEnv σ)
    (gen : Network → DetailedSwap → σ → Nat → GenOut σ) (st : SweepState σ) (ndi : Nat)
    (hst : roundDouble st.currHpwl = st.currHpwl) :
    roundDouble (sweepStepDbl env gen st ndi).currHpwl
      = (sweepStepDbl env gen st ndi).currHpwl := by
  rcases sweepStepDbl_cases env gen st ndi with ⟨-, -, hc, -⟩ | ⟨-, -, -, hc, -⟩ |
    ⟨-, -, -, hc, -⟩
  · rw [hc]; exact hst
  · rw [hc]; exact roundDouble_idem _
  · rw [hc]; exact hst

theorem sweepFoldDbl_le {σ : Type} (env : SweepEnv σ)
    (gen : Network → DetailedSwap → σ → Nat → GenOut σ) (l : List Nat) :
    ∀ (st : SweepState σ), (l.foldl (sweepStepDbl env gen) st).currHpwl ≤ st.currHpwl := by
  induction l with
  | nil => intro st; exact le_refl _
  | cons nd l ih =>
    intro st
    rw [List.foldl_cons]
    exact le_trans (ih _) (sweepStepDbl_le env gen st nd)

theorem sweepStepDbl_log {σ : Type} (env : SweepEnv σ)
    (gen : Network → DetailedSwap → σ → Nat → GenOut σ) (t : ℚ) (st : SweepState σ)
    (ndi : Nat) (hst : roundDouble st.currHpwl = st.currHpwl)
    (h : DoubleLog t st.events st.currHpwl) :
    DoubleLog t (sweepStepDbl env gen st ndi).events
      (sweepStepDbl env gen st ndi).currHpwl := by
  rcases sweepStepDbl_cases env gen st ndi with ⟨-, he, hc, -⟩ | ⟨-, hle, he, hc, -⟩ |
    ⟨-, hle, he, hc, -⟩
  · rw [he, hc]; exact DoubleLog.fail ndi h
  · rw [he, hc]
    exact DoubleLog.accept ndi _ h hle
  · rw [he, hc]
    refine DoubleLog.reject ndi _ h ?_ (not_le.mp hle)
    by_contra hd
    exact hle (roundDouble_sub_le _ _ hst (not_lt.mp hd))

theorem sweepFoldDbl_log {σ : Type} (env : SweepEnv σ)
    (gen : Network → DetailedSwap → σ → Nat → GenOut σ) (t : ℚ) (l : List Nat) :
    ∀ (st : SweepState σ), roundDouble st.currHpwl = st.currHpwl →
      DoubleLog t st.events st.currHpwl →
      DoubleLog t (l.foldl (sweepStepDbl env gen) st).events
        (l.foldl (sweepStepDbl env gen) st).currHpwl := by
  induction l with
  | nil => intro st _ h; exact h
  | cons nd l ih =>
    intro st hst h
    rw [List.foldl_cons]
    exact ih _ (sweepStepDbl_double env gen st nd hst) (sweepStepDbl_log env gen t st nd hst h)

theorem doubleLog_le {t t1 : ℚ} {l : List SweepEvent} (h : DoubleLog t l t1) : t1 ≤ t := by
  induction h with
  | nil => exact le_refl _
  | fail nd _ ih => exact ih
  | accept nd d _ hd ih => exact le_trans hd ih
  | reject nd d _ _ _ ih => exact ih

/-- C14 as stated fails in double arithmetic.  At a running total of `2 ^ 53` a
proposal with delta `d = -1 < 0` is accepted: `currHpwl - d = 2 ^ 53 + 1` is not a
double and rounds (to even) to `2 ^ 53`, so the test `nextHpwl <= currHpwl` holds,
although `d ≥ 0` fails and the exact difference exceeds the total.  Both the total
and the delta are doubles.  The step shown is the first one of a sweep over the
example network whose objective reports the total `2 ^ 53` and the delta `-1`. -/
theorem negative_delta_accepted_after_rounding :
    (sweepStart bigEnv exGen none exNet).1.currHpwl = 2 ^ 53 ∧
    (DetailedGlobalSwap.generate recMgr (Rectangle.sentinel DBL_MAX) exArch exNet
      (sweepStart bigEnv exGen none exNet).1.gen none 2).result = true ∧
    roundDouble (2 ^ 53) = 2 ^ 53 ∧ roundDouble (-1) = -1 ∧
    roundDouble (2 ^ 53 - -1) = 2 ^ 53 ∧
    ¬ ((0 : ℚ) ≤ -1) ∧ ¬ ((2 : ℚ) ^ 53 - -1 ≤ 2 ^ 53) ∧
    (sweepStepDbl bigEnv
      (fun n1 g1 s1 nd =>
        DetailedGlobalSwap.generate recMgr (Rectangle.sentinel DBL_MAX) exArch n1 g1 s1 nd)
      (sweepStart bigEnv exGen none exNet).1 2).events
      = [SweepEvent.generated 2 true, SweepEvent.acceptMove (-1) (2 ^ 53)] ∧
    (sweepStepDbl bigEnv
      (fun n1 g1 s1 nd =>
        DetailedGlobalSwap.generate recMgr (Rectangle.sentinel DBL_MAX) exArch n1 g1 s1 nd)
      (sweepStart bigEnv exGen none exNet).1 2).currHpwl = 2 ^ 53 := by
  have hres : (DetailedGlobalSwap.generate recMgr (Rectangle.sentinel DBL_MAX) exArch exNet
      (sweepStart bigEnv exGen none exNet).1.gen none 2).result = true := by decide!
  have h53 : roundDouble (2 ^ 53) = 2 ^ 53 := roundDouble_two_pow_53.1
  have hm1 : roundDouble (-1) = -1 := by
    have := roundDouble_intCast (-1) (by norm_num)
    simpa using this
  have hsum : roundDouble (2 ^ 53 - -1) = 2 ^ 53 := by
    rw [sub_neg_eq_add]
    exact roundDouble_two_pow_53.2
  refine ⟨rfl, hres, h53, hm1, hsum, by norm_num, by norm_num, ?_, ?_⟩
  · rcases sweepStepDbl_cases bigEnv
      (fun n1 g1 s1 nd =>
        DetailedGlobalSwap.generate recMgr (Rectangle.sentinel DBL_MAX) exArch n1 g1 s1 nd)
      (sweepStart bigEnv exGen none exNet).1 2 with ⟨hr, -⟩ | ⟨-, -, he, -⟩ | ⟨-, hle, -⟩
    · exfalso
      have hr2 : (DetailedGlobalSwap.generate recMgr (Rectangle.sentinel DBL_MAX) exArch exNet
          (sweepStart bigEnv exGen none exNet).1.gen none 2).result = false := hr
      rw [hres] at hr2
      exact Bool.noConfusion hr2
    · rw [he]
      have e1 : (sweepStart bigEnv exGen none exNet).1.events = [] := rfl
      have e2 : (sweepStart bigEnv exGen none exNet).1.currHpwl = 2 ^ 53 := rfl
      have e3 : ∀ (m : Option MoveArgs) (n : Network), bigEnv.hpwlDelta m n = -1 :=
        fun _ _ => rfl
      rw [e1, e2, e3, hsum]
      rfl
    · exfalso
      apply hle
      have e2 : (sweepStart bigEnv exGen none exNet).1.currHpwl = 2 ^ 53 := rfl
      have e3 : ∀ (m : Option MoveArgs) (n : Network), bigEnv.hpwlDelta m n = -1 :=
        fun _ _ => rfl
      rw [e2, e3, hsum]
  · rcases sweepStepDbl_cases bigEnv
      (fun n1 g1 s1 nd =>
        DetailedGlobalSwap.generate recMgr (Rectangle.sentinel DBL_MAX) exArch n1 g1 s1 nd)
      (sweepStart bigEnv exGen none exNet).1 2 with ⟨hr, -⟩ | ⟨-, -, -, hc, -⟩ |
      ⟨-, hle, -⟩
    · exfalso
      have hr2 : (DetailedGlobalSwap.generate recMgr (Rectangle.sentinel DBL_MAX) exArch exNet
          (sweepStart bigEnv exGen none exNet).1.gen none 2).result = false := hr
      rw [hres] at hr2
      exact Bool.noConfusion hr2
    · rw [hc]
      have e2 : (sweepStart bigEnv exGen none exNet).1.currHpwl = 2 ^ 53 := rfl
      have e3 : ∀ (m : Option MoveArgs) (n : Network), bigEnv.hpwlDelta m n = -1 :=
        fun _ _ => rfl
      rw [e2, e3, hsum]
    · exfalso
      apply hle
      have e2 : (sweepStart bigEnv exGen none exNet).1.currHpwl = 2 ^ 53 := rfl
      have e3 : ∀ (m : Option MoveArgs) (n : Network), bigEnv.hpwlDelta m n = -1 :=
        fun _ _ => rfl
      rw [e2, e3, hsum]

/-- C14 as amended (monotonic acceptance).  In double arithmetic, from a running
total that is a double (the objective's `curr()` returns doubles): for one candidate
of a sweep either `generate` fails and nothing else happens, or it succeeds and is
followed by exactly one `acceptMove` or `rejectMove`; the proposal is accepted if
and only if the computed `nextHpwl`, the double nearest to `currHpwl - d`, satisfies
`nextHpwl ≤ currHpwl`; every `d ≥ 0` is accepted (a zero delta too), every rejected
proposal has `d < 0`, and a proposal with `d < 0` is accepted exactly when
`currHpwl - d` rounds to `currHpwl` itself; the running total becomes `nextHpwl` on
acceptance and is unchanged otherwise, and stays a double.  Hence the running total
never increases at any step, the whole event log of `globalSwap` and of
`verticalSwap` is made of such blocks, and the total at the end of a sweep is at
most the total at its start. -/
theorem sweep_monotonic_acceptance {σ : Type} (env : SweepEnv σ) (ops : DetailedMgr σ)
    (reset : Rectangle) (arch : Architecture)
    (gen : Network → DetailedSwap → σ → Nat → GenOut σ) (st : SweepState σ) (ndi : Nat)
    (l1 l2 : List Nat) (g : DetailedSwap) (s : σ) (net : Network)
    (hst : roundDouble st.currHpwl = st.currHpwl)
    (hcurr : ∀ s1 n1, roundDouble (env.hpwlCurr s1 n1) = env.hpwlCurr s1 n1) :
    (((gen st.net st.gen st.mgr ndi).result = false ∧
        (sweepStepDbl env gen st ndi).events = st.events ++ [SweepEvent.generated ndi false] ∧
        (sweepStepDbl env gen st ndi).currHpwl = st.currHpwl) ∨
      ((gen st.net st.gen st.mgr ndi).result = true ∧
        roundDouble (st.currHpwl - env.hpwlDelta (gen st.net st.gen st.mgr ndi).mgr st.net)
          ≤ st.currHpwl ∧
        (sweepStepDbl env gen st ndi).events = st.events ++
          [SweepEvent.generated ndi true,
           SweepEvent.acceptMove (env.hpwlDelta (gen st.net st.gen st.mgr ndi).mgr st.net)
             (roundDouble
               (st.currHpwl - env.hpwlDelta (gen st.net st.gen st.mgr ndi).mgr st.net))] ∧
        (sweepStepDbl env gen st ndi).currHpwl =
          roundDouble
            (st.currHpwl - env.hpwlDelta (gen st.net st.gen st.mgr ndi).mgr st.net)) ∨
      ((gen st.net st.gen st.mgr ndi).result = true ∧
        st.currHpwl <
          roundDouble (st.currHpwl - env.hpwlDelta (gen st.net st.gen st.mgr ndi).mgr st.net) ∧
        env.hpwlDelta (gen st.net st.gen st.mgr ndi).mgr st.net < 0 ∧
        (sweepStepDbl env gen st ndi).events = st.events ++
          [SweepEvent.generated ndi true,
           SweepEvent.rejectMove (env.hpwlDelta (gen st.net st.gen st.mgr ndi).mgr st.net)
             st.currHpwl] ∧
        (sweepStepDbl env gen st ndi).currHpwl = st.currHpwl)) ∧
    (∀ d : ℚ, 0 ≤ d → roundDouble (st.currHpwl - d) ≤ st.currHpwl) ∧
    (∀ d : ℚ, d < 0 →
      (roundDouble (st.currHpwl - d) ≤ st.currHpwl ↔
        roundDouble (st.currHpwl - d) = st.currHpwl)) ∧
    ((sweepStepDbl env gen st ndi).currHpwl ≤ st.currHpwl ∧
      roundDouble (sweepStepDbl env gen st ndi).currHpwl
        = (sweepStepDbl env gen st ndi).currHpwl) ∧
    ((l1 ++ l2).foldl (sweepStepDbl env gen) st).currHpwl
      ≤ (l1.foldl (sweepStepDbl env gen) st).currHpwl ∧
    (DoubleLog (sweepStart env g s net).1.currHpwl (sweepDbl env gen g s net).events
        (sweepDbl env gen g s net).currHpwl ∧
      (sweepDbl env gen g s net).currHpwl ≤ (sweepStart env g s net).1.currHpwl) ∧
    (DoubleLog (sweepStart env g s net).1.currHpwl
        (DetailedGlobalSwap.globalSwapDbl env ops reset arch g s net).events
        (DetailedGlobalSwap.globalSwapDbl env ops reset arch g s net).currHpwl ∧
      (DetailedGlobalSwap.globalSwapDbl env ops reset arch g s net).currHpwl
        ≤ (sweepStart env g s net).1.currHpwl) ∧
    (DoubleLog (sweepStart env g s net).1.currHpwl
        (DetailedVerticalSwap.verticalSwapDbl env ops arch g s net).events
        (DetailedVerticalSwap.verticalSwapDbl env ops arch g s net).currHpwl ∧
      (DetailedVerticalSwap.verticalSwapDbl env ops arch g s net).currHpwl
        ≤ (sweepStart env g s net).1.currHpwl) := by
  have hsweep : ∀ gen1 : Network → DetailedSwap → σ → Nat → GenOut σ,
      DoubleLog (sweepStart env g s net).1.currHpwl (sweepDbl env gen1 g s net).events
        (sweepDbl env gen1 g s net).currHpwl ∧
      (sweepDbl env gen1 g s net).currHpwl ≤ (sweepStart env g s net).1.currHpwl := by
    intro gen1
    have h0 : DoubleLog (sweepStart env g s net).1.currHpwl
        (sweepStart env g s net).1.events (sweepStart env g s net).1.currHpwl :=
      DoubleLog.nil _
    have hd0 : roundDouble (sweepStart env g s net).1.currHpwl
        = (sweepStart env g s net).1.currHpwl := hcurr _ _
    have := sweepFoldDbl_log env gen1 _ (sweepStart env g s net).2 _ hd0 h0
    exact ⟨this, doubleLog_le this⟩
  refine ⟨?_, ?_, ?_, ⟨sweepStepDbl_le env gen st ndi, sweepStepDbl_double env gen st ndi hst⟩,
    ?_, hsweep gen, hsweep _, hsweep _⟩
  · rcases sweepStepDbl_cases env gen st ndi with ⟨hr, he, hc, -⟩ | ⟨hr, hle, he, hc, -⟩ |
      ⟨hr, hle, he, hc, -⟩
    · exact Or.inl ⟨hr, he, hc⟩
    · exact Or.inr (Or.inl ⟨hr, hle, he, hc⟩)
    · refine Or.inr (Or.inr ⟨hr, not_le.mp hle, ?_, he, hc⟩)
      by_contra hd
      exact hle (roundDouble_sub_le _ _ hst (not_lt.mp hd))
  · intro d hd
    exact roundDouble_sub_le _ _ hst hd
  · intro d hd
    constructor
    · intro h
      exact le_antisymm h (le_roundDouble_sub _ _ hst hd.le)
    · intro h
      exact le_of_eq h
  · rw [List.foldl_append]
    exact sweepFoldDbl_le env gen l2 _

/-- Witness for C14 as amended: the sweep of the counterexample, from the total
`2 ^ 53` (a double) with an objective that reports the delta -1 for every proposal;
the total never increases, and at the first candidate the difference
`2 ^ 53 + 1` rounds to the total itself. -/
theorem sweep_monotonic_acceptance_witness :
    roundDouble (sweepStart bigEnv exGen none exNet).1.currHpwl
      = (sweepStart bigEnv exGen none exNet).1.currHpwl ∧
    (∀ (s1 : Option MoveArgs) (n1 : Network),
      roundDouble (bigEnv.hpwlCurr s1 n1) = bigEnv.hpwlCurr s1 n1) ∧
    (DetailedGlobalSwap.globalSwapDbl bigEnv recMgr (Rectangle.sentinel DBL_MAX) exArch exGen
      none exNet).currHpwl ≤ (sweepStart bigEnv exGen none exNet).1.currHpwl ∧
    (roundDouble ((sweepStart bigEnv exGen none exNet).1.currHpwl - -1)
        ≤ (sweepStart bigEnv exGen none exNet).1.currHpwl ↔
      roundDouble ((sweepStart bigEnv exGen none exNet).1.currHpwl - -1)
        = (sweepStart bigEnv exGen none exNet).1.currHpwl) :=
  ⟨roundDouble_two_pow_53.1, fun _ _ => roundDouble_two_pow_53.1,
   (sweep_monotonic_acceptance bigEnv recMgr (Rectangle.sentinel DBL_MAX) exArch
      (fun n1 g1 s1 nd =>
        DetailedGlobalSwap.generate recMgr (Rectangle.sentinel DBL_MAX) exArch n1 g1 s1 nd)
      (sweepStart bigEnv exGen none exNet).1 2 [] [] exGen none exNet
      roundDouble_two_pow_53.1 (fun _ _ => roundDouble_two_pow_53.1)).2.2.2.2.2.2.1.2,
   (sweep_monotonic_acceptance bigEnv recMgr (Rectangle.sentinel DBL_MAX) exArch
      (fun n1 g1 s1 nd =>
        DetailedGlobalSwap.generate recMgr (Rectangle.sentinel DBL_MAX) exArch n1 g1 s1 nd)
      (sweepStart bigEnv exGen none exNet).1 2 [] [] exGen none exNet
      roundDouble_two_pow_53.1 (fun _ _ => roundDouble_two_pow_53.1)).2.2.1 (-1)
      (by norm_num)⟩

/-! ## Each net is counted once -/

/-- C21 (each net counted once).  If every edge mark is at most the stamp on entry
and the pin positions involved are finite doubles, `delta(n, x, y)` equals the sum,
over the set of nets reached from a pin of `n` that pass the size filter of `delta`,
of the net's HPWL at the current positions minus its HPWL with every pin of `n`
placed at `(x, y)` plus the pin's offset.  The sum ranges over a set, so a net that
carries several pins of `n` contributes once, and in the moved positions all pins of
`n` are displaced together.  In a consistent netlist that set consists of the nets
carrying a pin of `n`. -/
theorem delta_eq_sum_over_net_set (g : DetailedSwap) (net : Network) (n : Nat) (x y : ℚ)
    (hmask : ∀ e, g.m_edgeMask e ≤ g.m_traversal)
    (hfin : ∀ e ∈ touchedNets net [n], ∀ p ∈ net.edgePins e,
      FiniteXY (curXY net p) ∧ FiniteXY (movedXY net n x y p)) :
    (delta g net n x y).1 =
      ∑ e in (touchedNets net [n]).filter
          (passesDeltaFilter net g.m_skipNetsLargerThanThis),
        (hpwlAt (net.edgePins e) (curXY net) -
          hpwlAt (net.edgePins e) (movedXY net n x y)) ∧
    (∀ p, p.nodeId = n → movedXY net n x y p = (x + p.offsetX, y + p.offsetY)) ∧
    (∀ p, p.nodeId ≠ n → movedXY net n x y p = curXY net p) ∧
    (net.Consistent → ∀ e, e ∈ touchedNets net [n] ↔
      ∃ p ∈ net.edgePins e, p.nodeId = n) := by
  refine ⟨?_, ?_, ?_, ?_⟩
  · have hl : touchedNets net [n] = ((net.nodePins n).map Pin.edgeId).toFinset := by
      simp [touchedNets, List.flatMap]
    unfold delta
    simp only
    rw [hl]
    apply visit_value
    · intro e h
      have := hmask e
      omega
    · intro e he
      rw [← hl] at he
      exact hfin e he
  · intro p hp
    simp [movedXY, hp]
  · intro p hp
    simp [movedXY, hp]
  · intro hc e
    rw [mem_touchedNets_consistent net hc]
    simp

/-- C21 at `twinNet`: node 0 has two pins on net 0; moving it to (5, 0) shortens
the net from 10 to 5, and `delta` returns 5 (the net counted once), not 10. -/
theorem delta_eq_sum_over_net_set_witness :
    (delta exGen twinNet 0 5 0).1 =
      ∑ e in (touchedNets twinNet [0]).filter
          (passesDeltaFilter twinNet exGen.m_skipNetsLargerThanThis),
        (hpwlAt (twinNet.edgePins e) (curXY twinNet) -
          hpwlAt (twinNet.edgePins e) (movedXY twinNet 0 5 0)) ∧
    (delta exGen twinNet 0 5 0).1 = 5 ∧
    (touchedNets twinNet [0]).filter
      (passesDeltaFilter twinNet exGen.m_skipNetsLargerThanThis) = {0} :=
  ⟨(delta_eq_sum_over_net_set exGen twinNet 0 5 0 (fun _ => le_refl 0)
      (by
        intro e he p hp
        have he0 : e = 0 := by
          simp [touchedNets, twinNet, List.flatMap] at he
          exact he
        subst he0
        simp only [twinNet, if_true, List.mem_cons, List.mem_singleton,
          List.not_mem_nil, or_false] at hp
        rcases hp with rfl | rfl | rfl <;> decide!)).1,
   by decide!, by decide!⟩

/-! ## Symmetry of the swap delta and moves that cost nothing -/

theorem exchangedXY_comm (net : Network) (a b : Nat) (p : Pin) :
    exchangedXY net a b p = exchangedXY net b a p := by
  unfold exchangedXY
  by_cases h1 : p.nodeId = a
  · by_cases h2 : p.nodeId = b
    · have hab : a = b := h1.symm.trans h2
      subst hab
      simp [h1]
    · have hab : ¬ a = b := fun h => h2 (h1.trans h)
      rw [if_pos h1, if_neg h2, if_pos h1]
  · by_cases h2 : p.nodeId = b
    · rw [if_neg h1, if_pos h2, if_pos h2]
    · rw [if_neg h1, if_neg h2, if_neg h2, if_neg h1]

theorem swappedXY_comm (net : Network) (a b : Nat) :
    swappedXY net a b = swappedXY net b a := by
  funext p
  rw [swappedXY_eq_exchangedXY, swappedXY_eq_exchangedXY, exchangedXY_comm]

theorem swappedXY_self (net : Network) (a : Nat) : swappedXY net a a = curXY net := by
  funext p
  unfold swappedXY curXY
  by_cases h1 : p.nodeId = a
  · simp [h1]
  · simp [h1]

theorem movedXY_self (net : Network) (n : Nat) :
    movedXY net n (net.nodes n).x (net.nodes n).y = curXY net := by
  funext p
  unfold movedXY curXY
  by_cases h1 : p.nodeId = n
  · simp [h1]
  · simp [h1]

/-- With the hypothetical positions equal to the current ones the two boxes of the
inner loop coincide. -/
theorem edgeBoxes_same (net : Network) (e : Nat) :
    (edgeBoxes net (curXY net) e).1 = (edgeBoxes net (curXY net) e).2 := by
  unfold edgeBoxes
  rw [edgeBoxes_fold]

/-- The pin loop depends on the list of pins only through the set of nets they
reach. -/
theorem visitPin_fold_congr (net : Network) (skip trav : Int) (newXY : Pin → ℚ × ℚ)
    (l1 l2 : List Pin) (acc : WlAcc)
    (h : (l1.map Pin.edgeId).toFinset = (l2.map Pin.edgeId).toFinset) :
    l1.foldl (visitPin net skip trav newXY) acc =
      l2.foldl (visitPin net skip trav newXY) acc := by
  obtain ⟨a1, a2, a3⟩ := visitPin_fold net skip trav newXY l1 acc
  obtain ⟨b1, b2, b3⟩ := visitPin_fold net skip trav newXY l2 acc
  rw [h] at a1 a2
  have hm : (l1.foldl (visitPin net skip trav newXY) acc).mask =
      (l2.foldl (visitPin net skip trav newXY) acc).mask := by
    funext e
    rw [a3, b3, h]
  rw [← b1] at a1
  rw [← b2] at a2
  cases hx : l1.foldl (visitPin net skip trav newXY) acc
  cases hy : l2.foldl (visitPin net skip trav newXY) acc
  rw [hx, hy] at hm a1 a2
  simp only at hm a1 a2
  rw [hm, a1, a2]

/-- With the hypothetical positions equal to the current ones the pin loop adds the
same amount to `old_wl` and to `new_wl`. -/
theorem visitPin_fold_same (net : Network) (skip trav : Int) (l : List Pin) (acc : WlAcc) :
    (l.foldl (visitPin net skip trav (curXY net)) acc).old_wl -
      (l.foldl (visitPin net skip trav (curXY net)) acc).new_wl =
    acc.old_wl - acc.new_wl := by
  obtain ⟨a1, a2, -⟩ := visitPin_fold net skip trav (curXY net) l acc
  rw [a1, a2]
  have : ∀ e, (edgeBoxes net (curXY net) e).1.halfPerim =
      (edgeBoxes net (curXY net) e).2.halfPerim := by
    intro e
    rw [edgeBoxes_same]
  simp only [this]
  ring

theorem foldl_min_add (l : List ℚ) (a c : ℚ) :
    (l.map (fun v => v + c)).foldl min (a + c) = l.foldl min a + c := by
  induction l generalizing a with
  | nil => rfl
  | cons b l ih =>
    simp only [List.map_cons, List.foldl_cons]
    rw [min_add_add_right, ih]

theorem foldl_max_add (l : List ℚ) (a c : ℚ) :
    (l.map (fun v => v + c)).foldl max (a + c) = l.foldl max a + c := by
  induction l generalizing a with
  | nil => rfl
  | cons b l ih =>
    simp only [List.map_cons, List.foldl_cons]
    rw [max_add_add_right, ih]

/-- Translating every value of a list by `c` leaves its spread `hi - lo` unchanged. -/
theorem spread_translate (l : List ℚ) (c : ℚ) :
    hi (l.map (fun v => v + c)) - lo (l.map (fun v => v + c)) = hi l - lo l := by
  cases l with
  | nil => rfl
  | cons a l =>
    simp only [List.map_cons, hi, lo]
    rw [foldl_min_add, foldl_max_add]
    ring

/-- The HPWL of a net all of whose pins belong to `n` is the same before and after
`n` is moved: all its pins are translated together. -/
theorem hpwlAt_moved_own (net : Network) (n : Nat) (x y : ℚ) (pins : List Pin)
    (hown : ∀ p ∈ pins, p.nodeId = n) :
    hpwlAt pins (movedXY net n x y) = hpwlAt pins (curXY net) := by
  have hx : pins.map (fun p => (movedXY net n x y p).1) =
      (pins.map (fun p => (curXY net p).1)).map (fun v => v + (x - (net.nodes n).x)) := by
    rw [List.map_map]
    apply List.map_congr_left
    intro p hp
    simp only [movedXY, curXY, hown p hp, if_true, Function.comp]
    ring
  have hy : pins.map (fun p => (movedXY net n x y p).2) =
      (pins.map (fun p => (curXY net p).2)).map (fun v => v + (y - (net.nodes n).y)) := by
    rw [List.map_map]
    apply List.map_congr_left
    intro p hp
    simp only [movedXY, curXY, hown p hp, if_true, Function.comp]
    ring
  unfold hpwlAt
  rw [hx, hy, spread_translate, spread_translate]

/-- C22 (swap delta is symmetric).  For every generator state, netlist and pair of
nodes, `delta(a, b)` and `delta(b, a)` return the same value (in exact arithmetic)
and leave the same stamp and marks, although the two calls walk the pins of the two
nodes in the opposite order; and `delta(a, a)` returns 0. -/
theorem deltaSwap_symmetric (g : DetailedSwap) (net : Network) (a b : Nat) :
    (deltaSwap g net a b).1 = (deltaSwap g net b a).1 ∧
    (deltaSwap g net a b).2 = (deltaSwap g net b a).2 ∧
    (deltaSwap g net a a).1 = 0 := by
  have hset : ((net.nodePins a ++ net.nodePins b).map Pin.edgeId).toFinset =
      ((net.nodePins b ++ net.nodePins a).map Pin.edgeId).toFinset := by
    ext e
    simp only [List.map_append, List.toFinset_append, Finset.mem_union]
    exact or_comm
  have hfold := visitPin_fold_congr net g.m_skipNetsLargerThanThis (g.m_traversal + 1)
    (swappedXY net a b) (net.nodePins a ++ net.nodePins b)
    (net.nodePins b ++ net.nodePins a) ⟨g.m_edgeMask, 0, 0⟩ hset
  refine ⟨?_, ?_, ?_⟩
  · unfold deltaSwap
    simp only [List.foldl_cons, List.foldl_nil, ← List.foldl_append]
    rw [hfold, swappedXY_comm net a b]
  · unfold deltaSwap
    simp only [List.foldl_cons, List.foldl_nil, ← List.foldl_append]
    rw [hfold, swappedXY_comm net a b]
  · unfold deltaSwap
    simp only [List.foldl_cons, List.foldl_nil, ← List.foldl_append]
    rw [swappedXY_self, visitPin_fold_same]
    ring

/-- C30 (a move to the current position, and nets owned by the moved node).  For
every generator state and netlist, `delta(n, x0, y0)` with `(x0, y0)` the current
origin of `n` returns 0.  For a net all of whose pins belong to `n`, the amount the
net adds to `old_wl` equals the amount it adds to `new_wl`, for every target
`(x, y)` (pin positions being finite doubles), so its contribution to
`delta(n, x, y)` is 0; at the level of wirelength, its HPWL is unchanged by the
move. -/
theorem delta_zero_cases (g : DetailedSwap) (net : Network) (n : Nat) :
    (delta g net n (net.nodes n).x (net.nodes n).y).1 = 0 ∧
    (∀ (x y : ℚ) (e : Nat), (∀ p ∈ net.edgePins e, p.nodeId = n) →
      (∀ p ∈ net.edgePins e, FiniteXY (curXY net p) ∧ FiniteXY (movedXY net n x y p)) →
      (edgeBoxes net (movedXY net n x y) e).1.halfPerim -
        (edgeBoxes net (movedXY net n x y) e).2.halfPerim = 0) ∧
    (∀ (x y : ℚ) (e : Nat), (∀ p ∈ net.edgePins e, p.nodeId = n) →
      hpwlAt (net.edgePins e) (curXY net) -
        hpwlAt (net.edgePins e) (movedXY net n x y) = 0) := by
  refine ⟨?_, ?_, ?_⟩
  · unfold delta
    simp only
    rw [movedXY_self, visitPin_fold_same]
    ring
  · intro x y e hown hfin
    by_cases hne : net.edgePins e = []
    · unfold edgeBoxes
      rw [hne]
      simp
    · obtain ⟨e1, e2⟩ := edgeBoxes_halfPerim net (movedXY net n x y) e hne hfin
      rw [e1, e2, hpwlAt_moved_own net n x y _ hown]
      ring
  · intro x y e hown
    rw [hpwlAt_moved_own net n x y _ hown]
    ring

/-! ## The traversal stamp -/

/-- The generator after one `delta` call, of either overload, in terms of the pin
loop over the pins of the nodes the call walks. -/
theorem deltaCall_gen (g : DetailedSwap) (net : Network) (c : DeltaCall) :
    ∃ newXY : Pin → ℚ × ℚ,
      (c.apply g net).2 =
        { g with
          m_traversal := g.m_traversal + 1,
          m_edgeMask := ((c.nodes.flatMap net.nodePins).foldl
            (visitPin net g.m_skipNetsLargerThanThis (g.m_traversal + 1) newXY)
            ⟨g.m_edgeMask, 0, 0⟩).mask } := by
  cases c with
  | move ndi x y =>
    refine ⟨movedXY net ndi x y, ?_⟩
    simp [DeltaCall.apply, DeltaCall.nodes, delta, List.flatMap]
  | swap ndi ndj =>
    refine ⟨swappedXY net ndi ndj, ?_⟩
    simp [DeltaCall.apply, DeltaCall.nodes, deltaSwap, List.flatMap, List.foldl_append]

/-- One `delta` call from a state whose marks are all at most the stamp: the stamp
grows by one, exactly the nets reached that pass the size filter get the new stamp,
every other mark and every other field is unchanged, and the marks are again at
most the stamp. -/
theorem deltaCall_step (g : DetailedSwap) (net : Network) (c : DeltaCall)
    (hmask : ∀ e, g.m_edgeMask e ≤ g.m_traversal) :
    (c.apply g net).2.m_traversal = g.m_traversal + 1 ∧
    (∀ e, (c.apply g net).2.m_edgeMask e =
      if e ∈ touchedNets net c.nodes ∧
          passesDeltaFilter net g.m_skipNetsLargerThanThis e
      then g.m_traversal + 1 else g.m_edgeMask e) ∧
    (∀ e, (c.apply g net).2.m_edgeMask e ≤ (c.apply g net).2.m_traversal) ∧
    (c.apply g net).2.m_skipNetsLargerThanThis = g.m_skipNetsLargerThanThis ∧
    (c.apply g net).2.m_attempts = g.m_attempts ∧
    (c.apply g net).2.m_moves = g.m_moves ∧
    (c.apply g net).2.m_swaps = g.m_swaps := by
  obtain ⟨newXY, hg⟩ := deltaCall_gen g net c
  obtain ⟨-, -, h3⟩ := visitPin_fold net g.m_skipNetsLargerThanThis (g.m_traversal + 1)
    newXY (c.nodes.flatMap net.nodePins) ⟨g.m_edgeMask, 0, 0⟩
  have hne : ∀ e, g.m_edgeMask e ≠ g.m_traversal + 1 := by
    intro e h
    have := hmask e
    omega
  have hm : ∀ e, (c.apply g net).2.m_edgeMask e =
      if e ∈ touchedNets net c.nodes ∧
          passesDeltaFilter net g.m_skipNetsLargerThanThis e
      then g.m_traversal + 1 else g.m_edgeMask e := by
    intro e
    rw [hg]
    simp only
    rw [h3 e]
    simp only [touchedNets, hne e, ne_eq, not_false_eq_true, and_true]
  rw [hg] at hm ⊢
  refine ⟨rfl, hm, ?_, rfl, rfl, rfl, rfl⟩
  intro e
  rw [hm e]
  simp only
  split
  · exact le_refl _
  · have := hmask e
    omega

theorem deltaCalls_append (g : DetailedSwap) (l : List (Network × DeltaCall))
    (c : Network × DeltaCall) :
    deltaCalls g (l ++ [c]) = (c.2.apply (deltaCalls g l) c.1).2 := by
  simp [deltaCalls, List.foldl_append]

/-- After any sequence of `delta` calls from a state with stamp 0 and all marks 0,
every mark is at most the stamp, and the stamp is the number of calls made. -/
theorem deltaCalls_invariant (g : DetailedSwap) (h0 : g.m_traversal = 0)
    (hm0 : ∀ e, g.m_edgeMask e = 0) (calls : List (Network × DeltaCall)) :
    (∀ e, (deltaCalls g calls).m_edgeMask e ≤ (deltaCalls g calls).m_traversal) ∧
    (deltaCalls g calls).m_traversal = calls.length := by
  induction calls using List.reverseRecOn with
  | nil =>
    refine ⟨fun e => ?_, ?_⟩
    · simp [deltaCalls, h0, hm0 e]
    · simp [deltaCalls, h0]
  | append_singleton l c ih =>
    rw [deltaCalls_append]
    obtain ⟨s1, -, s3, -⟩ := deltaCall_step (deltaCalls g l) c.1 c.2 ih.1
    refine ⟨s3, ?_⟩
    rw [s1, ih.2]
    simp

/-- C28 (traversal-stamp invariant).  `init` and the start of a sweep leave the
stamp and every mark at 0.  From there, after any sequence of `delta(node, x, y)`
and `delta(a, b)` calls (the netlist may differ from call to call) every mark is at
most the stamp, and the stamp equals the number of calls.  Each call made from a
state with that invariant raises the stamp by exactly 1, gives the new stamp to
exactly the nets reached from the pins it walks that pass the size filter (no such
net is skipped on account of an older mark), leaves every other mark and every
other field of the generator unchanged, and re-establishes the invariant.  The
calls return only a value and the generator: node positions are not written. -/
theorem traversal_stamp_invariant {σ : Type} (env : SweepEnv σ) (s : σ) (net0 : Network)
    (g0 : DetailedSwap) (calls : List (Network × DeltaCall)) :
    (sweepStart env g0 s net0).1.gen = DetailedSwap.init g0 ∧
    ((DetailedSwap.init g0).m_traversal = 0 ∧ ∀ e, (DetailedSwap.init g0).m_edgeMask e = 0) ∧
    (∀ e, (deltaCalls (DetailedSwap.init g0) calls).m_edgeMask e ≤
      (deltaCalls (DetailedSwap.init g0) calls).m_traversal) ∧
    (deltaCalls (DetailedSwap.init g0) calls).m_traversal = calls.length ∧
    (∀ (g : DetailedSwap) (net : Network) (c : DeltaCall),
      (∀ e, g.m_edgeMask e ≤ g.m_traversal) →
      (c.apply g net).2.m_traversal = g.m_traversal + 1 ∧
      (∀ e, (c.apply g net).2.m_edgeMask e =
        if e ∈ touchedNets net c.nodes ∧
            passesDeltaFilter net g.m_skipNetsLargerThanThis e
        then g.m_traversal + 1 else g.m_edgeMask e) ∧
      (∀ e, (c.apply g net).2.m_edgeMask e ≤ (c.apply g net).2.m_traversal) ∧
      (c.apply g net).2.m_skipNetsLargerThanThis = g.m_skipNetsLargerThanThis ∧
      (c.apply g net).2.m_attempts = g.m_attempts ∧
      (c.apply g net).2.m_moves = g.m_moves ∧
      (c.apply g net).2.m_swaps = g.m_swaps) := by
  refine ⟨rfl, ⟨rfl, fun _ => rfl⟩, ?_, ?_, ?_⟩
  · exact (deltaCalls_invariant (DetailedSwap.init g0) rfl (fun _ => rfl) calls).1
  · exact (deltaCalls_invariant (DetailedSwap.init g0) rfl (fun _ => rfl) calls).2
  · intro g net c hmask
    exact deltaCall_step g net c hmask

/-! ## Well-formedness of the region and of the recorded intervals -/

theorem foldl_min_le_foldl_max (l : List ℚ) (hne : l ≠ []) (a b : ℚ) :
    l.foldl min a ≤ l.foldl max b := by
  cases l with
  | nil => exact absurd rfl hne
  | cons v t =>
    simp only [List.foldl_cons]
    exact le_trans (foldl_min_le_init t (min a v))
      (le_trans (min_le_right a v)
        (le_trans (le_max_right b v) (foldl_max_ge_init t (max b v))))

/-- Whenever `calculateEdgeBB` returns true its box is ordered, whatever rectangle
the fold starts from. -/
theorem calculateEdgeBB_ordered (reset : Rectangle) (net : Network) (e nd : Nat)
    (h : (calculateEdgeBB reset net e nd).1 = true) :
    (calculateEdgeBB reset net e nd).2.xmin ≤ (calculateEdgeBB reset net e nd).2.xmax ∧
    (calculateEdgeBB reset net e nd).2.ymin ≤ (calculateEdgeBB reset net e nd).2.ymax := by
  rw [calculateEdgeBB_fst, List.any_eq_true] at h
  obtain ⟨q, hq, hq2⟩ := h
  have hne : (net.edgePins e).filter (fun q => decide (q.nodeId ≠ nd)) ≠ [] := by
    intro h0
    have : q ∈ (net.edgePins e).filter (fun q => decide (q.nodeId ≠ nd)) :=
      List.mem_filter.mpr ⟨hq, hq2⟩
    rw [h0] at this
    simp at this
  have hne1 : ∀ f : Pin → ℚ,
      ((net.edgePins e).filter (fun q => decide (q.nodeId ≠ nd))).map f ≠ [] := by
    intro f; simpa using hne
  unfold calculateEdgeBB
  dsimp only
  rw [calculateEdgeBB_fold]
  exact ⟨foldl_min_le_foldl_max _ (hne1 _) _ _, foldl_min_le_foldl_max _ (hne1 _) _ _⟩

/-- The interval recorded for a qualifying pin is ordered after translation and
clamping, on a chip with ordered bounds. -/
theorem clampedBox_ordered (reset : Rectangle) (arch : Architecture) (net : Network)
    (skip : Int) (nd : Nat) (hx : arch.minX ≤ arch.maxX) (hy : arch.minY ≤ arch.maxY)
    (pin : Pin) (hq : qualifies net skip nd pin = true) :
    (clampedBox reset arch net nd pin).xmin ≤ (clampedBox reset arch net nd pin).xmax ∧
    (clampedBox reset arch net nd pin).ymin ≤ (clampedBox reset arch net nd pin).ymax := by
  have hflag : (calculateEdgeBB reset net pin.edgeId nd).1 = true := by
    rw [calculateEdgeBB_fst]
    simp only [qualifies, Bool.and_eq_true] at hq
    exact hq.2
  obtain ⟨h1, h2⟩ := calculateEdgeBB_ordered reset net pin.edgeId nd hflag
  simp only [clampedBox]
  exact ⟨clamp_mono _ _ _ _ hx (by linarith), clamp_mono _ _ _ _ hy (by linarith)⟩

theorem sorted_getD_le (l : List ℚ) (hs : l.Sorted (· ≤ ·)) (i j : Nat) (hij : i ≤ j)
    (hj : j < l.length) : l.getD i 0 ≤ l.getD j 0 := by
  rw [List.getD_eq_getElem l 0 hj, List.getD_eq_getElem l 0 (lt_of_le_of_lt hij hj)]
  exact hs.rel_get_of_le (show (⟨i, lt_of_le_of_lt hij hj⟩ : Fin l.length) ≤ ⟨j, hj⟩ from hij)

/-- A rectangle returned by `getRange` is ordered: its sides are consecutive
entries of ascending sequences. -/
theorem getRange_ordered (reset : Rectangle) (arch : Architecture) (net : Network)
    (skip : Int) (nd : Nat) (r : Rectangle) (h : getRange reset arch net skip nd = some r) :
    r.xmin ≤ r.xmax ∧ r.ymin ≤ r.ymax := by
  rw [getRange_eq] at h
  by_cases hk : numQualifying net skip nd = 0
  · simp [hk] at h
  · simp only [hk, if_false, Option.some.injEq] at h
    have hlx := endpointsX_length reset arch net skip nd (net.nodePins nd)
    have hly := endpointsY_length reset arch net skip nd (net.nodePins nd)
    have hk2 : ((net.nodePins nd).filter (qualifies net skip nd)).length
        = numQualifying net skip nd := rfl
    rw [hk2] at hlx hly
    subst h
    refine ⟨?_, ?_⟩
    · exact sorted_getD_le _ (List.sorted_insertionSort _ _) _ _ (Nat.sub_le _ _)
        (by rw [List.length_insertionSort, hlx]; omega)
    · exact sorted_getD_le _ (List.sorted_insertionSort _ _) _ _ (Nat.sub_le _ _)
        (by rw [List.length_insertionSort, hly]; omega)

/-- C29 (the optimal region is well formed).  On a chip with `minX ≤ maxX` and
`minY ≤ maxY`, every rectangle a successful `getRange` returns, of the global
generator (whatever `Rectangle::reset` produces) and of the vertical one, has
`xmin ≤ xmax` and `ymin ≤ ymax`; the endpoints recorded before sorting are, pin by
qualifying pin, the two ends of that pin's translated and clamped interval, and
each such interval has its lower end at most its upper end, in x and in y. -/
theorem getRange_well_formed (reset : Rectangle) (arch : Architecture) (net : Network)
    (g : DetailedSwap) (nd : Nat) (hx : arch.minX ≤ arch.maxX)
    (hy : arch.minY ≤ arch.maxY) :
    (∀ r, DetailedGlobalSwap.getRange reset arch net g nd = some r →
      r.xmin ≤ r.xmax ∧ r.ymin ≤ r.ymax) ∧
    (∀ r, DetailedVerticalSwap.getRange arch net g nd = some r →
      r.xmin ≤ r.xmax ∧ r.ymin ≤ r.ymax) ∧
    (∀ rs : Rectangle,
      (getRangePts rs arch net g.m_skipNetsLargerThanThis nd).xpts =
        ((net.nodePins nd).filter (qualifies net g.m_skipNetsLargerThanThis nd)).foldr
          (fun p acc => (clampedBox rs arch net nd p).xmin ::
            (clampedBox rs arch net nd p).xmax :: acc) [] ∧
      (getRangePts rs arch net g.m_skipNetsLargerThanThis nd).ypts =
        ((net.nodePins nd).filter (qualifies net g.m_skipNetsLargerThanThis nd)).foldr
          (fun p acc => (clampedBox rs arch net nd p).ymin ::
            (clampedBox rs arch net nd p).ymax :: acc) [] ∧
      ∀ p ∈ (net.nodePins nd).filter (qualifies net g.m_skipNetsLargerThanThis nd),
        (clampedBox rs arch net nd p).xmin ≤ (clampedBox rs arch net nd p).xmax ∧
        (clampedBox rs arch net nd p).ymin ≤ (clampedBox rs arch net nd p).ymax) := by
  refine ⟨?_, ?_, ?_⟩
  · intro r h
    exact getRange_ordered reset arch net g.m_skipNetsLargerThanThis nd r h
  · intro r h
    exact getRange_ordered (Rectangle.sentinel FLT_MAX) arch net
      g.m_skipNetsLargerThanThis nd r h
  · intro rs
    rw [getRangePts_eq]
    refine ⟨endpointsX_of_filter _ _ _ _ _ _, endpointsY_of_filter _ _ _ _ _ _, ?_⟩
    intro p hp
    exact clampedBox_ordered rs arch net g.m_skipNetsLargerThanThis nd hx hy p
      (List.mem_filter.mp hp).2

/-- C29 at the example network: node 0 has two qualifying pins, whose recorded
intervals are x in [50, 50], [99, 99] and y in [20, 20], [39, 39]; the region
returned is x in [50, 99], y in [20, 39]. -/
theorem getRange_well_formed_witness :
    DetailedVerticalSwap.getRange exArch exNet exGen 0 = some ⟨50, 99, 20, 39⟩ ∧
    (getRangePts (Rectangle.sentinel FLT_MAX) exArch exNet
      exGen.m_skipNetsLargerThanThis 0).xpts = [50, 50, 99, 99] ∧
    ((∀ r, DetailedGlobalSwap.getRange (Rectangle.sentinel DBL_MAX) exArch exNet exGen 0
        = some r → r.xmin ≤ r.xmax ∧ r.ymin ≤ r.ymax) ∧
    (∀ r, DetailedVerticalSwap.getRange exArch exNet exGen 0 = some r →
      r.xmin ≤ r.xmax ∧ r.ymin ≤ r.ymax) ∧
    (∀ rs : Rectangle,
      (getRangePts rs exArch exNet exGen.m_skipNetsLargerThanThis 0).xpts =
        ((exNet.nodePins 0).filter (qualifies exNet exGen.m_skipNetsLargerThanThis 0)).foldr
          (fun p acc => (clampedBox rs exArch exNet 0 p).xmin ::
            (clampedBox rs exArch exNet 0 p).xmax :: acc) [] ∧
      (getRangePts rs exArch exNet exGen.m_skipNetsLargerThanThis 0).ypts =
        ((exNet.nodePins 0).filter (qualifies exNet exGen.m_skipNetsLargerThanThis 0)).foldr
          (fun p acc => (clampedBox rs exArch exNet 0 p).ymin ::
            (clampedBox rs exArch exNet 0 p).ymax :: acc) [] ∧
      ∀ p ∈ (exNet.nodePins 0).filter (qualifies exNet exGen.m_skipNetsLargerThanThis 0),
        (clampedBox rs exArch exNet 0 p).xmin ≤ (clampedBox rs exArch exNet 0 p).xmax ∧
        (clampedBox rs exArch exNet 0 p).ymin ≤ (clampedBox rs exArch exNet 0 p).ymax)) :=
  ⟨by decide!, by decide!,
   getRange_well_formed (Rectangle.sentinel DBL_MAX) exArch exNet exGen 0
    (by decide!) (by decide!)⟩

/-! ## The float sentinel of the vertical generator -/

/-- The contract of `calculateEdgeBB` for a fold started from `±M` with `M` bounding
the coordinates of the other nodes' pins: false exactly when every pin of the net
belongs to `nd`, and otherwise the box of the other nodes' pins, which is ordered. -/
theorem calculateEdgeBB_contract (M : ℚ) (net : Network) (e nd : Nat)
    (hfin : ∀ q ∈ net.edgePins e, q.nodeId ≠ nd →
      (-M ≤ (curXY net q).1 ∧ (curXY net q).1 ≤ M) ∧
      (-M ≤ (curXY net q).2 ∧ (curXY net q).2 ≤ M)) :
    ((calculateEdgeBB (Rectangle.sentinel M) net e nd).1 = false ↔
      ∀ q ∈ net.edgePins e, q.nodeId = nd) ∧
    ((calculateEdgeBB (Rectangle.sentinel M) net e nd).1 = true →
      (calculateEdgeBB (Rectangle.sentinel M) net e nd).2 = othersBox net e nd ∧
      (othersBox net e nd).xmin ≤ (othersBox net e nd).xmax ∧
      (othersBox net e nd).ymin ≤ (othersBox net e nd).ymax) := by
  constructor
  · rw [calculateEdgeBB_fst]
    constructor
    · intro h q hq
      by_contra hne
      have : (net.edgePins e).any (fun q => decide (q.nodeId ≠ nd)) = true :=
        List.any_eq_true.mpr ⟨q, hq, by simpa using hne⟩
      rw [h] at this
      exact Bool.false_ne_true this
    · intro h
      rw [Bool.eq_false_iff]
      intro hany
      rw [List.any_eq_true] at hany
      obtain ⟨q, hq, hq2⟩ := hany
      simp only [decide_eq_true_eq] at hq2
      exact hq2 (h q hq)
  · intro h
    have hany := h
    rw [calculateEdgeBB_fst] at hany
    exact ⟨calculateEdgeBB_othersBox M net e nd hany hfin, lo_le_hi _, lo_le_hi _⟩

/-- The pin loop of `getRange` depends on the starting rectangle only through the
boxes `calculateEdgeBB` returns for the nets that carry a pin of another node. -/
theorem getRange_congr_reset (r1 r2 : Rectangle) (arch : Architecture) (net : Network)
    (skip : Int) (nd : Nat)
    (h : ∀ pin ∈ net.nodePins nd,
      (net.edgePins pin.edgeId).any (fun q => decide (q.nodeId ≠ nd)) = true →
      (calculateEdgeBB r1 net pin.edgeId nd).2 = (calculateEdgeBB r2 net pin.edgeId nd).2) :
    getRange r1 arch net skip nd = getRange r2 arch net skip nd := by
  have hstep : ∀ (l : List Pin), (∀ pin ∈ l,
      (net.edgePins pin.edgeId).any (fun q => decide (q.nodeId ≠ nd)) = true →
      (calculateEdgeBB r1 net pin.edgeId nd).2 =
        (calculateEdgeBB r2 net pin.edgeId nd).2) →
      ∀ acc, l.foldl (getRangeStep r1 arch net skip nd) acc =
        l.foldl (getRangeStep r2 arch net skip nd) acc := by
    intro l
    induction l with
    | nil => intro _ _; rfl
    | cons p l ih =>
      intro hl acc
      rw [List.foldl_cons, List.foldl_cons]
      have hp : getRangeStep r1 arch net skip nd acc p =
          getRangeStep r2 arch net skip nd acc p := by
        rw [getRangeStep_eq, getRangeStep_eq]
        by_cases hq : qualifies net skip nd p = true
        · have hany : (net.edgePins p.edgeId).any (fun q => decide (q.nodeId ≠ nd)) = true := by
            simp only [qualifies, Bool.and_eq_true] at hq
            exact hq.2
          have hb := hl p (List.mem_cons_self p l) hany
          simp only [hq, if_true, clampedBox, hb]
        · rw [if_neg hq, if_neg hq]
      rw [hp]
      exact ih (fun q hq => hl q (List.mem_cons_of_mem p hq)) _
  unfold getRange getRangePts
  rw [hstep (net.nodePins nd) h]

/-- The success flag of `getRange` does not depend on the starting rectangle, and
when the coordinates of the other nodes' pins on the node's nets lie within the
float range (and within the range of the sentinel `±M` of the global copy) the two
copies of `getRange` return the same result. -/
theorem getRange_copies_agree_within_float (M : ℚ) (arch : Architecture) (net : Network)
    (g : DetailedSwap) (nd : Nat) :
    ((DetailedGlobalSwap.getRange (Rectangle.sentinel M) arch net g nd).isSome =
      (DetailedVerticalSwap.getRange arch net g nd).isSome) ∧
    ((∀ pin ∈ net.nodePins nd, ∀ q ∈ net.edgePins pin.edgeId, q.nodeId ≠ nd →
        (-(min M FLT_MAX) ≤ (curXY net q).1 ∧ (curXY net q).1 ≤ min M FLT_MAX) ∧
        (-(min M FLT_MAX) ≤ (curXY net q).2 ∧ (curXY net q).2 ≤ min M FLT_MAX)) →
      DetailedGlobalSwap.getRange (Rectangle.sentinel M) arch net g nd =
        DetailedVerticalSwap.getRange arch net g nd) := by
  constructor
  · unfold DetailedGlobalSwap.getRange DetailedVerticalSwap.getRange
    rw [getRange_eq, getRange_eq]
    by_cases hk : numQualifying net g.m_skipNetsLargerThanThis nd = 0
    · simp [hk]
    · simp [hk]
  · intro hfin
    unfold DetailedGlobalSwap.getRange DetailedVerticalSwap.getRange
    apply getRange_congr_reset
    intro pin hpin hany
    have b1 := calculateEdgeBB_othersBox M net pin.edgeId nd hany (by
      intro q hq hne
      have := hfin pin hpin q hq hne
      have hm : min M FLT_MAX ≤ M := min_le_left _ _
      exact ⟨⟨by linarith [this.1.1], by linarith [this.1.2]⟩,
        ⟨by linarith [this.2.1], by linarith [this.2.2]⟩⟩)
    have b2 := calculateEdgeBB_othersBox FLT_MAX net pin.edgeId nd hany (by
      intro q hq hne
      have := hfin pin hpin q hq hne
      have hm : min M FLT_MAX ≤ FLT_MAX := min_le_right _ _
      exact ⟨⟨by linarith [this.1.1], by linarith [this.1.2]⟩,
        ⟨by linarith [this.2.1], by linarith [this.2.2]⟩⟩)
    exact b1.trans b2.symm

theorem FLT_MAX_pos : 0 < FLT_MAX := by decide!

theorem farNet_within (M : ℚ) (hM : 2 * FLT_MAX ≤ M) :
    ∀ pin ∈ farNet.nodePins 0, ∀ q ∈ farNet.edgePins pin.edgeId, q.nodeId ≠ 0 →
      (-M ≤ (curXY farNet q).1 ∧ (curXY farNet q).1 ≤ M) ∧
      (-M ≤ (curXY farNet q).2 ∧ (curXY farNet q).2 ≤ M) := by
  have hpos := FLT_MAX_pos
  intro pin hpin q hq hne
  simp only [farNet, if_true, List.mem_singleton] at hpin
  subst hpin
  simp only [farNet, pin0, if_true, List.mem_cons, List.mem_singleton, List.not_mem_nil,
    or_false] at hq
  rcases hq with rfl | rfl
  · exact absurd rfl hne
  · simp only [curXY, farNet]
    norm_num
    refine ⟨⟨by linarith, by linarith⟩, by linarith⟩

/-- C23 (`calculateEdgeBB`), the vertical copy at `farNet`.  Net 0 joins node 0 and
node 1, whose pin sits at x = 2 * FLT_MAX, a finite double.  With `nd` node 0 the
call returns true, and the box of the pins of the other nodes has
`xmin = xmax = 2 * FLT_MAX`; the vertical copy, whose fold starts from the float
maximum, returns `xmin = FLT_MAX` instead, a value that is the coordinate of no pin.
The global copy, with a fold started from any sentinel that is at least the
coordinate (the double maximum for one), returns the box of the other nodes'
pins. -/
theorem vertical_edge_box_keeps_float_sentinel :
    DetailedVerticalSwap.calculateEdgeBB farNet 0 0 =
      (true, ⟨FLT_MAX, 2 * FLT_MAX, 0, 0⟩) ∧
    othersBox farNet 0 0 = ⟨2 * FLT_MAX, 2 * FLT_MAX, 0, 0⟩ ∧
    (DetailedVerticalSwap.calculateEdgeBB farNet 0 0).2 ≠ othersBox farNet 0 0 ∧
    (FLT_MAX < 2 * FLT_MAX ∧ 2 * FLT_MAX ≤ DBL_MAX) ∧
    (∀ M : ℚ, 2 * FLT_MAX ≤ M →
      DetailedGlobalSwap.calculateEdgeBB (Rectangle.sentinel M) farNet 0 0 =
        (true, othersBox farNet 0 0)) := by
  refine ⟨by decide!, by decide!, by decide!, ⟨by decide!, by decide!⟩, ?_⟩
  intro M hM
  have hany : (farNet.edgePins 0).any (fun q => decide (q.nodeId ≠ 0)) = true := by decide
  have hflag : (calculateEdgeBB (Rectangle.sentinel M) farNet 0 0).1 = true := by
    rw [calculateEdgeBB_fst]
    exact hany
  have hbox := calculateEdgeBB_othersBox M farNet 0 0 hany
    (farNet_within M hM (pin0 0 0) (by decide))
  exact Prod.ext hflag hbox

/-- C27 (one region estimator), at `farNet` on the chip `farArch` (x in
[0, 4 * FLT_MAX]).  Node 0 has one neighbour at x = 2 * FLT_MAX.  Both copies of
`getRange` succeed; the global one, its folds started from any sentinel that is at
least the coordinate (the double maximum for one), returns the region x in
[2 * FLT_MAX, 2 * FLT_MAX]; the vertical one, its folds started from the float
maximum, returns x in [FLT_MAX, 2 * FLT_MAX]. -/
theorem getRange_copies_differ_beyond_float :
    DetailedGlobalSwap.getRange (Rectangle.sentinel DBL_MAX) farArch farNet exGen 0 =
      some ⟨2 * FLT_MAX, 2 * FLT_MAX, 0, 0⟩ ∧
    DetailedVerticalSwap.getRange farArch farNet exGen 0 =
      some ⟨FLT_MAX, 2 * FLT_MAX, 0, 0⟩ ∧
    (∀ M : ℚ, 2 * FLT_MAX ≤ M →
      DetailedGlobalSwap.getRange (Rectangle.sentinel M) farArch farNet exGen 0 =
        some ⟨2 * FLT_MAX, 2 * FLT_MAX, 0, 0⟩ ∧
      DetailedGlobalSwap.getRange (Rectangle.sentinel M) farArch farNet exGen 0 ≠
        DetailedVerticalSwap.getRange farArch farNet exGen 0) := by
  have h1 : DetailedGlobalSwap.getRange (Rectangle.sentinel DBL_MAX) farArch farNet exGen 0 =
      some ⟨2 * FLT_MAX, 2 * FLT_MAX, 0, 0⟩ := by decide!
  have h2 : DetailedVerticalSwap.getRange farArch farNet exGen 0 =
      some ⟨FLT_MAX, 2 * FLT_MAX, 0, 0⟩ := by decide!
  refine ⟨h1, h2, ?_⟩
  intro M hM
  have hD : 2 * FLT_MAX ≤ DBL_MAX := by decide!
  have heq : DetailedGlobalSwap.getRange (Rectangle.sentinel M) farArch farNet exGen 0 =
      DetailedGlobalSwap.getRange (Rectangle.sentinel DBL_MAX) farArch farNet exGen 0 := by
    unfold DetailedGlobalSwap.getRange
    apply getRange_congr_reset
    intro pin hpin hany
    rw [calculateEdgeBB_othersBox M farNet pin.edgeId 0 hany (farNet_within M hM pin hpin),
      calculateEdgeBB_othersBox DBL_MAX farNet pin.edgeId 0 hany
        (farNet_within DBL_MAX hD pin hpin)]
  rw [heq, h1, h2]
  exact ⟨rfl, by decide!⟩

/-! ## The row window of the vertical generator -/

/-- C24 (row-window direction clamp).  With the current row `ri` in
`[0, rowCount - 1]` and every row lookup in `[0, rowCount - 1]`, the chosen row
`rj` follows the three-way step of `generate`: if the region's lowest row `rmin` is
above `ri` then `rj` is `ri + 1` or `min(rowCount - 1, ri + 2)`, and `rj > ri`;
else if the region's highest row `rmax` is below `ri` then `rj` is
`max(0, ri - 2)` or `ri - 1`, and `rj < ri`; otherwise `rj` lies in `[rmin, rmax]`.
For a region whose row range is ordered (`rmin ≤ rmax`) the first two cases exclude
each other, so the second holds whenever `rmax < ri`. -/
theorem chosenRow_direction_clamp (arch : Architecture) (ri : Int) (bbox : Rectangle)
    (height : ℚ) (r : Nat) (hri0 : 0 ≤ ri) (hri1 : ri ≤ arch.numRows - 1)
    (hrow : ∀ y, 0 ≤ arch.find_closest_row y ∧ arch.find_closest_row y ≤ arch.numRows - 1) :
    (arch.find_closest_row (bbox.ymin - 0.5 * height) > ri →
      (DetailedVerticalSwap.chosenRow arch ri bbox height r = ri + 1 ∨
        DetailedVerticalSwap.chosenRow arch ri bbox height r =
          min (arch.numRows - 1) (ri + 2)) ∧
      DetailedVerticalSwap.chosenRow arch ri bbox height r > ri) ∧
    (¬ (arch.find_closest_row (bbox.ymin - 0.5 * height) > ri) →
      arch.find_closest_row (bbox.ymax + 0.5 * height) < ri →
      (DetailedVerticalSwap.chosenRow arch ri bbox height r = max 0 (ri - 2) ∨
        DetailedVerticalSwap.chosenRow arch ri bbox height r = ri - 1) ∧
      DetailedVerticalSwap.chosenRow arch ri bbox height r < ri) ∧
    (arch.find_closest_row (bbox.ymin - 0.5 * height) ≤
        arch.find_closest_row (bbox.ymax + 0.5 * height) →
      arch.find_closest_row (bbox.ymax + 0.5 * height) < ri →
      (DetailedVerticalSwap.chosenRow arch ri bbox height r = max 0 (ri - 2) ∨
        DetailedVerticalSwap.chosenRow arch ri bbox height r = ri - 1) ∧
      DetailedVerticalSwap.chosenRow arch ri bbox height r < ri) ∧
    (¬ (arch.find_closest_row (bbox.ymin - 0.5 * height) > ri) →
      ¬ (arch.find_closest_row (bbox.ymax + 0.5 * height) < ri) →
      arch.find_closest_row (bbox.ymin - 0.5 * height) ≤
        DetailedVerticalSwap.chosenRow arch ri bbox height r ∧
      DetailedVerticalSwap.chosenRow arch ri bbox height r ≤
        arch.find_closest_row (bbox.ymax + 0.5 * height)) := by
  obtain ⟨hw1, hw2⟩ := chosenRow_mem_window arch ri bbox height r
  have hlo := hrow (bbox.ymin - 0.5 * height)
  have hhi := hrow (bbox.ymax + 0.5 * height)
  generalize DetailedVerticalSwap.chosenRow arch ri bbox height r = rj at hw1 hw2 ⊢
  unfold DetailedVerticalSwap.rowWindow at hw1 hw2
  dsimp only at hw1 hw2
  generalize arch.find_closest_row (bbox.ymin - 0.5 * height) = rmin at hw1 hw2 hlo ⊢
  generalize arch.find_closest_row (bbox.ymax + 0.5 * height) = rmax at hw1 hw2 hhi ⊢
  by_cases h1 : rmin > ri
  · simp only [h1, if_true] at hw1 hw2
    refine ⟨fun _ => ⟨by omega, by omega⟩, fun h => absurd h1 h, ?_, fun h => absurd h1 h⟩
    intro h3 h4
    omega
  · by_cases h2 : rmax < ri
    · simp only [h1, h2, if_true, if_false] at hw1 hw2
      refine ⟨fun h => absurd h h1, fun _ _ => ⟨by omega, by omega⟩,
        fun _ _ => ⟨by omega, by omega⟩, fun _ h => absurd h2 h⟩
    · simp only [h1, h2, if_false] at hw1 hw2
      exact ⟨fun h => absurd h h1, fun _ h => absurd h h2, fun _ h => absurd h h2,
        fun _ _ => ⟨hw1, hw2⟩⟩

/-- C24 at the example chip (ten rows): from row 5, a region in rows 8 to 9 gives
row 6 or 7 (here 7), a region in rows 1 to 2 gives row 3 or 4 (here 4), and a
region in rows 3 to 8 gives a row of its own range (here 8). -/
theorem chosenRow_direction_clamp_witness :
    (DetailedVerticalSwap.chosenRow exArch 5 ⟨0, 0, 85, 95⟩ 10 5 = 7 ∧
      DetailedVerticalSwap.chosenRow exArch 5 ⟨0, 0, 15, 25⟩ 10 5 = 4 ∧
      DetailedVerticalSwap.chosenRow exArch 5 ⟨0, 0, 35, 75⟩ 10 5 = 8) ∧
    ((DetailedVerticalSwap.chosenRow exArch 5 ⟨0, 0, 85, 95⟩ 10 5 = 5 + 1 ∨
        DetailedVerticalSwap.chosenRow exArch 5 ⟨0, 0, 85, 95⟩ 10 5 =
          min (exArch.numRows - 1) (5 + 2)) ∧
      DetailedVerticalSwap.chosenRow exArch 5 ⟨0, 0, 85, 95⟩ 10 5 > 5) :=
  ⟨⟨by decide!, by decide!, by decide!⟩,
   (chosenRow_direction_clamp exArch 5 ⟨0, 0, 85, 95⟩ 10 5 (by decide) (by decide!)
      (fun y => ⟨le_max_left _ _, max_le (by decide) (min_le_left _ _)⟩)).1
      (by decide!)⟩

/-! ## The row window is never empty -/

theorem scanTokens_skip (isSep : Char → Bool) (g : List Char)
    (hg : ∀ c ∈ g, isSep c = true) (rest : List Char) :
    scanTokens isSep (g ++ rest) [] = scanTokens isSep rest [] := by
  induction g with
  | nil => rfl
  | cons c g ih =>
    have hc : isSep c = true := hg c (List.mem_cons_self c g)
    simp only [List.cons_append, scanTokens, hc, if_true]
    exact ih (fun d hd => hg d (List.mem_cons_of_mem c hd))

theorem scanTokens_collect (isSep : Char → Bool) (t : List Char)
    (ht : ∀ c ∈ t, isSep c = false) (rest tok : List Char) :
    scanTokens isSep (t ++ rest) tok = scanTokens isSep rest (tok ++ t) := by
  induction t generalizing tok with
  | nil => simp
  | cons c t ih =>
    have hc : isSep c = false := ht c (List.mem_cons_self c t)
    rw [List.cons_append, scanTokens, if_neg (by rw [hc]; simp),
      ih (fun d hd => ht d (List.mem_cons_of_mem c hd))]
    simp

theorem scanTokens_emit (isSep : Char → Bool) (tok rest : List Char) (ht : tok ≠ [])
    (hrest : rest = [] ∨ ∃ c r, rest = c :: r ∧ isSep c = true) :
    scanTokens isSep rest tok = tok :: scanTokens isSep rest [] := by
  rcases hrest with h | ⟨c, r, h, hc⟩
  · subst h
    simp [scanTokens, ht]
  · subst h
    simp [scanTokens, hc, ht]

/-- The scan returns the only list that satisfies the specification. -/
theorem scanTokens_unique (isSep : Char → Bool) (l : List Char) (ts : List (List Char))
    (h : MaximalTokens isSep l ts) : scanTokens isSep l [] = ts := by
  induction h with
  | done g hg =>
    have := scanTokens_skip isSep g hg []
    rw [List.append_nil] at this
    rw [this]
    rfl
  | token g t rest ts hg ht hts hrest _ ih =>
    rw [List.append_assoc, scanTokens_skip isSep g hg, scanTokens_collect isSep t hts,
      List.nil_append, scanTokens_emit isSep t rest ht hrest, ih]

theorem maximalTokens_cons_sep (isSep : Char → Bool) (c : Char) (hc : isSep c = true)
    (l : List Char) (ts : List (List Char)) (h : MaximalTokens isSep l ts) :
    MaximalTokens isSep (c :: l) ts := by
  induction h with
  | done g hg =>
    exact MaximalTokens.done (c :: g) (by
      intro d hd
      rcases List.mem_cons.mp hd with rfl | hd
      · exact hc
      · exact hg d hd)
  | token g t rest ts hg ht hts hrest h _ =>
    have := MaximalTokens.token (c :: g) t rest ts (by
      intro d hd
      rcases List.mem_cons.mp hd with rfl | hd
      · exact hc
      · exact hg d hd) ht hts hrest h
    simpa using this

/-- The scan satisfies the specification, from any point of a token on. -/
theorem scanTokens_sound (isSep : Char → Bool) (l : List Char) :
    ∀ tok : List Char, (∀ c ∈ tok, isSep c = false) →
      MaximalTokens isSep (tok ++ l) (scanTokens isSep l tok) := by
  induction l with
  | nil =>
    intro tok htok
    by_cases h0 : tok = []
    · subst h0
      simp only [scanTokens, if_true, List.append_nil]
      exact MaximalTokens.done [] (by simp)
    · simp only [scanTokens, h0, if_false]
      have := MaximalTokens.token [] tok [] [] (by simp) h0 htok (Or.inl rfl)
        (MaximalTokens.done [] (by simp))
      simpa using this
  | cons c cs ih =>
    intro tok htok
    by_cases hc : isSep c = true
    · have hcs := maximalTokens_cons_sep isSep c hc _ _ (ih [] (by simp))
      rw [List.nil_append] at hcs
      by_cases h0 : tok = []
      · subst h0
        simp only [scanTokens, hc, if_true, List.nil_append]
        exact hcs
      · simp only [scanTokens, hc, if_true, h0, if_false]
        have := MaximalTokens.token [] tok (c :: cs) _ (by simp) h0 htok
          (Or.inr ⟨c, cs, rfl, hc⟩) hcs
        simpa using this
    · have hc2 : isSep c = false := by simpa using hc
      simp only [scanTokens, hc, if_false]
      have := ih (tok ++ [c]) (by
        intro d hd
        rcases List.mem_append.mp hd with hd | hd
        · exact htok d hd
        · rw [List.mem_singleton] at hd
          rw [hd]
          exact hc2)
      simpa using this

theorem maximalTokens_tokens (isSep : Char → Bool) (l : List Char) (ts : List (List Char))
    (h : MaximalTokens isSep l ts) :
    ∀ t ∈ ts, t ≠ [] ∧ ∀ c ∈ t, isSep c = false := by
  induction h with
  | done g hg => simp
  | token g t rest ts hg ht hts hrest _ ih =>
    intro u hu
    rcases List.mem_cons.mp hu with rfl | hu
    · exact ⟨ht, hts⟩
    · exact ih u hu

theorem commandTokens_data (command : String) :
    (commandTokens command).map String.data = scanTokens isSeparator command.data [] := by
  unfold commandTokens
  rw [List.map_map]
  have : (String.data ∘ String.mk) = id := rfl
  rw [this, List.map_id]

/-- C26 (command tokenisation).  `run(mgr, command)` of either generator is
`run(mgr, args)` for `args` the tokens of `command`; these are, in order, the
maximal non-empty substrings of `command` containing none of the separators space,
carriage return, tab, newline and semicolon, and they are the only list that is;
no token is empty and no token contains a separator, so a run of consecutive
separators yields no empty token. -/
theorem run_command_tokenisation {σ : Type} (atoi : String → Int) (atof : String → ℚ)
    (env : SweepEnv σ) (ops : DetailedMgr σ) (reset : Rectangle) (arch : Architecture)
    (utilHpwl : Network → ℚ) (command : String) (w : DetailedSwap × σ × Network) :
    DetailedGlobalSwap.runCommand atoi atof env ops reset arch utilHpwl command w =
      DetailedGlobalSwap.run atoi atof env ops reset arch utilHpwl
        (commandTokens command) w ∧
    DetailedVerticalSwap.runCommand atoi atof env ops arch utilHpwl command w =
      DetailedVerticalSwap.run atoi atof env ops arch utilHpwl (commandTokens command) w ∧
    MaximalTokens isSeparator command.data ((commandTokens command).map String.data) ∧
    (∀ ts, MaximalTokens isSeparator command.data ts →
      ts = (commandTokens command).map String.data) ∧
    (∀ t ∈ commandTokens command, t.data ≠ [] ∧ ∀ c ∈ t.data, c ∉ separators) ∧
    (∀ c, isSeparator c = true ↔
      c = Char.ofNat 32 ∨ c = Char.ofNat 13 ∨ c = Char.ofNat 9 ∨ c = Char.ofNat 10 ∨
        c = Char.ofNat 59) := by
  have hsound : MaximalTokens isSeparator command.data
      ((commandTokens command).map String.data) := by
    rw [commandTokens_data]
    have := scanTokens_sound isSeparator command.data [] (by simp)
    simpa using this
  refine ⟨rfl, rfl, hsound, ?_, ?_, ?_⟩
  · intro ts hts
    rw [commandTokens_data]
    exact (scanTokens_unique isSeparator command.data ts hts).symm
  · intro t ht
    have hmem : t.data ∈ (commandTokens command).map String.data :=
      List.mem_map.mpr ⟨t, ht, rfl⟩
    obtain ⟨h1, h2⟩ := maximalTokens_tokens isSeparator _ _ hsound t.data hmem
    refine ⟨h1, fun c hc hsep => ?_⟩
    have := h2 c hc
    simp [isSeparator, hsep] at this
  · intro c
    simp [isSeparator, separators]

/-- The tokens of two commands: separators of every kind between, before and after
the tokens, and runs of separators, leave exactly the option tokens. -/
theorem commandTokens_examples :
    commandTokens "  -p 3;;-t 0.5 ; " = ["-p", "3", "-t", "0.5"] ∧
    commandTokens (String.mk
      [Char.ofNat 9, 'a', 'b', Char.ofNat 13, Char.ofNat 10, 'c', Char.ofNat 59]) =
      ["ab", "c"] ∧
    commandTokens " ;; " = [] ∧ commandTokens "" = [] := by
  refine ⟨by decide, by decide, by decide, by decide⟩

/-- C31 (the row pick never divides by zero).  In each of the three branches of the
window step of `DetailedVerticalSwap::generate` the modulus `rmax - rmin + 1` of
the random row pick is at least 1, and the chosen row satisfies
`rmin ≤ rj ≤ rmax` for the window `(rmin, rmax)` the step leaves.  This holds for
every row lookup, cell height, current row and region; under the assumptions of a
monotone lookup, a non-negative height and `ymin ≤ ymax` the region's own row range
is ordered as well, and with the lookup and the current row in `[0, n - 1]` the
chosen row is a row of the design. -/
theorem row_pick_modulus_positive (arch : Architecture) (ri : Int) (bbox : Rectangle)
    (height : ℚ) (r : Nat) :
    (arch.find_closest_row (bbox.ymin - 0.5 * height) > ri →
      DetailedVerticalSwap.rowWindow arch ri bbox height =
        (min (arch.numRows - 1) (ri + 1), min (arch.numRows - 1) (ri + 2)) ∧
      1 ≤ min (arch.numRows - 1) (ri + 2) - min (arch.numRows - 1) (ri + 1) + 1) ∧
    (¬ (arch.find_closest_row (bbox.ymin - 0.5 * height) > ri) →
      arch.find_closest_row (bbox.ymax + 0.5 * height) < ri →
      DetailedVerticalSwap.rowWindow arch ri bbox height =
        (max 0 (ri - 2), max 0 (ri - 1)) ∧
      1 ≤ max 0 (ri - 1) - max 0 (ri - 2) + 1) ∧
    (¬ (arch.find_closest_row (bbox.ymin - 0.5 * height) > ri) →
      ¬ (arch.find_closest_row (bbox.ymax + 0.5 * height) < ri) →
      DetailedVerticalSwap.rowWindow arch ri bbox height =
        (arch.find_closest_row (bbox.ymin - 0.5 * height),
         arch.find_closest_row (bbox.ymax + 0.5 * height)) ∧
      1 ≤ arch.find_closest_row (bbox.ymax + 0.5 * height) -
        arch.find_closest_row (bbox.ymin - 0.5 * height) + 1) ∧
    1 ≤ (DetailedVerticalSwap.rowWindow arch ri bbox height).2 -
      (DetailedVerticalSwap.rowWindow arch ri bbox height).1 + 1 ∧
    ((DetailedVerticalSwap.rowWindow arch ri bbox height).1 ≤
        DetailedVerticalSwap.chosenRow arch ri bbox height r ∧
      DetailedVerticalSwap.chosenRow arch ri bbox height r ≤
        (DetailedVerticalSwap.rowWindow arch ri bbox height).2) ∧
    DetailedVerticalSwap.chosenRow arch ri bbox height r =
      (DetailedVerticalSwap.rowWindow arch ri bbox height).1 +
        (r : Int) % ((DetailedVerticalSwap.rowWindow arch ri bbox height).2 -
          (DetailedVerticalSwap.rowWindow arch ri bbox height).1 + 1) ∧
    ((∀ y1 y2 : ℚ, y1 ≤ y2 → arch.find_closest_row y1 ≤ arch.find_closest_row y2) →
      0 ≤ height → bbox.ymin ≤ bbox.ymax →
      arch.find_closest_row (bbox.ymin - 0.5 * height) ≤
        arch.find_closest_row (bbox.ymax + 0.5 * height)) ∧
    ((∀ y, 0 ≤ arch.find_closest_row y ∧ arch.find_closest_row y ≤ arch.numRows - 1) →
      0 ≤ ri → ri ≤ arch.numRows - 1 →
      0 ≤ DetailedVerticalSwap.chosenRow arch ri bbox height r ∧
      DetailedVerticalSwap.chosenRow arch ri bbox height r ≤ arch.numRows - 1) := by
  have hw := chosenRow_mem_window arch ri bbox height r
  have hm := rowWindow_nonempty arch ri bbox height
  refine ⟨?_, ?_, ?_, hm, hw, rfl, ?_, ?_⟩
  · intro h1
    refine ⟨?_, by omega⟩
    unfold DetailedVerticalSwap.rowWindow
    simp only [h1, if_true]
  · intro h1 h2
    refine ⟨?_, by omega⟩
    unfold DetailedVerticalSwap.rowWindow
    simp only [h1, h2, if_true, if_false]
  · intro h1 h2
    refine ⟨?_, by omega⟩
    unfold DetailedVerticalSwap.rowWindow
    simp only [h1, h2, if_false]
  · intro hmono hh hy
    apply hmono
    linarith
  · intro hrow h0 h1
    have hlo := hrow (bbox.ymin - 0.5 * height)
    have hhi := hrow (bbox.ymax + 0.5 * height)
    obtain ⟨hw1, hw2⟩ := hw
    generalize DetailedVerticalSwap.chosenRow arch ri bbox height r = rj at hw1 hw2 ⊢
    unfold DetailedVerticalSwap.rowWindow at hw1 hw2
    dsimp only at hw1 hw2
    generalize arch.find_closest_row (bbox.ymin - 0.5 * height) = rmin at hw1 hw2 hlo ⊢
    generalize arch.find_closest_row (bbox.ymax + 0.5 * height) = rmax at hw1 hw2 hhi ⊢
    by_cases h1 : rmin > ri
    · simp only [h1, if_true] at hw1 hw2
      constructor <;> omega
    · by_cases h2 : rmax < ri
      · simp only [h1, h2, if_true, if_false] at hw1 hw2
        constructor <;> omega
      · simp only [h1, h2, if_false] at hw1 hw2
        constructor <;> omega

end dpo

namespace odb

/-! ## Record and data type codes -/

/-- C32 (record and data type codes round-trip).  With the enumerators `INVALID_RT`
and `INVALID_DT` byte values: for every byte `b < INVALID_RT`,
`fromRecordType(toRecordType(b))` returns `b`, and for every record type `r` below
`INVALID_RT`, `toRecordType(fromRecordType(r))` returns `r`, no call throwing; the
same for `toDataType` / `fromDataType` with `INVALID_DT`. -/
theorem record_type_round_trip (INVALID_RT INVALID_DT : Nat) (hRT : INVALID_RT < 256)
    (hDT : INVALID_DT < 256) :
    (∀ b : Nat, b < INVALID_RT →
      (toRecordType INVALID_RT b).bind (fromRecordType INVALID_RT) = Except.ok b) ∧
    (∀ r : RecordType, r.val < INVALID_RT →
      (fromRecordType INVALID_RT r).bind (toRecordType INVALID_RT) = Except.ok r) ∧
    (∀ b : Nat, b < INVALID_DT →
      (toDataType INVALID_DT b).bind (fromDataType INVALID_DT) = Except.ok b) ∧
    (∀ d : DataType, d.val < INVALID_DT →
      (fromDataType INVALID_DT d).bind (toDataType INVALID_DT) = Except.ok d) := by
  have hRT1 : INVALID_RT % 256 = INVALID_RT := Nat.mod_eq_of_lt hRT
  have hDT1 : INVALID_DT % 256 = INVALID_DT := Nat.mod_eq_of_lt hDT
  refine ⟨?_, ?_, ?_, ?_⟩
  · intro b hb
    have h1 : ¬ (b ≥ INVALID_RT) := by omega
    have h2 : b % 256 = b := Nat.mod_eq_of_lt (by omega)
    simp only [toRecordType, fromRecordType, hRT1, h1, if_false, Except.bind, h2]
  · intro r hr
    have h1 : ¬ (r.val ≥ INVALID_RT) := by omega
    have h2 : r.val % 256 = r.val := Nat.mod_eq_of_lt (by omega)
    simp only [toRecordType, fromRecordType, hRT1, h1, if_false, Except.bind, h2]
  · intro b hb
    have h1 : ¬ (b ≥ INVALID_DT) := by omega
    have h2 : b % 256 = b := Nat.mod_eq_of_lt (by omega)
    simp only [toDataType, fromDataType, hDT1, h1, if_false, Except.bind, h2]
  · intro d hd
    have h1 : ¬ (d.val ≥ INVALID_DT) := by omega
    have h2 : d.val % 256 = d.val := Nat.mod_eq_of_lt (by omega)
    simp only [toDataType, fromDataType, hDT1, h1, if_false, Except.bind, h2]

/-- C32 with `INVALID_RT = 60` and `INVALID_DT = 7`: the byte 59 and the data type
code 6 go round, and the statement for all codes below the two enumerators. -/
theorem record_type_round_trip_witness :
    ((toRecordType 60 59).bind (fromRecordType 60) = Except.ok 59 ∧
      (toDataType 7 6).bind (fromDataType 7) = Except.ok 6) ∧
    ((∀ b : Nat, b < 60 → (toRecordType 60 b).bind (fromRecordType 60) = Except.ok b) ∧
    (∀ r : RecordType, r.val < 60 →
      (fromRecordType 60 r).bind (toRecordType 60) = Except.ok r) ∧
    (∀ b : Nat, b < 7 → (toDataType 7 b).bind (fromDataType 7) = Except.ok b) ∧
    (∀ d : DataType, d.val < 7 →
      (fromDataType 7 d).bind (toDataType 7) = Except.ok d)) :=
  ⟨⟨rfl, rfl⟩, record_type_round_trip 60 7 (by decide) (by decide)⟩

/-- C33 (record type validation).  With `INVALID_RT = 60`, the number of names in
the table: `toRecordType(b)` throws "Corrupted GDS, Invalid record type!" exactly
when `b ≥ INVALID_RT` and otherwise returns the record type of value `b`;
`recordTypeToString(r)` throws that error exactly when `r ≥ INVALID_RT` and
otherwise returns the entry of the table at index `r`, an index below the length
60 of the table; entry 0 is "HEADER" and entry 59 is "LIBSECUR". -/
theorem record_type_validation (INVALID_RT : Nat) (hN : INVALID_RT = 60) :
    (∀ b : Nat, toRecordType INVALID_RT b = Except.error invalidRecordType ↔
      b ≥ INVALID_RT) ∧
    (∀ b : Nat, b < INVALID_RT → toRecordType INVALID_RT b = Except.ok ⟨b⟩) ∧
    (∀ r : RecordType, recordTypeToString INVALID_RT r = Except.error invalidRecordType ↔
      r.val ≥ INVALID_RT) ∧
    (∀ r : RecordType, r.val < INVALID_RT →
      ∃ h : r.val < recordNames.length,
        recordTypeToString INVALID_RT r = Except.ok (some (recordNames.get ⟨r.val, h⟩))) ∧
    recordNames.length = 60 ∧
    recordTypeToString INVALID_RT ⟨0⟩ = Except.ok (some "HEADER") ∧
    recordTypeToString INVALID_RT ⟨59⟩ = Except.ok (some "LIBSECUR") ∧
    invalidRecordType = "Corrupted GDS, Invalid record type!" := by
  subst hN
  refine ⟨?_, ?_, ?_, ?_, by decide, rfl, rfl, rfl⟩
  · intro b
    unfold toRecordType
    constructor
    · intro hc
      by_contra hn
      rw [if_neg (by omega)] at hc
      cases hc
    · intro hb
      rw [if_pos (by omega)]
  · intro b hb
    unfold toRecordType
    have h : ¬ (b ≥ 60 % 256) := by omega
    simp only [h, if_false]
  · intro r
    unfold recordTypeToString
    constructor
    · intro hc
      by_contra hn
      rw [if_neg hn] at hc
      cases hc
    · intro hb
      rw [if_pos hb]
  · intro r hr
    have hlen : recordNames.length = 60 := by decide
    have h : r.val < recordNames.length := by omega
    refine ⟨h, ?_⟩
    unfold recordTypeToString
    have h1 : ¬ (r.val ≥ 60) := by omega
    have h2 : r.val % 256 = r.val := Nat.mod_eq_of_lt (by omega)
    simp only [h1, if_false, h2]
    rw [List.getElem?_eq_getElem h]
    rfl

/-- C33 at the byte values 59 (the last record type), 60 and 255. -/
theorem record_type_validation_witness :
    (toRecordType 60 59 = Except.ok ⟨59⟩ ∧
      toRecordType 60 60 = Except.error "Corrupted GDS, Invalid record type!" ∧
      toRecordType 60 255 = Except.error "Corrupted GDS, Invalid record type!" ∧
      recordTypeToString 60 ⟨13⟩ = Except.ok (some "LAYER") ∧
      recordTypeToString 60 ⟨60⟩ = Except.error "Corrupted GDS, Invalid record type!") ∧
    (∀ r : RecordType, recordTypeToString 60 r = Except.error invalidRecordType ↔
      r.val ≥ 60) :=
  ⟨⟨rfl, rfl, rfl, rfl, rfl⟩, (record_type_validation 60 rfl).2.2.1⟩


/-! ## The 8-byte real -/

/-- The exponent field: masking bits 56..62 and shifting right by 54 leaves four
times the 7-bit field. -/
theorem exponent_field (real : Nat) :
    (real &&& 0x7F00000000000000) >>> 54 = 4 * ((real / 2 ^ 56) % 128) := by
  have hm : (0x7F00000000000000 : Nat) = (2 ^ 7 - 1) <<< 56 := by decide
  have h4 : 4 * ((real / 2 ^ 56) % 128) = ((real >>> 56) % 2 ^ 7) <<< 2 := by
    rw [Nat.shiftLeft_eq, Nat.shiftRight_eq_div_pow]
    omega
  rw [h4, hm]
  apply Nat.eq_of_testBit_eq
  intro i
  rw [Nat.testBit_shiftRight, Nat.testBit_and, Nat.testBit_shiftLeft,
    Nat.testBit_two_pow_sub_one, Nat.testBit_shiftLeft, Nat.testBit_mod_two_pow,
    Nat.testBit_shiftRight]
  by_cases h : 2 ≤ i
  · have e1 : 56 + (i - 2) = 54 + i := by omega
    have e2 : 54 + i - 56 = i - 2 := by omega
    have e3 : 54 + i ≥ 56 := by omega
    rw [e1, e2]
    simp only [e3, h, ge_iff_le, decide_True, Bool.true_and]
    rw [Bool.and_comm]
  · have e3 : ¬ (54 + i ≥ 56) := by omega
    simp only [e3, h, ge_iff_le, decide_False, Bool.false_and, Bool.and_false]

/-- The mantissa field: masking with `0x00FFFFFFFFFFFFFF` keeps bits 0..55. -/
theorem mantissa_field (real : Nat) : real &&& 0x00FFFFFFFFFFFFFF = real % 2 ^ 56 := by
  have hm : (0x00FFFFFFFFFFFFFF : Nat) = 2 ^ 56 - 1 := by decide
  rw [hm, Nat.and_pow_two_sub_one_eq_mod]

theorem two_zpow_four_mul (e : Int) : (2 : ℚ) ^ (4 * e) = (16 : ℚ) ^ e := by
  rw [zpow_mul]
  norm_num

/-- The conversion to `double` is exact for an integer of at most 53 significant
bits. -/
theorem u64ToDouble_exact (n : Nat) (h : n < 2 ^ 53 ∨ n % 2 ^ excessBits n = 0) :
    u64ToDouble n = (n : ℚ) := by
  unfold u64ToDouble
  by_cases h1 : n < 2 ^ 53
  · rw [if_pos h1]
  · rw [if_neg h1]
    have h2 : n % 2 ^ excessBits n = 0 := by
      rcases h with h | h
      · exact absurd h h1
      · exact h
    have hpos : 0 < 2 ^ (excessBits n - 1) := by positivity
    simp only [h2, hpos, if_true]
    rw [Nat.div_mul_cancel (Nat.dvd_of_mod_eq_zero h2)]

theorem u64ToDouble_nonneg (n : Nat) : 0 ≤ u64ToDouble n := by
  unfold u64ToDouble
  split
  · exact Nat.cast_nonneg n
  · exact Nat.cast_nonneg _

/-- The value `real8_to_double` returns, in terms of the 7-bit exponent field and
the 56-bit mantissa field of the word. -/
theorem real8_to_double_fields (real : Nat) :
    real8_to_double real =
      u64ToDouble (real % 2 ^ 56) / 2 ^ 56 *
        (16 : ℚ) ^ ((((real / 2 ^ 56) % 128 : Nat) : Int) - 64) := by
  unfold real8_to_double
  simp only [exponent_field, mantissa_field]
  have he : (((4 * ((real / 2 ^ 56) % 128) : Nat) : Int)) - 256 =
      4 * ((((real / 2 ^ 56) % 128 : Nat) : Int) - 64) := by
    push_cast
    ring
  rw [he, two_zpow_four_mul]
  norm_num

/-- Decoding never returns a negative number: bit 63 of the word is not read. -/
theorem real8_to_double_nonneg (real : Nat) : 0 ≤ real8_to_double real := by
  rw [real8_to_double_fields]
  apply mul_nonneg
  · exact div_nonneg (u64ToDouble_nonneg _) (by norm_num)
  · exact zpow_nonneg (by norm_num) _

/-- No `double` holds the integer `2 ^ 56 - 1`: a `double` is `m * 2 ^ k` with a
significand `m` below `2 ^ 53`. -/
theorem no_double_holds_all_ones (m : Nat) (k : Int) (hm : m < 2 ^ 53) :
    (m : ℚ) * (2 : ℚ) ^ k ≠ 2 ^ 56 - 1 := by
  intro h
  rcases le_or_lt 0 k with hk | hk
  · obtain ⟨j, rfl⟩ := Int.eq_ofNat_of_zero_le hk
    rw [zpow_natCast] at h
    have h2 : (m * 2 ^ j : Nat) = 2 ^ 56 - 1 := by
      have : ((m * 2 ^ j : Nat) : ℚ) = ((2 ^ 56 - 1 : Nat) : ℚ) := by
        push_cast
        rw [h]
        norm_num
      exact_mod_cast this
    cases j with
    | zero =>
      simp only [pow_zero, mul_one] at h2
      omega
    | succ j =>
      have : (m * 2 ^ (j + 1)) % 2 = 0 := by
        rw [pow_succ, ← mul_assoc]
        exact Nat.mul_mod_left _ _
      omega
  · obtain ⟨j, hj⟩ : ∃ j : Nat, k = -(j : Int) := ⟨(-k).toNat, by omega⟩
    subst hj
    rw [zpow_neg, zpow_natCast] at h
    have hpos : (0 : ℚ) < 2 ^ j := by positivity
    have h2 : (m : ℚ) = (2 ^ 56 - 1) * 2 ^ j := by
      field_simp at h
      linarith
    have h3 : (1 : ℚ) ≤ 2 ^ j := one_le_pow₀ (by norm_num)
    have h4 : (m : ℚ) < 2 ^ 53 := by exact_mod_cast hm
    nlinarith

/-- C34 as stated fails.  The word `0x40FFFFFFFFFFFFFF` has exponent field
`E = 64` and mantissa field `M = 2 ^ 56 - 1`, so the stated value is
`(2 ^ 56 - 1) / 2 ^ 56`; `real8_to_double` returns 1, because the conversion of the
56-bit mantissa to `double` keeps 53 significant bits.  No rounding choice could
return the stated value: no `double` holds `2 ^ 56 - 1`. -/
theorem real8_decode_rounds_mantissa :
    (0x40FFFFFFFFFFFFFF / 2 ^ 56) % 128 = 64 ∧
    0x40FFFFFFFFFFFFFF % 2 ^ 56 = 2 ^ 56 - 1 ∧
    real8_to_double 0x40FFFFFFFFFFFFFF = 1 ∧
    ((2 ^ 56 - 1 : ℚ) / 2 ^ 56) * (16 : ℚ) ^ ((64 : Int) - 64) = (2 ^ 56 - 1) / 2 ^ 56 ∧
    real8_to_double 0x40FFFFFFFFFFFFFF ≠
      (((0x40FFFFFFFFFFFFFF % 2 ^ 56 : Nat) : ℚ) / 2 ^ 56) *
        (16 : ℚ) ^ ((((0x40FFFFFFFFFFFFFF / 2 ^ 56) % 128 : Nat) : Int) - 64) ∧
    (∀ (m : Nat) (k : Int), m < 2 ^ 53 → (m : ℚ) * (2 : ℚ) ^ k ≠ 2 ^ 56 - 1) := by
  refine ⟨by decide, by decide, by decide!, by norm_num, by decide!, ?_⟩
  intro m k hm
  exact no_double_holds_all_ones m k hm

/-- C34 as amended.  For every word, with `E` its exponent field (bits 56..62) and
`M` its mantissa field (bits 0..55): the shift by 54 followed by the subtraction of
256 yields the binary exponent `4 * (E - 64)`, and `real8_to_double` returns
`(d / 2 ^ 56) * 16 ^ (E - 64)` for `d` the mantissa converted to `double`; this is
`(M / 2 ^ 56) * 16 ^ (E - 64)` whenever `M` has at most 53 significant bits, in
particular whenever `M < 2 ^ 53`. -/
theorem real8_to_double_value (real : Nat) :
    ((((real &&& 0x7F00000000000000) >>> 54 : Nat) : Int) - 256 =
      4 * ((((real / 2 ^ 56) % 128 : Nat) : Int) - 64)) ∧
    real8_to_double real =
      u64ToDouble (real % 2 ^ 56) / 2 ^ 56 *
        (16 : ℚ) ^ ((((real / 2 ^ 56) % 128 : Nat) : Int) - 64) ∧
    (real % 2 ^ 56 < 2 ^ 53 ∨ (real % 2 ^ 56) % 2 ^ excessBits (real % 2 ^ 56) = 0 →
      real8_to_double real =
        ((real % 2 ^ 56 : Nat) : ℚ) / 2 ^ 56 *
          (16 : ℚ) ^ ((((real / 2 ^ 56) % 128 : Nat) : Int) - 64)) := by
  refine ⟨?_, real8_to_double_fields real, ?_⟩
  · rw [exponent_field]
    push_cast
    ring
  · intro h
    rw [real8_to_double_fields, u64ToDouble_exact _ h]

/-- The round trip of a positive value the format holds exactly: `v = m * 16 ^ (e - 14)`
with a normalised 14-digit hexadecimal mantissa `m` of at most 53 significant bits
and `-64 ≤ e ≤ 63` is encoded as the word with exponent field `64 + e` and
mantissa field `m`, sign bit clear, and decoded to `v`. -/
theorem real8_round_trip_positive (m : Nat) (e : Int) (hm1 : 16 ^ 13 ≤ m)
    (hm2 : m < 16 ^ 14) (hfit : m < 2 ^ 53 ∨ m % 2 ^ excessBits m = 0)
    (he1 : -64 ≤ e) (he2 : e ≤ 63) :
    double_to_real8 ((m : ℚ) * (16 : ℚ) ^ (e - 14)) = (64 + e).toNat * 2 ^ 56 + m ∧
    real8_to_double (double_to_real8 ((m : ℚ) * (16 : ℚ) ^ (e - 14))) =
      (m : ℚ) * (16 : ℚ) ^ (e - 14) := by
  have h16 : (0 : ℚ) < 16 := by norm_num
  have hmq1 : ((16 : ℚ) ^ 13) ≤ (m : ℚ) := by exact_mod_cast hm1
  have hmq2 : (m : ℚ) < (16 : ℚ) ^ 14 := by exact_mod_cast hm2
  have hzp : (0 : ℚ) < (16 : ℚ) ^ (e - 14) := zpow_pos h16 _
  have hv : (0 : ℚ) < (m : ℚ) * (16 : ℚ) ^ (e - 14) :=
    mul_pos (lt_of_lt_of_le (by norm_num) hmq1) hzp
  -- the exponent
  have hlo : ((16 : ℕ) : ℚ) ^ (e - 1) ≤ (m : ℚ) * (16 : ℚ) ^ (e - 14) := by
    have : ((16 : ℕ) : ℚ) ^ (e - 1) = (16 : ℚ) ^ (13 : ℕ) * (16 : ℚ) ^ (e - 14) := by
      rw [← zpow_natCast, ← zpow_add₀ (by norm_num : (16 : ℚ) ≠ 0)]
      norm_num
      ring
    rw [this]
    exact mul_le_mul_of_nonneg_right hmq1 hzp.le
  have hhi : (m : ℚ) * (16 : ℚ) ^ (e - 14) < ((16 : ℕ) : ℚ) ^ e := by
    have : ((16 : ℕ) : ℚ) ^ e = (16 : ℚ) ^ (14 : ℕ) * (16 : ℚ) ^ (e - 14) := by
      rw [← zpow_natCast, ← zpow_add₀ (by norm_num : (16 : ℚ) ≠ 0)]
      norm_num
    rw [this]
    exact mul_lt_mul_of_pos_right hmq2 hzp
  have hlog : Int.log 16 ((m : ℚ) * (16 : ℚ) ^ (e - 14)) = e - 1 := by
    have h1 := (Int.zpow_le_iff_le_log (by norm_num : 1 < 16) hv).mp hlo
    have h2 := (Int.lt_zpow_iff_log_lt (by norm_num : 1 < 16) hv).mp hhi
    omega
  -- the mantissa
  have hmant : ((m : ℚ) * (16 : ℚ) ^ (e - 14)) * (16 : ℚ) ^ (14 - (e - 1 + 1)) = (m : ℚ) := by
    rw [mul_assoc, ← zpow_add₀ (by norm_num : (16 : ℚ) ≠ 0)]
    have : e - 14 + (14 - (e - 1 + 1)) = 0 := by ring
    rw [this, zpow_zero, mul_one]
  have hbyte : (0 + ((64 + (e - 1 + 1)) % 256).toNat) % 256 = (64 + e).toNat := by
    have : (64 + (e - 1 + 1)) % 256 = 64 + e := by omega
    rw [this]
    omega
  have hmlt : m < 2 ^ 56 := by
    have : (16 : Nat) ^ 14 = 2 ^ 56 := by norm_num
    omega
  have henc : double_to_real8 ((m : ℚ) * (16 : ℚ) ^ (e - 14)) =
      (64 + e).toNat * 2 ^ 56 + m := by
    unfold double_to_real8
    rw [if_neg (ne_of_gt hv)]
    simp only [if_neg (not_lt.mpr hv.le), hlog, hmant, Int.floor_natCast, Int.toNat_ofNat,
      hbyte, mantissa_field, Nat.mod_eq_of_lt hmlt, Nat.shiftLeft_eq]
    rw [Nat.mul_comm, ← Nat.mul_add_lt_is_or hmlt]
  refine ⟨henc, ?_⟩
  rw [henc, real8_to_double_fields]
  have hb : (64 + e).toNat < 128 := by omega
  have hE : (((64 + e).toNat * 2 ^ 56 + m) / 2 ^ 56) % 128 = (64 + e).toNat := by
    rw [Nat.add_comm, Nat.add_mul_div_right _ _ (by positivity : 0 < 2 ^ 56),
      Nat.div_eq_of_lt hmlt, Nat.zero_add, Nat.mod_eq_of_lt hb]
  have hM : ((64 + e).toNat * 2 ^ 56 + m) % 2 ^ 56 = m := by
    rw [Nat.add_comm, Nat.add_mul_mod_self_right, Nat.mod_eq_of_lt hmlt]
  rw [hE, hM, u64ToDouble_exact m hfit]
  have hc : (((64 + e).toNat : Nat) : Int) - 64 = e := by omega
  rw [hc]
  have : (16 : ℚ) ^ (e - 14) = (16 : ℚ) ^ e / 2 ^ 56 := by
    rw [zpow_sub₀ (by norm_num : (16 : ℚ) ≠ 0)]
    norm_num
  rw [this]
  ring

/-- The round trip at 1: the word `0x4110000000000000`. -/
theorem real8_round_trip_positive_witness :
    double_to_real8 1 = 0x4110000000000000 ∧ real8_to_double (double_to_real8 1) = 1 := by
  have h := real8_round_trip_positive (16 ^ 13) 1 (le_refl _) (by decide) (Or.inl (by decide))
    (by decide) (by decide)
  have h1 : (((16 ^ 13 : Nat) : ℚ)) * (16 : ℚ) ^ ((1 : Int) - 14) = 1 := by norm_num
  rw [h1] at h
  exact ⟨by rw [h.1]; decide, h.2⟩

/-- C35 (real8 round trip), at `v = -1`.  `double_to_real8(-1)` is the word
`0xC110000000000000`: sign bit set, exponent field 65, mantissa field `2 ^ 52`.
`real8_to_double` of that word is `+1`: the decoder never reads bit 63 and returns
a non-negative number for every word.  The zero word and positive values go round
(`v = 0`, `v = 1`). -/
theorem real8_round_trip_loses_sign :
    double_to_real8 (-1) = 0xC110000000000000 ∧
    (0xC110000000000000 / 2 ^ 63) % 2 = 1 ∧
    0xC110000000000000 % 2 ^ 56 = 2 ^ 52 ∧
    real8_to_double 0xC110000000000000 = 1 ∧
    real8_to_double (double_to_real8 (-1)) = 1 ∧
    real8_to_double (double_to_real8 (-1)) ≠ -1 ∧
    (∀ real : Nat, 0 ≤ real8_to_double real) ∧
    (double_to_real8 0 = 0 ∧ real8_to_double (double_to_real8 0) = 0) ∧
    real8_to_double (double_to_real8 1) = 1 := by
  refine ⟨by decide!, by decide, by decide, by decide!, by decide!, by decide!,
    real8_to_double_nonneg, ⟨by decide!, by decide!⟩, by decide!⟩

end odb

namespace fr

/-! ## Facts about the corner folds -/

theorem extend_eq_extendMinMax (c : Corners) (t : Rect) : c.extend t = c.extendMinMax t := by
  unfold Corners.extend Corners.extendMinMax
  congr 1
  · split <;> omega
  · split <;> omega
  · split <;> omega
  · split <;> omega

/-- The corners after a fold over boxes: at most (at least) the starting value and
every box's side, and equal to the starting value or to the side of a box. -/
theorem foldl_extendMinMax_spec (l : List Rect) (c : Corners) :
    ((l.foldl Corners.extendMinMax c).llx ≤ c.llx ∧
      (∀ t ∈ l, (l.foldl Corners.extendMinMax c).llx ≤ t.xMin) ∧
      ((l.foldl Corners.extendMinMax c).llx = c.llx ∨
        ∃ t ∈ l, (l.foldl Corners.extendMinMax c).llx = t.xMin)) ∧
    ((l.foldl Corners.extendMinMax c).lly ≤ c.lly ∧
      (∀ t ∈ l, (l.foldl Corners.extendMinMax c).lly ≤ t.yMin) ∧
      ((l.foldl Corners.extendMinMax c).lly = c.lly ∨
        ∃ t ∈ l, (l.foldl Corners.extendMinMax c).lly = t.yMin)) ∧
    (c.urx ≤ (l.foldl Corners.extendMinMax c).urx ∧
      (∀ t ∈ l, t.xMax ≤ (l.foldl Corners.extendMinMax c).urx) ∧
      ((l.foldl Corners.extendMinMax c).urx = c.urx ∨
        ∃ t ∈ l, (l.foldl Corners.extendMinMax c).urx = t.xMax)) ∧
    (c.ury ≤ (l.foldl Corners.extendMinMax c).ury ∧
      (∀ t ∈ l, t.yMax ≤ (l.foldl Corners.extendMinMax c).ury) ∧
      ((l.foldl Corners.extendMinMax c).ury = c.ury ∨
        ∃ t ∈ l, (l.foldl Corners.extendMinMax c).ury = t.yMax)) := by
  induction l generalizing c with
  | nil => simp
  | cons a l ih =>
    simp only [List.foldl_cons, List.mem_cons, forall_eq_or_imp, exists_eq_or_imp]
    obtain ⟨⟨x1, x2, x3⟩, ⟨y1, y2, y3⟩, ⟨u1, u2, u3⟩, ⟨v1, v2, v3⟩⟩ :=
      ih (c.extendMinMax a)
    have e1 : (c.extendMinMax a).llx = min c.llx a.xMin := rfl
    have e2 : (c.extendMinMax a).lly = min c.lly a.yMin := rfl
    have e3 : (c.extendMinMax a).urx = max c.urx a.xMax := rfl
    have e4 : (c.extendMinMax a).ury = max c.ury a.yMax := rfl
    rw [e1] at x1 x3
    rw [e2] at y1 y3
    rw [e3] at u1 u3
    rw [e4] at v1 v3
    refine ⟨⟨?_, ⟨?_, x2⟩, ?_⟩, ⟨?_, ⟨?_, y2⟩, ?_⟩, ⟨?_, ⟨?_, u2⟩, ?_⟩, ⟨?_, ⟨?_, v2⟩, ?_⟩⟩
    · exact le_trans x1 (min_le_left _ _)
    · exact le_trans x1 (min_le_right _ _)
    · rcases x3 with h | h
      · rcases min_choice c.llx a.xMin with h2 | h2
        · left; rw [h, h2]
        · right; left; rw [h, h2]
      · right; right; exact h
    · exact le_trans y1 (min_le_left _ _)
    · exact le_trans y1 (min_le_right _ _)
    · rcases y3 with h | h
      · rcases min_choice c.lly a.yMin with h2 | h2
        · left; rw [h, h2]
        · right; left; rw [h, h2]
      · right; right; exact h
    · exact le_trans (le_max_left _ _) u1
    · exact le_trans (le_max_right _ _) u1
    · rcases u3 with h | h
      · rcases max_choice c.urx a.xMax with h2 | h2
        · left; rw [h, h2]
        · right; left; rw [h, h2]
      · right; right; exact h
    · exact le_trans (le_max_left _ _) v1
    · exact le_trans (le_max_right _ _) v1
    · rcases v3 with h | h
      · rcases max_choice c.ury a.yMax with h2 | h2
        · left; rw [h, h2]
        · right; left; rw [h, h2]
      · right; right; exact h

/-- A fold seeded with the corners of a box of the list yields the union bounding
box of the list, and ordered corners if that box is ordered. -/
theorem foldl_seeded_union (l : List Rect) (b : Rect) (hb : b ∈ l) :
    IsUnionBox
      ⟨(l.foldl Corners.extendMinMax (Corners.ofRect b)).llx,
       (l.foldl Corners.extendMinMax (Corners.ofRect b)).lly,
       (l.foldl Corners.extendMinMax (Corners.ofRect b)).urx,
       (l.foldl Corners.extendMinMax (Corners.ofRect b)).ury⟩ l ∧
    (b.Ordered →
      (l.foldl Corners.extendMinMax (Corners.ofRect b)).llx ≤
        (l.foldl Corners.extendMinMax (Corners.ofRect b)).urx ∧
      (l.foldl Corners.extendMinMax (Corners.ofRect b)).lly ≤
        (l.foldl Corners.extendMinMax (Corners.ofRect b)).ury) := by
  obtain ⟨⟨x1, x2, x3⟩, ⟨y1, y2, y3⟩, ⟨u1, u2, u3⟩, ⟨v1, v2, v3⟩⟩ :=
    foldl_extendMinMax_spec l (Corners.ofRect b)
  simp only [Corners.ofRect] at x1 x3 y1 y3 u1 u3 v1 v3
  refine ⟨⟨?_, ?_, ?_, ?_, ?_⟩, ?_⟩
  · intro t ht
    exact ⟨x2 t ht, y2 t ht, u2 t ht, v2 t ht⟩
  · rcases x3 with h | h
    · exact ⟨b, hb, h⟩
    · exact h
  · rcases y3 with h | h
    · exact ⟨b, hb, h⟩
    · exact h
  · rcases u3 with h | h
    · exact ⟨b, hb, h⟩
    · exact h
  · rcases v3 with h | h
    · exact ⟨b, hb, h⟩
    · exact h
  · intro ho
    exact ⟨le_trans x1 (le_trans ho.1 u1), le_trans y1 (le_trans ho.2 v1)⟩

theorem foldl_pins (pins : List frMPin) (c : Corners) :
    pins.foldl (fun c pin => pin.getFigs.foldl (fun c fig => c.extend fig) c) c =
      (pins.flatMap (fun pin => pin.getFigs)).foldl Corners.extendMinMax c := by
  have hfun : (fun (c : Corners) (fig : Rect) => c.extend fig) = Corners.extendMinMax := by
    funext c t
    exact extend_eq_extendMinMax c t
  induction pins generalizing c with
  | nil => rfl
  | cons p ps ih =>
    simp only [List.foldl_cons, List.flatMap_cons, List.foldl_append]
    rw [ih, hfun]

theorem foldl_terms (terms : List frMTerm) (c : Corners) :
    terms.foldl
      (fun c term => term.getPins.foldl
        (fun c pin => pin.getFigs.foldl (fun c fig => c.extend fig) c) c) c =
      (terms.flatMap (fun term => term.getPins.flatMap (fun pin => pin.getFigs))).foldl
        Corners.extendMinMax c := by
  induction terms generalizing c with
  | nil => rfl
  | cons t ts ih =>
    simp only [List.foldl_cons, List.flatMap_cons, List.foldl_append]
    rw [foldl_pins, ih]

/-- The corners of `getBBox` as one fold over all boxes of the master, seeded with
the first boundary's box, or with the caller's box when there is no boundary. -/
theorem bboxCorners_eq (m : frMaster) (boxIn : Rect) :
    m.bboxCorners boxIn =
      m.allBoxes.foldl Corners.extendMinMax
        (Corners.ofRect (match m.boundaries_ with
          | [] => boxIn
          | b :: _ => b.getBBox)) := by
  have hfun : (fun (c : Corners) (boundary : frBoundary) => c.extend boundary.getBBox) =
      (fun c boundary => Corners.extendMinMax c boundary.getBBox) := by
    funext c t
    exact extend_eq_extendMinMax c t.getBBox
  unfold frMaster.bboxCorners frMaster.allBoxes
  simp only [List.foldl_append, List.foldl_map]
  rw [foldl_terms, hfun]

theorem dieCorners_eq (dieBox : Rect) (in_ : List frBoundary) :
    dieCorners dieBox in_ =
      (in_.map frBoundary.getBBox).foldl Corners.extendMinMax
        (Corners.ofRect (match in_ with
          | [] => dieBox
          | b :: _ => b.getBBox)) := by
  unfold dieCorners
  rw [List.foldl_map]

/-- For a master with a boundary whose first boundary's box is ordered, `getBBox`
returns the union bounding box of all boxes of the master, whatever the caller's
box held. -/
theorem getBBox_union_of_boundary (init : Int → Int → Int → Int → Rect)
    (hinit : StoresOrdered init) (m : frMaster) (b : frBoundary) (bs : List frBoundary)
    (hm : m.boundaries_ = b :: bs) (hb : b.getBBox.Ordered) (boxIn : Rect) :
    IsUnionBox (m.getBBox init boxIn) m.allBoxes ∧
    ∀ boxIn2 : Rect, m.getBBox init boxIn2 = m.getBBox init boxIn := by
  have hmem : b.getBBox ∈ m.allBoxes := by
    unfold frMaster.allBoxes
    rw [hm]
    simp
  have hc : ∀ box : Rect, m.bboxCorners box =
      m.allBoxes.foldl Corners.extendMinMax (Corners.ofRect b.getBBox) := by
    intro box
    rw [bboxCorners_eq, hm]
  obtain ⟨hU, hO⟩ := foldl_seeded_union m.allBoxes b.getBBox hmem
  constructor
  · unfold frMaster.getBBox
    rw [hc boxIn, hinit _ _ _ _ (hO hb).1 (hO hb).2]
    exact hU
  · intro boxIn2
    unfold frMaster.getBBox
    rw [hc boxIn, hc boxIn2]

theorem initSorted_storesOrdered : StoresOrdered Rect.initSorted := by
  intro llx lly urx ury hx hy
  simp [Rect.initSorted, min_eq_left hx, min_eq_left hy, max_eq_right hx, max_eq_right hy]

/-! ## setBoundaries -/

/-- C36 (`frMaster::setBoundaries`).  `init` storing ordered corners as they are:
after `setBoundaries(in)`, `getBoundaries` returns `in`; for a non-empty `in` whose
first boundary's box is ordered (every box a boundary returns is), the die box is
the union bounding box of the boundaries' boxes, `xMin` / `yMin` the minimum and
`xMax` / `yMax` the maximum over all of them, and it is the same whatever die box,
and whatever else, the master held before; for an empty `in` the die box, if
ordered, is left unchanged. -/
theorem setBoundaries_die_box (init : Int → Int → Int → Int → Rect)
    (hinit : StoresOrdered init) (m : frMaster) (in_ : List frBoundary) :
    (m.setBoundaries init in_).getBoundaries = in_ ∧
    (∀ (b : frBoundary) (bs : List frBoundary), in_ = b :: bs → b.getBBox.Ordered →
      IsUnionBox (m.setBoundaries init in_).getDieBox (in_.map frBoundary.getBBox) ∧
      (∀ t ∈ in_, (m.setBoundaries init in_).getDieBox.xMin ≤ t.getBBox.xMin ∧
        (m.setBoundaries init in_).getDieBox.yMin ≤ t.getBBox.yMin ∧
        t.getBBox.xMax ≤ (m.setBoundaries init in_).getDieBox.xMax ∧
        t.getBBox.yMax ≤ (m.setBoundaries init in_).getDieBox.yMax)) ∧
    (in_ ≠ [] → ∀ m2 : frMaster,
      (m2.setBoundaries init in_).getDieBox = (m.setBoundaries init in_).getDieBox) ∧
    (in_ = [] → m.getDieBox.Ordered →
      (m.setBoundaries init in_).getDieBox = m.getDieBox) := by
  refine ⟨rfl, ?_, ?_, ?_⟩
  · intro b bs hin hb
    have hmem : b.getBBox ∈ in_.map frBoundary.getBBox := by
      rw [hin]
      simp
    have hc : dieCorners m.dieBox_ in_ =
        (in_.map frBoundary.getBBox).foldl Corners.extendMinMax (Corners.ofRect b.getBBox) := by
      rw [dieCorners_eq, hin]
    obtain ⟨hU, hO⟩ := foldl_seeded_union (in_.map frBoundary.getBBox) b.getBBox hmem
    have hval : (m.setBoundaries init in_).getDieBox =
        ⟨((in_.map frBoundary.getBBox).foldl Corners.extendMinMax
            (Corners.ofRect b.getBBox)).llx,
         ((in_.map frBoundary.getBBox).foldl Corners.extendMinMax
            (Corners.ofRect b.getBBox)).lly,
         ((in_.map frBoundary.getBBox).foldl Corners.extendMinMax
            (Corners.ofRect b.getBBox)).urx,
         ((in_.map frBoundary.getBBox).foldl Corners.extendMinMax
            (Corners.ofRect b.getBBox)).ury⟩ := by
      unfold frMaster.setBoundaries frMaster.getDieBox
      simp only
      rw [hc, hinit _ _ _ _ (hO hb).1 (hO hb).2]
    rw [hval]
    refine ⟨hU, ?_⟩
    intro t ht
    exact hU.1 t.getBBox (List.mem_map.mpr ⟨t, ht, rfl⟩)
  · intro hne m2
    cases in_ with
    | nil => exact absurd rfl hne
    | cons b bs =>
      unfold frMaster.setBoundaries frMaster.getDieBox
      simp only [dieCorners]
  · intro hin ho
    subst hin
    unfold frMaster.setBoundaries frMaster.getDieBox
    simp only [dieCorners, List.foldl_nil, Corners.ofRect]
    exact hinit _ _ _ _ ho.1 ho.2

/-- C36 at a master holding the die box (0, 0) - (0, 0), given the boundaries
(0, 0) - (30, 40) and (-5, 10) - (10, 50): the die box becomes (-5, 0) - (30, 50);
given no boundary, it stays (0, 0) - (0, 0). -/
theorem setBoundaries_die_box_witness :
    (pinOnlyMaster.setBoundaries Rect.initSorted
        [⟨⟨0, 0, 30, 40⟩⟩, ⟨⟨-5, 10, 10, 50⟩⟩]).getDieBox = ⟨-5, 0, 30, 50⟩ ∧
    (pinOnlyMaster.setBoundaries Rect.initSorted []).getDieBox = ⟨0, 0, 0, 0⟩ ∧
    IsUnionBox
      (pinOnlyMaster.setBoundaries Rect.initSorted
        [⟨⟨0, 0, 30, 40⟩⟩, ⟨⟨-5, 10, 10, 50⟩⟩]).getDieBox
      (([⟨⟨0, 0, 30, 40⟩⟩, ⟨⟨-5, 10, 10, 50⟩⟩] : List frBoundary).map frBoundary.getBBox) :=
  ⟨by decide, by decide,
   ((setBoundaries_die_box Rect.initSorted initSorted_storesOrdered pinOnlyMaster
      [⟨⟨0, 0, 30, 40⟩⟩, ⟨⟨-5, 10, 10, 50⟩⟩]).2.1
      ⟨⟨0, 0, 30, 40⟩⟩ [⟨⟨-5, 10, 10, 50⟩⟩] rfl (by decide)).1⟩

/-! ## getBBox -/

/-- C37 (`frMaster::getBBox`), at a master without boundaries.  `pinOnlyMaster` has
no boundary and one figure, the box (10, 10) - (20, 20), which is therefore the
union of its boxes.  Called with a box holding (0, 0) - (0, 0), `getBBox` returns
(0, 0) - (20, 20); called with a box holding (100, 100) - (200, 200) it returns
(10, 10) - (200, 200): with no boundary the corners start from what the caller's
box held.  This for every `init` that stores ordered corners as they are.  With a
boundary the result is the union of the boxes and does not depend on the caller's
box (`twoBoundaryMaster`). -/
theorem getBBox_starts_from_caller_box :
    pinOnlyMaster.boundaries_ = [] ∧
    pinOnlyMaster.allBoxes = [⟨10, 10, 20, 20⟩] ∧
    IsUnionBox ⟨10, 10, 20, 20⟩ pinOnlyMaster.allBoxes ∧
    (∀ init : Int → Int → Int → Int → Rect, StoresOrdered init →
      pinOnlyMaster.getBBox init ⟨0, 0, 0, 0⟩ = ⟨0, 0, 20, 20⟩ ∧
      pinOnlyMaster.getBBox init ⟨100, 100, 200, 200⟩ = ⟨10, 10, 200, 200⟩ ∧
      pinOnlyMaster.getBBox init ⟨0, 0, 0, 0⟩ ≠
        pinOnlyMaster.getBBox init ⟨100, 100, 200, 200⟩ ∧
      ¬ IsUnionBox (pinOnlyMaster.getBBox init ⟨0, 0, 0, 0⟩) pinOnlyMaster.allBoxes ∧
      ¬ IsUnionBox (pinOnlyMaster.getBBox init ⟨100, 100, 200, 200⟩)
        pinOnlyMaster.allBoxes) ∧
    (pinOnlyMaster.getBBox Rect.initSorted ⟨0, 0, 0, 0⟩ = ⟨0, 0, 20, 20⟩ ∧
      pinOnlyMaster.getBBox Rect.mk ⟨0, 0, 0, 0⟩ = ⟨0, 0, 20, 20⟩) ∧
    (twoBoundaryMaster.getBBox Rect.initSorted ⟨0, 0, 0, 0⟩ = ⟨-5, 0, 30, 50⟩ ∧
      twoBoundaryMaster.getBBox Rect.initSorted ⟨100, 100, 200, 200⟩ = ⟨-5, 0, 30, 50⟩) := by
  have hall : pinOnlyMaster.allBoxes = [⟨10, 10, 20, 20⟩] := by decide
  have hnot1 : ¬ IsUnionBox ⟨0, 0, 20, 20⟩ [(⟨10, 10, 20, 20⟩ : Rect)] := by
    intro h
    obtain ⟨t, ht, hx⟩ := h.2.1
    rw [List.mem_singleton] at ht
    subst ht
    exact absurd hx (by decide)
  have hnot2 : ¬ IsUnionBox ⟨10, 10, 200, 200⟩ [(⟨10, 10, 20, 20⟩ : Rect)] := by
    intro h
    obtain ⟨t, ht, hx⟩ := h.2.2.2.1
    rw [List.mem_singleton] at ht
    subst ht
    exact absurd hx (by decide)
  refine ⟨rfl, hall, ?_, ?_, ⟨by decide, by decide⟩, ⟨by decide, by decide⟩⟩
  · rw [hall]
    refine ⟨?_, ⟨_, List.mem_singleton_self _, rfl⟩, ⟨_, List.mem_singleton_self _, rfl⟩,
      ⟨_, List.mem_singleton_self _, rfl⟩, ⟨_, List.mem_singleton_self _, rfl⟩⟩
    intro t ht
    rw [List.mem_singleton] at ht
    subst ht
    decide
  · intro init hinit
    have hc1 : pinOnlyMaster.bboxCorners ⟨0, 0, 0, 0⟩ = ⟨0, 0, 20, 20⟩ := by decide
    have hc2 : pinOnlyMaster.bboxCorners ⟨100, 100, 200, 200⟩ = ⟨10, 10, 200, 200⟩ := by
      decide
    have h1 : pinOnlyMaster.getBBox init ⟨0, 0, 0, 0⟩ = ⟨0, 0, 20, 20⟩ := by
      unfold frMaster.getBBox
      rw [hc1]
      exact hinit _ _ _ _ (by decide) (by decide)
    have h2 : pinOnlyMaster.getBBox init ⟨100, 100, 200, 200⟩ = ⟨10, 10, 200, 200⟩ := by
      unfold frMaster.getBBox
      rw [hc2]
      exact hinit _ _ _ _ (by decide) (by decide)
    rw [h1, h2, hall]
    exact ⟨rfl, rfl, by decide, hnot1, hnot2⟩

/-! ## The terminal registry -/

/-- The terminal `addTerm` stores for `t` in a master with `n` terminals named
`name`: `t` with its order id and master set. -/
theorem addTerm_terms (m : frMaster) (t : frMTerm) :
    (m.addTerm t).terms_ =
      m.terms_ ++ [{ t with orderId := m.terms_.length, master := some m.name_ }] ∧
    (m.addTerm t).name2term_ =
      Function.update m.name2term_ t.getName (some m.terms_.length) ∧
    (m.addTerm t).name_ = m.name_ := ⟨rfl, rfl, rfl⟩

theorem addTerms_append (m : frMaster) (l : List frMTerm) (t : frMTerm) :
    m.addTerms (l ++ [t]) = (m.addTerms l).addTerm t := by
  simp [frMaster.addTerms, List.foldl_append]

/-- The state after a sequence of `addTerm` calls on a constructed master. -/
theorem addTerms_invariant (name : String) (dieBox : Rect) (ts : List frMTerm) :
    ((frMaster.construct name dieBox).addTerms ts).name_ = name ∧
    ((frMaster.construct name dieBox).addTerms ts).terms_.length = ts.length ∧
    (∀ (i : Nat) (t : frMTerm), ts[i]? = some t →
      ((frMaster.construct name dieBox).addTerms ts).terms_[i]? =
        some { t with orderId := i, master := some name }) ∧
    (∀ n : String, n ∉ ts.map frMTerm.getName →
      ((frMaster.construct name dieBox).addTerms ts).name2term_ n = none) ∧
    ((ts.map frMTerm.getName).Nodup → ∀ (i : Nat) (t : frMTerm), ts[i]? = some t →
      ((frMaster.construct name dieBox).addTerms ts).name2term_ t.getName = some i) := by
  induction ts using List.reverseRecOn with
  | nil =>
    refine ⟨rfl, rfl, ?_, ?_, ?_⟩
    · intro i t h
      simp at h
    · intro n _
      rfl
    · intro _ i t h
      simp at h
  | append_singleton l x ih =>
    obtain ⟨ihn, ihl, iht, ihnone, ihmap⟩ := ih
    rw [addTerms_append]
    obtain ⟨e1, e2, e3⟩ := addTerm_terms ((frMaster.construct name dieBox).addTerms l) x
    rw [e1, e2, e3, ihn, ihl]
    refine ⟨rfl, by simp [ihl], ?_, ?_, ?_⟩
    · intro i t h
      by_cases hi : i < l.length
      · rw [List.getElem?_append_left hi] at h
        rw [List.getElem?_append_left (by rw [ihl]; exact hi)]
        exact iht i t h
      · have hge : l.length ≤ i := by omega
        rw [List.getElem?_append_right hge] at h
        rw [List.getElem?_append_right (by rw [ihl]; exact hge), ihl]
        cases hk : i - l.length with
        | zero =>
          rw [hk] at h
          simp only [List.getElem?_cons_zero, Option.some.injEq] at h
          subst h
          have : i = l.length := by omega
          subst this
          simp
        | succ k =>
          rw [hk] at h
          simp at h
    · intro n hn
      simp only [List.map_append, List.map_cons, List.map_nil, List.mem_append,
        List.mem_singleton, not_or] at hn
      rw [Function.update_noteq hn.2]
      exact ihnone n hn.1
    · intro hnd i t h
      rw [List.map_append, List.nodup_append] at hnd
      obtain ⟨hnd1, -, hdisj⟩ := hnd
      by_cases hi : i < l.length
      · rw [List.getElem?_append_left hi] at h
        have hmem : t.getName ∈ l.map frMTerm.getName :=
          List.mem_map.mpr ⟨t, List.getElem?_mem h, rfl⟩
        have hne : t.getName ≠ x.getName := by
          intro heq
          exact hdisj hmem (by simp [heq])
        rw [Function.update_noteq hne]
        exact ihmap hnd1 i t h
      · have hge : l.length ≤ i := by omega
        rw [List.getElem?_append_right hge] at h
        cases hk : i - l.length with
        | zero =>
          rw [hk] at h
          simp only [List.getElem?_cons_zero, Option.some.injEq] at h
          subst h
          have : i = l.length := by omega
          subst this
          simp
        | succ k =>
          rw [hk] at h
          simp at h

/-- C38 (terminal registry).  After `addTerm(t)` on any master: `getTerm` of `t`'s
name returns the pointer to `t` as stored, whose order id is the number of
terminals the master held before and whose name and pins are those of `t`;
`getTerms` is the old sequence with `t` appended; `getTerm` of any other name is
unchanged.  On a constructed master, after any sequence of `addTerm` calls:
`getTerm` of a name never added returns null, the `i`-th terminal of `getTerms` is
the `i`-th one added and has order id `i`, and, the names being distinct, `getTerm`
of its name returns the pointer to it. -/
theorem terminal_registry (m : frMaster) (t : frMTerm) (name : String) (dieBox : Rect)
    (ts : List frMTerm) :
    ((m.addTerm t).getTerm t.getName = some m.getTerms.length ∧
      (m.addTerm t).deref m.getTerms.length =
        some { t with orderId := m.getTerms.length, master := some m.name_ } ∧
      (m.addTerm t).getTerms =
        m.getTerms ++ [{ t with orderId := m.getTerms.length, master := some m.name_ }] ∧
      (m.addTerm t).getTerms.length = m.getTerms.length + 1 ∧
      (∀ n : String, n ≠ t.getName → (m.addTerm t).getTerm n = m.getTerm n)) ∧
    (((frMaster.construct name dieBox).addTerms ts).getTerms.length = ts.length ∧
      (∀ n : String, n ∉ ts.map frMTerm.getName →
        ((frMaster.construct name dieBox).addTerms ts).getTerm n = none) ∧
      (∀ (i : Nat) (u : frMTerm), ts[i]? = some u →
        ((frMaster.construct name dieBox).addTerms ts).getTerms[i]? =
          some { u with orderId := i, master := some name }) ∧
      ((ts.map frMTerm.getName).Nodup → ∀ (i : Nat) (u : frMTerm), ts[i]? = some u →
        ((frMaster.construct name dieBox).addTerms ts).getTerm u.getName = some i ∧
        ((frMaster.construct name dieBox).addTerms ts).deref i =
          some { u with orderId := i, master := some name })) := by
  obtain ⟨-, hl, ht, hnone, hmap⟩ := addTerms_invariant name dieBox ts
  refine ⟨⟨?_, ?_, rfl, ?_, ?_⟩, hl, hnone, ht, ?_⟩
  · simp [frMaster.getTerm, frMaster.addTerm, frMaster.getTerms]
  · simp [frMaster.deref, frMaster.addTerm, frMaster.getTerms]
  · simp [frMaster.addTerm, frMaster.getTerms]
  · intro n hn
    simp [frMaster.getTerm, frMaster.addTerm, Function.update_noteq hn]
  · intro hnd i u hu
    exact ⟨hmap hnd i u hu, ht i u hu⟩

/-- The registry after adding terminals `A`, `B`, `C` to a fresh master: order ids
0, 1, 2, `getTerm "B"` points to position 1, `getTerm "D"` is null. -/
theorem terminal_registry_example :
    (((frMaster.construct "M" ⟨0, 0, 0, 0⟩).addTerms
        [⟨"A", 7, none, []⟩, ⟨"B", 7, none, []⟩, ⟨"C", 7, none, []⟩]).getTerms.map
      (fun u => (u.getName, u.orderId))) = [("A", 0), ("B", 1), ("C", 2)] ∧
    ((frMaster.construct "M" ⟨0, 0, 0, 0⟩).addTerms
        [⟨"A", 7, none, []⟩, ⟨"B", 7, none, []⟩, ⟨"C", 7, none, []⟩]).getTerm "B" = some 1 ∧
    ((frMaster.construct "M" ⟨0, 0, 0, 0⟩).addTerms
        [⟨"A", 7, none, []⟩, ⟨"B", 7, none, []⟩, ⟨"C", 7, none, []⟩]).getTerm "D" = none := by
  refine ⟨by decide, by decide, by decide⟩

end fr

namespace opendp

/-! ## Grid width -/

/-- `divCeil(a, b)` for a positive `b` is the least integer `g` with `g * b ≥ a`. -/
theorem divCeil_least (a b : Int) (hb : 0 < b) :
    a ≤ divCeil a b * b ∧ ∀ g : Int, a ≤ g * b → divCeil a b ≤ g := by
  have hbq : (0 : ℚ) < (b : ℚ) := by exact_mod_cast hb
  constructor
  · have h := Int.le_ceil ((a : ℚ) / (b : ℚ))
    rw [div_le_iff₀ hbq] at h
    unfold divCeil
    exact_mod_cast h
  · intro g hg
    unfold divCeil
    rw [Int.ceil_le, div_le_iff₀ hbq]
    exact_mod_cast hg

/-- `divFloor(a, b)` for `a ≥ 0` and `b > 0` is the greatest integer `q` with
`q * b ≤ a`. -/
theorem divFloor_greatest (a b : Int) (ha : 0 ≤ a) (hb : 0 < b) :
    divFloor a b * b ≤ a ∧ a < (divFloor a b + 1) * b := by
  unfold divFloor
  rw [Int.tdiv_eq_ediv ha hb.le]
  exact ⟨Int.ediv_mul_le a (ne_of_gt hb), Int.lt_ediv_add_one_mul_self a hb⟩

/-- The rounding of the `double` quotient does not change the result of `divCeil`
for a dividend in the range of a 32-bit `int`: any value `fl` within relative error
`2 ^ (-53)` of `a / b` that is `a / b` itself when `a / b` is an integer has the
ceiling of `a / b`. -/
theorem divCeil_of_rounded_quotient (a b : Int) (fl : ℚ) (ha : |a| ≤ 2 ^ 31) (hb1 : 0 < b)
    (hnear : |fl - (a : ℚ) / (b : ℚ)| ≤ |(a : ℚ) / (b : ℚ)| / 2 ^ 53)
    (hexact : ∀ n : Int, (a : ℚ) / (b : ℚ) = (n : ℚ) → fl = (n : ℚ)) :
    ⌈fl⌉ = divCeil a b := by
  have hbq : (0 : ℚ) < (b : ℚ) := by exact_mod_cast hb1
  obtain ⟨h1, h2⟩ := divCeil_least a b hb1
  by_cases hint : a = divCeil a b * b
  · -- the quotient is an integer
    have hx : (a : ℚ) / (b : ℚ) = ((divCeil a b : Int) : ℚ) := by
      rw [div_eq_iff (ne_of_gt hbq)]
      exact_mod_cast hint
    rw [hexact _ hx, Int.ceil_intCast]
  · -- the quotient is at least 1 / b away from the integers next to it
    have hlt : a < divCeil a b * b := lt_of_le_of_ne h1 hint
    have hgt : (divCeil a b - 1) * b < a := by
      by_contra hcon
      have := h2 (divCeil a b - 1) (not_lt.mp hcon)
      omega
    have hup : (a : ℚ) / (b : ℚ) + 1 / (b : ℚ) ≤ ((divCeil a b : Int) : ℚ) := by
      rw [← add_div, div_le_iff₀ hbq]
      have : a + 1 ≤ divCeil a b * b := by omega
      exact_mod_cast this
    have hdn : ((divCeil a b : Int) : ℚ) - 1 + 1 / (b : ℚ) ≤ (a : ℚ) / (b : ℚ) := by
      rw [le_div_iff₀ hbq, add_mul, one_div, inv_mul_cancel₀ (ne_of_gt hbq)]
      have : (divCeil a b - 1) * b + 1 ≤ a := by omega
      exact_mod_cast this
    have herr : |(a : ℚ) / (b : ℚ)| / 2 ^ 53 < 1 / (b : ℚ) := by
      rw [abs_div, abs_of_pos hbq, div_div, div_lt_div_iff₀ (by positivity) hbq]
      have haq : |(a : ℚ)| ≤ 2 ^ 31 := by exact_mod_cast ha
      have : |(a : ℚ)| * (b : ℚ) ≤ 2 ^ 31 * (b : ℚ) :=
        mul_le_mul_of_nonneg_right haq hbq.le
      nlinarith
    have habs2 := abs_lt.mp (lt_of_le_of_lt hnear herr)
    rw [Int.ceil_eq_iff]
    constructor
    · linarith [habs2.1]
    · linarith [habs2.2]

theorem wrapInt_of_fits (x : Int) (h : fitsInt x) : wrapInt x = x := by
  unfold fitsInt at h
  unfold wrapInt
  omega

theorem wrapInt_fits (x : Int) : fitsInt (wrapInt x) := by
  unfold fitsInt wrapInt
  omega

/-- Without overflow `paddedWidth` is the mathematical padded width. -/
theorem paddedWidth_of_fits (o : Opendp) (cell : Cell) (hw : 0 ≤ cell.width_)
    (hl : 0 ≤ o.pad_left_) (hr : 0 ≤ o.pad_right_) (hs : 0 < o.site_width_)
    (hfit : cell.width_ + (o.pad_left_ + o.pad_right_) * o.site_width_ < 2 ^ 31) :
    o.paddedWidth cell = cell.width_ + (o.pad_left_ + o.pad_right_) * o.site_width_ := by
  have hp : 0 ≤ o.pad_left_ + o.pad_right_ := by omega
  have hm : o.pad_left_ + o.pad_right_ ≤ (o.pad_left_ + o.pad_right_) * o.site_width_ :=
    le_mul_of_one_le_right hp hs
  have hm0 : 0 ≤ (o.pad_left_ + o.pad_right_) * o.site_width_ := mul_nonneg hp hs.le
  unfold Opendp.paddedWidth
  rw [wrapInt_of_fits (o.pad_left_ + o.pad_right_) (by unfold fitsInt; omega),
    wrapInt_of_fits ((o.pad_left_ + o.pad_right_) * o.site_width_)
      (by unfold fitsInt; omega),
    wrapInt_of_fits _ (by unfold fitsInt; omega)]

/-- C39 as stated fails when the padded width overflows `int`.  For a cell of width
2000000000 with paddings 1 and 1 on sites of width 100000000 (every value a
non-negative `int`, the site width positive) the padded width of the claim is
`2000000000 + (1 + 1) * 100000000 = 2200000000`, beyond the largest `int`
2147483647: `paddedWidth` returns `-2094967296` and `gridWidth` returns `-20`, so
that `gridWidth * s = -2000000000` does not reach the padded width, of which the
least cover is 22 sites. -/
theorem paddedWidth_wraps_beyond_int :
    (0 ≤ wideCell.width_ ∧ 0 ≤ wideSites.pad_left_ ∧ 0 ≤ wideSites.pad_right_ ∧
      0 < wideSites.site_width_) ∧
    (fitsInt wideCell.width_ ∧ fitsInt wideSites.pad_left_ ∧ fitsInt wideSites.pad_right_ ∧
      fitsInt wideSites.site_width_) ∧
    wideCell.width_ + (wideSites.pad_left_ + wideSites.pad_right_) * wideSites.site_width_
      = 2200000000 ∧
    wideSites.paddedWidth wideCell = -2094967296 ∧
    wideSites.paddedWidth wideCell ≠
      wideCell.width_ + (wideSites.pad_left_ + wideSites.pad_right_) * wideSites.site_width_ ∧
    wideSites.gridWidth wideCell = -20 ∧
    ¬ (wideCell.width_ + (wideSites.pad_left_ + wideSites.pad_right_) * wideSites.site_width_
        ≤ wideSites.gridWidth wideCell * wideSites.site_width_) ∧
    divCeil (wideCell.width_
      + (wideSites.pad_left_ + wideSites.pad_right_) * wideSites.site_width_)
      wideSites.site_width_ = 22 := by
  have hp : wideSites.paddedWidth wideCell = -2094967296 := by decide
  have hg : wideSites.gridWidth wideCell = -20 := by
    unfold Opendp.gridWidth
    rw [hp]
    decide!
  refine ⟨by decide, by decide, by decide, hp, ?_, hg, ?_, by decide!⟩
  · rw [hp]; decide
  · rw [hg]; decide

/-- C39 as amended (grid width covers the padded cell).  For a cell of non-negative
width, non-negative paddings and a positive site width `s` such that
`width + (pad_left + pad_right) * s` fits in an `int` (is below `2 ^ 31`):
`gridWidth(cell)` is `divCeil(paddedWidth(cell), s)` with
`paddedWidth(cell) = width + (pad_left + pad_right) * s`, and it is the least
integer `g` with `g * s ≥ paddedWidth(cell)`.  For `a ≥ 0` and `b > 0`:
`divFloor(a, b) ≤ a / b ≤ divCeil(a, b)` and `divCeil(a, b) - divFloor(a, b) ≤ 1`. -/
theorem gridWidth_covers_padded_cell (o : Opendp) (cell : Cell) (hw : 0 ≤ cell.width_)
    (hl : 0 ≤ o.pad_left_) (hr : 0 ≤ o.pad_right_) (hs : 0 < o.site_width_)
    (hfit : cell.width_ + (o.pad_left_ + o.pad_right_) * o.site_width_ < 2 ^ 31) :
    o.gridWidth cell = divCeil (o.paddedWidth cell) o.site_width_ ∧
    o.paddedWidth cell = cell.width_ + (o.pad_left_ + o.pad_right_) * o.site_width_ ∧
    0 ≤ o.paddedWidth cell ∧
    o.paddedWidth cell ≤ o.gridWidth cell * o.site_width_ ∧
    (∀ g : Int, o.paddedWidth cell ≤ g * o.site_width_ → o.gridWidth cell ≤ g) ∧
    fitsInt (o.gridWidth cell) ∧
    (∀ a b : Int, 0 ≤ a → 0 < b →
      ((divFloor a b : Int) : ℚ) ≤ (a : ℚ) / (b : ℚ) ∧
      (a : ℚ) / (b : ℚ) ≤ ((divCeil a b : Int) : ℚ) ∧
      divCeil a b - divFloor a b ≤ 1) := by
  have hpw := paddedWidth_of_fits o cell hw hl hr hs hfit
  have hnn : 0 ≤ o.paddedWidth cell := by
    rw [hpw]
    have : 0 ≤ (o.pad_left_ + o.pad_right_) * o.site_width_ :=
      mul_nonneg (by omega) hs.le
    omega
  refine ⟨rfl, hpw, hnn, (divCeil_least _ _ hs).1, (divCeil_least _ _ hs).2, ?_, ?_⟩
  · have hle : o.gridWidth cell ≤ o.paddedWidth cell := by
      apply (divCeil_least _ _ hs).2
      exact le_mul_of_one_le_right hnn hs
    have hge : 0 ≤ o.gridWidth cell := by
      unfold Opendp.gridWidth divCeil
      apply Int.ceil_nonneg
      apply div_nonneg
      · exact_mod_cast hnn
      · exact_mod_cast hs.le
    unfold fitsInt
    rw [hpw] at hle
    omega
  · intro a b ha hb
    have hbq : (0 : ℚ) < (b : ℚ) := by exact_mod_cast hb
    obtain ⟨f1, f2⟩ := divFloor_greatest a b ha hb
    obtain ⟨c1, c2⟩ := divCeil_least a b hb
    refine ⟨?_, ?_, ?_⟩
    · rw [le_div_iff₀ hbq]
      exact_mod_cast f1
    · rw [div_le_iff₀ hbq]
      exact_mod_cast c1
    · have := c2 (divFloor a b + 1) f2.le
      omega

/-- C39 at a cell of width 950 with paddings 1 and 2 on sites of width 200: the
padded width is 1550 and the grid width 8 (7 sites give 1400, 8 give 1600). -/
theorem gridWidth_covers_padded_cell_witness :
    (⟨1, 2, 200⟩ : Opendp).paddedWidth ⟨950⟩ = 1550 ∧
    (⟨1, 2, 200⟩ : Opendp).gridWidth ⟨950⟩ = 8 ∧
    divFloor 1550 200 = 7 ∧
    (⟨1, 2, 200⟩ : Opendp).paddedWidth ⟨950⟩ ≤ (⟨1, 2, 200⟩ : Opendp).gridWidth ⟨950⟩ * 200 ∧
    (∀ g : Int, (⟨1, 2, 200⟩ : Opendp).paddedWidth ⟨950⟩ ≤ g * 200 →
      (⟨1, 2, 200⟩ : Opendp).gridWidth ⟨950⟩ ≤ g) :=
  ⟨by decide, by decide!, by decide,
   (gridWidth_covers_padded_cell ⟨1, 2, 200⟩ ⟨950⟩ (by decide) (by decide) (by decide)
      (by decide) (by decide)).2.2.2.1,
   (gridWidth_covers_padded_cell ⟨1, 2, 200⟩ ⟨950⟩ (by decide) (by decide) (by decide)
      (by decide) (by decide)).2.2.2.2.1⟩

end opendp
